import Mathlib

/-!
Grappa runtime core: buddy allocator, collective reduction and flat combining

A shallow embedding of `system/Allocator.hpp`, `system/Collective.hpp` and
`system/FlatCombiner.hpp`.

Representation choices (all read off the C++ source):

* `int64_t` / `intptr_t` values are `Int`; every arithmetic result is reduced
  with `wrap64`.  `size_t` values are `Nat`; conversions from a signed value
  use `toSizeT`.
* `ChunkMap` (`std::map<AllocatorAddress, AllocatorChunk>`) is the list of its
  chunks in key order.  A chunk is inserted under the key `ac.address` and the
  `address` field is never assigned afterwards, so the key is read off the chunk.
  A `ChunkMap::iterator` is the key of the node it points to.
* `FreeList` (`std::list<ChunkMap::iterator>`) is the list of those keys, and
  `FreeListMap` (`std::map<size_t, FreeList>`) the list of its entries in key
  order.  `free_list_slot` is the position of the chunk in its list; erasing
  through it removes the chunk's key from the list.
* `throw`, a failed `assert`/`CHECK`, and undefined behaviour (dereferencing a
  dangling iterator, `front()` of an empty list, `erase` through a stale slot)
  are the three ways an operation can fail to return; see `Fault`.
-/

/-- Reduction of an integer to the range of `int64_t` (two's complement). -/
def wrap64 (x : Int) : Int :=
  (x + 9223372036854775808) % 18446744073709551616 - 9223372036854775808

/-- Conversion of a signed 64-bit value to `size_t`. -/
def toSizeT (x : Int) : Nat := (x % 18446744073709551616).toNat

/-- Ways in which an allocator operation does not return normally. -/
inductive Fault where
  /-- `throw Allocator::Exception()` -/
  | exception
  /-- a failed `assert` or `CHECK` -/
  | assertion
  /-- undefined behaviour in the C++ source -/
  | undefined
  /-- the iteration bound of the embedding was exhausted -/
  | fuel
  deriving DecidableEq, Repr

deriving instance DecidableEq for Except

/-- The record `struct AllocatorChunk` (without `free_list_slot`, see above). -/
structure AllocatorChunk where
  in_use : Bool
  address : Int
  size : Nat
  deriving DecidableEq, Repr

/-- The constructor `AllocatorChunk( address, size )`. -/
def AllocatorChunk.new (address : Int) (size : Nat) : AllocatorChunk :=
  { in_use := false, address := address, size := size }

abbrev ChunkMap := List AllocatorChunk
abbrev FreeList := List Int
abbrev FreeListMap := List (Nat × FreeList)

/-- `chunks_.find( a )`; `none` is `chunks_.end()`. -/
def ChunkMap.find (m : ChunkMap) (a : Int) : Option AllocatorChunk :=
  match m with
  | [] => none
  | c :: cs => if c.address = a then some c else ChunkMap.find cs a

/-- `chunks_.insert( make_pair( ac.address, ac ) )`: the new map and the flag
`inserted`; an existing key is left alone. -/
def ChunkMap.insert (m : ChunkMap) (ac : AllocatorChunk) : ChunkMap × Bool :=
  match m with
  | [] => ([ac], true)
  | c :: cs =>
    if ac.address < c.address then (ac :: c :: cs, true)
    else if ac.address = c.address then (c :: cs, false)
    else ((c :: (ChunkMap.insert cs ac).1), (ChunkMap.insert cs ac).2)

/-- `chunks_.erase( it )` for the iterator with key `a`. -/
def ChunkMap.erase (m : ChunkMap) (a : Int) : ChunkMap :=
  match m with
  | [] => []
  | c :: cs => if c.address = a then cs else c :: ChunkMap.erase cs a

/-- Assignment through the iterator with key `a`: `it->second := f (it->second)`. -/
def ChunkMap.update (m : ChunkMap) (a : Int) (f : AllocatorChunk → AllocatorChunk) : ChunkMap :=
  match m with
  | [] => []
  | c :: cs => if c.address = a then f c :: cs else c :: ChunkMap.update cs a f

/-- The list stored under key `k`, empty when the key is absent. -/
def FreeListMap.get (fl : FreeListMap) (k : Nat) : FreeList :=
  match fl with
  | [] => []
  | e :: es => if e.1 = k then e.2 else FreeListMap.get es k

/-- Store `l` under key `k`, creating the entry in key order when absent
(`free_lists_[k] = l`). -/
def FreeListMap.put (fl : FreeListMap) (k : Nat) (l : FreeList) : FreeListMap :=
  match fl with
  | [] => [(k, l)]
  | e :: es =>
    if k < e.1 then (k, l) :: e :: es
    else if k = e.1 then (k, l) :: es
    else e :: FreeListMap.put es k l

/-- `free_lists_.erase( k )`. -/
def FreeListMap.erase (fl : FreeListMap) (k : Nat) : FreeListMap :=
  match fl with
  | [] => []
  | e :: es => if e.1 = k then es else e :: FreeListMap.erase es k

/-- `free_lists_.lower_bound( k )`: the first entry whose key is not less than
`k`; `none` is `free_lists_.end()`. -/
def FreeListMap.lower_bound (fl : FreeListMap) (k : Nat) : Option (Nat × FreeList) :=
  match fl with
  | [] => none
  | e :: es => if k ≤ e.1 then some e else FreeListMap.lower_bound es k

/-- The two statements `free_lists_[ k ].erase( slot ); if( free_lists_[ k ].size()
== 0 ) free_lists_.erase( k );` of `remove_from_free_list`, for the slot of the
chunk with key `it`. -/
def FreeListMap.erase_slot (fl : FreeListMap) (k : Nat) (it : Int) : FreeListMap :=
  let fl1 := fl.put k ((fl.get k).erase it)
  if (fl1.get k).length = 0 then fl1.erase k else fl1

/-- `free_lists_[ k ].push_front( it )`. -/
def FreeListMap.push_front (fl : FreeListMap) (k : Nat) (it : Int) : FreeListMap :=
  fl.put k (it :: fl.get k)

/-- The class `Allocator`: its four data members. -/
structure Allocator where
  base_ : Int
  size_ : Nat
  chunks_ : ChunkMap
  free_lists_ : FreeListMap
  deriving DecidableEq, Repr

/-- `Allocator::next_largest_power_of_2` on `int64_t`; `>>` on a signed value is
the arithmetic shift. -/
def Allocator.next_largest_power_of_2 (v : Int) : Int :=
  let v := wrap64 (v - 1)
  let v := Int.lor v (Int.shiftRight v 1)
  let v := Int.lor v (Int.shiftRight v 2)
  let v := Int.lor v (Int.shiftRight v 4)
  let v := Int.lor v (Int.shiftRight v 8)
  let v := Int.lor v (Int.shiftRight v 16)
  let v := Int.lor v (Int.shiftRight v 32)
  wrap64 (v + 1)

/-- `Allocator::remove_from_free_list`. -/
def Allocator.remove_from_free_list (st : Allocator) (it : Int) : Except Fault Allocator :=
  match st.chunks_.find it with
  | none => .error .undefined
  | some c =>
    if it ∈ st.free_lists_.get c.size then
      .ok { st with
              free_lists_ := st.free_lists_.erase_slot c.size it,
              chunks_ := st.chunks_.update it (fun c => { c with in_use := true }) }
    else .error .undefined

/-- `Allocator::add_to_free_list`. -/
def Allocator.add_to_free_list (st : Allocator) (it : Int) : Except Fault Allocator :=
  match st.chunks_.find it with
  | none => .error .undefined
  | some c =>
    .ok { st with
            free_lists_ := st.free_lists_.push_front c.size it,
            chunks_ := st.chunks_.update it (fun c => { c with in_use := false }) }

/-- `Allocator::add_to_chunk_map`: the new state and the returned iterator. -/
def Allocator.add_to_chunk_map (st : Allocator) (ac : AllocatorChunk) :
    Except Fault (Allocator × Int) :=
  if (st.chunks_.insert ac).2 then
    .ok ({ st with chunks_ := (st.chunks_.insert ac).1 }, ac.address)
  else .error .assertion

/-- The body of the `if` in `try_merge_buddy_recursive` up to the recursive
call, for the chunk at `address` and its buddy at `buddy_address`: the new state
and `lower_iterator`. -/
def Allocator.merge_with_buddy (st : Allocator) (address buddy_address : Int) :
    Except Fault (Allocator × Int) :=
  let higher_iterator := if address < buddy_address then buddy_address else address
  match st.remove_from_free_list higher_iterator with
  | .error e => .error e
  | .ok st1 =>
    let st2 := { st1 with chunks_ := st1.chunks_.erase higher_iterator }
    let lower_iterator := if address < buddy_address then address else buddy_address
    match st2.remove_from_free_list lower_iterator with
    | .error e => .error e
    | .ok st3 =>
      let st4 := { st3 with
                    chunks_ := st3.chunks_.update lower_iterator
                      (fun c => { c with size := (c.size * 2) % 18446744073709551616 }) }
      match st4.add_to_free_list lower_iterator with
      | .error e => .error e
      | .ok st5 => .ok (st5, lower_iterator)

/-- `Allocator::try_merge_buddy_recursive`.  The first argument bounds the
recursion depth; every recursive call follows the erasure of one chunk. -/
def Allocator.try_merge_buddy_recursive : Nat → Allocator → Int → Except Fault Allocator
  | 0, _, _ => .error .fuel
  | fuel + 1, st, cmit =>
    match st.chunks_.find cmit with
    | none => .error .undefined
    | some c =>
      let address := c.address
      let buddy_address := wrap64 (Int.xor address c.size)
      match st.chunks_.find buddy_address with
      | none => .ok st
      | some b =>
        if b.size = c.size ∧ b.in_use = false then
          match st.merge_with_buddy address buddy_address with
          | .error e => .error e
          | .ok (st5, lower_iterator) =>
            Allocator.try_merge_buddy_recursive fuel st5 lower_iterator
        else .ok st

/-- The body of the `while( size > 0 )` loop of the constructor: the new state,
`size` and `offset`. -/
def Allocator.ctor_loop_body (st : Allocator) (size offset : Int) :
    Except Fault (Allocator × Int × Int) :=
  let this_chunk_offset := offset
  let this_chunk_size : Nat :=
    if Int.land size (wrap64 (size - 1)) ≠ 0
    then toSizeT (Allocator.next_largest_power_of_2 (Int.tdiv size 2))
    else toSizeT size
  match st.add_to_chunk_map (AllocatorChunk.new this_chunk_offset this_chunk_size) with
  | .error e => .error e
  | .ok (st1, it) =>
    match st1.add_to_free_list it with
    | .error e => .error e
    | .ok st2 =>
      .ok (st2, wrap64 (size - this_chunk_size), wrap64 (offset + this_chunk_size))

/-- The `while( size > 0 )` loop of the constructor.  The first argument bounds
the number of iterations. -/
def Allocator.ctor_loop : Nat → Allocator → Int → Int → Except Fault Allocator
  | 0, _, _, _ => .error .fuel
  | fuel + 1, st, size, offset =>
    if size > 0 then
      match st.ctor_loop_body size offset with
      | .error e => .error e
      | .ok (st2, size2, offset2) => Allocator.ctor_loop fuel st2 size2 offset2
    else .ok st

/-- The constructor `Allocator( base, size )`, `size` an `int64_t`. -/
def Allocator.ctor (base : Int) (size : Int) : Except Fault Allocator :=
  if size = 0 then .error .assertion
  else
    Allocator.ctor_loop (size.toNat + 1)
      { base_ := base, size_ := toSizeT size, chunks_ := [], free_lists_ := [] } size 0

/-- `Allocator::free`; the argument is the pointer as an integer. -/
def Allocator.free (st : Allocator) (void_address : Int) : Except Fault Allocator :=
  let address := wrap64 (void_address - st.base_)
  match st.chunks_.find address with
  | none => .error .assertion
  | some c =>
    if c.in_use = true then
      match st.add_to_free_list address with
      | .error e => .error e
      | .ok st1 => Allocator.try_merge_buddy_recursive st1.chunks_.length st1 address
    else .error .assertion

/-- The body of the `while( chunk_size > allocation_size )` loop of `malloc`:
the new state, `cmit` and `chunk_size`. -/
def Allocator.malloc_loop_body (st : Allocator) (cmit : Int) (chunk_size : Int) :
    Except Fault (Allocator × Int × Int) :=
  match st.remove_from_free_list cmit with
  | .error e => .error e
  | .ok st1 =>
    let chunk_size := Int.tdiv chunk_size 2
    let st2 := { st1 with
                  chunks_ := st1.chunks_.update cmit
                    (fun c => { c with size := toSizeT chunk_size }) }
    match st2.add_to_free_list cmit with
    | .error e => .error e
    | .ok st3 =>
      match st3.chunks_.find cmit with
      | none => .error .undefined
      | some c =>
        let new_chunk_address := wrap64 (c.address + c.size)
        match st3.add_to_chunk_map
            (AllocatorChunk.new new_chunk_address (toSizeT chunk_size)) with
        | .error e => .error e
        | .ok (st4, cmit1) =>
          match st4.add_to_free_list cmit1 with
          | .error e => .error e
          | .ok st5 => .ok (st5, cmit1, chunk_size)

/-- The `while( chunk_size > allocation_size )` loop of `malloc`: the new state
and the final `cmit`.  The first argument bounds the number of iterations. -/
def Allocator.malloc_loop :
    Nat → Int → Allocator → Int → Int → Except Fault (Allocator × Int)
  | 0, _, _, _, _ => .error .fuel
  | fuel + 1, allocation_size, st, cmit, chunk_size =>
    if chunk_size > allocation_size then
      match st.malloc_loop_body cmit chunk_size with
      | .error e => .error e
      | .ok (st5, cmit1, chunk_size1) =>
        Allocator.malloc_loop fuel allocation_size st5 cmit1 chunk_size1
    else .ok (st, cmit)

/-- The statements of `malloc` after the loop: mark the chunk in use, take it
off its free list and return its address. -/
def Allocator.malloc_finish (st1 : Allocator) (cmit : Int) : Except Fault (Allocator × Int) :=
  if st1.chunks_.find cmit = none then .error .undefined
  else
    let st2 := { st1 with
                  chunks_ := st1.chunks_.update cmit (fun c => { c with in_use := true }) }
    match st2.remove_from_free_list cmit with
    | .error e => .error e
    | .ok st3 =>
      match st3.chunks_.find cmit with
      | none => .error .undefined
      | some c => .ok (st3, wrap64 (c.address + st3.base_))

/-- The part of `malloc` from the `while` loop on, for the donor chunk `cmit0`
of size `chunk_size`. -/
def Allocator.malloc_from (st : Allocator) (allocation_size : Int) (cmit0 : Int)
    (chunk_size : Int) : Except Fault (Allocator × Int) :=
  match Allocator.malloc_loop 65 allocation_size st cmit0 chunk_size with
  | .error e => .error e
  | .ok (st1, cmit) => st1.malloc_finish cmit

/-- `Allocator::malloc`, `size` a `size_t`: the new state and the returned
pointer as an integer. -/
def Allocator.malloc (st : Allocator) (size : Nat) : Except Fault (Allocator × Int) :=
  let allocation_size := Allocator.next_largest_power_of_2 (wrap64 size)
  match st.free_lists_.lower_bound (toSizeT allocation_size) with
  | none => .error .exception
  | some flit =>
    let chunk_size := wrap64 flit.1
    match flit.2.head? with
    | none => .error .undefined
    | some cmit0 => st.malloc_from allocation_size cmit0 chunk_size

/-- `Allocator::num_chunks`. -/
def Allocator.num_chunks (st : Allocator) : Int := wrap64 st.chunks_.length

/-- `Allocator::total_bytes`. -/
def Allocator.total_bytes (st : Allocator) : Int :=
  st.chunks_.foldl (fun total c => wrap64 (total + c.size)) 0

/-- `Allocator::total_bytes_in_use`. -/
def Allocator.total_bytes_in_use (st : Allocator) : Int :=
  st.chunks_.foldl (fun total c => if c.in_use then wrap64 (total + c.size) else total) 0

/-- `Allocator::total_bytes_free`. -/
def Allocator.total_bytes_free (st : Allocator) : Int :=
  st.chunks_.foldl (fun total c => if !c.in_use then wrap64 (total + c.size) else total) 0

/-! ## Collective reduction (`system/Collective.hpp`)

The statics `reduction_reported_in`, `Reductions<T>::reduction_result` and
`Reductions<T>::final_reduction_result` exist once per node; `suspended` records
that the node's `reducing_thread` sits in `Grappa_suspend()`.  `Node` values and
`Grappa_nodes()` are natural numbers.  An active message sent with
`Grappa_call_on( n, &am_reduce_wake, &data )` is the pair `(n, data)`. -/

/-- The per-node statics used by the reduction of values of type `T`. -/
structure ReductionNode (T : Type) where
  reduction_reported_in : Nat
  reduction_result : T
  final_reduction_result : T
  suspended : Bool

/-- `coll_add<int64_t>`. -/
def coll_add (a b : Int) : Int := wrap64 (a + b)

/-- The handler `am_reduce_wake` on the receiving node. -/
def am_reduce_wake {T : Type} (node : ReductionNode T) (val : T) : ReductionNode T :=
  { node with final_reduction_result := val, suspended := false }

/-- The handler `am_reduce<T,Reducer,BaseVal>` on the home node, `nodes` being
`Grappa_nodes()`: the new statics and the wake messages sent. -/
def am_reduce {T : Type} (Reducer : T → T → T) (BaseVal : T) (nodes : Nat)
    (home : ReductionNode T) (val : T) : ReductionNode T × List (Nat × T) :=
  let home1 :=
    if home.reduction_reported_in = 0 then { home with reduction_result := BaseVal } else home
  let home2 := { home1 with reduction_result := Reducer home1.reduction_result val }
  let home3 := { home2 with reduction_reported_in := home2.reduction_reported_in + 1 }
  if home3.reduction_reported_in = nodes then
    ({ home3 with reduction_reported_in := 0 },
      (List.range nodes).map (fun n => (n, home3.reduction_result)))
  else (home3, [])

/-- The first half of `Grappa_allreduce( myval )` on one node: once `myval` has
been sent to node 0, the calling thread is suspended by `Grappa_suspend()`. -/
def Grappa_allreduce_call {T : Type} (node : ReductionNode T) : ReductionNode T :=
  { node with suspended := true }

/-- The second half of `Grappa_allreduce`: the value returned once the thread
has been woken, `none` while it is still suspended. -/
def Grappa_allreduce_return {T : Type} (node : ReductionNode T) : Option T :=
  if node.suspended then none else some node.final_reduction_result

/-- The home node handles the contributions in their order of arrival. -/
def home_handle {T : Type} (Reducer : T → T → T) (BaseVal : T) (nodes : Nat) :
    ReductionNode T → List T → ReductionNode T × List (Nat × T)
  | home, [] => (home, [])
  | home, val :: vals =>
    let r := am_reduce Reducer BaseVal nodes home val
    let rest := home_handle Reducer BaseVal nodes r.1 vals
    (rest.1, r.2 ++ rest.2)

/-- Replace the statics of node `n`. -/
def setNode {T : Type} : List (ReductionNode T) → Nat → (ReductionNode T → ReductionNode T) →
    List (ReductionNode T)
  | [], _, _ => []
  | x :: xs, 0, f => f x :: xs
  | x :: xs, n + 1, f => x :: setNode xs n f

/-- Delivery of the wake messages to their destination nodes. -/
def deliver_wakes {T : Type} : List (ReductionNode T) → List (Nat × T) → List (ReductionNode T)
  | cluster, [] => cluster
  | cluster, (n, data) :: msgs =>
    deliver_wakes (setNode cluster n (fun node => am_reduce_wake node data)) msgs

/-- One all-reduce over a cluster: every node calls `Grappa_allreduce` with its
own value, node 0 (`HOME_NODE`) handles the contributions in the order
`arrival`, the wake messages are delivered, and every node returns. -/
def allreduce_round {T : Type} (Reducer : T → T → T) (BaseVal : T)
    (cluster : List (ReductionNode T)) (arrival : List T) : List (Option T) :=
  let called := cluster.map Grappa_allreduce_call
  match called with
  | [] => []
  | home :: others =>
    let r := home_handle Reducer BaseVal cluster.length home arrival
    (deliver_wakes (r.1 :: others) r.2).map Grappa_allreduce_return

/-! ## Auxiliary definitions used in the statements and proofs -/

/-- The six or-shift lines of `next_largest_power_of_2` on a natural number. -/
def smear (m : Nat) : Nat :=
  let v := m
  let v := v ||| v >>> 1
  let v := v ||| v >>> 2
  let v := v ||| v >>> 4
  let v := v ||| v >>> 8
  let v := v ||| v >>> 16
  let v := v ||| v >>> 32
  v


/-- The six or-shift lines of `next_largest_power_of_2` on `-(a+1)`, expressed
on `a`: or on negative numbers is and on their complements. -/
def smearNeg (a : Nat) : Nat :=
  let v := a
  let v := v &&& v >>> 1
  let v := v &&& v >>> 2
  let v := v &&& v >>> 4
  let v := v &&& v >>> 8
  let v := v &&& v >>> 16
  let v := v &&& v >>> 32
  v

/-- Keys strictly increasing, as in every `std::map`. -/
def ChunkMap.Sorted (m : ChunkMap) : Prop :=
  List.Pairwise (fun a b : AllocatorChunk => a.address < b.address) m

/-- Keys strictly increasing, as in every `std::map`. -/
def FreeListMap.Sorted (fl : FreeListMap) : Prop :=
  List.Pairwise (fun a b : Nat × FreeList => a.1 < b.1) fl

/-- The chunks, in key order, cover `[lo, hi)` without gap or overlap: the
first starts at `lo`, each next one starts where its predecessor ends, and the
last ends at `hi`. -/
def Tiles : Int → ChunkMap → Int → Prop
  | lo, [], hi => lo = hi
  | lo, c :: cs, hi => c.address = lo ∧ Tiles (lo + c.size) cs hi

/-- The size is a power of two. -/
def IsPow2 (n : Nat) : Prop := ∃ k : Nat, n = 2 ^ k

/-- Consistency of the free lists with the chunk map: the free-list map has
strictly increasing keys and no empty list, no list holds a chunk twice, and the
list under key `k` holds exactly the tracked chunks of size `k` that are not in
use. -/
structure FreeListsOK (st : Allocator) : Prop where
  sorted : FreeListMap.Sorted st.free_lists_
  nonempty : ∀ e ∈ st.free_lists_, e.2 ≠ []
  nodup : ∀ k, (FreeListMap.get st.free_lists_ k).Nodup
  iff : ∀ k a, a ∈ FreeListMap.get st.free_lists_ k ↔
    ∃ c, ChunkMap.find st.chunks_ a = some c ∧ c.size = k ∧ c.in_use = false

/-- The representation invariant of an allocator over an arena of `n` bytes. -/
structure Allocator.WF (n : Int) (st : Allocator) : Prop where
  tiles : Tiles 0 st.chunks_ n
  bound : n < 9223372036854775808
  pow2 : ∀ c ∈ st.chunks_, IsPow2 c.size
  fl : FreeListsOK st

/-- The state after `remove_from_free_list( it )` for a chunk of size `k`. -/
def Allocator.removed (st : Allocator) (it : Int) (k : Nat) : Allocator :=
  { st with
      free_lists_ := st.free_lists_.erase_slot k it,
      chunks_ := st.chunks_.update it (fun c => { c with in_use := true }) }

/-- The state after `add_to_free_list( it )` for a chunk of size `k`. -/
def Allocator.added (st : Allocator) (it : Int) (k : Nat) : Allocator :=
  { st with
      free_lists_ := st.free_lists_.push_front k it,
      chunks_ := st.chunks_.update it (fun c => { c with in_use := false }) }

/-- The state after the assignment `it->second.size = s`. -/
def Allocator.resized (st : Allocator) (it : Int) (s : Nat) : Allocator :=
  { st with chunks_ := st.chunks_.update it (fun c => { c with size := s }) }

/-- The state after `chunks_.erase( it )`. -/
def Allocator.erased (st : Allocator) (it : Int) : Allocator :=
  { st with chunks_ := ChunkMap.erase st.chunks_ it }

/-- The state after a successful `add_to_chunk_map( ac )`. -/
def Allocator.inserted (st : Allocator) (ac : AllocatorChunk) : Allocator :=
  { st with chunks_ := (ChunkMap.insert st.chunks_ ac).1 }

/-- The state after one iteration of the splitting loop of `malloc` on the chunk
`cmit` of size `S`, with `h` the halved size. -/
def Allocator.split (st : Allocator) (cmit : Int) (S h : Nat) : Allocator :=
  ((((st.removed cmit S).resized cmit h).added cmit h).inserted
    (AllocatorChunk.new (cmit + h) h)).added (cmit + h) h

/-- The state after merging the free chunk at `lo` with its free buddy at `hi`,
both of size `s`. -/
def Allocator.merged (st : Allocator) (lo hi : Int) (s : Nat) : Allocator :=
  ((((st.removed hi s).erased hi).removed lo s).resized lo (s + s)).added lo (s + s)

/-- The state after the assignment `it->second.in_use = true`. -/
def Allocator.marked (st : Allocator) (it : Int) : Allocator :=
  { st with chunks_ := st.chunks_.update it (fun c => { c with in_use := true }) }

/-- The value of `this_chunk_size` in the constructor's loop for remaining
`size`. -/
def Allocator.this_chunk_size (size : Int) : Nat :=
  if Int.land size (wrap64 (size - 1)) ≠ 0
  then toSizeT (Allocator.next_largest_power_of_2 (Int.tdiv size 2))
  else toSizeT size

/-- The state after one iteration of the constructor's loop: a new free chunk
of size `s` at `off`. -/
def Allocator.appended (st : Allocator) (off : Int) (s : Nat) : Allocator :=
  (st.inserted (AllocatorChunk.new off s)).added off s

/-- No free chunk has a free buddy of its own size. -/
def Allocator.NoBuddy (st : Allocator) : Prop :=
  ∀ a c b, ChunkMap.find st.chunks_ a = some c → c.in_use = false →
    ChunkMap.find st.chunks_ (wrap64 (Int.xor a (c.size : Int))) = some b →
    b.size = c.size → b.in_use = true

/-- No free chunk other than the one at `cmit` has a free buddy of its own size
other than the one at `cmit`. -/
def Allocator.NoBuddyExcept (st : Allocator) (cmit : Int) : Prop :=
  ∀ a c b, ChunkMap.find st.chunks_ a = some c → c.in_use = false → a ≠ cmit →
    ChunkMap.find st.chunks_ (wrap64 (Int.xor a (c.size : Int))) = some b →
    wrap64 (Int.xor a (c.size : Int)) ≠ cmit → b.size = c.size → b.in_use = true

/-- Every chunk's offset is a multiple of its size. -/
def Allocator.Aligned (st : Allocator) : Prop :=
  ∀ a c, ChunkMap.find st.chunks_ a = some c → (c.size : Int) ∣ a

/-- The states reachable from `Allocator( base, n )` by `malloc` and `free`
calls that return. -/
inductive Allocator.Reachable (base n : Int) : Allocator → Prop where
  | ctor {st : Allocator} : Allocator.ctor base n = .ok st → Allocator.Reachable base n st
  | malloc {st st' : Allocator} {s : Nat} {a : Int} : Allocator.Reachable base n st →
      st.malloc s = .ok (st', a) → Allocator.Reachable base n st'
  | free {st st' : Allocator} {p : Int} : Allocator.Reachable base n st →
      st.free p = .ok st' → Allocator.Reachable base n st'

/-- The invariant of the splitting loop of `malloc` behind the absence of free
buddies: apart from the chunk at `cmit`, no free chunk has a size between the
allocation size `A` and the size of the chunk at `cmit`, and no free buddies
exist. -/
def Allocator.SplitInv (A : Nat) (st : Allocator) (cmit : Int) : Prop :=
  (∀ c0, ChunkMap.find st.chunks_ cmit = some c0 →
    ∀ a c, ChunkMap.find st.chunks_ a = some c → c.in_use = false → a ≠ cmit →
      c.size < A ∨ c0.size ≤ c.size) ∧
  st.NoBuddyExcept cmit

/-- The invariant of the constructor's loop at offset `off` with `r` bytes left:
neighbouring chunks have different sizes, the chunk that ends at `off` has a
size different from the next chunk's, and every chunk is free. -/
def Allocator.CtorInv (st : Allocator) (off : Int) (r : Nat) : Prop :=
  (∀ a c b, ChunkMap.find st.chunks_ a = some c →
    ChunkMap.find st.chunks_ (a + c.size) = some b → b.size ≠ c.size) ∧
  (0 < r → ∀ a c, ChunkMap.find st.chunks_ a = some c → a + c.size = off →
    c.size ≠ Allocator.this_chunk_size r) ∧
  (∀ a c, ChunkMap.find st.chunks_ a = some c → c.in_use = false)

/-- The invariant of the splitting loop of `malloc` behind the round trip: from
the state `st` with the chunk `cmit` at the front of the free list of its size,
the merging of `free` leads back to the state `st0` before the `malloc`. -/
def Allocator.Undo (st0 st : Allocator) (cmit : Int) : Prop :=
  st.Aligned ∧
  (∃ c rest, ChunkMap.find st.chunks_ cmit = some c ∧ c.in_use = false ∧
    FreeListMap.get st.free_lists_ c.size = cmit :: rest) ∧
  (∀ fuel, st.chunks_.length ≤ fuel →
    Allocator.try_merge_buddy_recursive fuel st cmit = .ok st0)

/-- The reachable states together with the addresses that `malloc` has returned
and that have not been freed since. -/
inductive Allocator.Live (base n : Int) : Allocator → List Int → Prop where
  | ctor {st : Allocator} : Allocator.ctor base n = .ok st → Allocator.Live base n st []
  | malloc {st st' : Allocator} {s : Nat} {a : Int} {live : List Int} :
      Allocator.Live base n st live → st.malloc s = .ok (st', a) →
      Allocator.Live base n st' (a :: live)
  | free {st st' : Allocator} {p : Int} {live : List Int} :
      Allocator.Live base n st live → st.free p = .ok st' →
      Allocator.Live base n st' (live.filter (fun q => decide (q ≠ p)))

/-- The state after `Allocator( 0, 1024 )`. -/
def Allocator.fresh1024 : Allocator :=
  ⟨0, 1024, [⟨false, 0, 1024⟩], [(1024, [0])]⟩

/-- The state after `malloc( 100 )` on `Allocator( 0, 1024 )`. -/
def Allocator.fresh1024_malloc100 : Allocator :=
  ⟨0, 1024, [⟨false, 0, 512⟩, ⟨false, 512, 256⟩, ⟨false, 768, 128⟩, ⟨true, 896, 128⟩],
    [(128, [768]), (256, [512]), (512, [0])]⟩

/-- A cluster of four nodes before an all-reduce. -/
def cluster4 : List (ReductionNode Int) :=
  [⟨0, 0, 0, false⟩, ⟨0, 0, 0, false⟩, ⟨0, 0, 0, false⟩, ⟨0, 0, 0, false⟩]

/-! ## Collective reduction: the variant without initial value and the arrays -/

/-- The handler `am_reduce_noinit<T,Reducer>` on the home node, `nodes` being
`Grappa_nodes()`: the new statics and the wake messages sent. -/
def am_reduce_noinit {T : Type} (Reducer : T → T → T) (nodes : Nat)
    (home : ReductionNode T) (val : T) : ReductionNode T × List (Nat × T) :=
  let home2 :=
    if home.reduction_reported_in = 0 then { home with reduction_result := val }
    else { home with reduction_result := Reducer home.reduction_result val }
  let home3 := { home2 with reduction_reported_in := home2.reduction_reported_in + 1 }
  if home3.reduction_reported_in = nodes then
    ({ home3 with reduction_reported_in := 0 },
      (List.range nodes).map (fun n => (n, home3.reduction_result)))
  else (home3, [])

/-- The home node runs a handler on the messages in their order of arrival: the
final statics and all messages sent. -/
def home_handle_with {S V M : Type} (handler : S → V → S × List M) : S → List V → S × List M
  | home, [] => (home, [])
  | home, val :: vals =>
    let r := handler home val
    let rest := home_handle_with handler r.1 vals
    (rest.1, r.2 ++ rest.2)

/-- One all-reduce without initial value over a cluster: every node calls
`Grappa_allreduce_noinit` with its own value, node 0 handles the contributions
in the order `arrival`, the wake messages are delivered, and every node
returns. -/
def allreduce_round_noinit {T : Type} (Reducer : T → T → T)
    (cluster : List (ReductionNode T)) (arrival : List T) : List (Option T) :=
  let called := cluster.map Grappa_allreduce_call
  match called with
  | [] => []
  | home :: others =>
    let r := home_handle_with (am_reduce_noinit Reducer cluster.length) home arrival
    (deliver_wakes (r.1 :: others) r.2).map Grappa_allreduce_return

/-- The two buffers of a caller of the vector reduction that a `T*` can point
into: its `array` and its separate `result` buffer. -/
inductive ReduceBuffer where
  | array
  | result
  deriving DecidableEq, Repr

/-- A `T*` on one node: the buffer and the element offset. -/
structure ElemPtr where
  buffer : ReduceBuffer
  offset : Nat
  deriving DecidableEq, Repr

/-- The per-node statics and buffers used by the vector reduction of values of
type `T`: the counter `reduction_reported_in`, the array behind
`Reductions<T*>::reduction_result`, the pointer
`Reductions<T*>::final_reduction_result`, the caller's `array`, its separate
`result` buffer, and whether the caller sits in `Grappa_suspend()`. -/
structure ReductionArrayNode (T : Type) where
  reduction_reported_in : Nat
  reduction_result : List T
  final_reduction_result : Option ElemPtr
  array : List T
  result : List T
  suspended : Bool
  deriving DecidableEq, Repr

/-- Read `nelem` elements through a pointer; reading past the end of the buffer
is undefined. -/
def ReductionArrayNode.read {T : Type} (node : ReductionArrayNode T) (p : ElemPtr)
    (nelem : Nat) : Except Fault (List T) :=
  let buf := match p.buffer with
    | .array => node.array
    | .result => node.result
  if p.offset + nelem ≤ buf.length then .ok ((buf.drop p.offset).take nelem)
  else .error .undefined

/-- The call `memcpy( p, val, sz )`; writing past the end of the buffer is
undefined. -/
def ReductionArrayNode.memcpy {T : Type} (node : ReductionArrayNode T) (p : ElemPtr)
    (val : List T) : Except Fault (ReductionArrayNode T) :=
  match p.buffer with
  | .array =>
    if p.offset + val.length ≤ node.array.length then
      .ok { node with
              array := node.array.take p.offset ++ val
                ++ node.array.drop (p.offset + val.length) }
    else .error .undefined
  | .result =>
    if p.offset + val.length ≤ node.result.length then
      .ok { node with
              result := node.result.take p.offset ++ val
                ++ node.result.drop (p.offset + val.length) }
    else .error .undefined

/-- The handler `am_reduce_array_wake` on the receiving node. -/
def am_reduce_array_wake {T : Type} (node : ReductionArrayNode T) (val : List T) :
    Except Fault (ReductionArrayNode T) :=
  match node.final_reduction_result with
  | none => .error .undefined
  | some p =>
    match node.memcpy p val with
    | .error e => .error e
    | .ok node1 => .ok { node1 with suspended := false }

/-- The handler `am_reduce_array<T,Reducer,BaseVal>` on the home node; the
message `val` carries `nelem = sz / sizeof(T)` elements.  Combining into an
array shorter than `nelem` is undefined. -/
def am_reduce_array {T : Type} (Reducer : T → T → T) (BaseVal : T) (nodes : Nat)
    (home : ReductionArrayNode T) (val : List T) :
    Except Fault (ReductionArrayNode T × List (Nat × List T)) :=
  let nelem := val.length
  let home1 :=
    if home.reduction_reported_in = 0
    then { home with reduction_result := List.replicate nelem BaseVal }
    else home
  if home1.reduction_result.length < nelem then .error .undefined
  else
    let rarray := List.zipWith Reducer (home1.reduction_result.take nelem) val
      ++ home1.reduction_result.drop nelem
    let home2 := { home1 with
                    reduction_result := rarray,
                    reduction_reported_in := home1.reduction_reported_in + 1 }
    if home2.reduction_reported_in = nodes then
      .ok ({ home2 with reduction_reported_in := 0, reduction_result := [] },
        (List.range nodes).map (fun n => (n, rarray.take nelem)))
    else .ok (home2, [])

/-- The home node runs `am_reduce_array` on the messages in their order of
arrival. -/
def home_handle_array {T : Type} (Reducer : T → T → T) (BaseVal : T) (nodes : Nat) :
    ReductionArrayNode T → List (List T) →
      Except Fault (ReductionArrayNode T × List (Nat × List T))
  | home, [] => .ok (home, [])
  | home, val :: vals =>
    match am_reduce_array Reducer BaseVal nodes home val with
    | .error e => .error e
    | .ok (home1, msgs) =>
      match home_handle_array Reducer BaseVal nodes home1 vals with
      | .error e => .error e
      | .ok (home2, msgs2) => .ok (home2, msgs ++ msgs2)

/-- The function `allreduce_one_message( array, nelem, result )` on one node up
to and including `Grappa_suspend()`, for an element type of `sizeof_T` bytes:
the node's new state and the message sent to the home node. -/
def allreduce_one_message {T : Type} (sizeof_T : Nat) (node : ReductionArrayNode T)
    (array : ElemPtr) (nelem : Nat) (result : Option ElemPtr) :
    Except Fault (ReductionArrayNode T × List T) :=
  let maxn := 2048 / sizeof_T
  if nelem ≤ maxn then
    let result := match result with
      | none => array
      | some p => p
    match node.read array nelem with
    | .error e => .error e
    | .ok msg =>
      .ok ({ node with final_reduction_result := some result, suspended := true }, msg)
  else .error .assertion

/-- Every node of the cluster calls `allreduce_one_message` with the same
arguments: the new states and the messages, by node. -/
def allreduce_one_message_all {T : Type} (sizeof_T : Nat) (array : ElemPtr) (nelem : Nat)
    (result : Option ElemPtr) :
    List (ReductionArrayNode T) → Except Fault (List (ReductionArrayNode T) × List (List T))
  | [] => .ok ([], [])
  | node :: nodes =>
    match allreduce_one_message sizeof_T node array nelem result with
    | .error e => .error e
    | .ok (node1, msg) =>
      match allreduce_one_message_all sizeof_T array nelem result nodes with
      | .error e => .error e
      | .ok (nodes1, msgs) => .ok (node1 :: nodes1, msg :: msgs)

/-- Replace the state of node `n` by the result of a handler that can fail. -/
def setArrayNode {T : Type} :
    List (ReductionArrayNode T) → Nat →
      (ReductionArrayNode T → Except Fault (ReductionArrayNode T)) →
      Except Fault (List (ReductionArrayNode T))
  | [], _, _ => .ok []
  | x :: xs, 0, f =>
    match f x with
    | .error e => .error e
    | .ok y => .ok (y :: xs)
  | x :: xs, n + 1, f =>
    match setArrayNode xs n f with
    | .error e => .error e
    | .ok ys => .ok (x :: ys)

/-- Delivery of the array wake messages to their destination nodes. -/
def deliver_array_wakes {T : Type} :
    List (ReductionArrayNode T) → List (Nat × List T) →
      Except Fault (List (ReductionArrayNode T))
  | cluster, [] => .ok cluster
  | cluster, (n, data) :: msgs =>
    match setArrayNode cluster n (fun node => am_reduce_array_wake node data) with
    | .error e => .error e
    | .ok cluster1 => deliver_array_wakes cluster1 msgs

/-- One round of the vector reduction over a cluster: every node calls
`allreduce_one_message`, node 0 handles the messages of the nodes in the order
`arrival` (node numbers), and the wake messages are delivered. -/
def allreduce_one_message_round {T : Type} (sizeof_T : Nat) (Reducer : T → T → T)
    (BaseVal : T) (cluster : List (ReductionArrayNode T)) (arrival : List Nat)
    (array : ElemPtr) (nelem : Nat) (result : Option ElemPtr) :
    Except Fault (List (ReductionArrayNode T)) :=
  match allreduce_one_message_all sizeof_T array nelem result cluster with
  | .error e => .error e
  | .ok (called, msgs) =>
    match called with
    | [] => .ok []
    | home :: others =>
      match home_handle_array Reducer BaseVal cluster.length home
          (arrival.map (fun k => msgs.getD k [])) with
      | .error e => .error e
      | .ok (home1, wakes) => deliver_array_wakes (home1 :: others) wakes

/-- The loop of the vector `Grappa_allreduce( array, nelem, result )`, run by
all nodes of the cluster in step, from the loop index `i` on; `arrival i` is
the order in which the messages of the round at index `i` reach node 0.  The
first argument bounds the number of iterations. -/
def Grappa_allreduce_loop {T : Type} (sizeof_T : Nat) (Reducer : T → T → T) (BaseVal : T)
    (arrival : Nat → List Nat) (nelem : Nat) (result : Option ElemPtr) :
    Nat → List (ReductionArrayNode T) → Nat → Except Fault (List (ReductionArrayNode T))
  | 0, _, _ => .error .fuel
  | fuel + 1, cluster, i =>
    let maxn := 2048 / sizeof_T
    if i < nelem then
      let n := min maxn (nelem - i)
      match allreduce_one_message_round sizeof_T Reducer BaseVal cluster (arrival i)
          ⟨.array, i⟩ n result with
      | .error e => .error e
      | .ok cluster1 =>
        Grappa_allreduce_loop sizeof_T Reducer BaseVal arrival nelem result fuel cluster1
          ((i + maxn) % 18446744073709551616)
    else .ok cluster

/-- The vector `Grappa_allreduce( array, nelem, result )` on every node of the
cluster; `result` is `none` for `NULL` and otherwise points to the start of the
separate result buffer. -/
def Grappa_allreduce_array {T : Type} (sizeof_T : Nat) (Reducer : T → T → T) (BaseVal : T)
    (arrival : Nat → List Nat) (cluster : List (ReductionArrayNode T)) (nelem : Nat)
    (result : Option ElemPtr) : Except Fault (List (ReductionArrayNode T)) :=
  Grappa_allreduce_loop sizeof_T Reducer BaseVal arrival nelem result (nelem + 1) cluster 0

/-! ## Flat combining (`system/FlatCombiner.hpp`)

Representation choices:

* A `Flusher*` is the address (a natural number) of a `Flusher` in `heap`;
  `new Flusher` takes the next unused address `nflushers`.  A `Worker*` is the
  number of the worker.  `nullptr` is `none`.
* The payload `T` is not represented: what `func( *s->id )` and
  `s->id->is_full()` return are arguments of `combine`, so that every payload
  behaviour is covered.
* Workers are scheduled cooperatively.  A worker gives up the processor only in
  `Grappa::wait` and inside `s->id->sync()`; `WorkerState` records where each
  worker stands, and `combine`, `combine_resume` and `flush_end` are the three
  pieces of code that run without interruption.
* `trace` records the calls of `wait`, `signal`, `broadcast` and `sync` in the
  order in which they happen.
-/

/-- `enum class FCStatus`. -/
inductive FCStatus where
  | SATISFIED
  | BLOCKED
  | MATCHED
  deriving DecidableEq, Repr

/-- The record `struct Flusher` without the payload pointer `id`; `cv` is the
list of the workers waiting on the condition variable, the first one at the
head. -/
structure Flusher where
  next : Option Nat
  sender : Option Nat
  cv : List Nat
  deriving DecidableEq, Repr

/-- `Flusher::clear`. -/
def Flusher.clear (f : Flusher) : Flusher :=
  { f with next := none, sender := none, cv := [] }

/-- Where a worker stands with respect to `combine`. -/
inductive WorkerState where
  /-- outside `combine` -/
  | idle
  /-- suspended in `Grappa::wait( &s->cv )` -/
  | waiting (s : Nat)
  /-- woken from `Grappa::wait( &s->cv )`, not yet running again -/
  | woken (s : Nat)
  /-- in `flush( s )`, inside `s->id->sync()` -/
  | syncing (s : Nat)
  deriving DecidableEq, Repr

/-- The calls recorded in the trace. -/
inductive FCEvent where
  /-- worker `w` called `Grappa::wait( &s->cv )` -/
  | wait (w s : Nat)
  /-- `Grappa::signal( &s->cv )` -/
  | signal (s : Nat)
  /-- `broadcast( &s->cv )` -/
  | broadcast (s : Nat)
  /-- worker `w` called `s->id->sync()` -/
  | sync (w s : Nat)
  deriving DecidableEq, Repr

/-- The class `FlatCombiner<T>`: the `Flusher` objects, its three data members
`current`, `inflight` and `freelist`, the workers and the trace. -/
structure FlatCombiner where
  heap : Nat → Flusher
  nflushers : Nat
  current : Nat
  inflight : Nat
  freelist : Option Nat
  workers : Nat → WorkerState
  trace : List FCEvent

/-- Assignment to the `Flusher` at address `s`. -/
def FlatCombiner.store (fc : FlatCombiner) (s : Nat) (f : Flusher) : FlatCombiner :=
  { fc with heap := fun i => if i = s then f else fc.heap i }

/-- Worker `w` moves to the state `ws`. -/
def FlatCombiner.setWorker (fc : FlatCombiner) (w : Nat) (ws : WorkerState) : FlatCombiner :=
  { fc with workers := fun i => if i = w then ws else fc.workers i }

/-- The constructor `FlatCombiner( initial )`. -/
def FlatCombiner.new : FlatCombiner :=
  { heap := fun _ => { next := none, sender := none, cv := [] },
    nflushers := 1,
    current := 0,
    inflight := 0,
    freelist := none,
    workers := fun _ => .idle,
    trace := [] }

/-- `FlatCombiner::free_flusher`. -/
def FlatCombiner.free_flusher (fc : FlatCombiner) (s : Nat) : FlatCombiner :=
  match fc.freelist with
  | none => { fc with freelist := some s }
  | some f => { fc.store s { fc.heap s with next := some f } with freelist := some s }

/-- `FlatCombiner::get_flusher`: the new state and the returned pointer. -/
def FlatCombiner.get_flusher (fc : FlatCombiner) (_s : Nat) : FlatCombiner × Nat :=
  match fc.freelist with
  | some r => ({ fc.store r (fc.heap r).clear with freelist := (fc.heap r).next }, r)
  | none =>
    ({ fc.store fc.nflushers (fc.heap fc.nflushers).clear with
        nflushers := fc.nflushers + 1 },
      fc.nflushers)

/-- A suspended worker is made runnable; it keeps the slot it waited on. -/
def WorkerState.wake : WorkerState → WorkerState
  | .waiting s => .woken s
  | ws => ws

/-- Modelled from the spec: `Grappa::wait( &s->cv )`, the "suspend-current"
operation of the scheduling substrate, which is not part of these sources.  The
calling worker `w` is put on the wait queue of the condition and gives up the
processor. -/
def FlatCombiner.wait (fc : FlatCombiner) (w s : Nat) : FlatCombiner :=
  { (fc.store s { fc.heap s with cv := w :: (fc.heap s).cv }).setWorker w (.waiting s) with
    trace := fc.trace ++ [.wait w s] }

/-- Modelled from the spec: `impl::get_waiters( &s->cv )`, not part of these
sources: the waiter that the next wake-one of the condition wakes, `none` when
nobody waits. -/
def FlatCombiner.get_waiters (fc : FlatCombiner) (s : Nat) : Option Nat :=
  (fc.heap s).cv.head?

/-- Modelled from the spec: `Grappa::signal( &s->cv )`, the "wake-one"
operation of the scheduling substrate, which is not part of these sources.  One
specific waiter, the one `get_waiters` returns, leaves the wait queue and is made
runnable; the waker goes on running. -/
def FlatCombiner.signal (fc : FlatCombiner) (s : Nat) : FlatCombiner :=
  match (fc.heap s).cv with
  | [] => { fc with trace := fc.trace ++ [.signal s] }
  | w :: ws =>
    { (fc.store s { fc.heap s with cv := ws }).setWorker w (fc.workers w).wake with
      trace := fc.trace ++ [.signal s] }

/-- Modelled from the spec: `Grappa::broadcast( &s->cv )`, the "wake-all"
operation of the scheduling substrate, which is not part of these sources.  All
waiters leave the wait queue and are made runnable; the waker goes on
running. -/
def FlatCombiner.broadcast (fc : FlatCombiner) (s : Nat) : FlatCombiner :=
  { fc.store s { fc.heap s with cv := [] } with
    workers := fun i => if i ∈ (fc.heap s).cv then (fc.workers i).wake else fc.workers i,
    trace := fc.trace ++ [.broadcast s] }

/-- `FlatCombiner::flush( s )`, run by worker `w`, up to the call
`s->id->sync()`, inside which the worker can give up the processor. -/
def FlatCombiner.flush_begin (fc : FlatCombiner) (w s : Nat) : FlatCombiner :=
  { (fc.store s { fc.heap s with sender := some w }).setWorker w (.syncing s) with
    trace := fc.trace ++ [.sync w s] }

/-- `FlatCombiner::flush( s )`, run by worker `w`, from the return of
`s->id->sync()` on, followed by the return from `combine`. -/
def FlatCombiner.flush_end (fc : FlatCombiner) (w s : Nat) : FlatCombiner :=
  let fc1 := fc.broadcast s
  let fc2 : FlatCombiner :=
    if (fc1.heap fc1.current).cv ≠ [] ∧ (fc1.heap fc1.current).sender = none then
      let n := fc1.current
      let r := fc1.get_flusher n
      let fc3 : FlatCombiner := { r.1 with current := r.2 }
      let fc4 := fc3.store n { fc3.heap n with sender := fc3.get_waiters n }
      fc4.signal n
    else
      { fc1 with inflight := (fc1.inflight + 18446744073709551615) % 18446744073709551616 }
  let fc5 := fc2.store s { fc2.heap s with sender := none }
  (fc5.free_flusher s).setWorker w .idle

/-- `FlatCombiner::combine( func )` called by worker `w`, up to the point where
the worker returns, suspends in `Grappa::wait` or calls `sync()`; `status` is
what `func( *s->id )` returns and `full` what `s->id->is_full()` returns. -/
def FlatCombiner.combine (fc : FlatCombiner) (w : Nat) (status : FCStatus) (full : Bool) :
    FlatCombiner :=
  let s := fc.current
  match status with
  | .SATISFIED => fc
  | .MATCHED => fc.signal s
  | .BLOCKED =>
    if full then
      let r := fc.get_flusher s
      let fc1 : FlatCombiner := { r.1 with current := r.2 }
      if (fc1.heap s).sender = none then
        FlatCombiner.flush_begin
          { fc1 with inflight := (fc1.inflight + 1) % 18446744073709551616 } w s
      else fc1.wait w s
    else if fc.inflight = 0 then
      let fc1 : FlatCombiner :=
        { fc with inflight := (fc.inflight + 1) % 18446744073709551616 }
      if (fc1.heap s).sender = none then
        let r := fc1.get_flusher s
        FlatCombiner.flush_begin { r.1 with current := r.2 } w s
      else fc1.wait w s
    else fc.wait w s

/-- `FlatCombiner::combine( func )` from the return of `Grappa::wait( &s->cv )`
on, run by the woken worker `w`. -/
def FlatCombiner.combine_resume (fc : FlatCombiner) (w s : Nat) : FlatCombiner :=
  if (fc.heap s).sender = some w then
    let fc1 : FlatCombiner :=
      if s = fc.current then
        let r := fc.get_flusher s
        ({ r.1 with current := r.2 } : FlatCombiner)
      else fc
    fc1.flush_begin w s
  else fc.setWorker w .idle

/-- One uninterrupted piece of code run by one of the workers `0..W-1`: a call
of `combine` by a worker outside `combine`, the continuation of a woken worker,
or the completion of a flush whose `sync()` returns.  `allowFull` restricts the
states in which the payload may report that it is full. -/
inductive FlatCombiner.Step (W : Nat) (allowFull : FlatCombiner → Prop) :
    FlatCombiner → FlatCombiner → Prop where
  | combine {fc : FlatCombiner} (w : Nat) (status : FCStatus) (full : Bool) :
      w < W → fc.workers w = .idle → (status = .BLOCKED → full = true → allowFull fc) →
      FlatCombiner.Step W allowFull fc (fc.combine w status full)
  | resume {fc : FlatCombiner} (w s : Nat) :
      w < W → fc.workers w = .woken s →
      FlatCombiner.Step W allowFull fc (fc.combine_resume w s)
  | sync_return {fc : FlatCombiner} (w s : Nat) :
      w < W → fc.workers w = .syncing s →
      FlatCombiner.Step W allowFull fc (fc.flush_end w s)

/-- The states reachable from a new `FlatCombiner` by the workers `0..W-1`
under cooperative scheduling. -/
inductive FlatCombiner.Reachable (W : Nat) (allowFull : FlatCombiner → Prop) :
    FlatCombiner → Prop where
  | init : FlatCombiner.Reachable W allowFull FlatCombiner.new
  | step {fc fc' : FlatCombiner} : FlatCombiner.Reachable W allowFull fc →
      FlatCombiner.Step W allowFull fc fc' → FlatCombiner.Reachable W allowFull fc'

/-- A node whose `array` holds `0, 1, ..., 256` and whose separate result buffer
holds 257 times `-1`. -/
def vector_nodeA : ReductionArrayNode Int :=
  ⟨0, [], none, (List.range 257).map Int.ofNat, List.replicate 257 (-1), false⟩

/-- A node whose `array` holds 257 times `1` and whose separate result buffer
holds 257 times `-1`. -/
def vector_nodeB : ReductionArrayNode Int :=
  ⟨0, [], none, List.replicate 257 1, List.replicate 257 (-1), false⟩

/-- The free list read from `head` by following `next` is the list `free`. -/
def FreeChain (heap : Nat → Flusher) : Option Nat → List Nat → Prop
  | head, [] => head = none
  | head, f :: fs => head = some f ∧ FreeChain heap (heap f).next fs

/-- The part of the invariant of the flat combiner that does not mention
`inflight`.  `free` is the recycle free-list and `retired` lists the slots that
are neither active nor on the free-list.  Every slot that was ever allocated is
the active one, free or retired; exactly the retired slots have a `sender`, who
is syncing on the slot or has been woken to do so; the wait queues hold exactly
the suspended workers; and nobody waits on the active slot unless some slot is
retired. -/
structure FlatCombiner.InvCore (W : Nat) (fc : FlatCombiner) (free retired : List Nat) :
    Prop where
  chain : FreeChain fc.heap fc.freelist free
  nodup : (fc.current :: (free ++ retired)).Nodup
  valid : ∀ i, i < fc.nflushers ↔ (i = fc.current ∨ i ∈ free ∨ i ∈ retired)
  sender_none : ∀ i, i ∉ retired → (fc.heap i).sender = none
  owner : ∀ i ∈ retired, ∃ w, w < W ∧ (fc.heap i).sender = some w ∧
    (fc.workers w = .syncing i ∨ fc.workers w = .woken i)
  syncing : ∀ w i, fc.workers w = .syncing i → (fc.heap i).sender = some w
  next_none : ∀ i, i ∉ free → (fc.heap i).next = none
  cv_waiting : ∀ i w, w ∈ (fc.heap i).cv → fc.workers w = .waiting i
  waiting_cv : ∀ w i, fc.workers w = .waiting i → w ∈ (fc.heap i).cv
  cv_nodup : ∀ i, (fc.heap i).cv.Nodup
  cv_none : ∀ i, i ≠ fc.current → i ∉ retired → (fc.heap i).cv = []
  cur_waiters : (fc.heap fc.current).cv ≠ [] → retired ≠ []
  idle : ∀ w, W ≤ w → fc.workers w = .idle

/-- The invariant of the flat combiner: `InvCore`, and `inflight` counts the
retired slots. -/
structure FlatCombiner.Inv (W : Nat) (fc : FlatCombiner) (free retired : List Nat)
    extends FlatCombiner.InvCore W fc free retired : Prop where
  count : fc.inflight = retired.length

/-- The state after the assignment `current = get_flusher( current )`. -/
def FlatCombiner.switch (fc : FlatCombiner) : FlatCombiner :=
  { (fc.get_flusher fc.current).1 with current := (fc.get_flusher fc.current).2 }

/-- The state after the `then` branch at the end of `flush`: the active slot is
replaced, the head of its wait queue becomes its `sender` and is woken. -/
def FlatCombiner.designate (fc : FlatCombiner) : FlatCombiner :=
  FlatCombiner.signal
    (fc.switch.store fc.current
      { fc.switch.heap fc.current with sender := fc.switch.get_waiters fc.current })
    fc.current

/-- The state after the last two statements of `flush( s )` and the return of
worker `w` from `combine`. -/
def FlatCombiner.release (fc : FlatCombiner) (w s : Nat) : FlatCombiner :=
  ((fc.store s { fc.heap s with sender := none }).free_flusher s).setWorker w .idle

/-- The state after worker 0 has started a flush and worker 1 has then applied a
contribution that filled the payload. -/
def FlatCombiner.two_flushes : FlatCombiner :=
  (FlatCombiner.new.combine 0 .BLOCKED false).combine 1 .BLOCKED true

/-- The state after worker 0 has started a flush, worker 1 has suspended on the
new active slot, and the flush of worker 0 has ended. -/
def FlatCombiner.handed_over : FlatCombiner :=
  ((FlatCombiner.new.combine 0 .BLOCKED false).combine 1 .BLOCKED false).flush_end 0 0
/-! ## Concrete allocator states used in the statements below -/

/-- The state after `Allocator( 0, 1 )`: one free chunk of size 1. -/
def Allocator.unit_arena : Allocator :=
  ⟨0, 1, [⟨false, 0, 1⟩], [(1, [0])]⟩

/-- The state inside the splitting loop of `malloc` on `Allocator.unit_arena`
with allocation size 0, after `chunk_size /= 2; cmit->second.size = chunk_size;
add_to_free_list( cmit );`: the only chunk has size 0. -/
def Allocator.unit_arena_halved : Allocator :=
  ⟨0, 1, [⟨false, 0, 0⟩], [(0, [0])]⟩

/-- The progress of the splitting loop of `malloc` on the donor chunk at offset
`d` of size `S`, seen from the state `st0` before the call: after `j` halvings
the chunk at `cmit = d + S - h` is free with size `h = S / 2^j`, below it lie the
free chunks split off so far, of sizes `h, 2h, ..., S/2` at the offsets
`d + S - 2h, d + S - 4h, ..., d`, every other offset is tracked as in `st0`, and
the chunk map has `j` more chunks than in `st0`. -/
def Allocator.SplitState (st0 : Allocator) (d : Int) (S : Nat) (st : Allocator)
    (cmit : Int) : Prop :=
  ∃ h j : Nat, S = h * 2 ^ j ∧ cmit = d + (S : Int) - (h : Int) ∧
    ChunkMap.find st.chunks_ cmit = some ⟨false, cmit, h⟩ ∧
    (∀ k, k < j → ChunkMap.find st.chunks_ (d + (S : Int) - ((h * 2 ^ (k + 1) : Nat) : Int))
      = some ⟨false, d + (S : Int) - ((h * 2 ^ (k + 1) : Nat) : Int), h * 2 ^ k⟩) ∧
    (∀ a, a ≠ cmit → (∀ k, k < j → a ≠ d + (S : Int) - ((h * 2 ^ (k + 1) : Nat) : Int)) →
      ChunkMap.find st.chunks_ a = ChunkMap.find st0.chunks_ a) ∧
    st.chunks_.length = st0.chunks_.length + j

/-- The donor of a `malloc` with allocation size `A` in the state `st0`,
together with the progress of the splitting loop on it: the donor is the front
chunk of the free list of its size, free, of size at least `A`, and no free
chunk of size at least `A` is smaller. -/
def Allocator.SplitFrom (st0 : Allocator) (A : Nat) (st : Allocator) (cmit : Int) : Prop :=
  ∃ (d : Int) (rest : FreeList) (c0 : AllocatorChunk),
    FreeListMap.get st0.free_lists_ c0.size = d :: rest ∧
    ChunkMap.find st0.chunks_ d = some c0 ∧ c0.in_use = false ∧ A ≤ c0.size ∧
    (∀ a c, ChunkMap.find st0.chunks_ a = some c → c.in_use = false → A ≤ c.size →
      c0.size ≤ c.size) ∧
    Allocator.SplitState st0 d c0.size st cmit

/-- The progress of the merging of `free` on the chunk at offset `o` of size `s`
with buddy offset `b`, seen from the state `st0` before the call: after `m`
merges the chunk at `cmit` is free with size `s * 2^m` and covers the freed
chunk (and, after the first merge, its buddy), no offset inside it is tracked,
every offset outside it is tracked as in `st0`, and the chunk map has `m` chunks
fewer than in `st0`. -/
def Allocator.MergeState (st0 : Allocator) (o b : Int) (s : Nat) (st : Allocator)
    (cmit : Int) : Prop :=
  ∃ m : Nat, ChunkMap.find st.chunks_ cmit = some ⟨false, cmit, s * 2 ^ m⟩ ∧
    cmit ≤ o ∧ o + (s : Int) ≤ cmit + ((s * 2 ^ m : Nat) : Int) ∧
    (m = 0 → cmit = o) ∧
    (1 ≤ m → cmit ≤ b ∧ b + (s : Int) ≤ cmit + ((s * 2 ^ m : Nat) : Int) ∧ b ≠ o) ∧
    st.chunks_.length + m = st0.chunks_.length ∧
    (∀ x, x < cmit ∨ cmit + ((s * 2 ^ m : Nat) : Int) ≤ x →
      ChunkMap.find st.chunks_ x = ChunkMap.find st0.chunks_ x) ∧
    (∀ x, cmit < x → x < cmit + ((s * 2 ^ m : Nat) : Int) → ChunkMap.find st.chunks_ x = none)

/-- The state reached by `Allocator( 0, 4 )`, `malloc( 1 )`, `malloc( 1 )`,
`free( 3 )`: a free chunk of size 2 at offset 0, an in-use chunk of size 1 at
offset 2 and a free chunk of size 1 at offset 3. -/
def Allocator.arena4_before : Allocator :=
  ⟨0, 4, [⟨false, 0, 2⟩, ⟨true, 2, 1⟩, ⟨false, 3, 1⟩], [(1, [3]), (2, [0])]⟩

/-- The state after `free( 2 )` in `Allocator.arena4_before`. -/
def Allocator.arena4_after : Allocator :=
  ⟨0, 4, [⟨false, 0, 4⟩], [(4, [0])]⟩
/-! ## The schedule of the vector reduction -/

/-- The calls `allreduce_one_message( array+i, n, result )` made by the loop of
the vector `Grappa_allreduce( array, nelem, result )` from the loop index `i`
on, each as the pair `(i, n)`; the loop index is a `size_t`.  The first
argument bounds the number of iterations; `none` when it is exhausted. -/
def Grappa_allreduce_calls (sizeof_T nelem : Nat) : Nat → Nat → Option (List (Nat × Nat))
  | 0, _ => none
  | fuel + 1, i =>
    let maxn := 2048 / sizeof_T
    if i < nelem then
      let n := min maxn (nelem - i)
      match Grappa_allreduce_calls sizeof_T nelem fuel ((i + maxn) % 18446744073709551616) with
      | none => none
      | some rest => some ((i, n) :: rest)
    else some []

/-- A sequence of single-message rounds, run by all nodes of the cluster in
step: the round `(i, n)` is `allreduce_one_message( array+i, n, result )`. -/
def Grappa_allreduce_rounds {T : Type} (sizeof_T : Nat) (Reducer : T → T → T) (BaseVal : T)
    (arrival : Nat → List Nat) (result : Option ElemPtr) :
    List (Nat × Nat) → List (ReductionArrayNode T) → Except Fault (List (ReductionArrayNode T))
  | [], cluster => .ok cluster
  | (i, n) :: rest, cluster =>
    match allreduce_one_message_round sizeof_T Reducer BaseVal cluster (arrival i)
        ⟨.array, i⟩ n result with
    | .error e => .error e
    | .ok cluster1 =>
      Grappa_allreduce_rounds sizeof_T Reducer BaseVal arrival result rest cluster1

/-! ## The statics behind reductions of two value types -/

/-- The statics of one node that reductions of two value types `T` and `U` use:
`reduction_reported_in`, which is declared once, at namespace scope, and is not
a member of the class template `Reductions`, the class statics `Reductions<T>::reduction_result` and
`Reductions<T>::final_reduction_result`, the same two of `Reductions<U>`, and
whether the node's `reducing_thread` sits in `Grappa_suspend()`. -/
structure ReductionStatics (T U : Type) where
  reduction_reported_in : Nat
  reduction_result_T : T
  final_reduction_result_T : T
  reduction_result_U : U
  final_reduction_result_U : U
  suspended : Bool
  deriving DecidableEq, Repr

/-- The statics that the instances of the templates for the value type `T` read
and write. -/
def ReductionStatics.of_T {T U : Type} (s : ReductionStatics T U) : ReductionNode T :=
  ⟨s.reduction_reported_in, s.reduction_result_T, s.final_reduction_result_T, s.suspended⟩

/-- The statics that the instances of the templates for the value type `U` read
and write. -/
def ReductionStatics.of_U {T U : Type} (s : ReductionStatics T U) : ReductionNode U :=
  ⟨s.reduction_reported_in, s.reduction_result_U, s.final_reduction_result_U, s.suspended⟩

/-- The handler `am_reduce<T,Reducer,BaseVal>` on the home node: the new statics
and the wake messages sent. -/
def ReductionStatics.am_reduce_T {T U : Type} (Reducer : T → T → T) (BaseVal : T)
    (nodes : Nat) (s : ReductionStatics T U) (val : T) :
    ReductionStatics T U × List (Nat × T) :=
  let r := am_reduce Reducer BaseVal nodes s.of_T val
  ({ s with
      reduction_reported_in := r.1.reduction_reported_in,
      reduction_result_T := r.1.reduction_result,
      final_reduction_result_T := r.1.final_reduction_result,
      suspended := r.1.suspended }, r.2)

/-- The handler `am_reduce<U,Reducer,BaseVal>` on the home node: the new statics
and the wake messages sent. -/
def ReductionStatics.am_reduce_U {T U : Type} (Reducer : U → U → U) (BaseVal : U)
    (nodes : Nat) (s : ReductionStatics T U) (val : U) :
    ReductionStatics T U × List (Nat × U) :=
  let r := am_reduce Reducer BaseVal nodes s.of_U val
  ({ s with
      reduction_reported_in := r.1.reduction_reported_in,
      reduction_result_U := r.1.reduction_result,
      final_reduction_result_U := r.1.final_reduction_result,
      suspended := r.1.suspended }, r.2)

/-- `coll_add<uint64_t>`. -/
def coll_add_u64 (a b : Nat) : Nat := (a + b) % 18446744073709551616

/-- Home-node statics on a cluster of two nodes before any contribution:
the counter is 0 and `Reductions<uint64_t>::reduction_result` holds 7 from an
earlier round. -/
def ReductionStatics.idle2 : ReductionStatics Int Nat :=
  ⟨0, 0, 0, 7, 0, false⟩
/-! ## Counting the calls recorded in the trace of the flat combiner -/

/-- Whether the event is a call of `sync()` on the payload of the slot `s`. -/
def FCEvent.on_sync (s : Nat) : FCEvent → Bool
  | .sync _ s' => decide (s' = s)
  | _ => false

/-- The number of calls of `s->id->sync()` made so far. -/
def FlatCombiner.sync_calls (fc : FlatCombiner) (s : Nat) : Nat :=
  fc.trace.countP (FCEvent.on_sync s)

/-- The number of times `flush( s )` has run to its end so far: `flush` calls
`broadcast( &s->cv )` once, after `sync()` has returned, and goes on to
`free_flusher( s )` without giving up the processor; nothing else calls
`broadcast`. -/
def FlatCombiner.flushes_ended (fc : FlatCombiner) (s : Nat) : Nat :=
  fc.trace.count (FCEvent.broadcast s)

/-- The last call of `s->id->sync()` made so far. -/
def FlatCombiner.last_sync (fc : FlatCombiner) (s : Nat) : Option FCEvent :=
  fc.trace.reverse.find? (FCEvent.on_sync s)

/-- The state after worker 0 has started a flush and worker 1 has suspended on
the new active slot. -/
def FlatCombiner.flush_pending : FlatCombiner :=
  (FlatCombiner.new.combine 0 .BLOCKED false).combine 1 .BLOCKED false

/-! ## Machine arithmetic -/

theorem wrap64_of_range {x : Int} (h1 : -9223372036854775808 ≤ x) (h2 : x < 9223372036854775808) :
    wrap64 x = x := by unfold wrap64; omega

theorem wrap64_range (x : Int) : -9223372036854775808 ≤ wrap64 x ∧ wrap64 x < 9223372036854775808 := by
  unfold wrap64; omega

theorem toSizeT_of_nonneg {x : Int} (h1 : 0 ≤ x) (h2 : x < 18446744073709551616) :
    (toSizeT x : Int) = x := by unfold toSizeT; omega

/-- One smearing step doubles the window of bits that are or-ed together. -/
theorem smear_step (m s w : Nat)
    (h : ∀ i, s.testBit i = true ↔ ∃ j, j < w ∧ m.testBit (i + j) = true) :
    ∀ i, (s ||| s >>> w).testBit i = true ↔ ∃ j, j < 2 * w ∧ m.testBit (i + j) = true := by
  intro i
  rw [Nat.testBit_or, Nat.testBit_shiftRight, Bool.or_eq_true, h, h]
  constructor
  · rintro (⟨j, hj, hb⟩ | ⟨j, hj, hb⟩)
    · exact ⟨j, by omega, hb⟩
    · exact ⟨w + j, by omega, by rw [← hb]; congr 1; omega⟩
  · rintro ⟨j, hj, hb⟩
    by_cases hjw : j < w
    · exact Or.inl ⟨j, hjw, hb⟩
    · exact Or.inr ⟨j - w, by omega, by rw [← hb]; congr 1; omega⟩

theorem smear_testBit (m : Nat) (i : Nat) :
    (smear m).testBit i = true ↔ ∃ j, j < 64 ∧ m.testBit (i + j) = true := by
  have h0 : ∀ i, m.testBit i = true ↔ ∃ j, j < 1 ∧ m.testBit (i + j) = true := by
    intro i
    constructor
    · intro h; exact ⟨0, by omega, by simpa using h⟩
    · rintro ⟨j, hj, hb⟩
      have : j = 0 := by omega
      subst this; simpa using hb
  have h1 := smear_step m _ 1 h0
  have h2 := smear_step m _ 2 h1
  have h3 := smear_step m _ 4 h2
  have h4 := smear_step m _ 8 h3
  have h5 := smear_step m _ 16 h4
  have h6 := smear_step m _ 32 h5
  exact h6 i


theorem smear_eq (m k : Nat) (hlt : m < 2 ^ k) (hge : k = 0 ∨ 2 ^ (k - 1) ≤ m) (hk : k ≤ 64) :
    smear m = 2 ^ k - 1 := by
  apply Nat.eq_of_testBit_eq
  intro i
  rw [Nat.testBit_two_pow_sub_one]
  by_cases hik : i < k
  · have htop : m.testBit (k - 1) = true := by
      by_contra hcon
      have hf : m.testBit (k - 1) = false := by simpa using hcon
      have : m < 2 ^ (k - 1) := by
        apply Nat.lt_pow_two_of_testBit
        intro j hj
        by_cases hjk : j = k - 1
        · rw [hjk]; exact hf
        · apply Nat.testBit_lt_two_pow
          calc m < 2 ^ k := hlt
            _ ≤ 2 ^ j := Nat.pow_le_pow_right (by omega) (by omega)
      omega
    have : (smear m).testBit i = true := by
      rw [smear_testBit]
      exact ⟨k - 1 - i, by omega, by rw [← htop]; congr 1; omega⟩
    simp [this, hik]
  · have : (smear m).testBit i = false := by
      by_contra hcon
      have ht : (smear m).testBit i = true := by simpa using hcon
      rw [smear_testBit] at ht
      obtain ⟨j, _, hb⟩ := ht
      have : m.testBit (i + j) = false := by
        apply Nat.testBit_lt_two_pow
        calc m < 2 ^ k := hlt
          _ ≤ 2 ^ (i + j) := Nat.pow_le_pow_right (by omega) (by omega)
      simp [this] at hb
    simp [this, hik]

theorem next_largest_power_of_2_of_nat (m : Nat) (hm : m < 9223372036854775808) :
    Allocator.next_largest_power_of_2 ((m : Int) + 1) = wrap64 ((smear m : Nat) + 1) := by
  unfold Allocator.next_largest_power_of_2
  have h0 : (m : Int) + 1 - 1 = (m : Int) := by omega
  have : wrap64 ((m : Int) + 1 - 1) = (m : Int) := by
    rw [h0]; apply wrap64_of_range <;> omega
  simp only [this]
  rfl

theorem next_largest_power_of_2_pos (v : Int) (h1 : 1 ≤ v) (h2 : v ≤ 4611686018427387904) :
    ∃ k : Nat, k ≤ 62 ∧ Allocator.next_largest_power_of_2 v = ((2 ^ k : Nat) : Int) ∧ v ≤ ((2 ^ k : Nat) : Int)
      ∧ ((2 ^ k : Nat) : Int) < 2 * v := by
  obtain ⟨m, rfl⟩ : ∃ m : Nat, v = (m : Int) + 1 := ⟨(v - 1).toNat, by omega⟩
  have hm : m < 2 ^ 62 := by norm_num; omega
  have hsz : m.size ≤ 62 := Nat.size_le.mpr hm
  have hlt : m < 2 ^ m.size := Nat.size_le.mp le_rfl
  have hge : m.size = 0 ∨ 2 ^ (m.size - 1) ≤ m := by
    by_cases h0 : m.size = 0
    · exact Or.inl h0
    · exact Or.inr (Nat.lt_size.mp (by omega))
  have hs := smear_eq m m.size hlt hge (by omega)
  have hpos : 0 < 2 ^ m.size := Nat.pos_pow_of_pos _ (by omega)
  have hle : 2 ^ m.size ≤ 2 ^ 62 := Nat.pow_le_pow_right (by omega) hsz
  have hhalf : m.size = 0 ∨ 2 ^ m.size ≤ 2 * m := by
    by_cases h0 : m.size = 0
    · exact Or.inl h0
    · right
      have h2 : 2 ^ (m.size - 1) ≤ m := Nat.lt_size.mp (by omega)
      have : 2 ^ m.size = 2 * 2 ^ (m.size - 1) := by
        rw [← pow_succ']; congr 1; omega
      omega
  have h1 : m.size = 0 → 2 ^ m.size = 1 := by intro h; rw [h]; rfl
  refine ⟨m.size, hsz, ?_, ?_, ?_⟩
  · rw [next_largest_power_of_2_of_nat m (by norm_num at hm; omega), hs]
    generalize 2 ^ m.size = P at *
    have : ((P - 1 : Nat) : Int) + 1 = (P : Int) := by omega
    rw [this]
    apply wrap64_of_range
    · omega
    · norm_num at hle; omega
  · generalize 2 ^ m.size = P at *
    omega
  · generalize 2 ^ m.size = P at *
    omega

theorem xor_two_pow (k : Nat) : ∀ n : Nat,
    (n.testBit k = false ∧ n ^^^ 2 ^ k = n + 2 ^ k) ∨
    (n.testBit k = true ∧ 2 ^ k ≤ n ∧ n ^^^ 2 ^ k = n - 2 ^ k) := by
  induction k with
  | zero =>
    intro n
    have hd : (n ^^^ 2 ^ 0) / 2 = n / 2 := by
      rw [Nat.xor_div_two]; simp
    have hm := @Nat.xor_mod_two_eq_one n (2 ^ 0)
    simp only [pow_zero, Nat.testBit_zero] at *
    by_cases h : n % 2 = 1
    · right
      refine ⟨by simp [h], by omega, ?_⟩
      have : ¬ ((n ^^^ 1) % 2 = 1) := by rw [hm]; simp [h]
      omega
    · left
      refine ⟨by simp [h], ?_⟩
      have : (n ^^^ 1) % 2 = 1 := by rw [hm]; simp [h]
      omega
  | succ k ih =>
    intro n
    have hd : (n ^^^ 2 ^ (k + 1)) / 2 = n / 2 ^^^ 2 ^ k := by
      rw [Nat.xor_div_two]; congr 1; rw [pow_succ]; omega
    have hm := @Nat.xor_mod_two_eq_one n (2 ^ (k + 1))
    have hp : 2 ^ (k + 1) = 2 * 2 ^ k := by rw [pow_succ]; ring
    have hev : ¬ (2 ^ (k + 1) % 2 = 1) := by rw [hp]; omega
    have hm2 : (n ^^^ 2 ^ (k + 1)) % 2 = n % 2 := by
      by_cases h : n % 2 = 1
      · have : (n ^^^ 2 ^ (k + 1)) % 2 = 1 := by rw [hm]; simp [h, hev]
        omega
      · have : ¬ (n ^^^ 2 ^ (k + 1)) % 2 = 1 := by rw [hm]; simp [h, hev]
        omega
    rw [Nat.testBit_succ]
    rcases ih (n / 2) with ⟨hb, hx⟩ | ⟨hb, hle, hx⟩
    · left
      refine ⟨hb, ?_⟩
      rw [hx] at hd
      generalize n ^^^ 2 ^ (k + 1) = r at *
      omega
    · right
      refine ⟨hb, by omega, ?_⟩
      rw [hx] at hd
      generalize n ^^^ 2 ^ (k + 1) = r at *
      omega

theorem int_xor_natCast (n s : Nat) : Int.xor (n : Int) (s : Int) = ((n ^^^ s : Nat) : Int) := rfl

/-- The buddy address of a non-negative address for a power-of-two size lies
exactly one size above or below it. -/
theorem buddy_cases (a : Int) (k : Nat) (h0 : 0 ≤ a) (h1 : a < 9223372036854775808)
    (h2 : 2 ^ k < 9223372036854775808) :
    (a.toNat.testBit k = false ∧ wrap64 (Int.xor a ((2 ^ k : Nat) : Int)) = a + ((2 ^ k : Nat) : Int)) ∨
    (a.toNat.testBit k = true ∧ ((2 ^ k : Nat) : Int) ≤ a ∧
      wrap64 (Int.xor a ((2 ^ k : Nat) : Int)) = a - ((2 ^ k : Nat) : Int)) := by
  obtain ⟨n, rfl⟩ : ∃ n : Nat, a = (n : Int) := ⟨a.toNat, by omega⟩
  rw [int_xor_natCast]
  have hlt : n ^^^ 2 ^ k < 2 ^ 63 :=
    Nat.xor_lt_two_pow (by norm_num; omega) (by norm_num; omega)
  have hw : wrap64 ((n ^^^ 2 ^ k : Nat) : Int) = ((n ^^^ 2 ^ k : Nat) : Int) := by
    apply wrap64_of_range
    · omega
    · norm_num at hlt; omega
  rw [hw]
  simp only [Int.toNat_ofNat]
  rcases xor_two_pow k n with ⟨hb, hx⟩ | ⟨hb, hle, hx⟩
  · left; refine ⟨hb, ?_⟩; rw [hx]; push_cast; rfl
  · right; refine ⟨hb, by exact_mod_cast hle, ?_⟩; rw [hx]; omega

theorem buddy_involutive (a : Int) (s : Nat) (h0 : 0 ≤ a) (h1 : a < 9223372036854775808)
    (h2 : s < 9223372036854775808) :
    wrap64 (Int.xor (wrap64 (Int.xor a (s : Int))) (s : Int)) = a := by
  obtain ⟨n, rfl⟩ : ∃ n : Nat, a = (n : Int) := ⟨a.toNat, by omega⟩
  rw [int_xor_natCast]
  have hlt : n ^^^ s < 2 ^ 63 :=
    Nat.xor_lt_two_pow (by norm_num; omega) (by norm_num; omega)
  have hw : wrap64 ((n ^^^ s : Nat) : Int) = ((n ^^^ s : Nat) : Int) := by
    apply wrap64_of_range
    · omega
    · norm_num at hlt; omega
  rw [hw, int_xor_natCast, Nat.xor_cancel_right]
  apply wrap64_of_range <;> omega

/-- Bit `k` of a multiple of `2 ^ k` is the parity of the quotient. -/
theorem testBit_mul_two_pow_self (k q : Nat) : (2 ^ k * q).testBit k = decide (q % 2 = 1) := by
  rw [Nat.testBit_to_div_mod, Nat.mul_div_cancel_left q (Nat.pos_pow_of_pos k (by omega))]

/-- Merging two aligned buddies gives a block aligned to the doubled size. -/
theorem buddy_aligned (a : Int) (k : Nat) (h0 : 0 ≤ a) (h1 : a < 9223372036854775808)
    (h2 : 2 ^ k < 9223372036854775808) (hal : ((2 ^ k : Nat) : Int) ∣ a) :
    (wrap64 (Int.xor a ((2 ^ k : Nat) : Int)) = a + ((2 ^ k : Nat) : Int) ∧
        ((2 ^ k * 2 : Nat) : Int) ∣ a) ∨
    (((2 ^ k : Nat) : Int) ≤ a ∧
      wrap64 (Int.xor a ((2 ^ k : Nat) : Int)) = a - ((2 ^ k : Nat) : Int) ∧
        ((2 ^ k * 2 : Nat) : Int) ∣ a - ((2 ^ k : Nat) : Int)) := by
  obtain ⟨q, hq⟩ := hal
  have hpos : 0 < 2 ^ k := Nat.pos_pow_of_pos k (by omega)
  have hq0 : 0 ≤ q := by
    by_contra hneg
    have : ((2 ^ k : Nat) : Int) * q < 0 := Int.mul_neg_of_pos_of_neg (by exact_mod_cast hpos) (by omega)
    omega
  obtain ⟨r, rfl⟩ : ∃ r : Nat, q = (r : Int) := ⟨q.toNat, by omega⟩
  have hn : a.toNat = 2 ^ k * r := by
    rw [hq]; norm_cast
  rcases buddy_cases a k h0 h1 h2 with ⟨hb, hx⟩ | ⟨hb, hle, hx⟩
  · left
    refine ⟨hx, ?_⟩
    rw [hn, testBit_mul_two_pow_self] at hb
    have hr : r % 2 = 0 := by
      have : ¬ (r % 2 = 1) := by simpa using hb
      omega
    refine ⟨((r / 2 : Nat) : Int), ?_⟩
    rw [hq]
    have : r = 2 * (r / 2) := by omega
    conv_lhs => rw [this]
    push_cast; ring
  · right
    refine ⟨hle, hx, ?_⟩
    rw [hn, testBit_mul_two_pow_self] at hb
    have hr : r % 2 = 1 := by simpa using hb
    refine ⟨((r / 2 : Nat) : Int), ?_⟩
    rw [hq]
    have : r = 2 * (r / 2) + 1 := by omega
    conv_lhs => rw [this]
    push_cast; ring

/-- The upper half of an aligned block has the lower half as its buddy. -/
theorem buddy_upper_half (a : Int) (k : Nat) (h0 : 0 ≤ a)
    (h1 : a + ((2 ^ k : Nat) : Int) < 9223372036854775808)
    (hal : ((2 ^ k * 2 : Nat) : Int) ∣ a) :
    wrap64 (Int.xor (a + ((2 ^ k : Nat) : Int)) ((2 ^ k : Nat) : Int)) = a := by
  obtain ⟨q, hq⟩ := hal
  have hpos : 0 < 2 ^ k := Nat.pos_pow_of_pos k (by omega)
  have hq0 : 0 ≤ q := by
    by_contra hneg
    have : ((2 ^ k * 2 : Nat) : Int) * q < 0 :=
      Int.mul_neg_of_pos_of_neg (by exact_mod_cast (by omega : 0 < 2 ^ k * 2)) (by omega)
    omega
  obtain ⟨r, rfl⟩ : ∃ r : Nat, q = (r : Int) := ⟨q.toNat, by omega⟩
  have hn : (a + ((2 ^ k : Nat) : Int)).toNat = 2 ^ k * (2 * r + 1) := by
    rw [hq]
    have : ((2 ^ k * 2 : Nat) : Int) * (r : Int) + ((2 ^ k : Nat) : Int)
        = ((2 ^ k * (2 * r + 1) : Nat) : Int) := by push_cast; ring
    rw [this, Int.toNat_ofNat]
  have h2 : 2 ^ k < 9223372036854775808 := by
    have : ((2 ^ k : Nat) : Int) < 9223372036854775808 := by omega
    exact_mod_cast this
  rcases buddy_cases (a + ((2 ^ k : Nat) : Int)) k (by omega) h1 h2 with ⟨hb, _⟩ | ⟨_, _, hx⟩
  · rw [hn, testBit_mul_two_pow_self] at hb
    have : ¬ ((2 * r + 1) % 2 = 1) := by simpa using hb
    omega
  · rw [hx]; omega

theorem smearNeg_step (a s w : Nat)
    (h : ∀ i, s.testBit i = true ↔ ∀ j, j < w → a.testBit (i + j) = true) :
    ∀ i, (s &&& s >>> w).testBit i = true ↔ ∀ j, j < 2 * w → a.testBit (i + j) = true := by
  intro i
  rw [Nat.testBit_and, Nat.testBit_shiftRight, Bool.and_eq_true, h, h]
  constructor
  · rintro ⟨hl, hr⟩ j hj
    by_cases hjw : j < w
    · exact hl j hjw
    · have := hr (j - w) (by omega)
      rw [← this]; congr 1; omega
  · intro hall
    refine ⟨fun j hj => hall j (by omega), fun j hj => ?_⟩
    have := hall (w + j) (by omega)
    rw [← this]; congr 1; omega

theorem smearNeg_eq_zero (a : Nat) (ha : a < 2 ^ 63) : smearNeg a = 0 := by
  have h0 : ∀ i, a.testBit i = true ↔ ∀ j, j < 1 → a.testBit (i + j) = true := by
    intro i
    constructor
    · intro h j hj
      have : j = 0 := by omega
      subst this; simpa using h
    · intro h; simpa using h 0 (by omega)
  have h1 := smearNeg_step a _ 1 h0
  have h2 := smearNeg_step a _ 2 h1
  have h3 := smearNeg_step a _ 4 h2
  have h4 := smearNeg_step a _ 8 h3
  have h5 := smearNeg_step a _ 16 h4
  have h6 := smearNeg_step a _ 32 h5
  apply Nat.eq_of_testBit_eq
  intro i
  rw [Nat.zero_testBit]
  by_contra hcon
  have ht : (smearNeg a).testBit i = true := by simpa using hcon
  have hall := (h6 i).mp ht
  have hb := hall 63 (by omega)
  have : a.testBit (i + 63) = false := by
    apply Nat.testBit_lt_two_pow
    calc a < 2 ^ 63 := ha
      _ ≤ 2 ^ (i + 63) := Nat.pow_le_pow_right (by omega) (by omega)
  simp [this] at hb

theorem next_largest_power_of_2_nonpos (v : Int) (h1 : -9223372036854775808 < v) (h2 : v ≤ 0) :
    Allocator.next_largest_power_of_2 v = 0 := by
  obtain ⟨a, ha'⟩ : ∃ a : Nat, v - 1 = -((a : Int) + 1) := ⟨(-v).toNat, by omega⟩
  have ha : v - 1 = Int.negSucc a := by rw [Int.negSucc_eq]; exact ha'
  have ha63 : a < 2 ^ 63 := by norm_num; omega
  unfold Allocator.next_largest_power_of_2
  have hw : wrap64 (v - 1) = Int.negSucc a := by
    rw [← ha]; apply wrap64_of_range <;> omega
  simp only [hw]
  show wrap64 (Int.negSucc (smearNeg a) + 1) = 0
  rw [smearNeg_eq_zero a ha63]
  rfl

theorem next_largest_power_of_2_large (v : Int) (h1 : 4611686018427387904 < v)
    (h2 : v < 9223372036854775808) :
    Allocator.next_largest_power_of_2 v = -9223372036854775808 := by
  obtain ⟨m, rfl⟩ : ∃ m : Nat, v = (m : Int) + 1 := ⟨(v - 1).toNat, by omega⟩
  have hm : m < 2 ^ 63 := by norm_num; omega
  have hge : 2 ^ (63 - 1) ≤ m := by norm_num; omega
  have hs := smear_eq m 63 hm (Or.inr hge) (by omega)
  rw [next_largest_power_of_2_of_nat m (by norm_num at hm; omega), hs]
  rfl

theorem next_largest_power_of_2_min :
    Allocator.next_largest_power_of_2 (-9223372036854775808) = -9223372036854775808 := by
  rfl

/-! ## The chunk map -/

theorem ChunkMap.find_cons (c : AllocatorChunk) (cs : ChunkMap) (a : Int) :
    ChunkMap.find (c :: cs) a = if c.address = a then some c else ChunkMap.find cs a := rfl

theorem ChunkMap.find_some {m : ChunkMap} {a : Int} {c : AllocatorChunk}
    (h : ChunkMap.find m a = some c) : c ∈ m ∧ c.address = a := by
  induction m with
  | nil => simp [ChunkMap.find] at h
  | cons x xs ih =>
    unfold ChunkMap.find at h
    split at h
    · cases h; simp_all
    · have := ih h; simp_all

theorem ChunkMap.find_eq_none {m : ChunkMap} {a : Int} :
    ChunkMap.find m a = none ↔ ∀ c ∈ m, c.address ≠ a := by
  induction m with
  | nil => simp [ChunkMap.find]
  | cons x xs ih =>
    unfold ChunkMap.find
    split <;> simp_all

theorem ChunkMap.find_of_mem {m : ChunkMap} {c : AllocatorChunk} (hs : ChunkMap.Sorted m)
    (h : c ∈ m) : ChunkMap.find m c.address = some c := by
  induction m with
  | nil => simp at h
  | cons x xs ih =>
    unfold ChunkMap.Sorted at hs
    rw [List.pairwise_cons] at hs
    unfold ChunkMap.find
    rcases List.mem_cons.mp h with rfl | hmem
    · simp
    · have := hs.1 c hmem
      rw [if_neg (by omega)]
      exact ih hs.2 hmem

theorem ChunkMap.find_update (m : ChunkMap) (a a' : Int) (f : AllocatorChunk → AllocatorChunk)
    (hf : ∀ c, (f c).address = c.address) :
    ChunkMap.find (ChunkMap.update m a f) a' =
      if a' = a then (ChunkMap.find m a).map f else ChunkMap.find m a' := by
  induction m with
  | nil => simp [ChunkMap.find, ChunkMap.update]
  | cons x xs ih =>
    unfold ChunkMap.update
    by_cases hx : x.address = a
    · rw [if_pos hx]
      unfold ChunkMap.find
      rw [hf x]
      by_cases ha : a' = a
      · subst ha; simp [hx]
      · have : ¬ x.address = a' := by omega
        simp [ha, this]
    · rw [if_neg hx]
      unfold ChunkMap.find
      by_cases hxa : x.address = a'
      · have : ¬ a' = a := by omega
        simp [hxa, this]
      · simp only [if_neg hxa, if_neg hx]
        exact ih

theorem ChunkMap.mem_update {m : ChunkMap} {a : Int} {f : AllocatorChunk → AllocatorChunk}
    {c : AllocatorChunk} (h : c ∈ ChunkMap.update m a f) :
    c ∈ m ∨ ∃ c0 ∈ m, c0.address = a ∧ c = f c0 := by
  induction m with
  | nil => simp [ChunkMap.update] at h
  | cons x xs ih =>
    unfold ChunkMap.update at h
    split at h
    · rcases List.mem_cons.mp h with rfl | hmem
      · exact Or.inr ⟨x, by simp, by assumption, rfl⟩
      · exact Or.inl (by simp [hmem])
    · rcases List.mem_cons.mp h with rfl | hmem
      · exact Or.inl (by simp)
      · rcases ih hmem with h1 | ⟨c0, h1, h2, h3⟩
        · exact Or.inl (by simp [h1])
        · exact Or.inr ⟨c0, by simp [h1], h2, h3⟩

theorem ChunkMap.sorted_update {m : ChunkMap} (a : Int) (f : AllocatorChunk → AllocatorChunk)
    (hf : ∀ c, (f c).address = c.address) (hs : ChunkMap.Sorted m) :
    ChunkMap.Sorted (ChunkMap.update m a f) := by
  induction m with
  | nil => simpa [ChunkMap.update] using hs
  | cons x xs ih =>
    unfold ChunkMap.Sorted at hs ⊢
    rw [List.pairwise_cons] at hs
    unfold ChunkMap.update
    split
    · rw [List.pairwise_cons]
      exact ⟨fun c hc => by rw [hf]; exact hs.1 c hc, hs.2⟩
    · rw [List.pairwise_cons]
      refine ⟨fun c hc => ?_, ih hs.2⟩
      rcases ChunkMap.mem_update hc with h1 | ⟨c0, h1, _, rfl⟩
      · exact hs.1 c h1
      · rw [hf]; exact hs.1 c0 h1

theorem ChunkMap.mem_of_mem_erase {m : ChunkMap} {a : Int} {c : AllocatorChunk}
    (h : c ∈ ChunkMap.erase m a) : c ∈ m := by
  induction m with
  | nil => simp [ChunkMap.erase] at h
  | cons x xs ih =>
    unfold ChunkMap.erase at h
    split at h
    · simp [h]
    · rcases List.mem_cons.mp h with rfl | hmem
      · simp
      · simp [ih hmem]

theorem ChunkMap.sorted_erase_chunk {m : ChunkMap} (a : Int) (hs : ChunkMap.Sorted m) :
    ChunkMap.Sorted (ChunkMap.erase m a) := by
  induction m with
  | nil => simpa [ChunkMap.erase] using hs
  | cons x xs ih =>
    unfold ChunkMap.Sorted at hs ⊢
    rw [List.pairwise_cons] at hs
    unfold ChunkMap.erase
    split
    · exact hs.2
    · rw [List.pairwise_cons]
      exact ⟨fun c hc => hs.1 c (ChunkMap.mem_of_mem_erase hc), ih hs.2⟩

theorem ChunkMap.find_erase {m : ChunkMap} (a a' : Int) (hs : ChunkMap.Sorted m) :
    ChunkMap.find (ChunkMap.erase m a) a' = if a' = a then none else ChunkMap.find m a' := by
  induction m with
  | nil => simp [ChunkMap.find, ChunkMap.erase]
  | cons x xs ih =>
    unfold ChunkMap.Sorted at hs
    rw [List.pairwise_cons] at hs
    unfold ChunkMap.erase
    by_cases hx : x.address = a
    · rw [if_pos hx]
      by_cases ha : a' = a
      · rw [if_pos ha, ChunkMap.find_eq_none]
        intro c hc
        have := hs.1 c hc
        omega
      · rw [if_neg ha, ChunkMap.find_cons]
        have : ¬ x.address = a' := by omega
        simp [this]
    · rw [if_neg hx]
      unfold ChunkMap.find
      by_cases hxa : x.address = a'
      · have : ¬ a' = a := by omega
        simp [hxa, this]
      · simp only [if_neg hxa]
        exact ih hs.2

theorem ChunkMap.length_erase {m : ChunkMap} {a : Int} {c : AllocatorChunk}
    (h : ChunkMap.find m a = some c) : (ChunkMap.erase m a).length + 1 = m.length := by
  induction m with
  | nil => simp [ChunkMap.find] at h
  | cons x xs ih =>
    unfold ChunkMap.find at h
    unfold ChunkMap.erase
    split at h
    · rename_i hx; simp [hx]
    · rename_i hx; simp [hx, ih h]

theorem ChunkMap.length_update (m : ChunkMap) (a : Int) (f : AllocatorChunk → AllocatorChunk) :
    (ChunkMap.update m a f).length = m.length := by
  induction m with
  | nil => simp [ChunkMap.update]
  | cons x xs ih =>
    unfold ChunkMap.update
    split <;> simp [ih]

theorem ChunkMap.insert_flag {m : ChunkMap} {ac : AllocatorChunk}
    (h : ChunkMap.find m ac.address = none) : (ChunkMap.insert m ac).2 = true := by
  induction m with
  | nil => simp [ChunkMap.insert]
  | cons x xs ih =>
    unfold ChunkMap.find at h
    unfold ChunkMap.insert
    split at h
    · simp at h
    · rename_i hx
      by_cases h1 : ac.address < x.address
      · simp [h1]
      · have h2 : ¬ ac.address = x.address := by omega
        simp only [if_neg h1, if_neg h2]
        exact ih h

theorem ChunkMap.insert_flag_false {m : ChunkMap} {ac c : AllocatorChunk}
    (hs : ChunkMap.Sorted m) (h : ChunkMap.find m ac.address = some c) :
    (ChunkMap.insert m ac).2 = false := by
  induction m with
  | nil => simp [ChunkMap.find] at h
  | cons x xs ih =>
    unfold ChunkMap.Sorted at hs
    rw [List.pairwise_cons] at hs
    unfold ChunkMap.find at h
    unfold ChunkMap.insert
    split at h
    · rename_i hx
      have h1 : ¬ ac.address < x.address := by omega
      simp [h1, hx]
    · rename_i hx
      have hmem := (ChunkMap.find_some h)
      have := hs.1 c hmem.1
      have h1 : ¬ ac.address < x.address := by omega
      have h2 : ¬ ac.address = x.address := by omega
      simp only [if_neg h1, if_neg h2]
      exact ih hs.2 h

theorem ChunkMap.mem_insert {m : ChunkMap} {ac c : AllocatorChunk}
    (h : c ∈ (ChunkMap.insert m ac).1) : c = ac ∨ c ∈ m := by
  induction m with
  | nil => simpa [ChunkMap.insert] using h
  | cons x xs ih =>
    unfold ChunkMap.insert at h
    split at h
    · simpa using h
    · split at h
      · exact Or.inr h
      · rcases List.mem_cons.mp h with rfl | hmem
        · simp
        · rcases ih hmem with h1 | h1
          · exact Or.inl h1
          · exact Or.inr (by simp [h1])

theorem ChunkMap.sorted_insert {m : ChunkMap} (ac : AllocatorChunk) (hs : ChunkMap.Sorted m) :
    ChunkMap.Sorted (ChunkMap.insert m ac).1 := by
  induction m with
  | nil => simp [ChunkMap.insert, ChunkMap.Sorted]
  | cons x xs ih =>
    unfold ChunkMap.Sorted at hs ⊢
    have hs' := hs
    rw [List.pairwise_cons] at hs
    unfold ChunkMap.insert
    split
    · rename_i h1
      rw [List.pairwise_cons]
      refine ⟨fun c hc => ?_, hs'⟩
      rcases List.mem_cons.mp hc with rfl | hmem
      · exact h1
      · have := hs.1 c hmem; omega
    · split
      · exact hs'
      · rename_i h1 h2
        rw [List.pairwise_cons]
        refine ⟨fun c hc => ?_, ih hs.2⟩
        rcases ChunkMap.mem_insert hc with rfl | hmem
        · omega
        · exact hs.1 c hmem

theorem ChunkMap.find_insert {m : ChunkMap} {ac : AllocatorChunk} (a' : Int)
    (h : (ChunkMap.insert m ac).2 = true) :
    ChunkMap.find (ChunkMap.insert m ac).1 a' =
      if a' = ac.address then some ac else ChunkMap.find m a' := by
  induction m with
  | nil =>
    simp only [ChunkMap.insert, ChunkMap.find]
    by_cases h1 : ac.address = a'
    · simp [h1]
    · have : ¬ a' = ac.address := by omega
      simp [h1, this]
  | cons x xs ih =>
    unfold ChunkMap.insert at h ⊢
    by_cases h1 : ac.address < x.address
    · simp only [if_pos h1]
      by_cases h3 : ac.address = a'
      · simp [ChunkMap.find, h3]
      · have : ¬ a' = ac.address := by omega
        simp [ChunkMap.find, h3, this]
    · by_cases h2 : ac.address = x.address
      · simp [h1, h2] at h
      · simp only [if_neg h1, if_neg h2] at h ⊢
        unfold ChunkMap.find
        by_cases h3 : x.address = a'
        · have : ¬ a' = ac.address := by omega
          simp [h3, this]
        · simp only [if_neg h3]
          exact ih h

theorem ChunkMap.length_insert {m : ChunkMap} {ac : AllocatorChunk}
    (h : (ChunkMap.insert m ac).2 = true) : (ChunkMap.insert m ac).1.length = m.length + 1 := by
  induction m with
  | nil => simp [ChunkMap.insert]
  | cons x xs ih =>
    unfold ChunkMap.insert at h ⊢
    by_cases h1 : ac.address < x.address
    · simp [h1]
    · by_cases h2 : ac.address = x.address
      · simp [h1, h2] at h
      · simp only [if_neg h1, if_neg h2] at h ⊢
        simp [ih h]

/-- Two sorted chunk maps with the same lookups are the same list. -/
theorem ChunkMap.ext_of_find {m m' : ChunkMap} (hs : ChunkMap.Sorted m) (hs' : ChunkMap.Sorted m')
    (h : ∀ a, ChunkMap.find m a = ChunkMap.find m' a) : m = m' := by
  induction m generalizing m' with
  | nil =>
    cases m' with
    | nil => rfl
    | cons y ys =>
      have := h y.address
      simp [ChunkMap.find] at this
  | cons x xs ih =>
    cases m' with
    | nil =>
      have := h x.address
      simp [ChunkMap.find] at this
    | cons y ys =>
      have hsx := hs
      have hsy := hs'
      unfold ChunkMap.Sorted at hsx hsy
      rw [List.pairwise_cons] at hsx hsy
      have hxy : x = y := by
        have h1 := h x.address
        have h2 := h y.address
        rw [ChunkMap.find_of_mem hs (by simp)] at h1
        rw [ChunkMap.find_of_mem hs' (by simp)] at h2
        have m1 := (ChunkMap.find_some h1.symm).1
        have m2 := (ChunkMap.find_some h2).1
        rcases List.mem_cons.mp m1 with e | e
        · exact e
        · rcases List.mem_cons.mp m2 with e' | e'
          · exact e'.symm
          · have := hsx.1 y e'
            have := hsy.1 x e
            omega
      subst hxy
      congr 1
      apply ih hsx.2 hsy.2
      intro a
      have := h a
      unfold ChunkMap.find at this
      by_cases hxa : x.address = a
      · have e1 : ChunkMap.find xs a = none := by
          rw [ChunkMap.find_eq_none]; intro c hc; have := hsx.1 c hc; omega
        have e2 : ChunkMap.find ys a = none := by
          rw [ChunkMap.find_eq_none]; intro c hc; have := hsy.1 c hc; omega
        rw [e1, e2]
      · simpa [hxa] using this

/-! ## The free-list map -/

theorem FreeListMap.get_cons (e : Nat × FreeList) (es : FreeListMap) (k : Nat) :
    FreeListMap.get (e :: es) k = if e.1 = k then e.2 else FreeListMap.get es k := rfl

theorem FreeListMap.get_put (fl : FreeListMap) (k k' : Nat) (l : FreeList) :
    FreeListMap.get (FreeListMap.put fl k l) k' = if k' = k then l else FreeListMap.get fl k' := by
  induction fl with
  | nil =>
    simp only [FreeListMap.put, FreeListMap.get]
    by_cases h : k = k'
    · simp [h]
    · have : ¬ k' = k := by omega
      simp [h, this]
  | cons e es ih =>
    unfold FreeListMap.put
    by_cases h1 : k < e.1
    · simp only [if_pos h1, FreeListMap.get_cons]
      by_cases h : k = k'
      · simp [h]
      · have : ¬ k' = k := by omega
        simp [h, this]
    · by_cases h2 : k = e.1
      · simp only [if_neg h1, if_pos h2, FreeListMap.get_cons]
        by_cases h : k' = k
        · simp [h, h2]
        · have : ¬ e.1 = k' := by omega
          simp [h, this, ← h2, Ne.symm h]
      · simp only [if_neg h1, if_neg h2, FreeListMap.get_cons]
        by_cases h3 : e.1 = k'
        · have : ¬ k' = k := by omega
          simp [h3, this]
        · simp only [if_neg h3]
          exact ih

theorem FreeListMap.mem_get {fl : FreeListMap} {k : Nat} {a : Int}
    (h : a ∈ FreeListMap.get fl k) : (k, FreeListMap.get fl k) ∈ fl := by
  induction fl with
  | nil => simp [FreeListMap.get] at h
  | cons e es ih =>
    rw [FreeListMap.get_cons] at h ⊢
    split at h
    · rename_i he
      rw [if_pos he, ← he]
      simp
    · rename_i he
      rw [if_neg he]
      simp [ih h]

theorem FreeListMap.get_of_mem {fl : FreeListMap} {e : Nat × FreeList}
    (hs : FreeListMap.Sorted fl) (h : e ∈ fl) : FreeListMap.get fl e.1 = e.2 := by
  induction fl with
  | nil => simp at h
  | cons x xs ih =>
    unfold FreeListMap.Sorted at hs
    rw [List.pairwise_cons] at hs
    rw [FreeListMap.get_cons]
    rcases List.mem_cons.mp h with rfl | hmem
    · simp
    · have := hs.1 e hmem
      rw [if_neg (by omega)]
      exact ih hs.2 hmem

theorem FreeListMap.get_eq_nil {fl : FreeListMap} {k : Nat}
    (h : ∀ e ∈ fl, e.1 ≠ k) : FreeListMap.get fl k = [] := by
  induction fl with
  | nil => rfl
  | cons x xs ih =>
    rw [FreeListMap.get_cons, if_neg (h x (by simp))]
    exact ih (fun e he => h e (by simp [he]))

theorem FreeListMap.mem_put {fl : FreeListMap} {k : Nat} {l : FreeList} {e : Nat × FreeList}
    (h : e ∈ FreeListMap.put fl k l) : e = (k, l) ∨ e ∈ fl := by
  induction fl with
  | nil => simpa [FreeListMap.put] using h
  | cons x xs ih =>
    unfold FreeListMap.put at h
    split at h
    · rcases List.mem_cons.mp h with rfl | hmem
      · exact Or.inl rfl
      · exact Or.inr hmem
    · split at h
      · rcases List.mem_cons.mp h with rfl | hmem
        · exact Or.inl rfl
        · exact Or.inr (by simp [hmem])
      · rcases List.mem_cons.mp h with rfl | hmem
        · exact Or.inr (by simp)
        · rcases ih hmem with h1 | h1
          · exact Or.inl h1
          · exact Or.inr (by simp [h1])

theorem FreeListMap.sorted_put {fl : FreeListMap} (k : Nat) (l : FreeList)
    (hs : FreeListMap.Sorted fl) : FreeListMap.Sorted (FreeListMap.put fl k l) := by
  induction fl with
  | nil => simp [FreeListMap.put, FreeListMap.Sorted]
  | cons x xs ih =>
    unfold FreeListMap.Sorted at hs ⊢
    have hs' := hs
    rw [List.pairwise_cons] at hs
    unfold FreeListMap.put
    split
    · rename_i h1
      rw [List.pairwise_cons]
      refine ⟨fun e he => ?_, hs'⟩
      rcases List.mem_cons.mp he with rfl | hmem
      · exact h1
      · have := hs.1 e hmem
        show k < e.1
        omega
    · split
      · rename_i h1 h2
        rw [List.pairwise_cons]
        refine ⟨fun e he => ?_, hs.2⟩
        have := hs.1 e he
        show k < e.1
        omega
      · rename_i h1 h2
        rw [List.pairwise_cons]
        refine ⟨fun e he => ?_, ih hs.2⟩
        rcases FreeListMap.mem_put he with rfl | hmem
        · show x.1 < k
          omega
        · exact hs.1 e hmem

theorem FreeListMap.entry_of_mem_erase {fl : FreeListMap} {k : Nat} {e : Nat × FreeList}
    (h : e ∈ FreeListMap.erase fl k) : e ∈ fl := by
  induction fl with
  | nil => simp [FreeListMap.erase] at h
  | cons x xs ih =>
    unfold FreeListMap.erase at h
    split at h
    · simp [h]
    · rcases List.mem_cons.mp h with rfl | hmem
      · simp
      · simp [ih hmem]

theorem FreeListMap.sorted_erase_key {fl : FreeListMap} (k : Nat) (hs : FreeListMap.Sorted fl) :
    FreeListMap.Sorted (FreeListMap.erase fl k) := by
  induction fl with
  | nil => simpa [FreeListMap.erase] using hs
  | cons x xs ih =>
    unfold FreeListMap.Sorted at hs ⊢
    rw [List.pairwise_cons] at hs
    unfold FreeListMap.erase
    split
    · exact hs.2
    · rw [List.pairwise_cons]
      exact ⟨fun e he => hs.1 e (FreeListMap.entry_of_mem_erase he), ih hs.2⟩

theorem FreeListMap.get_erase {fl : FreeListMap} (k k' : Nat) (hs : FreeListMap.Sorted fl) :
    FreeListMap.get (FreeListMap.erase fl k) k' =
      if k' = k then [] else FreeListMap.get fl k' := by
  induction fl with
  | nil => simp [FreeListMap.get, FreeListMap.erase]
  | cons x xs ih =>
    unfold FreeListMap.Sorted at hs
    rw [List.pairwise_cons] at hs
    unfold FreeListMap.erase
    by_cases hx : x.1 = k
    · rw [if_pos hx]
      by_cases hk : k' = k
      · rw [if_pos hk]
        apply FreeListMap.get_eq_nil
        intro e he
        have := hs.1 e he
        omega
      · rw [if_neg hk, FreeListMap.get_cons]
        have : ¬ x.1 = k' := by omega
        simp [this]
    · rw [if_neg hx, FreeListMap.get_cons, FreeListMap.get_cons]
      by_cases hxk : x.1 = k'
      · have : ¬ k' = k := by omega
        simp [hxk, this]
      · simp only [if_neg hxk]
        exact ih hs.2

theorem FreeListMap.lower_bound_some {fl : FreeListMap} {k : Nat} {e : Nat × FreeList}
    (hs : FreeListMap.Sorted fl) (h : FreeListMap.lower_bound fl k = some e) :
    e ∈ fl ∧ k ≤ e.1 ∧ ∀ e' ∈ fl, k ≤ e'.1 → e.1 ≤ e'.1 := by
  induction fl with
  | nil => simp [FreeListMap.lower_bound] at h
  | cons x xs ih =>
    unfold FreeListMap.Sorted at hs
    rw [List.pairwise_cons] at hs
    unfold FreeListMap.lower_bound at h
    split at h
    · rename_i hk
      cases h
      refine ⟨by simp, hk, fun e' he' _ => ?_⟩
      rcases List.mem_cons.mp he' with rfl | hmem
      · exact le_rfl
      · exact le_of_lt (hs.1 e' hmem)
    · rename_i hk
      obtain ⟨h1, h2, h3⟩ := ih hs.2 h
      refine ⟨by simp [h1], h2, fun e' he' hke => ?_⟩
      rcases List.mem_cons.mp he' with rfl | hmem
      · omega
      · exact h3 e' hmem hke

theorem FreeListMap.lower_bound_none {fl : FreeListMap} {k : Nat}
    (h : FreeListMap.lower_bound fl k = none) : ∀ e ∈ fl, e.1 < k := by
  induction fl with
  | nil => simp
  | cons x xs ih =>
    unfold FreeListMap.lower_bound at h
    split at h
    · simp at h
    · rename_i hk
      intro e he
      rcases List.mem_cons.mp he with rfl | hmem
      · omega
      · exact ih h e hmem

/-- Two sorted free-list maps without empty lists and with the same lookups are
the same list of entries. -/
theorem FreeListMap.ext_of_get {fl fl' : FreeListMap} (hs : FreeListMap.Sorted fl)
    (hs' : FreeListMap.Sorted fl') (hne : ∀ e ∈ fl, e.2 ≠ []) (hne' : ∀ e ∈ fl', e.2 ≠ [])
    (h : ∀ k, FreeListMap.get fl k = FreeListMap.get fl' k) : fl = fl' := by
  induction fl generalizing fl' with
  | nil =>
    cases fl' with
    | nil => rfl
    | cons y ys =>
      have := h y.1
      simp only [FreeListMap.get, if_true] at this
      exact absurd this.symm (hne' y (by simp))
  | cons x xs ih =>
    cases fl' with
    | nil =>
      have := h x.1
      simp only [FreeListMap.get, if_true] at this
      exact absurd this (hne x (by simp))
    | cons y ys =>
      have hsx := hs
      have hsy := hs'
      unfold FreeListMap.Sorted at hsx hsy
      rw [List.pairwise_cons] at hsx hsy
      have hx1 : FreeListMap.get (x :: xs) x.1 = x.2 := FreeListMap.get_of_mem hs (by simp)
      have hy1 : FreeListMap.get (y :: ys) y.1 = y.2 := FreeListMap.get_of_mem hs' (by simp)
      have hkey : x.1 = y.1 := by
        rcases Nat.lt_trichotomy x.1 y.1 with hlt | heq | hgt
        · have : FreeListMap.get (y :: ys) x.1 = [] := by
            apply FreeListMap.get_eq_nil
            intro e he
            rcases List.mem_cons.mp he with rfl | hmem
            · omega
            · have := hsy.1 e hmem; omega
          rw [← h, hx1] at this
          exact absurd this (hne x (by simp))
        · exact heq
        · have : FreeListMap.get (x :: xs) y.1 = [] := by
            apply FreeListMap.get_eq_nil
            intro e he
            rcases List.mem_cons.mp he with rfl | hmem
            · omega
            · have := hsx.1 e hmem; omega
          rw [h, hy1] at this
          exact absurd this (hne' y (by simp))
      have hval : x.2 = y.2 := by
        rw [← hx1, h, hkey, hy1]
      have hxy : x = y := Prod.ext hkey hval
      subst hxy
      congr 1
      apply ih hsx.2 hsy.2 (fun e he => hne e (by simp [he])) (fun e he => hne' e (by simp [he]))
      intro k
      have := h k
      rw [FreeListMap.get_cons, FreeListMap.get_cons] at this
      by_cases hxk : x.1 = k
      · have e1 : FreeListMap.get xs k = [] := by
          apply FreeListMap.get_eq_nil; intro e he; have := hsx.1 e he; omega
        have e2 : FreeListMap.get ys k = [] := by
          apply FreeListMap.get_eq_nil; intro e he; have := hsy.1 e he; omega
        rw [e1, e2]
      · simpa [hxk] using this

/-! ## Tilings -/

theorem tiles_bounds {m : ChunkMap} {lo hi : Int} (ht : Tiles lo m hi) :
    lo ≤ hi ∧ ∀ c ∈ m, lo ≤ c.address ∧ c.address + c.size ≤ hi := by
  induction m generalizing lo with
  | nil => simp [Tiles] at ht; simp [ht]
  | cons x xs ih =>
    obtain ⟨h1, h2⟩ := ht
    obtain ⟨h3, h4⟩ := ih h2
    refine ⟨by omega, fun c hc => ?_⟩
    rcases List.mem_cons.mp hc with rfl | hmem
    · omega
    · have := h4 c hmem; omega

theorem tiles_sorted {m : ChunkMap} {lo hi : Int} (ht : Tiles lo m hi)
    (hpos : ∀ c ∈ m, 0 < c.size) : ChunkMap.Sorted m := by
  induction m generalizing lo with
  | nil => simp [ChunkMap.Sorted]
  | cons x xs ih =>
    obtain ⟨h1, h2⟩ := ht
    unfold ChunkMap.Sorted
    rw [List.pairwise_cons]
    refine ⟨fun c hc => ?_, ih h2 (fun c hc => hpos c (by simp [hc]))⟩
    have := (tiles_bounds h2).2 c hc
    have := hpos x (by simp)
    omega

theorem tiles_update {m : ChunkMap} {lo hi : Int} (a : Int) (f : AllocatorChunk → AllocatorChunk)
    (hfa : ∀ c, (f c).address = c.address) (hfs : ∀ c, (f c).size = c.size)
    (ht : Tiles lo m hi) : Tiles lo (ChunkMap.update m a f) hi := by
  induction m generalizing lo with
  | nil => simpa [ChunkMap.update] using ht
  | cons x xs ih =>
    obtain ⟨h1, h2⟩ := ht
    unfold ChunkMap.update
    split
    · exact ⟨by rw [hfa]; exact h1, by rw [hfs]; exact h2⟩
    · exact ⟨h1, ih h2⟩

/-- Halving the chunk at `a` and inserting a new chunk for the cut-off part
keeps the tiling. -/
theorem tiles_split {m : ChunkMap} {lo hi a : Int} {c new : AllocatorChunk}
    (g : AllocatorChunk → AllocatorChunk)
    (ht : Tiles lo m hi) (hpos : ∀ c ∈ m, 0 < c.size)
    (hf : ChunkMap.find m a = some c) (hga : ∀ c, (g c).address = c.address)
    (hsz : (g c).size + new.size = c.size) (hg0 : 0 < (g c).size) (hn0 : 0 < new.size)
    (hna : new.address = a + (g c).size) :
    (ChunkMap.insert (ChunkMap.update m a g) new).2 = true ∧
      Tiles lo (ChunkMap.insert (ChunkMap.update m a g) new).1 hi := by
  induction m generalizing lo with
  | nil => simp [ChunkMap.find] at hf
  | cons x xs ih =>
    obtain ⟨h1, h2⟩ := ht
    rw [ChunkMap.find_cons] at hf
    unfold ChunkMap.update
    by_cases hx : x.address = a
    · rw [if_pos hx] at hf
      have hxc : x = c := Option.some.inj hf
      subst hxc
      rw [if_pos hx]
      have hgx : (g x).address = a := by rw [hga]; exact hx
      unfold ChunkMap.insert
      have e1 : ¬ new.address < (g x).address := by omega
      have e2 : ¬ new.address = (g x).address := by omega
      simp only [if_neg e1, if_neg e2]
      cases xs with
      | nil =>
        simp only [Tiles] at h2
        simp only [ChunkMap.insert, Tiles, true_and]
        refine ⟨by omega, by omega, ?_⟩
        have : (x.size : Int) = (g x).size + new.size := by exact_mod_cast hsz.symm
        omega
      | cons r rs =>
        obtain ⟨h3, h4⟩ := h2
        have hszi : (x.size : Int) = (g x).size + new.size := by exact_mod_cast hsz.symm
        have hn0' : (0 : Int) < new.size := by exact_mod_cast hn0
        unfold ChunkMap.insert
        have e3 : new.address < r.address := by omega
        simp only [if_pos e3, Tiles, true_and]
        refine ⟨by omega, by omega, by omega, ?_⟩
        have : lo + ↑(g x).size + ↑new.size = lo + x.size := by omega
        rw [this]; exact h4
    · rw [if_neg hx] at hf
      rw [if_neg hx]
      have hc := ChunkMap.find_some hf
      have hb := (tiles_bounds h2).2 c hc.1
      have hxpos := hpos x (by simp)
      have hg0' : (0 : Int) < (g c).size := by exact_mod_cast hg0
      unfold ChunkMap.insert
      have e1 : ¬ new.address < x.address := by omega
      have e2 : ¬ new.address = x.address := by omega
      simp only [if_neg e1, if_neg e2]
      obtain ⟨i1, i2⟩ := ih h2 (fun c hc => hpos c (by simp [hc])) hf
      exact ⟨i1, h1, i2⟩

/-- Erasing the chunk that follows the chunk at `l` and enlarging the latter by
the erased size keeps the tiling. -/
theorem tiles_merge {m : ChunkMap} {lo hi l : Int} {cl ch : AllocatorChunk}
    (g : AllocatorChunk → AllocatorChunk)
    (ht : Tiles lo m hi) (hpos : ∀ c ∈ m, 0 < c.size)
    (hl : ChunkMap.find m l = some cl) (hh : ChunkMap.find m (l + cl.size) = some ch)
    (hga : ∀ c, (g c).address = c.address) (hsz : (g cl).size = cl.size + ch.size) :
    Tiles lo (ChunkMap.update (ChunkMap.erase m (l + cl.size)) l g) hi := by
  induction m generalizing lo with
  | nil => simp [ChunkMap.find] at hl
  | cons x xs ih =>
    obtain ⟨h1, h2⟩ := ht
    have hxpos := hpos x (by simp)
    rw [ChunkMap.find_cons] at hl hh
    by_cases hx : x.address = l
    · rw [if_pos hx] at hl
      have hxc : x = cl := Option.some.inj hl
      subst hxc
      have e1 : ¬ x.address = l + x.size := by omega
      rw [if_neg e1] at hh
      cases xs with
      | nil => simp [ChunkMap.find] at hh
      | cons r rs =>
        obtain ⟨h3, h4⟩ := h2
        rw [ChunkMap.find_cons] at hh
        have e2 : r.address = l + x.size := by omega
        rw [if_pos e2] at hh
        have hrc : r = ch := Option.some.inj hh
        subst hrc
        unfold ChunkMap.erase
        rw [if_neg e1]
        unfold ChunkMap.erase
        rw [if_pos e2]
        unfold ChunkMap.update
        rw [if_pos hx]
        refine ⟨by rw [hga]; exact h1, ?_⟩
        have : lo + ((g x).size : Int) = lo + x.size + r.size := by
          rw [hsz]; push_cast; omega
        rw [this]; exact h4
    · rw [if_neg hx] at hl
      have hc := ChunkMap.find_some hl
      have hb := (tiles_bounds h2).2 cl hc.1
      have hclpos := hpos cl (by simp [hc.1])
      have e1 : ¬ x.address = l + cl.size := by omega
      rw [if_neg e1] at hh
      unfold ChunkMap.erase
      rw [if_neg e1]
      unfold ChunkMap.update
      rw [if_neg hx]
      exact ⟨h1, ih h2 (fun c hc => hpos c (by simp [hc])) hl hh⟩

/-- Appending a chunk at the end of a tiling (the constructor's step). -/
theorem tiles_snoc {m : ChunkMap} {lo hi : Int} {new : AllocatorChunk}
    (ht : Tiles lo m hi) (hpos : ∀ c ∈ m, 0 < c.size) (hna : new.address = hi) :
    (ChunkMap.insert m new).2 = true ∧ Tiles lo (ChunkMap.insert m new).1 (hi + new.size) := by
  induction m generalizing lo with
  | nil =>
    simp only [Tiles] at ht
    simp only [ChunkMap.insert, Tiles, true_and]
    omega
  | cons x xs ih =>
    obtain ⟨h1, h2⟩ := ht
    have hxpos := hpos x (by simp)
    have := (tiles_bounds h2).1
    unfold ChunkMap.insert
    have e1 : ¬ new.address < x.address := by omega
    have e2 : ¬ new.address = x.address := by omega
    simp only [if_neg e1, if_neg e2]
    obtain ⟨i1, i2⟩ := ih h2 (fun c hc => hpos c (by simp [hc]))
    exact ⟨i1, h1, i2⟩

/-- An address strictly inside a chunk is not a key of the map. -/
theorem tiles_interior {m : ChunkMap} {lo hi x : Int} {c : AllocatorChunk}
    (ht : Tiles lo m hi) (hc : c ∈ m) (h1 : c.address < x) (h2 : x < c.address + c.size) :
    ChunkMap.find m x = none := by
  induction m generalizing lo with
  | nil => simp at hc
  | cons y ys ih =>
    obtain ⟨t1, t2⟩ := ht
    rw [ChunkMap.find_cons]
    rcases List.mem_cons.mp hc with rfl | hmem
    · rw [if_neg (by omega), ChunkMap.find_eq_none]
      intro d hd
      have := (tiles_bounds t2).2 d hd
      omega
    · have := (tiles_bounds t2).2 c hmem
      rw [if_neg (by omega)]
      exact ih t2 hmem

/-! ## The free-list primitives -/

theorem FreeListMap.get_erase_slot {fl : FreeListMap} (k k' : Nat) (it : Int)
    (hs : FreeListMap.Sorted fl) :
    FreeListMap.get (FreeListMap.erase_slot fl k it) k' =
      if k' = k then (FreeListMap.get fl k).erase it else FreeListMap.get fl k' := by
  unfold FreeListMap.erase_slot
  simp only [FreeListMap.get_put, if_true]
  split
  · rename_i hlen
    rw [FreeListMap.get_erase _ _ (FreeListMap.sorted_put _ _ hs), FreeListMap.get_put]
    by_cases hk : k' = k
    · simp only [if_pos hk]
      exact (List.length_eq_zero.mp hlen).symm
    · simp only [if_neg hk]
  · rw [FreeListMap.get_put]

theorem FreeListMap.sorted_erase_slot {fl : FreeListMap} (k : Nat) (it : Int)
    (hs : FreeListMap.Sorted fl) : FreeListMap.Sorted (FreeListMap.erase_slot fl k it) := by
  unfold FreeListMap.erase_slot
  simp only
  split
  · exact FreeListMap.sorted_erase_key _ (FreeListMap.sorted_put _ _ hs)
  · exact FreeListMap.sorted_put _ _ hs

theorem FreeListMap.nonempty_erase_slot {fl : FreeListMap} (k : Nat) (it : Int)
    (hs : FreeListMap.Sorted fl) (hne : ∀ e ∈ fl, e.2 ≠ []) :
    ∀ e ∈ FreeListMap.erase_slot fl k it, e.2 ≠ [] := by
  intro e he
  have hsorted := FreeListMap.sorted_erase_slot k it hs
  have hget := FreeListMap.get_of_mem hsorted he
  rw [FreeListMap.get_erase_slot _ _ _ hs] at hget
  unfold FreeListMap.erase_slot at he
  simp only [FreeListMap.get_put, if_true] at he
  split at he
  · rename_i hlen
    have hmem := FreeListMap.entry_of_mem_erase he
    rcases FreeListMap.mem_put hmem with rfl | h1
    · -- the entry with key `k` was erased
      have hsp := FreeListMap.sorted_put k ((FreeListMap.get fl k).erase it) hs
      have hg := FreeListMap.get_of_mem (FreeListMap.sorted_erase_key k hsp) he
      rw [FreeListMap.get_erase _ _ hsp] at hg
      simp only [if_true] at hg
      intro hnil
      -- `he` says `(k, l)` is in the erased map, whose lookup at `k` is empty,
      -- while sortedness of the put map makes the key unique
      have hk := FreeListMap.get_of_mem hsp hmem
      simp only [FreeListMap.get_put, if_true] at hk
      -- use uniqueness of keys in `put` to contradict membership after erase
      clear hg hk hnil hget hsorted
      revert he
      generalize FreeListMap.put fl k ((FreeListMap.get fl k).erase it) = fl1 at hsp hmem ⊢
      intro he
      induction fl1 with
      | nil => simp [FreeListMap.erase] at he
      | cons x xs ih =>
        unfold FreeListMap.Sorted at hsp
        rw [List.pairwise_cons] at hsp
        unfold FreeListMap.erase at he
        by_cases hx : x.1 = k
        · rw [if_pos hx] at he
          have := hsp.1 _ he
          simp only at this
          omega
        · rw [if_neg hx] at he
          rcases List.mem_cons.mp he with h | h
          · rw [← h] at hx; simp at hx
          · rcases List.mem_cons.mp hmem with h' | h'
            · rw [← h'] at hx; simp at hx
            · exact ih hsp.2 h' h
    · exact hne e h1
  · rename_i hlen
    rcases FreeListMap.mem_put he with rfl | h1
    · intro hnil
      simp only at hnil
      rw [hnil] at hlen
      simp at hlen
    · exact hne e h1

theorem FreeListMap.get_push_front (fl : FreeListMap) (k k' : Nat) (it : Int) :
    FreeListMap.get (FreeListMap.push_front fl k it) k' =
      if k' = k then it :: FreeListMap.get fl k else FreeListMap.get fl k' := by
  unfold FreeListMap.push_front
  rw [FreeListMap.get_put]

theorem FreeListMap.sorted_push_front {fl : FreeListMap} (k : Nat) (it : Int)
    (hs : FreeListMap.Sorted fl) : FreeListMap.Sorted (FreeListMap.push_front fl k it) :=
  FreeListMap.sorted_put _ _ hs

theorem FreeListMap.nonempty_push_front {fl : FreeListMap} (k : Nat) (it : Int)
    (hne : ∀ e ∈ fl, e.2 ≠ []) : ∀ e ∈ FreeListMap.push_front fl k it, e.2 ≠ [] := by
  intro e he
  rcases FreeListMap.mem_put he with rfl | h1
  · simp
  · exact hne e h1

/-! ## The primitives of the allocator on states -/

theorem Allocator.remove_from_free_list_eq {st : Allocator} {it : Int} {c : AllocatorChunk}
    (hf : ChunkMap.find st.chunks_ it = some c)
    (hm : it ∈ FreeListMap.get st.free_lists_ c.size) :
    st.remove_from_free_list it = .ok (st.removed it c.size) := by
  simp [Allocator.remove_from_free_list, hf, hm, Allocator.removed]

theorem Allocator.remove_from_free_list_ok {st st' : Allocator} {it : Int}
    (h : st.remove_from_free_list it = .ok st') :
    ∃ c, ChunkMap.find st.chunks_ it = some c ∧ it ∈ FreeListMap.get st.free_lists_ c.size ∧
      st' = st.removed it c.size := by
  unfold Allocator.remove_from_free_list at h
  split at h
  · simp at h
  · rename_i c hf
    split at h
    · rename_i hm
      refine ⟨c, hf, hm, ?_⟩
      simp only [Except.ok.injEq] at h
      rw [← h]; rfl
    · simp at h

theorem Allocator.add_to_free_list_eq {st : Allocator} {it : Int} {c : AllocatorChunk}
    (hf : ChunkMap.find st.chunks_ it = some c) :
    st.add_to_free_list it = .ok (st.added it c.size) := by
  simp [Allocator.add_to_free_list, hf, Allocator.added]

theorem Allocator.add_to_free_list_ok {st st' : Allocator} {it : Int}
    (h : st.add_to_free_list it = .ok st') :
    ∃ c, ChunkMap.find st.chunks_ it = some c ∧ st' = st.added it c.size := by
  unfold Allocator.add_to_free_list at h
  split at h
  · simp at h
  · rename_i c hf
    refine ⟨c, hf, ?_⟩
    simp only [Except.ok.injEq] at h
    rw [← h]; rfl

theorem Allocator.add_to_chunk_map_eq {st : Allocator} {ac : AllocatorChunk}
    (h : (ChunkMap.insert st.chunks_ ac).2 = true) :
    st.add_to_chunk_map ac = .ok (st.inserted ac, ac.address) := by
  simp [Allocator.add_to_chunk_map, h, Allocator.inserted]

theorem Allocator.add_to_chunk_map_ok {st st' : Allocator} {ac : AllocatorChunk} {it : Int}
    (h : st.add_to_chunk_map ac = .ok (st', it)) :
    (ChunkMap.insert st.chunks_ ac).2 = true ∧ st' = st.inserted ac ∧ it = ac.address := by
  unfold Allocator.add_to_chunk_map at h
  split at h
  · rename_i hi
    simp only [Except.ok.injEq, Prod.mk.injEq] at h
    exact ⟨hi, by rw [← h.1]; rfl, h.2.symm⟩
  · simp at h

theorem Allocator.find_removed (st : Allocator) (it a : Int) (k : Nat) :
    ChunkMap.find (st.removed it k).chunks_ a =
      if a = it then (ChunkMap.find st.chunks_ it).map (fun c => { c with in_use := true })
      else ChunkMap.find st.chunks_ a :=
  ChunkMap.find_update _ _ _ _ (fun _ => rfl)

theorem Allocator.find_added (st : Allocator) (it a : Int) (k : Nat) :
    ChunkMap.find (st.added it k).chunks_ a =
      if a = it then (ChunkMap.find st.chunks_ it).map (fun c => { c with in_use := false })
      else ChunkMap.find st.chunks_ a :=
  ChunkMap.find_update _ _ _ _ (fun _ => rfl)

theorem Allocator.find_resized (st : Allocator) (it a : Int) (s : Nat) :
    ChunkMap.find (st.resized it s).chunks_ a =
      if a = it then (ChunkMap.find st.chunks_ it).map (fun c => { c with size := s })
      else ChunkMap.find st.chunks_ a :=
  ChunkMap.find_update _ _ _ _ (fun _ => rfl)

theorem Allocator.find_erased (st : Allocator) (it a : Int) (hs : ChunkMap.Sorted st.chunks_) :
    ChunkMap.find (st.erased it).chunks_ a =
      if a = it then none else ChunkMap.find st.chunks_ a :=
  ChunkMap.find_erase _ _ hs

theorem Allocator.find_inserted (st : Allocator) (ac : AllocatorChunk) (a : Int)
    (h : (ChunkMap.insert st.chunks_ ac).2 = true) :
    ChunkMap.find (st.inserted ac).chunks_ a =
      if a = ac.address then some ac else ChunkMap.find st.chunks_ a :=
  ChunkMap.find_insert _ h

theorem Allocator.get_removed (st : Allocator) (it : Int) (k k' : Nat)
    (hs : FreeListMap.Sorted st.free_lists_) :
    FreeListMap.get (st.removed it k).free_lists_ k' =
      if k' = k then (FreeListMap.get st.free_lists_ k).erase it
      else FreeListMap.get st.free_lists_ k' :=
  FreeListMap.get_erase_slot _ _ _ hs

theorem Allocator.get_added (st : Allocator) (it : Int) (k k' : Nat) :
    FreeListMap.get (st.added it k).free_lists_ k' =
      if k' = k then it :: FreeListMap.get st.free_lists_ k
      else FreeListMap.get st.free_lists_ k' :=
  FreeListMap.get_push_front _ _ _ _

/-- Free-list consistency is a property of the lookups of the two maps: taking a
free chunk off its list and marking it in use keeps it. -/
theorem FreeListsOK.take {st st' : Allocator} {it : Int} {c : AllocatorChunk} (c' : AllocatorChunk)
    (h : FreeListsOK st) (hf : ChunkMap.find st.chunks_ it = some c)
    (hs : FreeListMap.Sorted st'.free_lists_) (hne : ∀ e ∈ st'.free_lists_, e.2 ≠ [])
    (hget : ∀ k, FreeListMap.get st'.free_lists_ k =
      if k = c.size then (FreeListMap.get st.free_lists_ c.size).erase it
      else FreeListMap.get st.free_lists_ k)
    (hfind : ∀ a, ChunkMap.find st'.chunks_ a =
      if a = it then some c' else ChunkMap.find st.chunks_ a)
    (hc' : c'.in_use = true) : FreeListsOK st' := by
  refine ⟨hs, hne, fun k => ?_, fun k a => ?_⟩
  · rw [hget]
    split
    · exact (h.nodup _).erase _
    · exact h.nodup _
  · rw [hget, hfind]
    by_cases ha : a = it
    · subst ha
      simp only [if_true]
      constructor
      · intro hm
        exfalso
        split at hm
        · exact ((h.nodup _).mem_erase_iff.mp hm).1 rfl
        · rename_i hk
          obtain ⟨c0, h1, h2, _⟩ := (h.iff k a).mp hm
          rw [hf] at h1
          cases h1
          exact hk h2.symm
      · rintro ⟨c0, h1, _, h3⟩
        cases h1
        rw [hc'] at h3
        cases h3
    · simp only [if_neg ha]
      rw [← h.iff k a]
      split
      · rename_i hk
        subst hk
        rw [(h.nodup _).mem_erase_iff]
        simp [ha]
      · rfl

/-- Changing or erasing a chunk that is in use keeps free-list consistency. -/
theorem FreeListsOK.modify {st : Allocator} (st' : Allocator) {it : Int} (r : Option AllocatorChunk)
    (h : FreeListsOK st) (hnot : ∀ k, it ∉ FreeListMap.get st.free_lists_ k)
    (hfl : st'.free_lists_ = st.free_lists_)
    (hfind : ∀ a, ChunkMap.find st'.chunks_ a =
      if a = it then r else ChunkMap.find st.chunks_ a)
    (hr : ∀ c', r = some c' → c'.in_use = true) : FreeListsOK st' := by
  refine ⟨by rw [hfl]; exact h.sorted, by rw [hfl]; exact h.nonempty,
    fun k => by rw [hfl]; exact h.nodup k, fun k a => ?_⟩
  rw [hfl, hfind]
  by_cases ha : a = it
  · subst ha
    simp only [if_true]
    constructor
    · intro hm; exact absurd hm (hnot k)
    · rintro ⟨c0, h1, _, h3⟩
      rw [hr c0 h1] at h3
      cases h3
  · simp only [if_neg ha]
    exact h.iff k a

/-- Putting a chunk that is on no list at the front of the list of its size and
marking it free keeps free-list consistency. -/
theorem FreeListsOK.give {st st' : Allocator} {it : Int} (c' : AllocatorChunk)
    (h : FreeListsOK st) (hnot : ∀ k, it ∉ FreeListMap.get st.free_lists_ k)
    (hs : FreeListMap.Sorted st'.free_lists_) (hne : ∀ e ∈ st'.free_lists_, e.2 ≠ [])
    (hget : ∀ k, FreeListMap.get st'.free_lists_ k =
      if k = c'.size then it :: FreeListMap.get st.free_lists_ c'.size
      else FreeListMap.get st.free_lists_ k)
    (hfind : ∀ a, ChunkMap.find st'.chunks_ a =
      if a = it then some c' else ChunkMap.find st.chunks_ a)
    (hc' : c'.in_use = false) : FreeListsOK st' := by
  refine ⟨hs, hne, fun k => ?_, fun k a => ?_⟩
  · rw [hget]
    split
    · exact List.nodup_cons.mpr ⟨hnot _, h.nodup _⟩
    · exact h.nodup _
  · rw [hget, hfind]
    by_cases ha : a = it
    · subst ha
      simp only [if_true]
      constructor
      · intro hm
        split at hm
        · rename_i hk
          exact ⟨c', rfl, hk.symm, hc'⟩
        · exact absurd hm (hnot k)
      · rintro ⟨c0, h1, h2, _⟩
        cases h1
        simp [h2]
    · simp only [if_neg ha]
      rw [← h.iff k a]
      split
      · rename_i hk
        subst hk
        simp [ha]
      · rfl

/-! ## Consequences of the representation invariant -/

theorem IsPow2.size_pos {n : Nat} (h : IsPow2 n) : 0 < n := by
  obtain ⟨k, rfl⟩ := h
  exact Nat.pos_pow_of_pos k (by omega)

theorem IsPow2.half {h : Nat} (hp : IsPow2 (h + h)) : IsPow2 h := by
  obtain ⟨k, hk⟩ := hp
  cases k with
  | zero => simp at hk; omega
  | succ k => exact ⟨k, by rw [pow_succ] at hk; omega⟩

theorem IsPow2.double {h : Nat} (hp : IsPow2 h) : IsPow2 (h + h) := by
  obtain ⟨k, rfl⟩ := hp
  exact ⟨k + 1, by rw [pow_succ]; omega⟩

/-- Of two powers of two the smaller one is at most half the larger one. -/
theorem IsPow2.le_half {a b : Nat} (ha : IsPow2 a) (hb : IsPow2 b) (hlt : a < b) : a + a ≤ b := by
  obtain ⟨i, rfl⟩ := ha
  obtain ⟨j, rfl⟩ := hb
  have hij : i < j := (Nat.pow_lt_pow_iff_right (by omega)).mp hlt
  have : 2 ^ (i + 1) ≤ 2 ^ j := Nat.pow_le_pow_right (by omega) hij
  rw [pow_succ] at this
  omega

theorem Allocator.WF.sizes_pos {n : Int} {st : Allocator} (h : st.WF n) :
    ∀ c ∈ st.chunks_, 0 < c.size := fun c hc => (h.pow2 c hc).size_pos

theorem Allocator.WF.sorted {n : Int} {st : Allocator} (h : st.WF n) :
    ChunkMap.Sorted st.chunks_ := tiles_sorted h.tiles h.sizes_pos

theorem Allocator.WF.find_bounds {n : Int} {st : Allocator} (h : st.WF n) {a : Int}
    {c : AllocatorChunk} (hf : ChunkMap.find st.chunks_ a = some c) :
    c.address = a ∧ 0 ≤ a ∧ a + c.size ≤ n ∧ 0 < c.size ∧ IsPow2 c.size := by
  obtain ⟨hm, ha⟩ := ChunkMap.find_some hf
  have := (tiles_bounds h.tiles).2 c hm
  exact ⟨ha, by omega, by omega, h.sizes_pos c hm, h.pow2 c hm⟩

theorem FreeListsOK.not_mem_of_in_use {st : Allocator} (h : FreeListsOK st) {it : Int}
    {c : AllocatorChunk} (hf : ChunkMap.find st.chunks_ it = some c) (hu : c.in_use = true) :
    ∀ k, it ∉ FreeListMap.get st.free_lists_ k := by
  intro k hm
  obtain ⟨c0, h1, _, h3⟩ := (h.iff k it).mp hm
  rw [hf] at h1
  cases h1
  rw [hu] at h3
  cases h3

theorem FreeListsOK.not_mem_of_untracked {st : Allocator} (h : FreeListsOK st) {it : Int}
    (hf : ChunkMap.find st.chunks_ it = none) :
    ∀ k, it ∉ FreeListMap.get st.free_lists_ k := by
  intro k hm
  obtain ⟨c0, h1, _, _⟩ := (h.iff k it).mp hm
  rw [hf] at h1
  cases h1

theorem FreeListsOK.mem_of_free {st : Allocator} (h : FreeListsOK st) {it : Int}
    {c : AllocatorChunk} (hf : ChunkMap.find st.chunks_ it = some c) (hu : c.in_use = false) :
    it ∈ FreeListMap.get st.free_lists_ c.size :=
  (h.iff c.size it).mpr ⟨c, hf, rfl, hu⟩

theorem ChunkMap.update_cons (x : AllocatorChunk) (xs : ChunkMap) (a : Int)
    (f : AllocatorChunk → AllocatorChunk) :
    ChunkMap.update (x :: xs) a f =
      if x.address = a then f x :: xs else x :: ChunkMap.update xs a f := rfl

theorem ChunkMap.update_update (m : ChunkMap) (a : Int) (f g : AllocatorChunk → AllocatorChunk)
    (hf : ∀ c, (f c).address = c.address) :
    ChunkMap.update (ChunkMap.update m a f) a g = ChunkMap.update m a (fun c => g (f c)) := by
  induction m with
  | nil => rfl
  | cons x xs ih =>
    by_cases hx : x.address = a
    · have : (f x).address = a := by rw [hf]; exact hx
      simp only [ChunkMap.update_cons, if_pos hx, if_pos this]
    · simp only [ChunkMap.update_cons, if_neg hx, ih]

theorem toSizeT_natCast {h : Nat} (hh : h < 18446744073709551616) : toSizeT (h : Int) = h := by
  unfold toSizeT; omega

theorem Int.tdiv_double (h : Nat) : Int.tdiv (((h + h : Nat)) : Int) 2 = (h : Int) := by
  have : Int.tdiv (((h + h : Nat)) : Int) 2 = (((h + h) / 2 : Nat) : Int) := rfl
  rw [this]; congr 1; omega

theorem AllocatorChunk.new_address (a : Int) (s : Nat) : (AllocatorChunk.new a s).address = a := rfl

theorem AllocatorChunk.new_size (a : Int) (s : Nat) : (AllocatorChunk.new a s).size = s := rfl

theorem AllocatorChunk.new_in_use (a : Int) (s : Nat) : (AllocatorChunk.new a s).in_use = false := rfl

/-! ## One iteration of the splitting loop -/

theorem Allocator.sorted_removed {st : Allocator} (it : Int) (k : Nat)
    (hs : FreeListMap.Sorted st.free_lists_) :
    FreeListMap.Sorted (st.removed it k).free_lists_ :=
  FreeListMap.sorted_erase_slot _ _ hs

theorem Allocator.nonempty_removed {st : Allocator} (it : Int) (k : Nat)
    (hs : FreeListMap.Sorted st.free_lists_) (hne : ∀ e ∈ st.free_lists_, e.2 ≠ []) :
    ∀ e ∈ (st.removed it k).free_lists_, e.2 ≠ [] :=
  FreeListMap.nonempty_erase_slot _ _ hs hne

theorem Allocator.sorted_added {st : Allocator} (it : Int) (k : Nat)
    (hs : FreeListMap.Sorted st.free_lists_) :
    FreeListMap.Sorted (st.added it k).free_lists_ :=
  FreeListMap.sorted_push_front _ _ hs

theorem Allocator.nonempty_added {st : Allocator} (it : Int) (k : Nat)
    (hne : ∀ e ∈ st.free_lists_, e.2 ≠ []) :
    ∀ e ∈ (st.added it k).free_lists_, e.2 ≠ [] :=
  FreeListMap.nonempty_push_front _ _ hne

/-- Taking a free chunk off its list (`remove_from_free_list`) keeps free-list
consistency. -/
theorem FreeListsOK.removed {st : Allocator} {it : Int} {c : AllocatorChunk}
    (h : FreeListsOK st) (hf : ChunkMap.find st.chunks_ it = some c) :
    FreeListsOK (st.removed it c.size) := by
  apply FreeListsOK.take { c with in_use := true } h hf (Allocator.sorted_removed _ _ h.sorted)
    (Allocator.nonempty_removed _ _ h.sorted h.nonempty)
    (fun k => Allocator.get_removed _ _ _ _ h.sorted)
  · intro a
    rw [Allocator.find_removed, hf]; rfl
  · rfl

/-- Putting a chunk that is in use on the list of its size (`add_to_free_list`)
keeps free-list consistency. -/
theorem FreeListsOK.added {st : Allocator} {it : Int} {c : AllocatorChunk}
    (h : FreeListsOK st) (hf : ChunkMap.find st.chunks_ it = some c) (hu : c.in_use = true) :
    FreeListsOK (st.added it c.size) := by
  apply FreeListsOK.give { c with in_use := false } h (h.not_mem_of_in_use hf hu)
    (Allocator.sorted_added _ _ h.sorted) (Allocator.nonempty_added _ _ h.nonempty)
  · intro k; exact Allocator.get_added _ _ _ _
  · intro a
    rw [Allocator.find_added, hf]; rfl
  · rfl

theorem Allocator.split_spec {n : Int} {st : Allocator} {cmit : Int} {c : AllocatorChunk}
    {h : Nat} (hwf : st.WF n) (hf : ChunkMap.find st.chunks_ cmit = some c)
    (hfree : c.in_use = false) (hsz : c.size = h + h) (hh : 0 < h) :
    st.malloc_loop_body cmit (c.size : Int) = .ok (st.split cmit c.size h, cmit + h, (h : Int)) ∧
    (∀ a, ChunkMap.find (st.split cmit c.size h).chunks_ a =
      if a = cmit + h then some ⟨false, cmit + h, h⟩
      else if a = cmit then some ⟨false, cmit, h⟩ else ChunkMap.find st.chunks_ a) ∧
    (∀ k, FreeListMap.get (st.split cmit c.size h).free_lists_ k =
      if k = h then (cmit + h) :: cmit :: FreeListMap.get st.free_lists_ h
      else if k = c.size then (FreeListMap.get st.free_lists_ c.size).erase cmit
      else FreeListMap.get st.free_lists_ k) ∧
    (st.split cmit c.size h).WF n ∧ (st.split cmit c.size h).base_ = st.base_ := by
  obtain ⟨hca, hc0, hcn, hcpos, hcp2⟩ := hwf.find_bounds hf
  have hbound := hwf.bound
  have hhS : h ≠ c.size := by omega
  have hhi : ((h + h : Nat) : Int) = (h : Int) + h := by push_cast; rfl
  have hszi : (c.size : Int) = (h : Int) + h := by rw [hsz]; exact hhi
  have hp2h : IsPow2 h := by rw [hsz] at hcp2; exact hcp2.half
  have hmem : cmit ∈ FreeListMap.get st.free_lists_ c.size := hwf.fl.mem_of_free hf hfree
  -- state 1: off the free list
  have ok1 : FreeListsOK (st.removed cmit c.size) := hwf.fl.removed hf
  have f1 : ChunkMap.find (st.removed cmit c.size).chunks_ cmit = some ⟨true, c.address, c.size⟩ := by
    rw [Allocator.find_removed, hf]; simp
  -- state 2: size halved
  have f2 : ∀ a, ChunkMap.find ((st.removed cmit c.size).resized cmit h).chunks_ a =
      if a = cmit then some ⟨true, cmit, h⟩ else ChunkMap.find st.chunks_ a := by
    intro a
    rw [Allocator.find_resized, f1, Allocator.find_removed]
    by_cases ha : a = cmit <;> simp [ha, hca]
  have ok2 : FreeListsOK ((st.removed cmit c.size).resized cmit h) := by
    apply FreeListsOK.modify ((st.removed cmit c.size).resized cmit h) (some ⟨true, cmit, h⟩) ok1 (ok1.not_mem_of_in_use f1 rfl) rfl
    · intro a
      rw [f2, Allocator.find_removed]
      by_cases ha : a = cmit <;> simp [ha]
    · intro c' hc'; cases hc'; rfl
  -- state 3: back on the free list of the halved size
  have f2c := f2 cmit
  simp only [if_true] at f2c
  have ok3 := ok2.added f2c rfl
  simp only at ok3
  have f3 : ∀ a, ChunkMap.find (((st.removed cmit c.size).resized cmit h).added cmit h).chunks_ a
      = if a = cmit then some ⟨false, cmit, h⟩ else ChunkMap.find st.chunks_ a := by
    intro a
    rw [Allocator.find_added, f2c, f2]
    by_cases ha : a = cmit <;> simp [ha]
  -- the new chunk
  have hnone : ChunkMap.find st.chunks_ (cmit + h) = none :=
    tiles_interior hwf.tiles (ChunkMap.find_some hf).1 (by omega) (by omega)
  have hnone3 : ChunkMap.find (((st.removed cmit c.size).resized cmit h).added cmit h).chunks_
      (AllocatorChunk.new (cmit + h) h).address = none := by
    show ChunkMap.find _ (cmit + h) = none
    rw [f3, if_neg (by omega)]; exact hnone
  have hflag := ChunkMap.insert_flag hnone3
  have f4 : ∀ a, ChunkMap.find ((((st.removed cmit c.size).resized cmit h).added cmit h).inserted
      (AllocatorChunk.new (cmit + h) h)).chunks_ a =
      if a = cmit + h then some ⟨false, cmit + h, h⟩
      else if a = cmit then some ⟨false, cmit, h⟩ else ChunkMap.find st.chunks_ a := by
    intro a
    rw [Allocator.find_inserted _ _ _ hflag, f3]
    rfl
  have f5 : ∀ a, ChunkMap.find (st.split cmit c.size h).chunks_ a =
      if a = cmit + h then some ⟨false, cmit + h, h⟩
      else if a = cmit then some ⟨false, cmit, h⟩ else ChunkMap.find st.chunks_ a := by
    intro a
    unfold Allocator.split
    rw [Allocator.find_added, f4, f4]
    by_cases ha : a = cmit + h <;> simp [ha]
  have g5 : ∀ k, FreeListMap.get (st.split cmit c.size h).free_lists_ k =
      if k = h then (cmit + h) :: cmit :: FreeListMap.get st.free_lists_ h
      else if k = c.size then (FreeListMap.get st.free_lists_ c.size).erase cmit
      else FreeListMap.get st.free_lists_ k := by
    intro k
    unfold Allocator.split
    rw [Allocator.get_added]
    show (if k = h then (cmit + ↑h) ::
        FreeListMap.get (((st.removed cmit c.size).resized cmit h).added cmit h).free_lists_ h
      else FreeListMap.get (((st.removed cmit c.size).resized cmit h).added cmit h).free_lists_ k) = _
    rw [Allocator.get_added, Allocator.get_added]
    show (if k = h then (cmit + ↑h) :: (if h = h then
        cmit :: FreeListMap.get (st.removed cmit c.size).free_lists_ h
        else FreeListMap.get (st.removed cmit c.size).free_lists_ h)
      else if k = h then cmit :: FreeListMap.get (st.removed cmit c.size).free_lists_ h
        else FreeListMap.get (st.removed cmit c.size).free_lists_ k) = _
    rw [Allocator.get_removed _ _ _ _ hwf.fl.sorted, Allocator.get_removed _ _ _ _ hwf.fl.sorted]
    by_cases hk : k = h
    · simp [hk, hhS]
    · simp [hk]
  refine ⟨?_, f5, g5, ?_, rfl⟩
  · -- the body runs without fault
    unfold Allocator.malloc_loop_body
    rw [Allocator.remove_from_free_list_eq hf hmem]
    simp only
    have htd : Int.tdiv (c.size : Int) 2 = (h : Int) := by
      rw [hsz]; exact Int.tdiv_double h
    have hts : toSizeT (h : Int) = h := toSizeT_natCast (by omega)
    rw [htd, hts]
    have e2 : ({ (st.removed cmit c.size) with
        chunks_ := (st.removed cmit c.size).chunks_.update cmit (fun c => { c with size := h }) }
        : Allocator) = (st.removed cmit c.size).resized cmit h := rfl
    rw [e2, Allocator.add_to_free_list_eq f2c]
    simp only
    rw [f3 cmit]
    simp only [if_true]
    have hw : wrap64 (cmit + (h : Int)) = cmit + h := wrap64_of_range (by omega) (by omega)
    rw [hw, Allocator.add_to_chunk_map_eq hflag]
    simp only
    have f4n := f4 (cmit + h)
    simp only [if_true] at f4n
    simp only [AllocatorChunk.new_address]
    rw [Allocator.add_to_free_list_eq f4n]
    rfl
  · -- the invariant
    have hsorted5 : ChunkMap.Sorted (st.split cmit c.size h).chunks_ := by
      unfold Allocator.split Allocator.added Allocator.inserted Allocator.resized Allocator.removed
      simp only
      refine ChunkMap.sorted_update _ _ (fun _ => rfl) ?_
      apply ChunkMap.sorted_insert
      refine ChunkMap.sorted_update _ _ (fun _ => rfl) ?_
      refine ChunkMap.sorted_update _ _ (fun _ => rfl) ?_
      refine ChunkMap.sorted_update _ _ (fun _ => rfl) ?_
      exact hwf.sorted
    refine ⟨?_, hbound, ?_, ?_⟩
    · unfold Allocator.split Allocator.added Allocator.inserted Allocator.resized Allocator.removed
      simp only
      refine tiles_update _ _ (fun _ => rfl) (fun _ => rfl) ?_
      rw [ChunkMap.update_update, ChunkMap.update_update]
      rotate_left
      · intro _; rfl
      · intro _; rfl
      refine (tiles_split _ hwf.tiles hwf.sizes_pos hf ?_ ?_ ?_ ?_ ?_).2
      · intro _; rfl
      · show h + h = c.size
        omega
      · exact hh
      · exact hh
      · rfl
    · intro c' hc'
      have hfc := ChunkMap.find_of_mem hsorted5 hc'
      rw [f5] at hfc
      split at hfc
      · cases hfc; exact hp2h
      · split at hfc
        · cases hfc; exact hp2h
        · exact (hwf.find_bounds hfc).2.2.2.2
    · have hnot : ∀ k, (cmit + (h : Int)) ∉ FreeListMap.get
          (((st.removed cmit c.size).resized cmit h).added cmit h).free_lists_ k :=
        ok3.not_mem_of_untracked hnone3
      apply FreeListsOK.give ⟨false, cmit + h, h⟩ ok3 hnot
      · exact Allocator.sorted_added _ _ ok3.sorted
      · exact Allocator.nonempty_added _ _ ok3.nonempty
      · intro k
        exact Allocator.get_added _ _ _ _
      · intro a
        rw [f5, f3]
      · rfl

/-! ## One merge of two buddies -/

theorem ChunkMap.update_congr (m : ChunkMap) (a : Int) (f g : AllocatorChunk → AllocatorChunk)
    (h : ∀ c, ChunkMap.find m a = some c → f c = g c) :
    ChunkMap.update m a f = ChunkMap.update m a g := by
  induction m with
  | nil => rfl
  | cons x xs ih =>
    rw [ChunkMap.update_cons, ChunkMap.update_cons]
    by_cases hx : x.address = a
    · simp only [if_pos hx]
      rw [h x (by rw [ChunkMap.find_cons, if_pos hx])]
    · simp only [if_neg hx]
      rw [ih (fun c hc => h c (by rw [ChunkMap.find_cons, if_neg hx]; exact hc))]

theorem ChunkMap.erase_update (m : ChunkMap) (a : Int) (f : AllocatorChunk → AllocatorChunk)
    (hf : ∀ c, (f c).address = c.address) :
    ChunkMap.erase (ChunkMap.update m a f) a = ChunkMap.erase m a := by
  induction m with
  | nil => rfl
  | cons x xs ih =>
    rw [ChunkMap.update_cons]
    by_cases hx : x.address = a
    · simp only [if_pos hx]
      unfold ChunkMap.erase
      rw [if_pos (by rw [hf]; exact hx), if_pos hx]
    · simp only [if_neg hx]
      unfold ChunkMap.erase
      rw [if_neg hx, if_neg hx, ih]

theorem Allocator.merge_spec {n : Int} {st : Allocator} (address buddy : Int) {lo hi : Int}
    {cl ch : AllocatorChunk} {s : Nat} (hwf : st.WF n)
    (hl : ChunkMap.find st.chunks_ lo = some cl) (hh : ChunkMap.find st.chunks_ hi = some ch)
    (hhi : hi = lo + s) (hls : cl.size = s) (hhs : ch.size = s)
    (hlf : cl.in_use = false) (hhf : ch.in_use = false)
    (hab : (address = lo ∧ buddy = hi) ∨ (address = hi ∧ buddy = lo)) :
    st.merge_with_buddy address buddy = .ok (st.merged lo hi s, lo) ∧
    (∀ a, ChunkMap.find (st.merged lo hi s).chunks_ a =
      if a = lo then some ⟨false, lo, s + s⟩
      else if a = hi then none else ChunkMap.find st.chunks_ a) ∧
    (∀ k, FreeListMap.get (st.merged lo hi s).free_lists_ k =
      if k = s + s then lo :: FreeListMap.get st.free_lists_ (s + s)
      else if k = s then ((FreeListMap.get st.free_lists_ s).erase hi).erase lo
      else FreeListMap.get st.free_lists_ k) ∧
    (st.merged lo hi s).WF n ∧ (st.merged lo hi s).base_ = st.base_ ∧
    (st.merged lo hi s).chunks_.length + 1 = st.chunks_.length := by
  obtain ⟨hla, hl0, hln, hlpos, hlp2⟩ := hwf.find_bounds hl
  obtain ⟨hha, hh0, hhn, hhpos, hhp2⟩ := hwf.find_bounds hh
  have hbound := hwf.bound
  subst hls
  have hne : lo ≠ hi := by omega
  have hss : cl.size ≠ cl.size + cl.size := by omega
  -- state 1: the higher chunk off its list
  have ok1 : FreeListsOK (st.removed hi cl.size) := by
    have := hwf.fl.removed hh
    rw [hhs] at this; exact this
  have f1 : ∀ a, ChunkMap.find (st.removed hi cl.size).chunks_ a =
      if a = hi then some ⟨true, hi, cl.size⟩ else ChunkMap.find st.chunks_ a := by
    intro a
    rw [Allocator.find_removed, hh]
    by_cases ha : a = hi <;> simp [ha, hha, hhs]
  have s1 : ChunkMap.Sorted (st.removed hi cl.size).chunks_ :=
    ChunkMap.sorted_update _ _ (fun _ => rfl) hwf.sorted
  have g1 : ∀ k, FreeListMap.get (st.removed hi cl.size).free_lists_ k =
      if k = cl.size then (FreeListMap.get st.free_lists_ cl.size).erase hi
      else FreeListMap.get st.free_lists_ k :=
    fun k => Allocator.get_removed _ _ _ _ hwf.fl.sorted
  -- state 2: the higher chunk erased
  have f2 : ∀ a, ChunkMap.find ((st.removed hi cl.size).erased hi).chunks_ a =
      if a = hi then none else ChunkMap.find st.chunks_ a := by
    intro a
    rw [Allocator.find_erased _ _ _ s1, f1]
    by_cases ha : a = hi <;> simp [ha]
  have s2 : ChunkMap.Sorted ((st.removed hi cl.size).erased hi).chunks_ :=
    ChunkMap.sorted_erase_chunk _ s1
  have f1h := f1 hi
  simp only [if_true] at f1h
  have ok2 : FreeListsOK ((st.removed hi cl.size).erased hi) := by
    apply FreeListsOK.modify ((st.removed hi cl.size).erased hi) none ok1
      (ok1.not_mem_of_in_use f1h rfl) rfl
    · intro a
      rw [f2, f1]
      by_cases ha : a = hi <;> simp [ha]
    · intro c' hc'; cases hc'
  -- state 3: the lower chunk off its list
  have f2l : ChunkMap.find ((st.removed hi cl.size).erased hi).chunks_ lo = some cl := by
    rw [f2, if_neg hne]; exact hl
  have ok3 := ok2.removed f2l
  have f3 : ∀ a, ChunkMap.find (((st.removed hi cl.size).erased hi).removed lo cl.size).chunks_ a =
      if a = lo then some ⟨true, lo, cl.size⟩
      else if a = hi then none else ChunkMap.find st.chunks_ a := by
    intro a
    rw [Allocator.find_removed, f2l, f2]
    by_cases ha : a = lo <;> simp [ha, hla]
  have g3 : ∀ k, FreeListMap.get
      (((st.removed hi cl.size).erased hi).removed lo cl.size).free_lists_ k =
      if k = cl.size then ((FreeListMap.get st.free_lists_ cl.size).erase hi).erase lo
      else FreeListMap.get st.free_lists_ k := by
    intro k
    rw [Allocator.get_removed _ _ _ _ ok2.sorted]
    show (if k = cl.size then (FreeListMap.get (st.removed hi cl.size).free_lists_ cl.size).erase lo
      else FreeListMap.get (st.removed hi cl.size).free_lists_ k) = _
    rw [g1, g1]
    by_cases hk : k = cl.size <;> simp [hk]
  -- state 4: size doubled
  have f3l := f3 lo
  simp only [if_true] at f3l
  have f4 : ∀ a, ChunkMap.find
      ((((st.removed hi cl.size).erased hi).removed lo cl.size).resized lo
        (cl.size + cl.size)).chunks_ a =
      if a = lo then some ⟨true, lo, cl.size + cl.size⟩
      else if a = hi then none else ChunkMap.find st.chunks_ a := by
    intro a
    rw [Allocator.find_resized, f3l, f3]
    by_cases ha : a = lo <;> simp [ha]
  have ok4 : FreeListsOK ((((st.removed hi cl.size).erased hi).removed lo cl.size).resized lo
      (cl.size + cl.size)) := by
    apply FreeListsOK.modify ((((st.removed hi cl.size).erased hi).removed lo cl.size).resized lo
      (cl.size + cl.size)) (some ⟨true, lo, cl.size + cl.size⟩) ok3
      (ok3.not_mem_of_in_use f3l rfl) rfl
    · intro a
      rw [f4, f3]
      by_cases ha : a = lo <;> simp [ha]
    · intro c' hc'; cases hc'; rfl
  -- state 5: on the list of the doubled size
  have f4l := f4 lo
  simp only [if_true] at f4l
  have ok5 := ok4.added f4l rfl
  simp only at ok5
  have f5 : ∀ a, ChunkMap.find (st.merged lo hi cl.size).chunks_ a =
      if a = lo then some ⟨false, lo, cl.size + cl.size⟩
      else if a = hi then none else ChunkMap.find st.chunks_ a := by
    intro a
    unfold Allocator.merged
    rw [Allocator.find_added, f4l, f4]
    by_cases ha : a = lo <;> simp [ha]
  have g5 : ∀ k, FreeListMap.get (st.merged lo hi cl.size).free_lists_ k =
      if k = cl.size + cl.size then lo :: FreeListMap.get st.free_lists_ (cl.size + cl.size)
      else if k = cl.size then ((FreeListMap.get st.free_lists_ cl.size).erase hi).erase lo
      else FreeListMap.get st.free_lists_ k := by
    intro k
    unfold Allocator.merged
    rw [Allocator.get_added]
    show (if k = cl.size + cl.size then lo :: FreeListMap.get
        (((st.removed hi cl.size).erased hi).removed lo cl.size).free_lists_ (cl.size + cl.size)
      else FreeListMap.get
        (((st.removed hi cl.size).erased hi).removed lo cl.size).free_lists_ k) = _
    rw [g3, g3]
    by_cases hk : k = cl.size + cl.size
    · simp [hk, Ne.symm hss]
    · simp [hk]
  have hsorted5 : ChunkMap.Sorted (st.merged lo hi cl.size).chunks_ := by
    unfold Allocator.merged Allocator.added Allocator.resized Allocator.removed Allocator.erased
    simp only
    refine ChunkMap.sorted_update _ _ (fun _ => rfl) ?_
    refine ChunkMap.sorted_update _ _ (fun _ => rfl) ?_
    refine ChunkMap.sorted_update _ _ (fun _ => rfl) ?_
    apply ChunkMap.sorted_erase_chunk
    refine ChunkMap.sorted_update _ _ (fun _ => rfl) ?_
    exact hwf.sorted
  have hchunks : (st.merged lo hi cl.size).chunks_ =
      ChunkMap.update (ChunkMap.erase st.chunks_ hi) lo
        (fun c => { in_use := false, address := c.address, size := cl.size + cl.size }) := by
    unfold Allocator.merged Allocator.added Allocator.resized Allocator.removed Allocator.erased
    simp only
    rw [ChunkMap.erase_update, ChunkMap.update_update, ChunkMap.update_update]
    · intro _; rfl
    · intro _; rfl
    · intro _; rfl
  refine ⟨?_, f5, g5, ⟨?_, hbound, ?_, ok5⟩, rfl, ?_⟩
  · -- the merge runs without fault
    have hhigh : (if address < buddy then buddy else address) = hi := by
      rcases hab with ⟨rfl, rfl⟩ | ⟨rfl, rfl⟩
      · rw [if_pos (by omega)]
      · rw [if_neg (by omega)]
    have hlow : (if address < buddy then address else buddy) = lo := by
      rcases hab with ⟨rfl, rfl⟩ | ⟨rfl, rfl⟩
      · rw [if_pos (by omega)]
      · rw [if_neg (by omega)]
    unfold Allocator.merge_with_buddy
    simp only [hhigh, hlow]
    have hmh : hi ∈ FreeListMap.get st.free_lists_ ch.size := hwf.fl.mem_of_free hh hhf
    rw [Allocator.remove_from_free_list_eq hh hmh, hhs]
    simp only
    have e2 : ({ (st.removed hi cl.size) with
        chunks_ := ChunkMap.erase (st.removed hi cl.size).chunks_ hi } : Allocator)
        = (st.removed hi cl.size).erased hi := rfl
    rw [e2]
    have hml : lo ∈ FreeListMap.get ((st.removed hi cl.size).erased hi).free_lists_ cl.size :=
      ok2.mem_of_free f2l hlf
    rw [Allocator.remove_from_free_list_eq f2l hml]
    simp only
    have hupd : ChunkMap.update (((st.removed hi cl.size).erased hi).removed lo cl.size).chunks_ lo
          (fun c => { c with size := (c.size * 2) % 18446744073709551616 })
        = ChunkMap.update (((st.removed hi cl.size).erased hi).removed lo cl.size).chunks_ lo
          (fun c => { c with size := cl.size + cl.size }) := by
      apply ChunkMap.update_congr
      intro c hc
      rw [f3l] at hc
      cases hc
      simp only
      congr 1
      have : ((cl.size + cl.size : Nat) : Int) ≤ n := by push_cast; omega
      omega
    have e4 : ({ (((st.removed hi cl.size).erased hi).removed lo cl.size) with
        chunks_ := (((st.removed hi cl.size).erased hi).removed lo cl.size).chunks_.update lo
          (fun c => { c with size := (c.size * 2) % 18446744073709551616 }) } : Allocator)
        = (((st.removed hi cl.size).erased hi).removed lo cl.size).resized lo
            (cl.size + cl.size) := by
      unfold Allocator.resized
      simp only [hupd]
    rw [e4, Allocator.add_to_free_list_eq f4l]
    rfl
  · rw [hchunks]
    have hh' : ChunkMap.find st.chunks_ (lo + cl.size) = some ch := by rw [← hhi]; exact hh
    have := tiles_merge (fun c => { in_use := false, address := c.address, size := cl.size + cl.size })
      hwf.tiles hwf.sizes_pos hl hh' (fun _ => rfl) (by simp [hhs])
    rw [← hhi] at this
    exact this
  · intro c' hc'
    have hfc := ChunkMap.find_of_mem hsorted5 hc'
    rw [f5] at hfc
    split at hfc
    · cases hfc; exact hlp2.double
    · split at hfc
      · cases hfc
      · exact (hwf.find_bounds hfc).2.2.2.2
  · rw [hchunks, ChunkMap.length_update, ChunkMap.length_erase hh]

/-! ## The end of `malloc` and the start of `free` -/

theorem Allocator.find_marked (st : Allocator) (it a : Int) :
    ChunkMap.find (st.marked it).chunks_ a =
      if a = it then (ChunkMap.find st.chunks_ it).map (fun c => { c with in_use := true })
      else ChunkMap.find st.chunks_ a :=
  ChunkMap.find_update _ _ _ _ (fun _ => rfl)

theorem Allocator.malloc_finish_spec {n : Int} {st : Allocator} {cmit : Int}
    {c : AllocatorChunk} (hwf : st.WF n) (hf : ChunkMap.find st.chunks_ cmit = some c)
    (hfree : c.in_use = false) :
    st.malloc_finish cmit = .ok (st.removed cmit c.size, wrap64 (cmit + st.base_)) ∧
    (∀ a, ChunkMap.find (st.removed cmit c.size).chunks_ a =
      if a = cmit then some ⟨true, cmit, c.size⟩ else ChunkMap.find st.chunks_ a) ∧
    (∀ k, FreeListMap.get (st.removed cmit c.size).free_lists_ k =
      if k = c.size then (FreeListMap.get st.free_lists_ c.size).erase cmit
      else FreeListMap.get st.free_lists_ k) ∧
    (st.removed cmit c.size).WF n ∧ (st.removed cmit c.size).base_ = st.base_ := by
  obtain ⟨hca, hc0, hcn, hcpos, hcp2⟩ := hwf.find_bounds hf
  have f1 : ∀ a, ChunkMap.find (st.removed cmit c.size).chunks_ a =
      if a = cmit then some ⟨true, cmit, c.size⟩ else ChunkMap.find st.chunks_ a := by
    intro a
    rw [Allocator.find_removed, hf]
    by_cases ha : a = cmit <;> simp [ha, hca]
  have hsorted : ChunkMap.Sorted (st.removed cmit c.size).chunks_ :=
    ChunkMap.sorted_update _ _ (fun _ => rfl) hwf.sorted
  refine ⟨?_, f1, fun k => Allocator.get_removed _ _ _ _ hwf.fl.sorted,
    ⟨?_, hwf.bound, ?_, hwf.fl.removed hf⟩, rfl⟩
  · unfold Allocator.malloc_finish
    rw [if_neg (by rw [hf]; simp)]
    simp only
    have e0 : ({ st with
        chunks_ := st.chunks_.update cmit (fun c => { c with in_use := true }) } : Allocator)
        = st.marked cmit := rfl
    rw [e0]
    have hf2 : ChunkMap.find (st.marked cmit).chunks_ cmit = some { c with in_use := true } := by
      rw [Allocator.find_marked, if_pos rfl, hf]; rfl
    have hm2 : cmit ∈ FreeListMap.get (st.marked cmit).free_lists_
        ({ c with in_use := true } : AllocatorChunk).size :=
      (hwf.fl.mem_of_free hf hfree : cmit ∈ FreeListMap.get st.free_lists_ c.size)
    rw [Allocator.remove_from_free_list_eq hf2 hm2]
    have e : ((st.marked cmit).removed cmit
        ({ c with in_use := true } : AllocatorChunk).size) = st.removed cmit c.size := by
      unfold Allocator.removed Allocator.marked
      simp only
      rw [ChunkMap.update_update]
      intro _; rfl
    rw [e]
    simp only
    rw [f1 cmit, if_pos rfl]
    rfl
  · exact tiles_update _ _ (fun _ => rfl) (fun _ => rfl) hwf.tiles
  · intro c' hc'
    have hfc := ChunkMap.find_of_mem hsorted hc'
    rw [f1] at hfc
    split at hfc
    · cases hfc; exact hcp2
    · exact (hwf.find_bounds hfc).2.2.2.2

theorem Allocator.added_spec {n : Int} {st : Allocator} {it : Int}
    {c : AllocatorChunk} (hwf : st.WF n) (hf : ChunkMap.find st.chunks_ it = some c)
    (hu : c.in_use = true) :
    st.add_to_free_list it = .ok (st.added it c.size) ∧
    (∀ a, ChunkMap.find (st.added it c.size).chunks_ a =
      if a = it then some ⟨false, it, c.size⟩ else ChunkMap.find st.chunks_ a) ∧
    (∀ k, FreeListMap.get (st.added it c.size).free_lists_ k =
      if k = c.size then it :: FreeListMap.get st.free_lists_ c.size
      else FreeListMap.get st.free_lists_ k) ∧
    (st.added it c.size).WF n ∧ (st.added it c.size).base_ = st.base_ ∧
    (st.added it c.size).chunks_.length = st.chunks_.length := by
  obtain ⟨hca, hc0, hcn, hcpos, hcp2⟩ := hwf.find_bounds hf
  have f1 : ∀ a, ChunkMap.find (st.added it c.size).chunks_ a =
      if a = it then some ⟨false, it, c.size⟩ else ChunkMap.find st.chunks_ a := by
    intro a
    rw [Allocator.find_added, hf]
    by_cases ha : a = it <;> simp [ha, hca]
  have hsorted : ChunkMap.Sorted (st.added it c.size).chunks_ :=
    ChunkMap.sorted_update _ _ (fun _ => rfl) hwf.sorted
  refine ⟨Allocator.add_to_free_list_eq hf, f1, fun k => Allocator.get_added _ _ _ _,
    ⟨?_, hwf.bound, ?_, hwf.fl.added hf hu⟩, rfl, ChunkMap.length_update _ _ _⟩
  · exact tiles_update _ _ (fun _ => rfl) (fun _ => rfl) hwf.tiles
  · intro c' hc'
    have hfc := ChunkMap.find_of_mem hsorted hc'
    rw [f1] at hfc
    split at hfc
    · cases hfc; exact hcp2
    · exact (hwf.find_bounds hfc).2.2.2.2

/-! ## The loops -/

/-- The splitting loop of `malloc` for a positive power-of-two allocation size:
it terminates within the iteration bound, keeps the representation invariant
and every property `P` that one splitting step keeps, and ends on a free chunk
of exactly the allocation size. -/
theorem Allocator.malloc_loop_spec {n : Int} (A : Nat) (hA : IsPow2 A)
    (P : Allocator → Int → Prop)
    (hstep : ∀ (st : Allocator) (cmit : Int) (c : AllocatorChunk) (h : Nat), st.WF n →
      ChunkMap.find st.chunks_ cmit = some c → c.in_use = false → c.size = h + h → A ≤ h →
      P st cmit → P (st.split cmit c.size h) (cmit + h)) :
    ∀ (fuel : Nat) (st : Allocator) (cmit : Int) (c : AllocatorChunk), st.WF n →
      ChunkMap.find st.chunks_ cmit = some c → c.in_use = false → A ≤ c.size →
      c.size < A * 2 ^ fuel → P st cmit →
      ∃ st' cmit' c', Allocator.malloc_loop fuel (A : Int) st cmit (c.size : Int)
          = .ok (st', cmit') ∧
        st'.WF n ∧ ChunkMap.find st'.chunks_ cmit' = some c' ∧ c'.in_use = false ∧
        c'.size = A ∧ P st' cmit' ∧ st'.base_ = st.base_ := by
  intro fuel
  induction fuel with
  | zero =>
    intro st cmit c _ _ _ hle hlt _
    simp at hlt
    omega
  | succ fuel ih =>
    intro st cmit c hwf hf hfree hle hlt hP
    unfold Allocator.malloc_loop
    by_cases hgt : (c.size : Int) > (A : Int)
    · rw [if_pos hgt]
      have hgt' : A < c.size := by exact_mod_cast hgt
      have hcp2 := (hwf.find_bounds hf).2.2.2.2
      have hdouble := hA.le_half hcp2 hgt'
      obtain ⟨h, hh⟩ : ∃ h, c.size = h + h := by
        obtain ⟨k, hk⟩ := hcp2
        cases k with
        | zero => have := hA.size_pos; omega
        | succ k => exact ⟨2 ^ k, by rw [hk, pow_succ]; omega⟩
      have hApos := hA.size_pos
      obtain ⟨hbody, hfind, _, hwf', hbase⟩ := Allocator.split_spec hwf hf hfree hh (by omega)
      rw [hbody]
      simp only
      have hf' : ChunkMap.find (st.split cmit c.size h).chunks_ (cmit + h)
          = some ⟨false, cmit + h, h⟩ := by rw [hfind, if_pos rfl]
      have hlt' : h < A * 2 ^ fuel := by
        rw [pow_succ] at hlt
        have : A * (2 ^ fuel * 2) = A * 2 ^ fuel + A * 2 ^ fuel := by ring
        omega
      obtain ⟨st', cmit', c', h1, h2, h3, h4, h5, h6, h7⟩ :=
        ih (st.split cmit c.size h) (cmit + h) ⟨false, cmit + h, h⟩ hwf' hf' rfl (by simp; omega)
          hlt' (hstep st cmit c h hwf hf hfree hh (by omega) hP)
      exact ⟨st', cmit', c', h1, h2, h3, h4, h5, h6, by rw [h7, hbase]⟩
    · rw [if_neg hgt]
      have : ¬ A < c.size := fun h => hgt (by exact_mod_cast h)
      exact ⟨st, cmit, c, rfl, hwf, hf, hfree, by omega, hP, rfl⟩

theorem ChunkMap.length_pos_of_find {m : ChunkMap} {a : Int} {c : AllocatorChunk}
    (h : ChunkMap.find m a = some c) : 0 < m.length := by
  cases m with
  | nil => simp [ChunkMap.find] at h
  | cons x xs => simp

/-- The recursion of `try_merge_buddy_recursive`, started on a free chunk: it
terminates within the recursion bound, keeps the representation invariant and
every property `Q` that one merge keeps, and ends on a free chunk that has no
free buddy of its own size. -/
theorem Allocator.try_merge_spec {n : Int} (Q : Allocator → Int → Prop)
    (hstep : ∀ (st : Allocator) (cmit lo hi : Int) (cl ch : AllocatorChunk), st.WF n →
      ChunkMap.find st.chunks_ lo = some cl → ChunkMap.find st.chunks_ hi = some ch →
      hi = lo + cl.size → ch.size = cl.size → cl.in_use = false → ch.in_use = false →
      ((cmit = lo ∧ wrap64 (Int.xor lo (cl.size : Int)) = hi) ∨
        (cmit = hi ∧ wrap64 (Int.xor hi (cl.size : Int)) = lo)) →
      Q st cmit → Q (st.merged lo hi cl.size) lo) :
    ∀ (fuel : Nat) (st : Allocator) (cmit : Int) (c : AllocatorChunk), st.WF n →
      ChunkMap.find st.chunks_ cmit = some c → c.in_use = false →
      st.chunks_.length ≤ fuel → Q st cmit →
      ∃ st' cmit' c', Allocator.try_merge_buddy_recursive fuel st cmit = .ok st' ∧
        st'.WF n ∧ ChunkMap.find st'.chunks_ cmit' = some c' ∧ c'.in_use = false ∧
        Q st' cmit' ∧ st'.base_ = st.base_ ∧
        (∀ b, ChunkMap.find st'.chunks_ (wrap64 (Int.xor cmit' (c'.size : Int))) = some b →
          ¬ (b.size = c'.size ∧ b.in_use = false)) := by
  intro fuel
  induction fuel with
  | zero =>
    intro st cmit c _ hf _ hlen _
    have := ChunkMap.length_pos_of_find hf
    omega
  | succ fuel ih =>
    intro st cmit c hwf hf hfree hlen hQ
    obtain ⟨hca, hc0, hcn, hcpos, hcp2⟩ := hwf.find_bounds hf
    have hbound := hwf.bound
    unfold Allocator.try_merge_buddy_recursive
    rw [hf]
    simp only [hca]
    cases hb : ChunkMap.find st.chunks_ (wrap64 (Int.xor cmit (c.size : Int))) with
    | none =>
      refine ⟨st, cmit, c, rfl, hwf, hf, hfree, hQ, rfl, ?_⟩
      intro b hb'
      rw [hb] at hb'
      cases hb'
    | some b =>
      simp only
      by_cases hcond : b.size = c.size ∧ b.in_use = false
      · rw [if_pos hcond]
        obtain ⟨k, hk⟩ := hcp2
        have hs63 : 2 ^ k < 9223372036854775808 := by
          have : (c.size : Int) < 9223372036854775808 := by omega
          rw [hk] at this
          exact_mod_cast this
        have hcases := buddy_cases cmit k hc0 (by omega) hs63
        rw [← hk] at hcases
        rcases hcases with ⟨_, hx⟩ | ⟨_, hle, hx⟩
        · -- the buddy is the higher chunk
          rw [hx] at hb ⊢
          obtain ⟨hm, hfind, _, hwf', hbase, hlen'⟩ :=
            Allocator.merge_spec cmit (cmit + c.size) hwf hf hb rfl rfl
              hcond.1 hfree hcond.2 (Or.inl ⟨rfl, rfl⟩)
          rw [hm]
          simp only
          have hf' : ChunkMap.find (st.merged cmit (cmit + c.size) c.size).chunks_ cmit
              = some ⟨false, cmit, c.size + c.size⟩ := by rw [hfind, if_pos rfl]
          obtain ⟨st', cmit', c', h1, h2, h3, h4, h5, h6, h7⟩ :=
            ih _ cmit _ hwf' hf' rfl (by omega)
              (hstep st cmit cmit (cmit + c.size) c b hwf hf hb rfl hcond.1 hfree hcond.2
                (Or.inl ⟨rfl, hx⟩) hQ)
          exact ⟨st', cmit', c', h1, h2, h3, h4, h5, by rw [h6, hbase], h7⟩
        · -- the buddy is the lower chunk
          rw [hx] at hb ⊢
          have hbs : b.size = c.size := hcond.1
          obtain ⟨hm, hfind, _, hwf', hbase, hlen'⟩ :=
            Allocator.merge_spec cmit (cmit - c.size) hwf hb hf
              (by omega : cmit = cmit - (c.size : Int) + (c.size : Nat)) hbs rfl
              hcond.2 hfree (Or.inr ⟨rfl, rfl⟩)
          rw [hm]
          simp only
          have hf' : ChunkMap.find (st.merged (cmit - c.size) cmit c.size).chunks_ (cmit - c.size)
              = some ⟨false, cmit - c.size, c.size + c.size⟩ := by rw [hfind, if_pos rfl]
          have hQ' := hstep st cmit (cmit - c.size) cmit b c hwf hb hf (by rw [hbs]; omega)
            hbs.symm hcond.2 hfree (Or.inr ⟨rfl, by rw [hbs]; exact hx⟩) hQ
          rw [hbs] at hQ'
          obtain ⟨st', cmit', c', h1, h2, h3, h4, h5, h6, h7⟩ :=
            ih _ (cmit - c.size) _ hwf' hf' rfl (by omega) hQ'
          exact ⟨st', cmit', c', h1, h2, h3, h4, h5, by rw [h6, hbase], h7⟩
      · rw [if_neg hcond]
        refine ⟨st, cmit, c, rfl, hwf, hf, hfree, hQ, rfl, ?_⟩
        intro b' hb'
        rw [hb] at hb'
        cases hb'
        exact hcond

/-! ## The chunk sizes chosen by the constructor -/

theorem testBit_top {m k : Nat} (h1 : 2 ^ k ≤ m) (h2 : m < 2 ^ (k + 1)) : m.testBit k = true := by
  rw [Nat.testBit_to_div_mod]
  have : m / 2 ^ k = 1 := by
    apply Nat.div_eq_of_lt_le
    · simpa using h1
    · rw [pow_succ] at h2; omega
  simp [this]

theorem and_pred_eq_zero_iff {r : Nat} (hr : 0 < r) : r &&& (r - 1) = 0 ↔ IsPow2 r := by
  constructor
  · intro hz
    have hsz : r.size ≠ 0 := by
      intro h0
      have := Nat.size_le.mp (le_of_eq h0)
      simp at this
      omega
    have hlo : 2 ^ (r.size - 1) ≤ r := Nat.lt_size.mp (by omega)
    have hhi : r < 2 ^ (r.size - 1 + 1) := by
      have := Nat.size_le.mp (le_refl r.size)
      have e : r.size - 1 + 1 = r.size := by omega
      rw [e]; exact this
    by_cases heq : r = 2 ^ (r.size - 1)
    · exact ⟨_, heq⟩
    · exfalso
      have t1 := testBit_top hlo hhi
      have t2 : (r - 1).testBit (r.size - 1) = true := testBit_top (by omega) (by omega)
      have : (r &&& (r - 1)).testBit (r.size - 1) = true := by
        rw [Nat.testBit_and, t1, t2]; rfl
      rw [hz] at this
      simp at this
  · rintro ⟨k, rfl⟩
    rw [Nat.and_pow_two_sub_one_eq_mod]
    exact Nat.mod_self _

theorem int_land_natCast (a b : Nat) : Int.land (a : Int) (b : Int) = ((a &&& b : Nat) : Int) := rfl

theorem IsPow2.eq_one_of_odd {p : Nat} (hp : IsPow2 p) (hodd : p % 2 = 1) : p = 1 := by
  obtain ⟨k, rfl⟩ := hp
  cases k with
  | zero => rfl
  | succ k => rw [pow_succ] at hodd; omega

/-- The constructor's chunk size for a remaining size `r`: `r` itself when `r`
is a power of two, and otherwise the power of two `p` with `r/2 ≤ p < 2 (r/2)`. -/
theorem Allocator.this_chunk_size_cases (r : Nat) (hr : 0 < r) (hb : r < 9223372036854775808) :
    (IsPow2 r ∧ Allocator.this_chunk_size (r : Int) = r) ∨
    (¬ IsPow2 r ∧ 3 ≤ r ∧ IsPow2 (Allocator.this_chunk_size (r : Int)) ∧
      r / 2 ≤ Allocator.this_chunk_size (r : Int) ∧
      Allocator.this_chunk_size (r : Int) < 2 * (r / 2)) := by
  have hw : wrap64 ((r : Int) - 1) = ((r - 1 : Nat) : Int) := by
    rw [wrap64_of_range (by omega) (by omega)]; omega
  unfold Allocator.this_chunk_size
  rw [hw, int_land_natCast]
  by_cases hp : IsPow2 r
  · left
    have hz := (and_pred_eq_zero_iff hr).mpr hp
    rw [hz]
    simp only [Nat.cast_zero, ne_eq, not_true_eq_false, if_false]
    exact ⟨hp, toSizeT_natCast (by omega)⟩
  · right
    have hz : r &&& (r - 1) ≠ 0 := fun h => hp ((and_pred_eq_zero_iff hr).mp h)
    have hz' : ((r &&& (r - 1) : Nat) : Int) ≠ 0 := by exact_mod_cast hz
    rw [if_pos hz']
    have h3 : 3 ≤ r := by
      by_contra hlt
      have : r = 1 ∨ r = 2 := by omega
      rcases this with rfl | rfl
      · exact hp ⟨0, rfl⟩
      · exact hp ⟨1, rfl⟩
    have htd : Int.tdiv (r : Int) 2 = ((r / 2 : Nat) : Int) := rfl
    rw [htd]
    obtain ⟨k, hk, hn, hle, hlt⟩ :=
      next_largest_power_of_2_pos ((r / 2 : Nat) : Int) (by omega) (by omega)
    rw [hn]
    have hts : toSizeT ((2 ^ k : Nat) : Int) = 2 ^ k := by
      apply toSizeT_natCast
      have : 2 ^ k ≤ 2 ^ 62 := Nat.pow_le_pow_right (by omega) hk
      norm_num at this
      omega
    rw [hts]
    refine ⟨hp, h3, ⟨k, rfl⟩, ?_, ?_⟩
    · exact_mod_cast hle
    · exact_mod_cast hlt

theorem Allocator.this_chunk_size_spec (r : Nat) (hr : 0 < r) (hb : r < 9223372036854775808) :
    IsPow2 (Allocator.this_chunk_size (r : Int)) ∧ Allocator.this_chunk_size (r : Int) ≤ r ∧
    (Allocator.this_chunk_size (r : Int) < r →
      Allocator.this_chunk_size (((r - Allocator.this_chunk_size (r : Int) : Nat)) : Int)
        ≠ Allocator.this_chunk_size (r : Int)) := by
  rcases Allocator.this_chunk_size_cases r hr hb with ⟨hp, he⟩ | ⟨hnp, h3, hp, hlo, hhi⟩
  · rw [he]
    exact ⟨hp, le_refl r, fun h => absurd h (lt_irrefl r)⟩
  · refine ⟨hp, by omega, fun hlt => ?_⟩
    generalize Allocator.this_chunk_size (r : Int) = p at *
    have hr' : 0 < r - p := by omega
    rcases Allocator.this_chunk_size_cases (r - p) hr' (by omega) with
      ⟨hp', he'⟩ | ⟨hnp', h3', hp', hlo', hhi'⟩
    · rw [he']
      intro heq
      apply hnp
      have : r = p + p := by omega
      rw [this]
      exact hp.double
    · intro heq
      rw [heq] at hhi' hp'
      have hodd : p % 2 = 1 := by omega
      have := hp.eq_one_of_odd hodd
      subst this
      apply hnp'
      have : r - 1 = 2 := by omega
      rw [this]
      exact ⟨1, rfl⟩

/-! ## The constructor -/

theorem Allocator.ctor_body_spec {st : Allocator} {off : Int} {r : Nat} (hwf : st.WF off)
    (hr : 0 < r) (hb : off + r < 9223372036854775808) :
    st.ctor_loop_body (r : Int) off =
      .ok (st.appended off (Allocator.this_chunk_size r),
        ((r - Allocator.this_chunk_size r : Nat) : Int),
        off + (Allocator.this_chunk_size r : Nat)) ∧
    (∀ a, ChunkMap.find (st.appended off (Allocator.this_chunk_size r)).chunks_ a =
      if a = off then some ⟨false, off, Allocator.this_chunk_size r⟩
      else ChunkMap.find st.chunks_ a) ∧
    (∀ k, FreeListMap.get (st.appended off (Allocator.this_chunk_size r)).free_lists_ k =
      if k = Allocator.this_chunk_size r
      then off :: FreeListMap.get st.free_lists_ (Allocator.this_chunk_size r)
      else FreeListMap.get st.free_lists_ k) ∧
    (st.appended off (Allocator.this_chunk_size r)).WF (off + (Allocator.this_chunk_size r : Nat)) ∧
    (st.appended off (Allocator.this_chunk_size r)).base_ = st.base_ := by
  have hoff := (tiles_bounds hwf.tiles).1
  obtain ⟨hp2, hle, _⟩ := Allocator.this_chunk_size_spec r hr (by omega)
  generalize hs : Allocator.this_chunk_size (r : Int) = s at *
  have hspos := hp2.size_pos
  have hnone : ChunkMap.find st.chunks_ (AllocatorChunk.new off s).address = none := by
    rw [ChunkMap.find_eq_none]
    intro c hc
    have := (tiles_bounds hwf.tiles).2 c hc
    have := hwf.sizes_pos c hc
    show c.address ≠ off
    omega
  have hflag := ChunkMap.insert_flag hnone
  have f1 : ∀ a, ChunkMap.find (st.inserted (AllocatorChunk.new off s)).chunks_ a =
      if a = off then some ⟨false, off, s⟩ else ChunkMap.find st.chunks_ a := by
    intro a
    rw [Allocator.find_inserted _ _ _ hflag]; rfl
  have f1o := f1 off
  simp only [if_true] at f1o
  have f2 : ∀ a, ChunkMap.find (st.appended off s).chunks_ a =
      if a = off then some ⟨false, off, s⟩ else ChunkMap.find st.chunks_ a := by
    intro a
    unfold Allocator.appended
    rw [Allocator.find_added, f1o, f1]
    by_cases ha : a = off <;> simp [ha]
  have g2 : ∀ k, FreeListMap.get (st.appended off s).free_lists_ k =
      if k = s then off :: FreeListMap.get st.free_lists_ s
      else FreeListMap.get st.free_lists_ k := by
    intro k
    unfold Allocator.appended
    rw [Allocator.get_added]; rfl
  have hsorted : ChunkMap.Sorted (st.appended off s).chunks_ := by
    unfold Allocator.appended Allocator.added Allocator.inserted
    simp only
    refine ChunkMap.sorted_update _ _ (fun _ => rfl) ?_
    exact ChunkMap.sorted_insert _ hwf.sorted
  refine ⟨?_, f2, g2, ⟨?_, by omega, ?_, ?_⟩, rfl⟩
  · unfold Allocator.ctor_loop_body
    have e : (if Int.land (r : Int) (wrap64 ((r : Int) - 1)) ≠ 0
        then toSizeT (Allocator.next_largest_power_of_2 (Int.tdiv (r : Int) 2))
        else toSizeT (r : Int)) = s := hs
    simp only [e]
    rw [Allocator.add_to_chunk_map_eq hflag]
    simp only [AllocatorChunk.new_address]
    rw [Allocator.add_to_free_list_eq f1o]
    simp only
    have w1 : wrap64 ((r : Int) - (s : Int)) = ((r - s : Nat) : Int) := by
      rw [wrap64_of_range (by omega) (by omega)]; omega
    have w2 : wrap64 (off + (s : Int)) = off + s := wrap64_of_range (by omega) (by omega)
    rw [w1, w2]
    rfl
  · unfold Allocator.appended Allocator.added Allocator.inserted
    simp only
    refine tiles_update _ _ (fun _ => rfl) (fun _ => rfl) ?_
    exact (tiles_snoc hwf.tiles hwf.sizes_pos rfl).2
  · intro c' hc'
    have hfc := ChunkMap.find_of_mem hsorted hc'
    rw [f2] at hfc
    split at hfc
    · cases hfc; exact hp2
    · exact hwf.pow2 c' (ChunkMap.find_some hfc).1
  · apply FreeListsOK.give ⟨false, off, s⟩ hwf.fl (hwf.fl.not_mem_of_untracked hnone)
    · exact Allocator.sorted_added _ _ hwf.fl.sorted
    · exact Allocator.nonempty_added _ _ hwf.fl.nonempty
    · exact g2
    · exact f2
    · rfl

/-- The constructor's loop: it terminates within the iteration bound, extends
the tiling to the whole arena and keeps every property `P` that one iteration
keeps. -/
theorem Allocator.ctor_loop_spec (P : Allocator → Int → Nat → Prop)
    (hstep : ∀ (st : Allocator) (off : Int) (r : Nat), st.WF off → 0 < r →
      off + r < 9223372036854775808 → P st off r →
      P (st.appended off (Allocator.this_chunk_size r))
        (off + (Allocator.this_chunk_size r : Nat)) (r - Allocator.this_chunk_size r)) :
    ∀ (fuel : Nat) (st : Allocator) (off : Int) (r : Nat), st.WF off →
      off + r < 9223372036854775808 → r < fuel → P st off r →
      ∃ st', Allocator.ctor_loop fuel st (r : Int) off = .ok st' ∧ st'.WF (off + r) ∧
        P st' (off + r) 0 ∧ st'.base_ = st.base_ := by
  intro fuel
  induction fuel with
  | zero => intro st off r _ _ hlt _; omega
  | succ fuel ih =>
    intro st off r hwf hb hlt hP
    unfold Allocator.ctor_loop
    by_cases hr : (r : Int) > 0
    · rw [if_pos hr]
      have hr' : 0 < r := by exact_mod_cast hr
      obtain ⟨hbody, _, _, hwf', hbase⟩ := Allocator.ctor_body_spec hwf hr' hb
      obtain ⟨_, hle, _⟩ := Allocator.this_chunk_size_spec r hr' (by
        have := (tiles_bounds hwf.tiles).1; omega)
      have hpos := (Allocator.this_chunk_size_spec r hr' (by
        have := (tiles_bounds hwf.tiles).1; omega)).1.size_pos
      rw [hbody]
      simp only
      obtain ⟨st', h1, h2, h3, h4⟩ := ih _ _ (r - Allocator.this_chunk_size r) hwf'
        (by omega) (by omega) (hstep st off r hwf hr' hb hP)
      refine ⟨st', h1, ?_, ?_, by rw [h4, hbase]⟩
      · have e : off + ((Allocator.this_chunk_size r : Nat) : Int)
            + ((r - Allocator.this_chunk_size r : Nat) : Int) = off + r := by omega
        rw [e] at h2; exact h2
      · have e : off + ((Allocator.this_chunk_size r : Nat) : Int)
            + ((r - Allocator.this_chunk_size r : Nat) : Int) = off + r := by omega
        rw [e] at h3; exact h3
    · rw [if_neg hr]
      have : r = 0 := by
        have : ¬ 0 < r := fun h => hr (by exact_mod_cast h)
        omega
      subst this
      refine ⟨st, rfl, ?_, ?_, rfl⟩
      · simpa using hwf
      · simpa using hP

theorem Allocator.WF.empty (base : Int) (sz : Nat) :
    (⟨base, sz, [], []⟩ : Allocator).WF 0 := by
  refine ⟨rfl, by omega, ?_, ⟨?_, ?_, ?_, ?_⟩⟩
  · intro c hc; simp at hc
  · exact List.Pairwise.nil
  · intro e he; simp at he
  · intro k; exact List.nodup_nil
  · intro k a
    simp [FreeListMap.get, ChunkMap.find]

/-! ## `malloc` with allocation size zero -/

/-- With `allocation_size == 0` the splitting loop never returns: it halves the
chunk down to size zero and then fails `assert( inserted )`. -/
theorem Allocator.malloc_loop_zero {n : Int} :
    ∀ (fuel : Nat) (st : Allocator) (cmit : Int) (c : AllocatorChunk), st.WF n →
      ChunkMap.find st.chunks_ cmit = some c → c.in_use = false →
      ∀ r, Allocator.malloc_loop fuel 0 st cmit (c.size : Int) ≠ .ok r := by
  intro fuel
  induction fuel with
  | zero =>
    intro st cmit c _ _ _ r h
    simp [Allocator.malloc_loop] at h
  | succ fuel ih =>
    intro st cmit c hwf hf hfree r
    obtain ⟨hca, hc0, hcn, hcpos, hcp2⟩ := hwf.find_bounds hf
    have hbound := hwf.bound
    unfold Allocator.malloc_loop
    rw [if_pos (by omega)]
    by_cases h1 : c.size = 1
    · -- the last halving produces size zero and the insertion fails
      have hmem : cmit ∈ FreeListMap.get st.free_lists_ c.size := hwf.fl.mem_of_free hf hfree
      have hbody : st.malloc_loop_body cmit (c.size : Int) = .error .assertion := by
        unfold Allocator.malloc_loop_body
        rw [Allocator.remove_from_free_list_eq hf hmem]
        simp only
        have htd : Int.tdiv (c.size : Int) 2 = 0 := by rw [h1]; rfl
        have hts : toSizeT 0 = 0 := rfl
        rw [htd, hts]
        have e2 : ({ (st.removed cmit c.size) with
            chunks_ := (st.removed cmit c.size).chunks_.update cmit
              (fun c => { c with size := 0 }) } : Allocator)
            = (st.removed cmit c.size).resized cmit 0 := rfl
        rw [e2]
        have f2 : ChunkMap.find ((st.removed cmit c.size).resized cmit 0).chunks_ cmit
            = some ⟨true, cmit, 0⟩ := by
          rw [Allocator.find_resized, if_pos rfl, Allocator.find_removed, if_pos rfl, hf]
          simp [hca]
        rw [Allocator.add_to_free_list_eq f2]
        simp only
        have f3 : ChunkMap.find (((st.removed cmit c.size).resized cmit 0).added cmit 0).chunks_
            cmit = some ⟨false, cmit, 0⟩ := by
          rw [Allocator.find_added, if_pos rfl, f2]; rfl
        rw [f3]
        simp only
        have hw : wrap64 (cmit + ((0 : Nat) : Int)) = cmit := by
          rw [wrap64_of_range (by omega) (by omega)]; omega
        rw [hw]
        have hs3 : ChunkMap.Sorted
            (((st.removed cmit c.size).resized cmit 0).added cmit 0).chunks_ := by
          unfold Allocator.added Allocator.resized Allocator.removed
          simp only
          refine ChunkMap.sorted_update _ _ (fun _ => rfl) ?_
          refine ChunkMap.sorted_update _ _ (fun _ => rfl) ?_
          refine ChunkMap.sorted_update _ _ (fun _ => rfl) ?_
          exact hwf.sorted
        have hflag : (ChunkMap.insert
            (((st.removed cmit c.size).resized cmit 0).added cmit 0).chunks_
            (AllocatorChunk.new cmit 0)).2 = false :=
          ChunkMap.insert_flag_false hs3 f3
        unfold Allocator.add_to_chunk_map
        rw [hflag]
        rfl
      rw [hbody]
      simp
    · obtain ⟨h, hh⟩ : ∃ h, c.size = h + h := by
        obtain ⟨k, hk⟩ := hcp2
        cases k with
        | zero => simp at hk; omega
        | succ k => exact ⟨2 ^ k, by rw [hk, pow_succ]; omega⟩
      obtain ⟨hbody, hfind, _, hwf', _⟩ := Allocator.split_spec hwf hf hfree hh (by omega)
      rw [hbody]
      simp only
      have hf' : ChunkMap.find (st.split cmit c.size h).chunks_ (cmit + h)
          = some ⟨false, cmit + h, h⟩ := by rw [hfind, if_pos rfl]
      exact ih _ _ _ hwf' hf' rfl r

/-! ## `malloc` as a whole -/

/-- The entry found by `lower_bound` is a non-empty list of free chunks of the
smallest free size that is large enough. -/
theorem Allocator.WF.lower_bound_entry {n : Int} {st : Allocator} (hwf : st.WF n) {x : Nat}
    {flit : Nat × FreeList} (h : FreeListMap.lower_bound st.free_lists_ x = some flit) :
    ∃ cmit0 rest c0, flit.2 = cmit0 :: rest ∧
      FreeListMap.get st.free_lists_ flit.1 = cmit0 :: rest ∧
      ChunkMap.find st.chunks_ cmit0 = some c0 ∧ c0.size = flit.1 ∧ c0.in_use = false ∧
      x ≤ flit.1 ∧
      (∀ a c, ChunkMap.find st.chunks_ a = some c → c.in_use = false → x ≤ c.size →
        flit.1 ≤ c.size) := by
  obtain ⟨hmem, hle, hmin⟩ := FreeListMap.lower_bound_some hwf.fl.sorted h
  have hget := FreeListMap.get_of_mem hwf.fl.sorted hmem
  have hne := hwf.fl.nonempty flit hmem
  obtain ⟨cmit0, rest, hl⟩ := List.exists_cons_of_ne_nil hne
  have hin : cmit0 ∈ FreeListMap.get st.free_lists_ flit.1 := by rw [hget, hl]; simp
  obtain ⟨c0, hf, hs, hu⟩ := (hwf.fl.iff _ _).mp hin
  refine ⟨cmit0, rest, c0, hl, by rw [hget, hl], hf, hs, hu, hle, ?_⟩
  intro a c hfa hfree hxc
  have hmem' := FreeListMap.mem_get (hwf.fl.mem_of_free hfa hfree)
  exact hmin _ hmem' hxc

theorem Allocator.WF.lower_bound_eq_none {n : Int} {st : Allocator} (hwf : st.WF n) {x : Nat} :
    FreeListMap.lower_bound st.free_lists_ x = none ↔
      ∀ a c, ChunkMap.find st.chunks_ a = some c → c.in_use = false → c.size < x := by
  constructor
  · intro h a c hfa hfree
    have hmem' := FreeListMap.mem_get (hwf.fl.mem_of_free hfa hfree)
    exact FreeListMap.lower_bound_none h _ hmem'
  · intro h
    cases hlb : FreeListMap.lower_bound st.free_lists_ x with
    | none => rfl
    | some flit =>
      obtain ⟨cmit0, rest, c0, _, _, hf, hs, hu, hle, _⟩ := hwf.lower_bound_entry hlb
      have := h cmit0 c0 hf hu
      omega

/-- A request whose rounded size is a power of two `A` and for which a free
chunk of size at least `A` exists: `malloc` returns, having split the front
chunk of the smallest sufficient free list down to a chunk of size `A`. -/
theorem Allocator.malloc_ok {n : Int} {st : Allocator} (hwf : st.WF n) (s : Nat) (A : Nat)
    (hA : IsPow2 A)
    (hn : Allocator.next_largest_power_of_2 (wrap64 s) = (A : Int))
    {flit : Nat × FreeList} (hlb : FreeListMap.lower_bound st.free_lists_ A = some flit)
    (P : Allocator → Int → Prop)
    (hstep : ∀ (st : Allocator) (cmit : Int) (c : AllocatorChunk) (h : Nat), st.WF n →
      ChunkMap.find st.chunks_ cmit = some c → c.in_use = false → c.size = h + h → A ≤ h →
      P st cmit → P (st.split cmit c.size h) (cmit + h))
    (hinit : ∀ cmit0 rest c0, FreeListMap.get st.free_lists_ c0.size = cmit0 :: rest →
      ChunkMap.find st.chunks_ cmit0 = some c0 → c0.in_use = false → A ≤ c0.size →
      (∀ a c, ChunkMap.find st.chunks_ a = some c → c.in_use = false → A ≤ c.size →
        c0.size ≤ c.size) → P st cmit0) :
    ∃ st1 cmit c, st.malloc s = .ok (st1.removed cmit A, wrap64 (cmit + st.base_)) ∧
      st1.WF n ∧ ChunkMap.find st1.chunks_ cmit = some c ∧ c.in_use = false ∧ c.size = A ∧
      P st1 cmit ∧ st1.base_ = st.base_ ∧ (st1.removed cmit A).WF n := by
  obtain ⟨cmit0, rest, c0, hl, hget, hf, hs, hu, hle, hmin⟩ := hwf.lower_bound_entry hlb
  obtain ⟨_, _, hcn, hcpos, _⟩ := hwf.find_bounds hf
  have hbound := hwf.bound
  have hAsz : (A : Int) < 18446744073709551616 := by
    have : (A : Int) ≤ c0.size := by rw [hs]; exact_mod_cast hle
    omega
  have hts : toSizeT (A : Int) = A := toSizeT_natCast (by exact_mod_cast hAsz)
  have hw : wrap64 (flit.1 : Int) = (c0.size : Int) := by
    rw [← hs]; exact wrap64_of_range (by omega) (by omega)
  have hApos := hA.size_pos
  have hfuel : c0.size < A * 2 ^ 65 := by
    have h1 : (c0.size : Int) < 9223372036854775808 := by omega
    have h2 : c0.size < 9223372036854775808 := by exact_mod_cast h1
    have h3 : 1 * 2 ^ 65 ≤ A * 2 ^ 65 := Nat.mul_le_mul_right _ hApos
    norm_num at h3
    norm_num
    omega
  obtain ⟨st1, cmit, c, hloop, hwf1, hf1, hu1, hs1, hP1, hb1⟩ :=
    Allocator.malloc_loop_spec A hA P hstep 65 st cmit0 c0 hwf hf hu (by omega) hfuel
      (hinit cmit0 rest c0 (by rw [hs]; exact hget) hf hu (by omega)
        (fun a c h1 h2 h3 => by rw [hs]; exact hmin a c h1 h2 h3))
  obtain ⟨hfin, _, _, hwf2, _⟩ := Allocator.malloc_finish_spec hwf1 hf1 hu1
  refine ⟨st1, cmit, c, ?_, hwf1, hf1, hu1, hs1, hP1, hb1, by rw [← hs1]; exact hwf2⟩
  unfold Allocator.malloc
  simp only [hn, hts, hlb, hl, List.head?_cons, hw]
  unfold Allocator.malloc_from
  rw [hloop]
  simp only
  rw [hfin, hs1, hb1]

/-- A request whose size is not between 1 and `2^62` as an `int64_t`: `malloc`
does not return. -/
theorem Allocator.malloc_not_ok {n : Int} {st : Allocator} (hwf : st.WF n) (s : Nat)
    (hs : ¬ (1 ≤ wrap64 s ∧ wrap64 s ≤ 4611686018427387904)) :
    ∀ r, st.malloc s ≠ .ok r := by
  intro r
  have hrange := wrap64_range (s : Int)
  have hbound := hwf.bound
  by_cases h0 : wrap64 s ≤ 0 ∧ -9223372036854775808 < wrap64 s
  · -- allocation size zero
    have hn := next_largest_power_of_2_nonpos _ h0.2 h0.1
    unfold Allocator.malloc
    simp only [hn]
    have hts : toSizeT 0 = 0 := rfl
    rw [hts]
    cases hlb : FreeListMap.lower_bound st.free_lists_ 0 with
    | none => simp
    | some flit =>
      obtain ⟨cmit0, rest, c0, hl, _, hf, hsz, hu, _, _⟩ := hwf.lower_bound_entry hlb
      obtain ⟨_, _, hcn, hcpos, _⟩ := hwf.find_bounds hf
      have hw : wrap64 (flit.1 : Int) = (c0.size : Int) := by
        rw [← hsz]; exact wrap64_of_range (by omega) (by omega)
      simp only [hl, List.head?_cons, hw]
      unfold Allocator.malloc_from
      have hz := Allocator.malloc_loop_zero 65 st cmit0 c0 hwf hf hu
      cases hloop : Allocator.malloc_loop 65 0 st cmit0 (c0.size : Int) with
      | error e => simp
      | ok r' => exact absurd hloop (hz r')
  · -- allocation size `-2^63`, which is `2^63` as a `size_t`
    have hn : Allocator.next_largest_power_of_2 (wrap64 s) = -9223372036854775808 := by
      by_cases hmin : wrap64 s = -9223372036854775808
      · rw [hmin]; exact next_largest_power_of_2_min
      · exact next_largest_power_of_2_large _ (by omega) (by omega)
    unfold Allocator.malloc
    simp only [hn]
    have hts : toSizeT (-9223372036854775808) = 9223372036854775808 := rfl
    rw [hts]
    cases hlb : FreeListMap.lower_bound st.free_lists_ 9223372036854775808 with
    | none => simp
    | some flit =>
      exfalso
      obtain ⟨cmit0, rest, c0, _, _, hf, hsz, _, hle, _⟩ := hwf.lower_bound_entry hlb
      obtain ⟨_, _, hcn, _, _⟩ := hwf.find_bounds hf
      have : (9223372036854775808 : Int) ≤ (c0.size : Int) := by
        rw [hsz]; exact_mod_cast hle
      omega

/-! ## `free` as a whole -/

/-- `free` on the address of a tracked chunk that is in use: it returns, having
put the chunk on its free list and merged it with its buddies as far as
possible. -/
theorem Allocator.free_ok {n : Int} {st : Allocator} (hwf : st.WF n) (p : Int)
    {c : AllocatorChunk} (hf : ChunkMap.find st.chunks_ (wrap64 (p - st.base_)) = some c)
    (hu : c.in_use = true) (Q : Allocator → Int → Prop)
    (hstep : ∀ (st : Allocator) (cmit lo hi : Int) (cl ch : AllocatorChunk), st.WF n →
      ChunkMap.find st.chunks_ lo = some cl → ChunkMap.find st.chunks_ hi = some ch →
      hi = lo + cl.size → ch.size = cl.size → cl.in_use = false → ch.in_use = false →
      ((cmit = lo ∧ wrap64 (Int.xor lo (cl.size : Int)) = hi) ∨
        (cmit = hi ∧ wrap64 (Int.xor hi (cl.size : Int)) = lo)) →
      Q st cmit → Q (st.merged lo hi cl.size) lo)
    (hinit : Q (st.added (wrap64 (p - st.base_)) c.size) (wrap64 (p - st.base_))) :
    ∃ st' cmit' c', st.free p = .ok st' ∧ st'.WF n ∧
      ChunkMap.find st'.chunks_ cmit' = some c' ∧ c'.in_use = false ∧
      Q st' cmit' ∧ st'.base_ = st.base_ ∧
      (∀ b, ChunkMap.find st'.chunks_ (wrap64 (Int.xor cmit' (c'.size : Int))) = some b →
        ¬ (b.size = c'.size ∧ b.in_use = false)) := by
  obtain ⟨hadd, hfind, _, hwf1, hbase1, hlen1⟩ := Allocator.added_spec hwf hf hu
  have hf1 : ChunkMap.find (st.added (wrap64 (p - st.base_)) c.size).chunks_
      (wrap64 (p - st.base_)) = some ⟨false, wrap64 (p - st.base_), c.size⟩ := by
    rw [hfind, if_pos rfl]
  obtain ⟨st', cmit', c', h1, h2, h3, h4, h5, h6, h7⟩ :=
    Allocator.try_merge_spec Q hstep (st.added (wrap64 (p - st.base_)) c.size).chunks_.length
      _ _ _ hwf1 hf1 rfl (le_refl _) hinit
  refine ⟨st', cmit', c', ?_, h2, h3, h4, h5, by rw [h6, hbase1], h7⟩
  unfold Allocator.free
  simp only [hf, hu, if_true, hadd]
  exact h1

/-- `free` fails an assertion exactly when the address is not that of a tracked
chunk in use. -/
theorem Allocator.free_assertion {st : Allocator} (p : Int)
    (h : ∀ c, ChunkMap.find st.chunks_ (wrap64 (p - st.base_)) = some c → c.in_use = false) :
    st.free p = .error .assertion := by
  unfold Allocator.free
  cases hf : ChunkMap.find st.chunks_ (wrap64 (p - st.base_)) with
  | none => simp only [hf]
  | some c =>
    have := h c hf
    simp only [hf, this]
    rfl

/-! ## What a returning `malloc` has done -/

/-- Every returning `malloc( s )` has `1 ≤ s ≤ 2^62` as an `int64_t`, rounds
the size up to a power of two `A`, splits the front chunk of the smallest
sufficient free list down to size `A` (reaching the state `st1` with the chunk
at `cmit`), marks that chunk in use and returns its address.  Every property
`P` that holds before the loop and is kept by one splitting step holds in
`st1`. -/
theorem Allocator.malloc_inv {n : Int} {st st' : Allocator} (hwf : st.WF n) {s : Nat}
    {a : Int} (h : st.malloc s = .ok (st', a)) (P : Nat → Allocator → Int → Prop)
    (hstep : ∀ (A : Nat) (st : Allocator) (cmit : Int) (c : AllocatorChunk) (h : Nat),
      st.WF n → ChunkMap.find st.chunks_ cmit = some c → c.in_use = false → c.size = h + h →
      A ≤ h → P A st cmit → P A (st.split cmit c.size h) (cmit + h))
    (hinit : ∀ (A : Nat) cmit0 rest c0, IsPow2 A →
      FreeListMap.get st.free_lists_ c0.size = cmit0 :: rest →
      ChunkMap.find st.chunks_ cmit0 = some c0 → c0.in_use = false → A ≤ c0.size →
      (∀ a c, ChunkMap.find st.chunks_ a = some c → c.in_use = false → A ≤ c.size →
        c0.size ≤ c.size) → P A st cmit0) :
    ∃ A st1 cmit c, IsPow2 A ∧ Allocator.next_largest_power_of_2 (wrap64 s) = (A : Int) ∧
      1 ≤ wrap64 s ∧ wrap64 s ≤ (A : Int) ∧ (A : Int) < 2 * wrap64 s ∧
      st' = st1.removed cmit A ∧ a = wrap64 (cmit + st.base_) ∧
      st1.WF n ∧ ChunkMap.find st1.chunks_ cmit = some c ∧ c.in_use = false ∧ c.size = A ∧
      P A st1 cmit ∧ st1.base_ = st.base_ ∧ st'.WF n := by
  by_cases hs : 1 ≤ wrap64 s ∧ wrap64 s ≤ 4611686018427387904
  · obtain ⟨k, hk, hn, hle, hlt⟩ := next_largest_power_of_2_pos _ hs.1 hs.2
    have hA : IsPow2 (2 ^ k) := ⟨k, rfl⟩
    cases hlb : FreeListMap.lower_bound st.free_lists_ (2 ^ k) with
    | none =>
      exfalso
      have hts : toSizeT ((2 ^ k : Nat) : Int) = 2 ^ k := by
        apply toSizeT_natCast
        have : 2 ^ k ≤ 2 ^ 62 := Nat.pow_le_pow_right (by omega) hk
        norm_num at this
        omega
      unfold Allocator.malloc at h
      simp only [hn, hts, hlb] at h
      cases h
    | some flit =>
      obtain ⟨st1, cmit, c, hm, h1, h2, h3, h4, h5, h6, h7⟩ :=
        Allocator.malloc_ok hwf s (2 ^ k) hA hn hlb (P (2 ^ k)) (hstep (2 ^ k))
          (fun cmit0 rest c0 => hinit (2 ^ k) cmit0 rest c0 hA)
      rw [hm] at h
      simp only [Except.ok.injEq, Prod.mk.injEq] at h
      refine ⟨2 ^ k, st1, cmit, c, hA, hn, hs.1, hle, hlt, h.1.symm, h.2.symm, h1, h2, h3, h4, h5,
        h6, ?_⟩
      rw [← h.1]; exact h7
  · exact absurd h (Allocator.malloc_not_ok hwf s hs _)

/-! ## No free chunk has a free buddy of its size -/

theorem Allocator.WF.buddy_ne {n : Int} {st : Allocator} (hwf : st.WF n) {a : Int}
    {c : AllocatorChunk} (hf : ChunkMap.find st.chunks_ a = some c) :
    wrap64 (Int.xor a (c.size : Int)) ≠ a := by
  obtain ⟨_, h0, hn, hpos, ⟨k, hk⟩⟩ := hwf.find_bounds hf
  have hbound := hwf.bound
  have hs63 : 2 ^ k < 9223372036854775808 := by
    have : (c.size : Int) < 9223372036854775808 := by omega
    rw [hk] at this
    exact_mod_cast this
  have hcases := buddy_cases a k h0 (by omega) hs63
  rw [← hk] at hcases
  rcases hcases with ⟨_, hx⟩ | ⟨_, _, hx⟩ <;> rw [hx] <;> omega

theorem Allocator.WF.buddy_inv {n : Int} {st : Allocator} (hwf : st.WF n) {a : Int}
    {c : AllocatorChunk} (hf : ChunkMap.find st.chunks_ a = some c) :
    wrap64 (Int.xor (wrap64 (Int.xor a (c.size : Int))) (c.size : Int)) = a := by
  obtain ⟨_, h0, hn, hpos, _⟩ := hwf.find_bounds hf
  have hbound := hwf.bound
  exact buddy_involutive a c.size h0 (by omega) (by omega)

theorem Allocator.SplitInv.init {n : Int} {st : Allocator} (hnb : st.NoBuddy) (A : Nat)
    (cmit0 : Int) (c0 : AllocatorChunk) (hf : ChunkMap.find st.chunks_ cmit0 = some c0)
    (hmin : ∀ a c, ChunkMap.find st.chunks_ a = some c → c.in_use = false → A ≤ c.size →
      c0.size ≤ c.size) (_hwf : st.WF n) : Allocator.SplitInv A st cmit0 := by
  refine ⟨?_, ?_⟩
  · intro c0' hf' a c hfa hfree _
    rw [hf] at hf'
    cases hf'
    by_cases hA : A ≤ c.size
    · exact Or.inr (hmin a c hfa hfree hA)
    · exact Or.inl (by omega)
  · intro a c b hfa hfree _ hfb _ hsz
    exact hnb a c b hfa hfree hfb hsz

theorem Allocator.SplitInv.step {n : Int} (A : Nat) (st : Allocator) (cmit : Int)
    (c : AllocatorChunk) (h : Nat) (hwf : st.WF n) (hf : ChunkMap.find st.chunks_ cmit = some c)
    (hfree : c.in_use = false) (hsz : c.size = h + h) (hA : A ≤ h)
    (hinv : Allocator.SplitInv A st cmit) :
    Allocator.SplitInv A (st.split cmit c.size h) (cmit + h) := by
  have hApos : 0 < h := by
    have := (hwf.find_bounds hf).2.2.2.1
    omega
  obtain ⟨_, hfind, _, hwf', _⟩ := Allocator.split_spec hwf hf hfree hsz hApos
  obtain ⟨hsizes, hnb⟩ := hinv
  refine ⟨?_, ?_⟩
  · intro c0 hc0 a c' hfa hfree' hane
    rw [hfind, if_pos rfl] at hc0
    cases hc0
    rw [hfind, if_neg hane] at hfa
    split at hfa
    · cases hfa
      exact Or.inr (le_refl h)
    · rename_i hac
      rcases hsizes c hf a c' hfa hfree' hac with hl | hr
      · exact Or.inl hl
      · exact Or.inr (by simp only; omega)
  · intro a c' b hfa hfree' hane hfb hxne hbs
    have hxa := hwf'.buddy_ne hfa
    rw [hfind, if_neg hane] at hfa
    rw [hfind, if_neg hxne] at hfb
    by_cases hac : a = cmit
    · subst hac
      rw [if_pos rfl] at hfa
      cases hfa
      rw [if_neg hxa] at hfb
      by_contra hbu
      have hbfree : b.in_use = false := by simpa using hbu
      rcases hsizes c hf _ b hfb hbfree hxa with hl | hr
      · simp only at hbs; omega
      · simp only at hbs; omega
    · rw [if_neg hac] at hfa
      split at hfb
      · rename_i hx
        cases hfb
        exfalso
        rcases hsizes c hf a c' hfa hfree' hac with hl | hr
        · simp only at hbs; omega
        · simp only at hbs; omega
      · rename_i hx
        exact hnb a c' b hfa hfree' hac hfb hx hbs

theorem Allocator.SplitInv.finish {n : Int} {A : Nat} {st1 : Allocator} {cmit : Int}
    {c : AllocatorChunk} (hwf : st1.WF n) (hf : ChunkMap.find st1.chunks_ cmit = some c)
    (hfree : c.in_use = false) (hinv : Allocator.SplitInv A st1 cmit) :
    (st1.removed cmit c.size).NoBuddy := by
  obtain ⟨_, hfind, _, _, _⟩ := Allocator.malloc_finish_spec hwf hf hfree
  intro a c' b hfa hfree' hfb hbs
  rw [hfind] at hfa hfb
  split at hfa
  · cases hfa; cases hfree'
  · rename_i hac
    split at hfb
    · cases hfb; rfl
    · rename_i hx
      exact hinv.2 a c' b hfa hfree' hac hfb hx hbs

theorem Allocator.NoBuddyExcept.after_add {n : Int} {st : Allocator} {it : Int}
    {c : AllocatorChunk} (hwf : st.WF n) (hf : ChunkMap.find st.chunks_ it = some c)
    (hu : c.in_use = true) (hnb : st.NoBuddy) : (st.added it c.size).NoBuddyExcept it := by
  obtain ⟨_, hfind, _, _, _, _⟩ := Allocator.added_spec hwf hf hu
  intro a c' b hfa hfree' hane hfb hxne hbs
  rw [hfind, if_neg hane] at hfa
  rw [hfind, if_neg hxne] at hfb
  exact hnb a c' b hfa hfree' hfb hbs

theorem Allocator.NoBuddyExcept.merged {n : Int} (st : Allocator) (cmit lo hi : Int)
    (cl ch : AllocatorChunk) (hwf : st.WF n) (hl : ChunkMap.find st.chunks_ lo = some cl)
    (hh : ChunkMap.find st.chunks_ hi = some ch) (hhi : hi = lo + cl.size)
    (hhs : ch.size = cl.size) (hlf : cl.in_use = false) (hhf : ch.in_use = false)
    (hc : (cmit = lo ∧ wrap64 (Int.xor lo (cl.size : Int)) = hi) ∨
      (cmit = hi ∧ wrap64 (Int.xor hi (cl.size : Int)) = lo))
    (hnb : st.NoBuddyExcept cmit) : (st.merged lo hi cl.size).NoBuddyExcept lo := by
  obtain ⟨_, hfind, _, _, _, _⟩ :=
    Allocator.merge_spec lo hi hwf hl hh hhi rfl hhs hlf hhf (Or.inl ⟨rfl, rfl⟩)
  intro a c' b hfa hfree' hane hfb hxne hbs
  rw [hfind, if_neg hane] at hfa
  rw [hfind, if_neg hxne] at hfb
  split at hfa
  · cases hfa
  · rename_i hah
    split at hfb
    · cases hfb
    · rename_i hxh
      have h1 : a ≠ cmit := by rcases hc with ⟨rfl, _⟩ | ⟨rfl, _⟩ <;> assumption
      have h2 : wrap64 (Int.xor a (c'.size : Int)) ≠ cmit := by
        rcases hc with ⟨rfl, _⟩ | ⟨rfl, _⟩ <;> assumption
      exact hnb a c' b hfa hfree' h1 hfb h2 hbs

/-- When the merging has stopped at `cmit`, no free buddies are left at all. -/
theorem Allocator.NoBuddyExcept.done {n : Int} {st : Allocator} {cmit : Int}
    {c : AllocatorChunk} (hwf : st.WF n) (hf : ChunkMap.find st.chunks_ cmit = some c)
    (hnb : st.NoBuddyExcept cmit)
    (hstop : ∀ b, ChunkMap.find st.chunks_ (wrap64 (Int.xor cmit (c.size : Int))) = some b →
      ¬ (b.size = c.size ∧ b.in_use = false)) : st.NoBuddy := by
  intro a c' b hfa hfree' hfb hbs
  by_cases hac : a = cmit
  · subst hac
    rw [hf] at hfa
    cases hfa
    have := hstop b hfb
    by_contra hbu
    exact this ⟨hbs, by simpa using hbu⟩
  · by_cases hx : wrap64 (Int.xor a (c'.size : Int)) = cmit
    · exfalso
      rw [hx, hf] at hfb
      cases hfb
      have hinv := hwf.buddy_inv hfa
      rw [hx, ← hbs] at hinv
      rw [hinv] at hstop
      exact hstop c' hfa ⟨hbs.symm, hfree'⟩
    · exact hnb a c' b hfa hfree' hac hfb hx hbs

/-! ## The constructed state -/

theorem Allocator.CtorInv.ctor_step (st : Allocator) (off : Int) (r : Nat) (hwf : st.WF off)
    (hr : 0 < r) (hb : off + r < 9223372036854775808) (hinv : st.CtorInv off r) :
    (st.appended off (Allocator.this_chunk_size r)).CtorInv
      (off + (Allocator.this_chunk_size r : Nat)) (r - Allocator.this_chunk_size r) := by
  obtain ⟨_, hfind, _, hwf', _⟩ := Allocator.ctor_body_spec hwf hr hb
  have hoff := (tiles_bounds hwf.tiles).1
  obtain ⟨hp2, hle, hne⟩ := Allocator.this_chunk_size_spec r hr (by omega)
  have hspos := hp2.size_pos
  obtain ⟨hadj, hlast, hfree⟩ := hinv
  have hbnd : ∀ a c, ChunkMap.find st.chunks_ a = some c → a + c.size ≤ off := by
    intro a c hf
    exact (hwf.find_bounds hf).2.2.1
  refine ⟨?_, ?_, ?_⟩
  · intro a c b hfa hfb
    rw [hfind] at hfa hfb
    split at hfa
    · rename_i ha
      cases hfa
      simp only at hfb
      rw [if_neg (by omega)] at hfb
      have := hbnd _ _ hfb
      have := (hwf.find_bounds hfb).2.2.2.1
      omega
    · split at hfb
      · rename_i hx
        cases hfb
        exact (hlast hr a c hfa hx).symm
      · exact hadj a c b hfa hfb
  · intro hr' a c hfa hend
    rw [hfind] at hfa
    split at hfa
    · cases hfa
      simp only
      have := hne (by omega)
      exact fun h => this h.symm
    · have := hbnd _ _ hfa
      omega
  · intro a c hfa
    rw [hfind] at hfa
    split at hfa
    · cases hfa; rfl
    · exact hfree a c hfa

theorem Allocator.CtorInv.noBuddy {n : Int} {st : Allocator} (hwf : st.WF n)
    (hinv : st.CtorInv n 0) : st.NoBuddy := by
  intro a c b hfa _ hfb hbs
  exfalso
  obtain ⟨_, h0, hn, hpos, ⟨k, hk⟩⟩ := hwf.find_bounds hfa
  have hbound := hwf.bound
  have hs63 : 2 ^ k < 9223372036854775808 := by
    have : (c.size : Int) < 9223372036854775808 := by omega
    rw [hk] at this
    exact_mod_cast this
  have hcases := buddy_cases a k h0 (by omega) hs63
  rw [← hk] at hcases
  rcases hcases with ⟨_, hx⟩ | ⟨_, _, hx⟩
  · rw [hx] at hfb
    exact hinv.1 a c b hfa hfb hbs
  · rw [hx] at hfb
    have hfa' : ChunkMap.find st.chunks_ (a - c.size + b.size) = some c := by
      rw [hbs]
      have : a - (c.size : Int) + c.size = a := by omega
      rw [this]; exact hfa
    exact hinv.1 _ b c hfb hfa' hbs.symm

/-- The constructor on a positive size: it returns a state that satisfies the
representation invariant, has no free buddies and only free chunks. -/
theorem Allocator.ctor_spec (base n : Int) (h0 : 0 < n) (hb : n < 9223372036854775808) :
    ∃ st, Allocator.ctor base n = .ok st ∧ st.WF n ∧ st.NoBuddy ∧ st.base_ = base ∧
      (∀ a c, ChunkMap.find st.chunks_ a = some c → c.in_use = false) := by
  obtain ⟨r, rfl⟩ : ∃ r : Nat, n = (r : Int) := ⟨n.toNat, by omega⟩
  have hr : 0 < r := by exact_mod_cast h0
  obtain ⟨st, h1, h2, h3, h4⟩ :=
    Allocator.ctor_loop_spec Allocator.CtorInv Allocator.CtorInv.ctor_step (r + 1)
      ⟨base, toSizeT r, [], []⟩ 0 r (Allocator.WF.empty _ _) (by omega) (by omega)
      ⟨fun a c b h => by simp [ChunkMap.find] at h,
        fun _ a c h => by simp [ChunkMap.find] at h,
        fun a c h => by simp [ChunkMap.find] at h⟩
  have e : (0 : Int) + (r : Int) = r := by omega
  rw [e] at h2 h3
  refine ⟨st, ?_, h2, Allocator.CtorInv.noBuddy h2 h3, h4, h3.2.2⟩
  unfold Allocator.ctor
  rw [if_neg (by omega)]
  simp only [Int.toNat_ofNat]
  exact h1

theorem Allocator.ctor_pow2 (base : Int) (k : Nat) (hk : k ≤ 62) :
    Allocator.ctor base ((2 ^ k : Nat) : Int)
      = .ok ⟨base, 2 ^ k, [⟨false, 0, 2 ^ k⟩], [(2 ^ k, [0])]⟩ := by
  have hpos : 0 < 2 ^ k := Nat.pos_pow_of_pos k (by omega)
  have hle : 2 ^ k ≤ 2 ^ 62 := Nat.pow_le_pow_right (by omega) hk
  norm_num at hle
  have hcs : Allocator.this_chunk_size ((2 ^ k : Nat) : Int) = 2 ^ k := by
    rcases Allocator.this_chunk_size_cases (2 ^ k) hpos (by omega) with ⟨_, h⟩ | ⟨h, _⟩
    · exact h
    · exact absurd ⟨k, rfl⟩ h
  obtain ⟨hbody, _, _, _, _⟩ := Allocator.ctor_body_spec
    (Allocator.WF.empty base (toSizeT ((2 ^ k : Nat) : Int))) hpos
    (by omega : (0 : Int) + ((2 ^ k : Nat) : Int) < 9223372036854775808)
  rw [hcs] at hbody
  generalize 2 ^ k = m at *
  unfold Allocator.ctor
  rw [if_neg (by omega)]
  simp only [Int.toNat_ofNat]
  unfold Allocator.ctor_loop
  rw [if_pos (by omega), hbody]
  simp only
  obtain ⟨f, hf⟩ : ∃ f, m = f + 1 := ⟨m - 1, by omega⟩
  rw [hf]
  unfold Allocator.ctor_loop
  rw [if_neg (by omega)]
  have hts : toSizeT ((f + 1 : Nat) : Int) = f + 1 := toSizeT_natCast (by omega)
  rw [hts]
  simp [Allocator.appended, Allocator.added, Allocator.inserted, ChunkMap.insert,
    ChunkMap.update, FreeListMap.push_front, FreeListMap.put, FreeListMap.get,
    AllocatorChunk.new]

/-! ## The invariant in every reachable state -/

theorem Allocator.malloc_preserves {n : Int} {st st' : Allocator} {s : Nat} {a : Int}
    (hwf : st.WF n) (hnb : st.NoBuddy) (h : st.malloc s = .ok (st', a)) :
    st'.WF n ∧ st'.NoBuddy ∧ st'.base_ = st.base_ := by
  obtain ⟨A, st1, cmit, c, _, _, _, _, _, hst', _, hwf1, hf1, hu1, hs1, hP, hb1, hwf'⟩ :=
    Allocator.malloc_inv hwf h (fun A st cmit => Allocator.SplitInv A st cmit)
      (fun A st cmit c h hwf hf hu hsz hA hinv =>
        Allocator.SplitInv.step A st cmit c h hwf hf hu hsz hA hinv)
      (fun A cmit0 rest c0 _ _ hf _ _ hmin => Allocator.SplitInv.init hnb A cmit0 c0 hf hmin hwf)
  refine ⟨hwf', ?_, ?_⟩
  · rw [hst', ← hs1]
    exact Allocator.SplitInv.finish hwf1 hf1 hu1 hP
  · rw [hst']; exact hb1

/-- A returning `free` was called on a tracked chunk that is in use. -/
theorem Allocator.free_inv {st st' : Allocator} {p : Int} (h : st.free p = .ok st') :
    ∃ c, ChunkMap.find st.chunks_ (wrap64 (p - st.base_)) = some c ∧ c.in_use = true := by
  by_contra hcon
  have : ∀ c, ChunkMap.find st.chunks_ (wrap64 (p - st.base_)) = some c → c.in_use = false := by
    intro c hc
    by_contra hu
    exact hcon ⟨c, hc, by simpa using hu⟩
  rw [Allocator.free_assertion p this] at h
  cases h

theorem Allocator.free_preserves {n : Int} {st st' : Allocator} {p : Int}
    (hwf : st.WF n) (hnb : st.NoBuddy) (h : st.free p = .ok st') :
    st'.WF n ∧ st'.NoBuddy ∧ st'.base_ = st.base_ := by
  obtain ⟨c, hf, hu⟩ := Allocator.free_inv h
  obtain ⟨st'', cmit', c', h1, h2, h3, _, h5, h6, h7⟩ :=
    Allocator.free_ok hwf p hf hu (fun st cmit => st.NoBuddyExcept cmit)
      (fun st cmit lo hi cl ch hwf hl hh hhi hhs hlf hhf hc hnb =>
        Allocator.NoBuddyExcept.merged st cmit lo hi cl ch hwf hl hh hhi hhs hlf hhf hc hnb)
      (Allocator.NoBuddyExcept.after_add hwf hf hu hnb)
  rw [h1] at h
  cases h
  exact ⟨h2, Allocator.NoBuddyExcept.done h2 h3 h5 h7, h6⟩

theorem Allocator.Reachable.inv {base n : Int} {st : Allocator} (h0 : 0 < n)
    (hb : n < 9223372036854775808) (hr : Allocator.Reachable base n st) :
    st.WF n ∧ st.NoBuddy ∧ st.base_ = base := by
  induction hr with
  | ctor h =>
    obtain ⟨st0, h1, h2, h3, h4, _⟩ := Allocator.ctor_spec base n h0 hb
    rw [h1] at h
    cases h
    exact ⟨h2, h3, h4⟩
  | malloc _ h ih =>
    obtain ⟨h1, h2, h3⟩ := Allocator.malloc_preserves ih.1 ih.2.1 h
    exact ⟨h1, h2, by rw [h3]; exact ih.2.2⟩
  | free _ h ih =>
    obtain ⟨h1, h2, h3⟩ := Allocator.free_preserves ih.1 ih.2.1 h
    exact ⟨h1, h2, by rw [h3]; exact ih.2.2⟩

/-! ## The byte counters -/

theorem total_bytes_foldl {m : ChunkMap} {lo hi : Int} (ht : Tiles lo m hi) :
    ∀ acc : Int, 0 ≤ acc → acc + (hi - lo) < 9223372036854775808 →
      m.foldl (fun total c => wrap64 (total + c.size)) acc = acc + (hi - lo) := by
  induction m generalizing lo with
  | nil =>
    intro acc _ _
    simp only [Tiles] at ht
    simp only [List.foldl_nil]
    omega
  | cons x xs ih =>
    intro acc h0 hb
    obtain ⟨h1, h2⟩ := ht
    have hle := (tiles_bounds h2).1
    simp only [List.foldl_cons]
    rw [wrap64_of_range (by omega) (by omega), ih h2 _ (by omega) (by omega)]
    omega

theorem used_free_foldl {m : ChunkMap} {lo hi : Int} (ht : Tiles lo m hi) :
    ∀ u f : Int, 0 ≤ u → 0 ≤ f → u + f + (hi - lo) < 9223372036854775808 →
      m.foldl (fun total c => if c.in_use then wrap64 (total + c.size) else total) u +
        m.foldl (fun total c => if !c.in_use then wrap64 (total + c.size) else total) f
        = u + f + (hi - lo) ∧
      0 ≤ m.foldl (fun total c => if c.in_use then wrap64 (total + c.size) else total) u ∧
      0 ≤ m.foldl (fun total c => if !c.in_use then wrap64 (total + c.size) else total) f := by
  induction m generalizing lo with
  | nil =>
    intro u f hu hf _
    simp only [Tiles] at ht
    simp only [List.foldl_nil]
    omega
  | cons x xs ih =>
    intro u f hu hf hb
    obtain ⟨h1, h2⟩ := ht
    have hle := (tiles_bounds h2).1
    simp only [List.foldl_cons]
    cases hx : x.in_use with
    | true =>
      simp only [if_true, Bool.not_true, Bool.false_eq_true, if_false]
      rw [wrap64_of_range (by omega) (by omega)]
      obtain ⟨e1, e2, e3⟩ := ih h2 (u + x.size) f (by omega) hf (by omega)
      exact ⟨by omega, e2, e3⟩
    | false =>
      simp only [Bool.false_eq_true, if_false, Bool.not_false, if_true]
      rw [wrap64_of_range (by omega) (by omega)]
      obtain ⟨e1, e2, e3⟩ := ih h2 u (f + x.size) hu (by omega) (by omega)
      exact ⟨by omega, e2, e3⟩

theorem Allocator.WF.byte_counters {n : Int} {st : Allocator} (hwf : st.WF n) :
    st.total_bytes = n ∧ st.total_bytes_free + st.total_bytes_in_use = n ∧
      0 ≤ st.total_bytes_free ∧ 0 ≤ st.total_bytes_in_use := by
  have hb := hwf.bound
  have h0 := (tiles_bounds hwf.tiles).1
  have h1 := total_bytes_foldl hwf.tiles 0 (le_refl 0) (by omega)
  obtain ⟨h2, h3, h4⟩ := used_free_foldl hwf.tiles 0 0 (le_refl 0) (le_refl 0) (by omega)
  unfold Allocator.total_bytes Allocator.total_bytes_free Allocator.total_bytes_in_use
  refine ⟨by rw [h1]; omega, by omega, h4, h3⟩

theorem wrap64_sub_add (x b : Int) (h1 : -9223372036854775808 ≤ x)
    (h2 : x < 9223372036854775808) : wrap64 (wrap64 (x + b) - b) = x := by
  unfold wrap64
  omega

/-! ## Alignment in power-of-two arenas -/

theorem Allocator.ext_of_lookups {n : Int} {st st' : Allocator} (hwf : st.WF n)
    (hwf' : st'.WF n) (hb : st.base_ = st'.base_) (hs : st.size_ = st'.size_)
    (hfind : ∀ a, ChunkMap.find st.chunks_ a = ChunkMap.find st'.chunks_ a)
    (hget : ∀ k, FreeListMap.get st.free_lists_ k = FreeListMap.get st'.free_lists_ k) :
    st = st' := by
  have h1 := ChunkMap.ext_of_find hwf.sorted hwf'.sorted hfind
  have h2 := FreeListMap.ext_of_get hwf.fl.sorted hwf'.fl.sorted hwf.fl.nonempty
    hwf'.fl.nonempty hget
  cases st
  cases st'
  simp only at hb hs h1 h2
  simp only [Allocator.mk.injEq]
  exact ⟨hb, hs, h1, h2⟩

theorem Allocator.aligned_split {n : Int} {st : Allocator} {cmit : Int} {c : AllocatorChunk}
    {h : Nat} (hwf : st.WF n) (hf : ChunkMap.find st.chunks_ cmit = some c)
    (hfree : c.in_use = false) (hsz : c.size = h + h) (hh : 0 < h) (hal : st.Aligned) :
    (st.split cmit c.size h).Aligned := by
  obtain ⟨_, hfind, _, _, _⟩ := Allocator.split_spec hwf hf hfree hsz hh
  have hd : ((h + h : Nat) : Int) ∣ cmit := by
    have := hal cmit c hf
    rw [hsz] at this; exact this
  have hd1 : (h : Int) ∣ cmit := by
    obtain ⟨q, hq⟩ := hd
    exact ⟨2 * q, by rw [hq]; push_cast; ring⟩
  intro a c' hfa
  rw [hfind] at hfa
  split at hfa
  · rename_i ha
    cases hfa
    rw [ha]
    exact Dvd.dvd.add hd1 (dvd_refl _)
  · split at hfa
    · rename_i _ ha
      cases hfa
      rw [ha]; exact hd1
    · exact hal a c' hfa

theorem Allocator.aligned_removed {n : Int} {st : Allocator} {cmit : Int}
    {c : AllocatorChunk} (hwf : st.WF n) (hf : ChunkMap.find st.chunks_ cmit = some c)
    (hfree : c.in_use = false) (hal : st.Aligned) : (st.removed cmit c.size).Aligned := by
  obtain ⟨_, hfind, _, _, _⟩ := Allocator.malloc_finish_spec hwf hf hfree
  intro a c' hfa
  rw [hfind] at hfa
  split at hfa
  · rename_i ha
    cases hfa
    rw [ha]; exact hal cmit c hf
  · exact hal a c' hfa

theorem Allocator.aligned_added {n : Int} {st : Allocator} {it : Int}
    {c : AllocatorChunk} (hwf : st.WF n) (hf : ChunkMap.find st.chunks_ it = some c)
    (hu : c.in_use = true) (hal : st.Aligned) : (st.added it c.size).Aligned := by
  obtain ⟨_, hfind, _, _, _, _⟩ := Allocator.added_spec hwf hf hu
  intro a c' hfa
  rw [hfind] at hfa
  split at hfa
  · rename_i ha
    cases hfa
    rw [ha]; exact hal it c hf
  · exact hal a c' hfa

theorem Allocator.aligned_merged {n : Int} (st : Allocator) (cmit lo hi : Int)
    (cl ch : AllocatorChunk) (hwf : st.WF n) (hl : ChunkMap.find st.chunks_ lo = some cl)
    (hh : ChunkMap.find st.chunks_ hi = some ch) (hhi : hi = lo + cl.size)
    (hhs : ch.size = cl.size) (hlf : cl.in_use = false) (hhf : ch.in_use = false)
    (hc : (cmit = lo ∧ wrap64 (Int.xor lo (cl.size : Int)) = hi) ∨
      (cmit = hi ∧ wrap64 (Int.xor hi (cl.size : Int)) = lo))
    (hal : st.Aligned) : (st.merged lo hi cl.size).Aligned := by
  obtain ⟨_, hfind, _, _, _, _⟩ :=
    Allocator.merge_spec lo hi hwf hl hh hhi rfl hhs hlf hhf (Or.inl ⟨rfl, rfl⟩)
  obtain ⟨_, hl0, hln, hlpos, ⟨k, hk⟩⟩ := hwf.find_bounds hl
  obtain ⟨_, hh0, hhn, _, _⟩ := hwf.find_bounds hh
  have hbound := hwf.bound
  have hs63 : 2 ^ k < 9223372036854775808 := by
    have : (cl.size : Int) < 9223372036854775808 := by omega
    rw [hk] at this
    exact_mod_cast this
  have hdl := hal lo cl hl
  have hdh := hal hi ch hh
  rw [hhs] at hdh
  have h2 : ((cl.size + cl.size : Nat) : Int) ∣ lo := by
    have e : cl.size + cl.size = 2 ^ k * 2 := by rw [hk]; ring
    rw [e]
    rw [hk] at hdl hdh hc hhi
    rcases hc with ⟨_, hx⟩ | ⟨_, hx⟩
    · rcases buddy_aligned lo k hl0 (by omega) hs63 hdl with ⟨_, hd⟩ | ⟨_, hx', _⟩
      · exact hd
      · rw [hx] at hx'
        have : (0 : Int) < ((2 ^ k : Nat) : Int) := by rw [← hk]; exact_mod_cast hlpos
        omega
    · rcases buddy_aligned hi k hh0 (by omega) hs63 hdh with ⟨hx', _⟩ | ⟨_, _, hd⟩
      · rw [hx] at hx'
        have : (0 : Int) < ((2 ^ k : Nat) : Int) := by rw [← hk]; exact_mod_cast hlpos
        omega
      · have e2 : hi - ((2 ^ k : Nat) : Int) = lo := by omega
        rw [e2] at hd; exact hd
  intro a c' hfa
  rw [hfind] at hfa
  split at hfa
  · rename_i ha
    cases hfa
    rw [ha]; exact h2
  · split at hfa
    · cases hfa
    · exact hal a c' hfa

theorem Allocator.size_removed (st : Allocator) (it : Int) (k : Nat) :
    (st.removed it k).size_ = st.size_ := rfl

theorem Allocator.size_added (st : Allocator) (it : Int) (k : Nat) :
    (st.added it k).size_ = st.size_ := rfl

theorem Allocator.size_resized (st : Allocator) (it : Int) (k : Nat) :
    (st.resized it k).size_ = st.size_ := rfl

theorem Allocator.size_erased (st : Allocator) (it : Int) :
    (st.erased it).size_ = st.size_ := rfl

theorem Allocator.size_inserted (st : Allocator) (c : AllocatorChunk) :
    (st.inserted c).size_ = st.size_ := rfl

theorem Allocator.size_split (st : Allocator) (cmit : Int) (S h : Nat) :
    (st.split cmit S h).size_ = st.size_ := by
  unfold Allocator.split
  rw [Allocator.size_added, Allocator.size_inserted, Allocator.size_added,
    Allocator.size_resized, Allocator.size_removed]

theorem Allocator.size_merged (st : Allocator) (lo hi : Int) (s : Nat) :
    (st.merged lo hi s).size_ = st.size_ := by
  unfold Allocator.merged
  rw [Allocator.size_added, Allocator.size_resized, Allocator.size_removed,
    Allocator.size_erased, Allocator.size_removed]

/-! ## Undoing a `malloc` -/

theorem Allocator.undo_init {n : Int} {st : Allocator} (hwf : st.WF n) (hnb : st.NoBuddy)
    (hal : st.Aligned) (cmit0 : Int) (rest : List Int) (c0 : AllocatorChunk)
    (hg : FreeListMap.get st.free_lists_ c0.size = cmit0 :: rest)
    (hf : ChunkMap.find st.chunks_ cmit0 = some c0) (hu : c0.in_use = false) :
    Allocator.Undo st st cmit0 := by
  refine ⟨hal, ⟨c0, rest, hf, hu, hg⟩, ?_⟩
  intro fuel hfuel
  have hlen := ChunkMap.length_pos_of_find hf
  obtain ⟨f, rfl⟩ : ∃ f, fuel = f + 1 := ⟨fuel - 1, by omega⟩
  obtain ⟨hca, _⟩ := hwf.find_bounds hf
  unfold Allocator.try_merge_buddy_recursive
  simp only [hf, hca]
  cases hb : ChunkMap.find st.chunks_ (wrap64 (Int.xor cmit0 (c0.size : Int))) with
  | none => rfl
  | some b =>
    simp only
    have hno : ¬ (b.size = c0.size ∧ b.in_use = false) := by
      rintro ⟨h1, h2⟩
      have := hnb cmit0 c0 b hf hu hb h1
      rw [h2] at this
      cases this
    rw [if_neg hno]

theorem Allocator.undo_step {n : Int} (st0 st : Allocator) (cmit : Int) (c : AllocatorChunk)
    (h : Nat) (hwf : st.WF n) (hf : ChunkMap.find st.chunks_ cmit = some c)
    (hu : c.in_use = false) (hsz : c.size = h + h) (hh : 0 < h)
    (hinv : Allocator.Undo st0 st cmit) : Allocator.Undo st0 (st.split cmit c.size h) (cmit + h) := by
  obtain ⟨hal, ⟨c1, rest, hf1, _, hg1⟩, hback⟩ := hinv
  rw [hf] at hf1
  obtain rfl := Option.some.inj hf1
  obtain ⟨hca, hc0, hcn, hcpos, hcp2⟩ := hwf.find_bounds hf
  obtain ⟨_, hfind, hget, hwfs, hbs⟩ := Allocator.split_spec hwf hf hu hsz hh
  have hbound := hwf.bound
  have hp2h : IsPow2 h := by rw [hsz] at hcp2; exact hcp2.half
  obtain ⟨k, hk⟩ := hp2h
  have hfhi : ChunkMap.find (st.split cmit c.size h).chunks_ (cmit + h) =
      some ⟨false, cmit + h, h⟩ := by rw [hfind]; simp
  have hflo : ChunkMap.find (st.split cmit c.size h).chunks_ cmit =
      some ⟨false, cmit, h⟩ := by
    rw [hfind]
    have : cmit ≠ cmit + (h : Int) := by omega
    simp [this]
  have hbud : wrap64 (Int.xor (cmit + (h : Int)) (h : Int)) = cmit := by
    rw [hk]
    apply buddy_upper_half cmit k hc0
    · rw [← hk]; omega
    · have := hal cmit c hf
      rw [hsz, hk] at this
      have e : 2 ^ k * 2 = 2 ^ k + 2 ^ k := by ring
      rw [e]; exact this
  obtain ⟨hm, hmfind, hmget, hmwf, hmb, hmlen⟩ :=
    Allocator.merge_spec (cmit + h) cmit hwfs hflo hfhi rfl rfl rfl rfl rfl (Or.inr ⟨rfl, rfl⟩)
  have hSh : c.size ≠ h := by omega
  have heq : (st.split cmit c.size h).merged cmit (cmit + h) h = st := by
    apply Allocator.ext_of_lookups hmwf hwf
    · rw [hmb, hbs]
    · rw [Allocator.size_merged, Allocator.size_split]
    · intro a
      rw [hmfind]
      by_cases ha : a = cmit
      · rw [if_pos ha, ha, hf]
        congr 1
        cases c
        simp only at hu hca hsz
        simp only [AllocatorChunk.mk.injEq]
        exact ⟨hu.symm, hca.symm, hsz.symm⟩
      · rw [if_neg ha]
        by_cases hb : a = cmit + h
        · rw [if_pos hb, hb]
          symm
          obtain ⟨hm', _⟩ := ChunkMap.find_some hf
          apply tiles_interior hwf.tiles hm'
          · rw [hca]; omega
          · rw [hca, hsz]; push_cast; omega
        · rw [if_neg hb, hfind, if_neg hb, if_neg ha]
    · intro k'
      rw [hmget]
      by_cases h1 : k' = h + h
      · rw [if_pos h1, hget, h1, ← hsz, if_neg hSh, if_pos rfl, hg1]
        simp
      · rw [if_neg h1]
        by_cases h2 : k' = h
        · rw [if_pos h2, hget, if_pos rfl, h2]
          simp
        · rw [if_neg h2, hget, if_neg h2, if_neg (by rw [hsz]; exact h1)]
  refine ⟨Allocator.aligned_split hwf hf hu hsz hh hal, ⟨⟨false, cmit + h, h⟩, cmit :: FreeListMap.get st.free_lists_ h, hfhi, rfl, ?_⟩, ?_⟩
  · rw [hget]; simp
  · intro fuel hfuel
    have hlen : (st.split cmit c.size h).chunks_.length = st.chunks_.length + 1 := by
      rw [← hmlen, heq]
    obtain ⟨f, rfl⟩ : ∃ f, fuel = f + 1 := ⟨fuel - 1, by omega⟩
    unfold Allocator.try_merge_buddy_recursive
    simp only [hfhi, hbud, hflo, hm, and_self, if_true]
    rw [heq]
    exact hback f (by omega)

theorem Allocator.undo_finish {n : Int} {st0 st1 : Allocator} {cmit : Int}
    {c : AllocatorChunk} (hwf : st1.WF n) (hf : ChunkMap.find st1.chunks_ cmit = some c)
    (hu : c.in_use = false) (hinv : Allocator.Undo st0 st1 cmit) :
    (st1.removed cmit c.size).free (wrap64 (cmit + st1.base_)) = .ok st0 := by
  obtain ⟨_, ⟨c1, rest, hf1, _, hg1⟩, hback⟩ := hinv
  rw [hf] at hf1
  obtain rfl := Option.some.inj hf1
  obtain ⟨hca, hc0, hcn, hcpos, hcp2⟩ := hwf.find_bounds hf
  have hbound := hwf.bound
  obtain ⟨_, hfind, hget, hwfr, hbr⟩ := Allocator.malloc_finish_spec hwf hf hu
  have haddr : wrap64 (wrap64 (cmit + st1.base_) - (st1.removed cmit c.size).base_) = cmit := by
    rw [hbr]
    exact wrap64_sub_add cmit st1.base_ (by omega) (by omega)
  have hfr : ChunkMap.find (st1.removed cmit c.size).chunks_ cmit = some ⟨true, cmit, c.size⟩ := by
    rw [hfind]; simp
  obtain ⟨hadd, hafind, haget, hawf, hab, halen⟩ := Allocator.added_spec hwfr hfr rfl
  have heq : (st1.removed cmit c.size).added cmit c.size = st1 := by
    apply Allocator.ext_of_lookups hawf hwf
    · rw [hab, hbr]
    · rw [Allocator.size_added, Allocator.size_removed]
    · intro a
      rw [hafind]
      by_cases ha : a = cmit
      · rw [if_pos ha, ha, hf]
        congr 1
        cases c
        simp only at hu hca
        simp only [AllocatorChunk.mk.injEq]
        exact ⟨hu.symm, hca.symm, trivial⟩
      · rw [if_neg ha, hfind, if_neg ha]
    · intro k
      rw [haget]
      by_cases hk : k = c.size
      · rw [if_pos hk, hget, if_pos rfl, hk, hg1]
        simp
      · rw [if_neg hk, hget, if_neg hk]
  unfold Allocator.free
  simp only [haddr, hfr, hadd, if_true]
  rw [heq]
  exact hback _ (le_refl _)

/-- In an aligned state without free buddies, `free` of the address that
`malloc` has just returned leads back to the state before the `malloc`. -/
theorem Allocator.free_malloc {n : Int} {st st' : Allocator} {s : Nat} {a : Int}
    (hwf : st.WF n) (hnb : st.NoBuddy) (hal : st.Aligned)
    (h : st.malloc s = .ok (st', a)) : st'.free a = .ok st := by
  obtain ⟨A, st1, cmit, c, _, _, _, _, _, hst', ha, hwf1, hf1, hu1, hs1, hP, hb1, _⟩ :=
    Allocator.malloc_inv hwf h (fun _ st1 cmit => Allocator.Undo st st1 cmit)
      (fun A st1 cmit c h hwf1 hf hu hsz hA hinv => by
        have hh : 0 < h := by
          have := (hwf1.find_bounds hf).2.2.2.1
          omega
        exact Allocator.undo_step st st1 cmit c h hwf1 hf hu hsz hh hinv)
      (fun A cmit0 rest c0 _ hg hf hu _ _ => Allocator.undo_init hwf hnb hal cmit0 rest c0 hg hf hu)
  rw [hst', ha, ← hs1, ← hb1]
  exact Allocator.undo_finish hwf1 hf1 hu1 hP

theorem Allocator.malloc_aligned {n : Int} {st st' : Allocator} {s : Nat} {a : Int}
    (hwf : st.WF n) (hal : st.Aligned) (h : st.malloc s = .ok (st', a)) : st'.Aligned := by
  obtain ⟨A, st1, cmit, c, _, _, _, _, _, hst', _, hwf1, hf1, hu1, hs1, hP, _, _⟩ :=
    Allocator.malloc_inv hwf h (fun _ st1 _ => st1.Aligned)
      (fun A st1 cmit c h hwf1 hf hu hsz hA hinv => by
        have hh : 0 < h := by
          have := (hwf1.find_bounds hf).2.2.2.1
          omega
        exact Allocator.aligned_split hwf1 hf hu hsz hh hinv)
      (fun _ _ _ _ _ _ _ _ _ _ => hal)
  rw [hst', ← hs1]
  exact Allocator.aligned_removed hwf1 hf1 hu1 hP

theorem Allocator.free_aligned {n : Int} {st st' : Allocator} {p : Int}
    (hwf : st.WF n) (hal : st.Aligned) (h : st.free p = .ok st') : st'.Aligned := by
  obtain ⟨c, hf, hu⟩ := Allocator.free_inv h
  obtain ⟨st'', cmit', c', h1, _, _, _, h5, _, _⟩ :=
    Allocator.free_ok hwf p hf hu (fun st _ => st.Aligned)
      (fun st cmit lo hi cl ch hwf hl hh hhi hhs hlf hhf hc hal =>
        Allocator.aligned_merged st cmit lo hi cl ch hwf hl hh hhi hhs hlf hhf hc hal)
      (Allocator.aligned_added hwf hf hu hal)
  rw [h1] at h
  cases h
  exact h5

theorem Allocator.Reachable.aligned {base : Int} {k : Nat} {st : Allocator} (hk : k ≤ 62)
    (hr : Allocator.Reachable base ((2 ^ k : Nat) : Int) st) : st.Aligned := by
  have hpos : (0 : Int) < ((2 ^ k : Nat) : Int) := by
    have : 0 < 2 ^ k := Nat.pos_pow_of_pos k (by omega)
    exact_mod_cast this
  have hlt : ((2 ^ k : Nat) : Int) < 9223372036854775808 := by
    have : 2 ^ k ≤ 2 ^ 62 := Nat.pow_le_pow_right (by omega) hk
    norm_num at this
    omega
  induction hr with
  | ctor h =>
    rw [Allocator.ctor_pow2 base k hk] at h
    cases h
    intro a c hf
    obtain ⟨hm, ha⟩ := ChunkMap.find_some hf
    simp only [List.mem_singleton] at hm
    rw [← ha, hm]
    exact dvd_zero _
  | malloc hr' h ih =>
    exact Allocator.malloc_aligned (Allocator.Reachable.inv hpos hlt hr').1 ih h
  | free hr' h ih =>
    exact Allocator.free_aligned (Allocator.Reachable.inv hpos hlt hr').1 ih h

/-! ## The reduction on the home node -/

theorem home_handle_spec {T : Type} (Reducer : T → T → T) (BaseVal : T) (nodes : Nat) :
    ∀ (vals : List T) (home : ReductionNode T), vals ≠ [] →
      home.reduction_reported_in + vals.length = nodes →
      home_handle Reducer BaseVal nodes home vals =
        ({ home with
            reduction_reported_in := 0,
            reduction_result := vals.foldl Reducer
              (if home.reduction_reported_in = 0 then BaseVal else home.reduction_result) },
          (List.range nodes).map (fun n => (n, vals.foldl Reducer
              (if home.reduction_reported_in = 0 then BaseVal else home.reduction_result)))) := by
  intro vals
  induction vals with
  | nil => intro _ h; exact absurd rfl h
  | cons val rest ih =>
    intro home _ hlen
    cases rest with
    | nil =>
      simp only [List.length_singleton] at hlen
      simp only [home_handle, am_reduce, List.foldl_cons, List.foldl_nil, List.append_nil]
      by_cases h0 : home.reduction_reported_in = 0
      · simp only [h0, if_true]
        rw [h0] at hlen
        simp only [hlen, if_true]
      · simp only [h0, if_false, hlen, if_true]
    | cons v2 rest2 =>
      have hne : home.reduction_reported_in + 1 ≠ nodes := by
        simp only [List.length_cons] at hlen
        omega
      have hstep : home_handle Reducer BaseVal nodes home (val :: v2 :: rest2) =
          home_handle Reducer BaseVal nodes
            { home with
                reduction_reported_in := home.reduction_reported_in + 1,
                reduction_result := Reducer
                  (if home.reduction_reported_in = 0 then BaseVal else home.reduction_result)
                  val }
            (v2 :: rest2) := by
        rw [home_handle]
        by_cases h0 : home.reduction_reported_in = 0
        · simp only [am_reduce, h0, if_true]
          rw [h0] at hne
          simp only [hne, if_false, List.nil_append]
        · simp only [am_reduce, h0, if_false, hne, List.nil_append]
      rw [hstep, ih _ (List.cons_ne_nil _ _) (by simp only [List.length_cons] at hlen ⊢; omega)]
      simp only [Nat.add_one_ne_zero, if_false, List.foldl_cons]

theorem setNode_append {T : Type} (pre : List (ReductionNode T)) (x : ReductionNode T)
    (suf : List (ReductionNode T)) (f : ReductionNode T → ReductionNode T) :
    setNode (pre ++ x :: suf) pre.length f = pre ++ f x :: suf := by
  induction pre with
  | nil => rfl
  | cons p ps ih =>
    show p :: setNode (ps ++ x :: suf) ps.length f = p :: (ps ++ f x :: suf)
    rw [ih]

theorem deliver_wakes_range {T : Type} (F : T) :
    ∀ (suf pre : List (ReductionNode T)),
      deliver_wakes (pre ++ suf) ((List.range' pre.length suf.length).map (fun n => (n, F))) =
        pre ++ suf.map (fun node => am_reduce_wake node F) := by
  intro suf
  induction suf with
  | nil => intro pre; simp [deliver_wakes, List.range']
  | cons x xs ih =>
    intro pre
    simp only [List.length_cons, List.range', List.map_cons, deliver_wakes]
    rw [setNode_append]
    have := ih (pre ++ [am_reduce_wake x F])
    simp only [List.append_assoc, List.singleton_append, List.length_append,
      List.length_singleton] at this
    rw [this]

theorem deliver_wakes_all {T : Type} (F : T) (cluster : List (ReductionNode T)) :
    deliver_wakes cluster ((List.range cluster.length).map (fun n => (n, F))) =
      cluster.map (fun node => am_reduce_wake node F) := by
  have := deliver_wakes_range F cluster []
  simpa [List.range_eq_range'] using this

/-- When the first of `N ≥ 1` contributions finds the arrival counter at 0,
the home node broadcasts the left fold of `Reducer` over the contributions in
their order of arrival, seeded with `BaseVal`, to every node, the counter is 0
again, and `Grappa_allreduce` returns that value on every node. -/
theorem allreduce_round_spec {T : Type} (Reducer : T → T → T) (BaseVal : T)
    (home : ReductionNode T) (others : List (ReductionNode T)) (arrival : List T)
    (hlen : arrival.length = (home :: others).length) (h0 : home.reduction_reported_in = 0) :
    (home_handle Reducer BaseVal (home :: others).length (Grappa_allreduce_call home) arrival).2 =
        (List.range (home :: others).length).map
          (fun n => (n, arrival.foldl Reducer BaseVal)) ∧
      (home_handle Reducer BaseVal (home :: others).length (Grappa_allreduce_call home)
        arrival).1.reduction_reported_in = 0 ∧
      allreduce_round Reducer BaseVal (home :: others) arrival =
        List.replicate (home :: others).length (some (arrival.foldl Reducer BaseVal)) := by
  have hne : arrival ≠ [] := by
    intro h
    rw [h] at hlen
    simp at hlen
  have hc0 : (Grappa_allreduce_call home).reduction_reported_in = 0 := h0
  have hh := home_handle_spec Reducer BaseVal (home :: others).length arrival
    (Grappa_allreduce_call home) hne (by rw [hc0, hlen]; simp)
  simp only [hc0, if_true] at hh
  refine ⟨by rw [hh], by rw [hh], ?_⟩
  unfold allreduce_round
  simp only [List.map_cons]
  rw [hh]
  simp only
  have hd := deliver_wakes_all (arrival.foldl Reducer BaseVal)
    ({ Grappa_allreduce_call home with
        reduction_reported_in := 0,
        reduction_result := arrival.foldl Reducer BaseVal } ::
      others.map Grappa_allreduce_call)
  simp only [List.length_cons, List.length_map] at hd ⊢
  rw [hd]
  simp only [List.map_cons, List.map_map, List.replicate_succ]
  congr 1
  rw [List.eq_replicate_iff]
  refine ⟨by simp, ?_⟩
  intro b hb
  simp only [List.mem_map] at hb
  obtain ⟨x, _, rfl⟩ := hb
  rfl

theorem foldl_coll_add (l : List Int) :
    ∀ acc : Int, 0 ≤ acc → (∀ x ∈ l, 0 ≤ x) → acc + l.sum < 9223372036854775808 →
      l.foldl coll_add acc = acc + l.sum := by
  induction l with
  | nil => intro acc _ _ _; simp
  | cons x xs ih =>
    intro acc hacc hx hsum
    simp only [List.sum_cons] at hsum
    have hx0 := hx x (List.mem_cons_self _ _)
    have hxs : ∀ y ∈ xs, 0 ≤ y := fun y hy => hx y (List.mem_cons_of_mem _ hy)
    have hs0 : 0 ≤ xs.sum := List.sum_nonneg hxs
    have hw : coll_add acc x = acc + x := by
      unfold coll_add
      exact wrap64_of_range (by omega) (by omega)
    simp only [List.foldl_cons, List.sum_cons]
    rw [hw, ih (acc + x) (by omega) hxs (by omega)]
    ring

theorem sum_range_ofNat (N : Nat) :
    ((List.range N).map Int.ofNat).sum * 2 = (N : Int) * ((N : Int) - 1) := by
  induction N with
  | zero => simp
  | succ n ih =>
    rw [List.range_succ, List.map_append, List.sum_append]
    simp only [List.map_cons, List.map_nil, List.sum_cons, List.sum_nil, Int.ofNat_eq_coe]
    push_cast
    linarith

/-! ## The addresses `free` accepts -/

theorem Allocator.Live.reachable {base n : Int} {st : Allocator} {live : List Int}
    (h : Allocator.Live base n st live) : Allocator.Reachable base n st := by
  induction h with
  | ctor h => exact Allocator.Reachable.ctor h
  | malloc _ h ih => exact Allocator.Reachable.malloc ih h
  | free _ h ih => exact Allocator.Reachable.free ih h

theorem Allocator.Live.in_use {base n : Int} {st : Allocator} {live : List Int} (h0 : 0 < n)
    (hb : n < 9223372036854775808) (h : Allocator.Live base n st live) :
    ∀ x c, ChunkMap.find st.chunks_ x = some c → c.in_use = true → wrap64 (x + base) ∈ live := by
  induction h with
  | ctor h =>
    obtain ⟨st0, h1, _, _, _, hfree⟩ := Allocator.ctor_spec base n h0 hb
    rw [h1] at h
    cases h
    intro x c hf hu
    have := hfree x c hf
    rw [this] at hu
    cases hu
  | @malloc st st' s a live hl h ih =>
    obtain ⟨hwf, _, hbase⟩ := Allocator.Reachable.inv h0 hb hl.reachable
    obtain ⟨A, st1, cmit, c, _, _, _, _, _, hst', ha, hwf1, hf1, hu1, hs1, hP, _, _⟩ :=
      Allocator.malloc_inv hwf h
        (fun _ st1 _ => ∀ x c, ChunkMap.find st1.chunks_ x = some c → c.in_use = true →
          wrap64 (x + base) ∈ live)
        (fun A st1 cmit c h hwf1 hf hu hsz hA hinv => by
          have hh : 0 < h := by
            have := (hwf1.find_bounds hf).2.2.2.1
            omega
          obtain ⟨_, hfind, _, _, _⟩ := Allocator.split_spec hwf1 hf hu hsz hh
          intro x c' hfx hux
          rw [hfind] at hfx
          split at hfx
          · cases hfx; cases hux
          · split at hfx
            · cases hfx; cases hux
            · exact hinv x c' hfx hux)
        (fun _ _ _ _ _ _ _ _ _ _ => ih)
    obtain ⟨_, hfind, _, _, _⟩ := Allocator.malloc_finish_spec hwf1 hf1 hu1
    intro x c' hfx hux
    rw [hst', ← hs1, hfind] at hfx
    by_cases hx : x = cmit
    · rw [hx, ha, hbase]
      exact List.mem_cons_self _ _
    · rw [if_neg hx] at hfx
      exact List.mem_cons_of_mem _ (hP x c' hfx hux)
  | @free st st' p live hl h ih =>
    obtain ⟨hwf, _, hbase⟩ := Allocator.Reachable.inv h0 hb hl.reachable
    obtain ⟨c, hf, hu⟩ := Allocator.free_inv h
    obtain ⟨st'', cmit', c', h1, hwf', _, _, h5, _, _⟩ :=
      Allocator.free_ok hwf p hf hu
        (fun st1 _ => ∀ x c, ChunkMap.find st1.chunks_ x = some c → c.in_use = true →
          wrap64 (x + base) ∈ live ∧ x ≠ wrap64 (p - st.base_))
        (fun st1 cmit lo hi cl ch hwf1 hl hh hhi hhs hlf hhf hc hinv => by
          obtain ⟨_, hfind, _, _, _, _⟩ :=
            Allocator.merge_spec lo hi hwf1 hl hh hhi rfl hhs hlf hhf (Or.inl ⟨rfl, rfl⟩)
          intro x c' hfx hux
          rw [hfind] at hfx
          split at hfx
          · cases hfx; cases hux
          · split at hfx
            · cases hfx
            · exact hinv x c' hfx hux)
        (by
          obtain ⟨_, hfind, _, _, _, _⟩ := Allocator.added_spec hwf hf hu
          intro x c' hfx hux
          rw [hfind] at hfx
          split at hfx
          · cases hfx; cases hux
          · rename_i hx
            exact ⟨ih x c' hfx hux, hx⟩)
    rw [h1] at h
    cases h
    intro x c' hfx hux
    obtain ⟨hmem, hne⟩ := h5 x c' hfx hux
    obtain ⟨_, hx0, hxn, _, _⟩ := hwf'.find_bounds hfx
    rw [List.mem_filter]
    refine ⟨hmem, ?_⟩
    simp only [ne_eq, decide_not, Bool.not_eq_eq_eq_not, Bool.not_true, decide_eq_false_iff_not]
    intro hp
    apply hne
    rw [← hp, hbase]
    exact (wrap64_sub_add x base (by omega) (by have := hwf.bound; omega)).symm

theorem Allocator.free_twice {n : Int} {st st' : Allocator} {p : Int} (hwf : st.WF n)
    (h : st.free p = .ok st') : st'.free p = .error .assertion := by
  obtain ⟨c, hf, hu⟩ := Allocator.free_inv h
  obtain ⟨st'', cmit', c', h1, _, _, _, h5, hb', _⟩ :=
    Allocator.free_ok hwf p hf hu
      (fun st1 _ => ∀ c, ChunkMap.find st1.chunks_ (wrap64 (p - st.base_)) = some c →
        c.in_use = false)
      (fun st1 cmit lo hi cl ch hwf1 hl hh hhi hhs hlf hhf hc hinv => by
        obtain ⟨_, hfind, _, _, _, _⟩ :=
          Allocator.merge_spec lo hi hwf1 hl hh hhi rfl hhs hlf hhf (Or.inl ⟨rfl, rfl⟩)
        intro c' hfx
        rw [hfind] at hfx
        split at hfx
        · cases hfx; rfl
        · split at hfx
          · cases hfx
          · exact hinv c' hfx)
      (by
        obtain ⟨_, hfind, _, _, _, _⟩ := Allocator.added_spec hwf hf hu
        intro c' hfx
        rw [hfind, if_pos rfl] at hfx
        cases hfx; rfl)
  rw [h1] at h
  cases h
  apply Allocator.free_assertion
  rw [hb']
  exact h5

theorem Allocator.free_interior {n : Int} {st : Allocator} (hwf : st.WF n) (p : Int)
    (c : AllocatorChunk) (hc : c ∈ st.chunks_) (h1 : c.address < wrap64 (p - st.base_))
    (h2 : wrap64 (p - st.base_) < c.address + c.size) : st.free p = .error .assertion := by
  apply Allocator.free_assertion
  intro c' hf
  rw [tiles_interior hwf.tiles hc h1 h2] at hf
  cases hf

theorem Allocator.free_returns {n : Int} {st : Allocator} (hwf : st.WF n) (p : Int)
    {c : AllocatorChunk} (hf : ChunkMap.find st.chunks_ (wrap64 (p - st.base_)) = some c)
    (hu : c.in_use = true) : ∃ st', st.free p = .ok st' := by
  obtain ⟨st', _, _, h1, _⟩ :=
    Allocator.free_ok hwf p hf hu (fun _ _ => True) (fun _ _ _ _ _ _ _ _ _ _ _ _ _ _ _ => trivial)
      trivial
  exact ⟨st', h1⟩

theorem wrap64_add_sub (p b : Int) (h1 : -9223372036854775808 ≤ p)
    (h2 : p < 9223372036854775808) : wrap64 (wrap64 (p - b) + b) = p := by
  unfold wrap64
  omega

theorem tiles_explicit {m : ChunkMap} : ∀ {lo hi : Int}, Tiles lo m hi →
    (∀ c, m.head? = some c → c.address = lo) ∧
    (∀ i c d, m[i]? = some c → m[i + 1]? = some d → c.address + (c.size : Int) = d.address) ∧
    (∀ c, m.getLast? = some c → c.address + c.size = hi) := by
  induction m with
  | nil =>
    intro lo hi _
    refine ⟨?_, ?_, ?_⟩
    · intro c h; cases h
    · intro i c d h; simp at h
    · intro c h; cases h
  | cons x xs ih =>
    intro lo hi ht
    obtain ⟨t1, t2⟩ := ht
    obtain ⟨i1, i2, i3⟩ := ih t2
    refine ⟨?_, ?_, ?_⟩
    · intro c h
      simp only [List.head?_cons, Option.some.injEq] at h
      rw [← h]; exact t1
    · intro i c d hc hd
      cases i with
      | zero =>
        simp only [List.getElem?_cons_zero, Option.some.injEq] at hc
        simp only [zero_add, List.getElem?_cons_succ] at hd
        have : xs.head? = some d := by
          cases xs with
          | nil => simp at hd
          | cons y ys => simpa using hd
        rw [i1 d this, ← hc, t1]
      | succ j =>
        simp only [List.getElem?_cons_succ] at hc hd
        exact i2 j c d hc hd
    · intro c h
      cases xs with
      | nil =>
        simp only [List.getLast?_singleton, Option.some.injEq] at h
        have : lo + (x.size : Int) = hi := t2
        rw [← h, t1]; exact this
      | cons y ys =>
        rw [List.getLast?_cons_cons] at h
        exact i3 c h

theorem fresh1024_ctor : Allocator.ctor 0 1024 = .ok Allocator.fresh1024 := by decide

theorem fresh1024_malloc : Allocator.fresh1024.malloc 100 = .ok (Allocator.fresh1024_malloc100, 896) := by
  decide

theorem fresh1024_free : Allocator.fresh1024_malloc100.free 896 = .ok Allocator.fresh1024 := by
  decide

theorem fresh1024_reachable : Allocator.Reachable 0 1024 Allocator.fresh1024_malloc100 :=
  Allocator.Reachable.malloc (Allocator.Reachable.ctor fresh1024_ctor) fresh1024_malloc

/-! ## When `malloc` throws -/

/-- For a request `1 ≤ s ≤ 2^63` whose smallest sufficient power of two is
`2^k`, `malloc( s )` throws `Allocator::Exception` exactly when every free
chunk is smaller than `2^k`. -/
theorem Allocator.malloc_exception_iff {n : Int} {st : Allocator} (hwf : st.WF n) (s k : Nat)
    (hs1 : 1 ≤ s) (hs2 : s ≤ 9223372036854775808) (hk : s ≤ 2 ^ k)
    (hmin : ∀ j, s ≤ 2 ^ j → 2 ^ k ≤ 2 ^ j) :
    st.malloc s = .error .exception ↔
      ∀ a c, ChunkMap.find st.chunks_ a = some c → c.in_use = false → c.size < 2 ^ k := by
  have hbound := hwf.bound
  by_cases hsmall : s ≤ 4611686018427387904
  · have hw : wrap64 (s : Int) = s := wrap64_of_range (by omega) (by omega)
    obtain ⟨k', hk', hn, hle, hlt⟩ :=
      next_largest_power_of_2_pos (wrap64 s) (by rw [hw]; omega) (by rw [hw]; omega)
    rw [hw] at hle hlt
    have hle' : s ≤ 2 ^ k' := by exact_mod_cast hle
    have hlt' : 2 ^ k' < 2 * s := by exact_mod_cast hlt
    have hkk : 2 ^ k = 2 ^ k' := by
      apply le_antisymm (hmin k' hle')
      by_contra hcon
      have := IsPow2.le_half ⟨k, rfl⟩ ⟨k', rfl⟩ (by omega)
      omega
    rw [hkk]
    have hts : toSizeT ((2 ^ k' : Nat) : Int) = 2 ^ k' := by
      apply toSizeT_natCast
      have : 2 ^ k' ≤ 2 ^ 62 := Nat.pow_le_pow_right (by omega) hk'
      norm_num at this
      omega
    cases hlb : FreeListMap.lower_bound st.free_lists_ (2 ^ k') with
    | none =>
      have hm : st.malloc s = .error .exception := by
        unfold Allocator.malloc
        simp only [hn, hts, hlb]
      constructor
      · intro _
        exact hwf.lower_bound_eq_none.mp hlb
      · intro _
        exact hm
    | some flit =>
      obtain ⟨st1, cmit, c, hm, _⟩ :=
        Allocator.malloc_ok hwf s (2 ^ k') ⟨k', rfl⟩ hn hlb (fun _ _ => True)
          (fun _ _ _ _ _ _ _ _ _ _ => trivial) (fun _ _ _ _ _ _ _ _ => trivial)
      constructor
      · intro h
        rw [hm] at h
        cases h
      · intro h
        have := hwf.lower_bound_eq_none.mpr h
        rw [hlb] at this
        cases this
  · have hn : Allocator.next_largest_power_of_2 (wrap64 s) = -9223372036854775808 := by
      by_cases htop : s = 9223372036854775808
      · have hw : wrap64 (s : Int) = -9223372036854775808 := by
          rw [htop]; rfl
        rw [hw]
        exact next_largest_power_of_2_min
      · have hw : wrap64 (s : Int) = s := wrap64_of_range (by omega) (by omega)
        rw [hw]
        exact next_largest_power_of_2_large _ (by omega) (by omega)
    have hts : toSizeT (-9223372036854775808) = 9223372036854775808 := rfl
    have hall : ∀ a c, ChunkMap.find st.chunks_ a = some c → c.in_use = false →
        c.size < 9223372036854775808 := by
      intro a c hf _
      obtain ⟨_, h0, hcn, _, _⟩ := hwf.find_bounds hf
      omega
    have hlb := hwf.lower_bound_eq_none.mpr hall
    have hm : st.malloc s = .error .exception := by
      unfold Allocator.malloc
      simp only [hn, hts, hlb]
    have hkbig : 9223372036854775808 ≤ 2 ^ k := by
      by_contra hcon
      have h63 : (9223372036854775808 : Nat) = 2 ^ 63 := by norm_num
      have := IsPow2.le_half ⟨k, rfl⟩ ⟨63, rfl⟩ (by omega)
      omega
    constructor
    · intro _ a c hf hu
      have := hall a c hf hu
      omega
    · intro _
      exact hm

/-! ## Runs of the reduce handlers on the home node -/

theorem home_handle_eq_with {T : Type} (Reducer : T → T → T) (BaseVal : T) (nodes : Nat) :
    ∀ (vals : List T) (home : ReductionNode T),
      home_handle Reducer BaseVal nodes home vals =
        home_handle_with (am_reduce Reducer BaseVal nodes) home vals := by
  intro vals
  induction vals with
  | nil => intro home; rfl
  | cons v vs ih =>
    intro home
    simp only [home_handle, home_handle_with, ih]

theorem home_handle_with_append {S V M : Type} (handler : S → V → S × List M) :
    ∀ (l1 l2 : List V) (s : S),
      home_handle_with handler s (l1 ++ l2) =
        ((home_handle_with handler (home_handle_with handler s l1).1 l2).1,
          (home_handle_with handler s l1).2 ++
            (home_handle_with handler (home_handle_with handler s l1).1 l2).2) := by
  intro l1
  induction l1 with
  | nil => intro l2 s; simp [home_handle_with]
  | cons v vs ih =>
    intro l2 s
    have e := ih l2 (handler s v).1
    show home_handle_with handler s (v :: (vs ++ l2)) = _
    simp only [home_handle_with, e, List.append_assoc]

theorem home_handle_with_singleton {S V M : Type} (handler : S → V → S × List M) (s : S)
    (v : V) : home_handle_with handler s [v] = handler s v := by
  simp [home_handle_with]

/-- A handler that counts arrivals modulo `N` and is silent except on the
`N`-th arrival: after any run the counter is the number of arrivals modulo
`N`. -/
theorem home_handle_with_counter {S V M : Type} (handler : S → V → S × List M)
    (cnt : S → Nat) (N : Nat)
    (hc : ∀ s v, cnt (handler s v).1 = if cnt s + 1 = N then 0 else cnt s + 1) :
    ∀ (vals : List V) (s : S), cnt s < N →
      cnt (home_handle_with handler s vals).1 = (cnt s + vals.length) % N := by
  intro vals
  induction vals with
  | nil =>
    intro s hs
    simp only [home_handle_with, List.length_nil, Nat.add_zero]
    exact (Nat.mod_eq_of_lt hs).symm
  | cons v vs ih =>
    intro s hs
    simp only [home_handle_with, List.length_cons]
    have hlt : cnt (handler s v).1 < N := by
      rw [hc]; split <;> omega
    rw [ih _ hlt, hc]
    by_cases h : cnt s + 1 = N
    · rw [if_pos h]
      have : cnt s + (vs.length + 1) = vs.length + N := by omega
      rw [this, Nat.add_mod_right, Nat.zero_add]
    · rw [if_neg h]
      congr 1
      omega

theorem home_handle_with_silent {S V M : Type} (handler : S → V → S × List M)
    (cnt : S → Nat) (N : Nat)
    (hc : ∀ s v, cnt (handler s v).1 = if cnt s + 1 = N then 0 else cnt s + 1)
    (hm : ∀ s v, cnt s + 1 ≠ N → (handler s v).2 = []) :
    ∀ (vals : List V) (s : S), cnt s + vals.length < N →
      (home_handle_with handler s vals).2 = [] ∧
        cnt (home_handle_with handler s vals).1 = cnt s + vals.length := by
  intro vals
  induction vals with
  | nil => intro s _; simp [home_handle_with]
  | cons v vs ih =>
    intro s hs
    simp only [List.length_cons] at hs
    have hne : cnt s + 1 ≠ N := by omega
    have hc1 : cnt (handler s v).1 = cnt s + 1 := by rw [hc, if_neg hne]
    obtain ⟨h1, h2⟩ := ih (handler s v).1 (by rw [hc1]; omega)
    simp only [home_handle_with, List.length_cons, hm s v hne, h1, List.append_nil, h2, hc1,
      true_and]
    omega

theorem am_reduce_counter {T : Type} (Reducer : T → T → T) (BaseVal : T) (nodes : Nat)
    (home : ReductionNode T) (val : T) :
    (am_reduce Reducer BaseVal nodes home val).1.reduction_reported_in =
      if home.reduction_reported_in + 1 = nodes then 0 else home.reduction_reported_in + 1 := by
  unfold am_reduce
  by_cases h0 : home.reduction_reported_in = 0 <;>
    by_cases h : home.reduction_reported_in + 1 = nodes <;> simp [h0, h] <;> simp_all

theorem am_reduce_silent {T : Type} (Reducer : T → T → T) (BaseVal : T) (nodes : Nat)
    (home : ReductionNode T) (val : T) (h : home.reduction_reported_in + 1 ≠ nodes) :
    (am_reduce Reducer BaseVal nodes home val).2 = [] := by
  unfold am_reduce
  by_cases h0 : home.reduction_reported_in = 0 <;> simp_all

theorem am_reduce_noinit_counter {T : Type} (Reducer : T → T → T) (nodes : Nat)
    (home : ReductionNode T) (val : T) :
    (am_reduce_noinit Reducer nodes home val).1.reduction_reported_in =
      if home.reduction_reported_in + 1 = nodes then 0 else home.reduction_reported_in + 1 := by
  unfold am_reduce_noinit
  by_cases h0 : home.reduction_reported_in = 0 <;>
    by_cases h : home.reduction_reported_in + 1 = nodes <;> simp [h0, h] <;> simp_all

theorem am_reduce_noinit_silent {T : Type} (Reducer : T → T → T) (nodes : Nat)
    (home : ReductionNode T) (val : T) (h : home.reduction_reported_in + 1 ≠ nodes) :
    (am_reduce_noinit Reducer nodes home val).2 = [] := by
  unfold am_reduce_noinit
  by_cases h0 : home.reduction_reported_in = 0 <;> simp_all

theorem am_reduce_array_counter {T : Type} (Reducer : T → T → T) (BaseVal : T) (nodes : Nat)
    (home home1 : ReductionArrayNode T) (val : List T) (msgs : List (Nat × List T))
    (h : am_reduce_array Reducer BaseVal nodes home val = .ok (home1, msgs)) :
    home1.reduction_reported_in =
        (if home.reduction_reported_in + 1 = nodes then 0
          else home.reduction_reported_in + 1) ∧
      (home.reduction_reported_in + 1 ≠ nodes → msgs = []) := by
  unfold am_reduce_array at h
  by_cases h0 : home.reduction_reported_in = 0
  · simp only [h0, if_true, List.length_replicate, lt_irrefl, if_false, Nat.zero_add] at h
    by_cases hn : 1 = nodes
    · rw [if_pos hn] at h
      simp only [Except.ok.injEq, Prod.mk.injEq] at h
      obtain ⟨h1, _⟩ := h
      rw [← h1]
      simp [h0, hn]
    · rw [if_neg hn] at h
      simp only [Except.ok.injEq, Prod.mk.injEq] at h
      obtain ⟨h1, h2⟩ := h
      rw [← h1, ← h2]
      simp [h0, hn]
  · simp only [h0, if_false] at h
    by_cases hl : home.reduction_result.length < val.length
    · rw [if_pos hl] at h
      cases h
    · rw [if_neg hl] at h
      by_cases hn : home.reduction_reported_in + 1 = nodes
      · rw [if_pos hn] at h
        simp only [Except.ok.injEq, Prod.mk.injEq] at h
        obtain ⟨h1, _⟩ := h
        rw [← h1]
        simp [hn]
      · rw [if_neg hn] at h
        simp only [Except.ok.injEq, Prod.mk.injEq] at h
        obtain ⟨h1, h2⟩ := h
        rw [← h1, ← h2]
        simp [hn]

/-- The handler `am_reduce_array` returns when the array it combines into has
room for the message: always on the first arrival of a round. -/
theorem am_reduce_array_returns {T : Type} (Reducer : T → T → T) (BaseVal : T) (nodes : Nat)
    (home : ReductionArrayNode T) (val : List T)
    (h : home.reduction_reported_in = 0 ∨ val.length ≤ home.reduction_result.length) :
    ∃ r, am_reduce_array Reducer BaseVal nodes home val = .ok r := by
  unfold am_reduce_array
  by_cases h0 : home.reduction_reported_in = 0
  · simp only [h0, if_true, List.length_replicate, lt_irrefl, if_false]
    split <;> exact ⟨_, rfl⟩
  · simp only [h0, if_false]
    have hl : ¬ home.reduction_result.length < val.length := by
      rcases h with h | h
      · exact absurd h h0
      · omega
    rw [if_neg hl]
    split <;> exact ⟨_, rfl⟩

theorem foldl_perm_of_comm_assoc {T : Type} (Reducer : T → T → T)
    (hcomm : ∀ a b, Reducer a b = Reducer b a)
    (hassoc : ∀ a b c, Reducer (Reducer a b) c = Reducer a (Reducer b c))
    {l1 l2 : List T} (p : l1.Perm l2) (b : T) : l1.foldl Reducer b = l2.foldl Reducer b := by
  apply List.Perm.foldl_eq' p
  intro x _ y _ z
  rw [hassoc, hassoc, hcomm x y]

/-- For a commutative and associative `Reducer`, folding the tail of a list
over its head gives the same value for every permutation of the list. -/
theorem fold_over_head_perm {T : Type} (Reducer : T → T → T)
    (hcomm : ∀ a b, Reducer a b = Reducer b a)
    (hassoc : ∀ a b c, Reducer (Reducer a b) c = Reducer a (Reducer b c))
    {l1 l2 : List T} (p : l1.Perm l2) :
    ∀ v1 r1 v2 r2, l1 = v1 :: r1 → l2 = v2 :: r2 →
      r1.foldl Reducer v1 = r2.foldl Reducer v2 := by
  induction p with
  | nil => intro v1 r1 v2 r2 h; cases h
  | cons x p _ =>
    intro v1 r1 v2 r2 h1 h2
    cases h1
    cases h2
    exact foldl_perm_of_comm_assoc Reducer hcomm hassoc p _
  | swap x y l =>
    intro v1 r1 v2 r2 h1 h2
    cases h1
    cases h2
    simp only [List.foldl_cons]
    rw [hcomm y x]
  | trans p1 p2 ih1 ih2 =>
    intro v1 r1 v2 r2 h1 h2
    rename_i la lb lc
    cases lb with
    | nil =>
      rw [h1] at p1
      exact absurd p1.length_eq (by simp)
    | cons v r =>
      rw [ih1 v1 r1 v r h1 rfl, ih2 v r v2 r2 rfl h2]

theorem home_handle_noinit_spec {T : Type} (Reducer : T → T → T) (nodes : Nat) :
    ∀ (rest : List T) (v : T) (home : ReductionNode T),
      home.reduction_reported_in + (rest.length + 1) = nodes →
      home_handle_with (am_reduce_noinit Reducer nodes) home (v :: rest) =
        ({ home with
            reduction_reported_in := 0,
            reduction_result := rest.foldl Reducer
              (if home.reduction_reported_in = 0 then v
                else Reducer home.reduction_result v) },
          (List.range nodes).map (fun n => (n, rest.foldl Reducer
              (if home.reduction_reported_in = 0 then v
                else Reducer home.reduction_result v)))) := by
  intro rest
  induction rest with
  | nil =>
    intro v home hlen
    simp only [List.length_nil, Nat.zero_add] at hlen
    simp only [home_handle_with, am_reduce_noinit, List.foldl_nil, List.append_nil]
    by_cases h0 : home.reduction_reported_in = 0
    · simp only [h0, if_true]
      rw [h0] at hlen
      simp only [hlen, if_true]
    · simp only [h0, if_false, hlen, if_true]
  | cons v2 rest2 ih =>
    intro v home hlen
    simp only [List.length_cons] at hlen
    have hne : home.reduction_reported_in + 1 ≠ nodes := by omega
    have hstep : home_handle_with (am_reduce_noinit Reducer nodes) home (v :: v2 :: rest2) =
        home_handle_with (am_reduce_noinit Reducer nodes)
          { home with
              reduction_reported_in := home.reduction_reported_in + 1,
              reduction_result :=
                if home.reduction_reported_in = 0 then v else Reducer home.reduction_result v }
          (v2 :: rest2) := by
      rw [home_handle_with]
      by_cases h0 : home.reduction_reported_in = 0
      · simp only [am_reduce_noinit, h0, if_true]
        rw [h0] at hne
        simp only [hne, if_false, List.nil_append]
      · simp only [am_reduce_noinit, h0, if_false, hne, List.nil_append]
    rw [hstep, ih v2 _ (by simp only []; omega)]
    simp only [Nat.add_one_ne_zero, if_false, List.foldl_cons]

theorem allreduce_round_noinit_spec {T : Type} (Reducer : T → T → T)
    (home : ReductionNode T) (others : List (ReductionNode T)) (v : T) (rest : List T)
    (hlen : (v :: rest).length = (home :: others).length)
    (h0 : home.reduction_reported_in = 0) :
    (home_handle_with (am_reduce_noinit Reducer (home :: others).length)
        (Grappa_allreduce_call home) (v :: rest)).2 =
        (List.range (home :: others).length).map (fun n => (n, rest.foldl Reducer v)) ∧
      (home_handle_with (am_reduce_noinit Reducer (home :: others).length)
        (Grappa_allreduce_call home) (v :: rest)).1.reduction_reported_in = 0 ∧
      allreduce_round_noinit Reducer (home :: others) (v :: rest) =
        List.replicate (home :: others).length (some (rest.foldl Reducer v)) := by
  have hc0 : (Grappa_allreduce_call home).reduction_reported_in = 0 := h0
  have hh := home_handle_noinit_spec Reducer (home :: others).length rest v
    (Grappa_allreduce_call home) (by rw [hc0, ← hlen]; simp)
  simp only [hc0, if_true] at hh
  refine ⟨by rw [hh], by rw [hh], ?_⟩
  unfold allreduce_round_noinit
  simp only [List.map_cons]
  rw [hh]
  simp only
  have hd := deliver_wakes_all (rest.foldl Reducer v)
    ({ Grappa_allreduce_call home with
        reduction_reported_in := 0,
        reduction_result := rest.foldl Reducer v } ::
      others.map Grappa_allreduce_call)
  simp only [List.length_cons, List.length_map] at hd ⊢
  rw [hd]
  simp only [List.map_cons, List.map_map, List.replicate_succ]
  congr 1
  rw [List.eq_replicate_iff]
  refine ⟨by simp, ?_⟩
  intro b hb
  simp only [List.mem_map] at hb
  obtain ⟨x, _, rfl⟩ := hb
  rfl

theorem am_reduce_suspended {T : Type} (Reducer : T → T → T) (BaseVal : T) (nodes : Nat)
    (home : ReductionNode T) (val : T) :
    (am_reduce Reducer BaseVal nodes home val).1.suspended = home.suspended := by
  unfold am_reduce
  by_cases h0 : home.reduction_reported_in = 0 <;> simp only [h0, if_true, if_false] <;>
    split <;> rfl

theorem home_handle_with_suspended {T V M : Type}
    (handler : ReductionNode T → V → ReductionNode T × List M)
    (hs : ∀ s v, (handler s v).1.suspended = s.suspended) :
    ∀ (vals : List V) (s : ReductionNode T),
      (home_handle_with handler s vals).1.suspended = s.suspended := by
  intro vals
  induction vals with
  | nil => intro s; rfl
  | cons v vs ih =>
    intro s
    simp only [home_handle_with, ih, hs]

/-- While fewer than `N` contributions have arrived, no wake message has been
sent and every caller is still suspended. -/
theorem allreduce_round_incomplete {T : Type} (Reducer : T → T → T) (BaseVal : T)
    (home : ReductionNode T) (others : List (ReductionNode T)) (arrival : List T)
    (hlen : arrival.length < (home :: others).length)
    (h0 : home.reduction_reported_in = 0) :
    (home_handle Reducer BaseVal (home :: others).length (Grappa_allreduce_call home)
        arrival).2 = [] ∧
      (home_handle Reducer BaseVal (home :: others).length (Grappa_allreduce_call home)
        arrival).1.reduction_reported_in = arrival.length ∧
      allreduce_round Reducer BaseVal (home :: others) arrival =
        List.replicate (home :: others).length none := by
  have hc0 : (Grappa_allreduce_call home).reduction_reported_in = 0 := h0
  obtain ⟨h1, h2⟩ := home_handle_with_silent
    (am_reduce Reducer BaseVal (home :: others).length) (fun s => s.reduction_reported_in)
    (home :: others).length (am_reduce_counter Reducer BaseVal _)
    (am_reduce_silent Reducer BaseVal _) arrival (Grappa_allreduce_call home)
    (by simp only [hc0]; omega)
  simp only [hc0, Nat.zero_add] at h2
  rw [← home_handle_eq_with] at h1 h2
  have h3 := home_handle_with_suspended (am_reduce Reducer BaseVal (home :: others).length)
    (am_reduce_suspended Reducer BaseVal _) arrival (Grappa_allreduce_call home)
  rw [← home_handle_eq_with] at h3
  refine ⟨h1, h2, ?_⟩
  unfold allreduce_round
  simp only [List.map_cons]
  rw [h1]
  simp only [deliver_wakes, List.map_cons, List.map_map, List.length_cons, List.replicate_succ]
  congr 1
  · unfold Grappa_allreduce_return
    simp only [List.length_cons] at h3
    rw [h3]
    rfl
  · rw [List.eq_replicate_iff]
    refine ⟨by simp, ?_⟩
    intro b hb
    simp only [List.mem_map] at hb
    obtain ⟨x, _, rfl⟩ := hb
    rfl

theorem home_handle_array_counter {T : Type} (Reducer : T → T → T) (BaseVal : T) (N : Nat) :
    ∀ (vals : List (List T)) (home home1 : ReductionArrayNode T) (msgs : List (Nat × List T)),
      home.reduction_reported_in < N →
      home_handle_array Reducer BaseVal N home vals = .ok (home1, msgs) →
      home1.reduction_reported_in = (home.reduction_reported_in + vals.length) % N := by
  intro vals
  induction vals with
  | nil =>
    intro home home1 msgs hc h
    simp only [home_handle_array, Except.ok.injEq, Prod.mk.injEq] at h
    rw [← h.1]
    simp only [List.length_nil, Nat.add_zero]
    exact (Nat.mod_eq_of_lt hc).symm
  | cons v vs ih =>
    intro home home1 msgs hc h
    rw [home_handle_array] at h
    cases h1 : am_reduce_array Reducer BaseVal N home v with
    | error e => rw [h1] at h; cases h
    | ok r =>
      obtain ⟨homeA, msgsA⟩ := r
      rw [h1] at h
      simp only at h
      obtain ⟨hcnt, _⟩ := am_reduce_array_counter Reducer BaseVal N home homeA v msgsA h1
      cases h2 : home_handle_array Reducer BaseVal N homeA vs with
      | error e => rw [h2] at h; cases h
      | ok r2 =>
        obtain ⟨homeB, msgsB⟩ := r2
        rw [h2] at h
        simp only [Except.ok.injEq, Prod.mk.injEq] at h
        have hlt : homeA.reduction_reported_in < N := by
          rw [hcnt]; split <;> omega
        have := ih homeA homeB msgsB hlt h2
        rw [← h.1, this, hcnt]
        simp only [List.length_cons]
        by_cases hn : home.reduction_reported_in + 1 = N
        · rw [if_pos hn]
          have e : home.reduction_reported_in + (vs.length + 1) = vs.length + N := by omega
          rw [e, Nat.add_mod_right, Nat.zero_add]
        · rw [if_neg hn]
          congr 1
          omega

/-! ## The invariant of the flat combiner -/

theorem FreeChain.of_next_eq {h1 h2 : Nat → Flusher} :
    ∀ (free : List Nat) (head : Option Nat), (∀ i ∈ free, (h1 i).next = (h2 i).next) →
      FreeChain h1 head free → FreeChain h2 head free := by
  intro free
  induction free with
  | nil => intro head _ h; exact h
  | cons f fs ih =>
    intro head hn h
    obtain ⟨e, h'⟩ := h
    refine ⟨e, ?_⟩
    rw [← hn f (List.mem_cons_self _ _)]
    exact ih _ (fun i hi => hn i (List.mem_cons_of_mem _ hi)) h'

theorem FlatCombiner.InvCore.wait {W : Nat} {fc : FlatCombiner} {free retired : List Nat}
    (h : fc.InvCore W free retired) (w : Nat) (hw : w < W) (hidle : fc.workers w = .idle)
    (hr : retired ≠ []) : (fc.wait w fc.current).InvCore W free retired := by
  have hnw : ∀ i, w ∉ (fc.heap i).cv := by
    intro i hm
    have := h.cv_waiting i w hm
    rw [hidle] at this
    cases this
  constructor
  · exact FreeChain.of_next_eq free _ (fun i _ => by
      simp only [FlatCombiner.wait, FlatCombiner.store, FlatCombiner.setWorker]
      split <;> simp_all) h.chain
  · exact h.nodup
  · exact h.valid
  · intro i hi
    have := h.sender_none i hi
    simp only [FlatCombiner.wait, FlatCombiner.store, FlatCombiner.setWorker]
    split <;> simp_all
  · intro i hi
    obtain ⟨o, ho, hs, hst⟩ := h.owner i hi
    refine ⟨o, ho, ?_, ?_⟩
    · simp only [FlatCombiner.wait, FlatCombiner.store, FlatCombiner.setWorker]
      split <;> simp_all
    · have : o ≠ w := by
        rintro rfl
        rw [hidle] at hst
        rcases hst with h1 | h1 <;> cases h1
      simp only [FlatCombiner.wait, FlatCombiner.store, FlatCombiner.setWorker, this, if_false]
      exact hst
  · intro o i ho
    simp only [FlatCombiner.wait, FlatCombiner.store, FlatCombiner.setWorker] at ho ⊢
    by_cases hov : o = w
    · simp [hov] at ho
    · simp only [hov, if_false] at ho
      have := h.syncing o i ho
      split <;> simp_all
  · intro i hi
    have := h.next_none i hi
    simp only [FlatCombiner.wait, FlatCombiner.store, FlatCombiner.setWorker]
    split <;> simp_all
  · intro i o ho
    simp only [FlatCombiner.wait, FlatCombiner.store, FlatCombiner.setWorker] at ho ⊢
    by_cases hi : i = fc.current
    · subst hi
      simp only [if_true, List.mem_cons] at ho
      rcases ho with rfl | ho
      · simp
      · have := h.cv_waiting _ o ho
        by_cases hov : o = w
        · subst hov; simp
        · simp [hov, this]
    · simp only [hi, if_false] at ho
      have := h.cv_waiting i o ho
      have hov : o ≠ w := by
        rintro rfl
        exact hnw i ho
      simp [hov, this]
  · intro o i ho
    simp only [FlatCombiner.wait, FlatCombiner.store, FlatCombiner.setWorker] at ho ⊢
    by_cases hov : o = w
    · subst hov
      simp only [if_true, WorkerState.waiting.injEq] at ho
      subst ho
      simp
    · simp only [hov, if_false] at ho
      have := h.waiting_cv o i ho
      split <;> simp_all
  · intro i
    simp only [FlatCombiner.wait, FlatCombiner.store, FlatCombiner.setWorker]
    split
    · rename_i hi
      subst hi
      exact List.nodup_cons.mpr ⟨hnw _, h.cv_nodup _⟩
    · exact h.cv_nodup i
  · intro i hi hr'
    have := h.cv_none i hi hr'
    simp only [FlatCombiner.wait, FlatCombiner.store, FlatCombiner.setWorker] at hi ⊢
    simp [hi, this]
  · intro _
    exact hr
  · intro o ho
    have := h.idle o ho
    simp only [FlatCombiner.wait, FlatCombiner.store, FlatCombiner.setWorker]
    have : o ≠ w := by omega
    simp_all

theorem FlatCombiner.InvCore.signal_current {W : Nat} {fc : FlatCombiner}
    {free retired : List Nat} (h : fc.InvCore W free retired) :
    (fc.signal fc.current).InvCore W free retired := by
  unfold FlatCombiner.signal
  cases hcv : (fc.heap fc.current).cv with
  | nil =>
    simp only
    exact ⟨h.chain, h.nodup, h.valid, h.sender_none, h.owner, h.syncing, h.next_none,
      h.cv_waiting, h.waiting_cv, h.cv_nodup, h.cv_none, h.cur_waiters, h.idle⟩
  | cons w1 ws =>
    simp only
    have hw1 : fc.workers w1 = .waiting fc.current :=
      h.cv_waiting _ w1 (by rw [hcv]; exact List.mem_cons_self _ _)
    have hnd := h.cv_nodup fc.current
    rw [hcv, List.nodup_cons] at hnd
    have hwake : (fc.workers w1).wake = .woken fc.current := by rw [hw1]; rfl
    rw [hwake]
    constructor
    · exact FreeChain.of_next_eq free _ (fun i _ => by
        simp only [FlatCombiner.store, FlatCombiner.setWorker]
        split <;> simp_all) h.chain
    · exact h.nodup
    · exact h.valid
    · intro i hi
      have := h.sender_none i hi
      simp only [FlatCombiner.store, FlatCombiner.setWorker]
      split <;> simp_all
    · intro i hi
      obtain ⟨o, ho, hs, hst⟩ := h.owner i hi
      refine ⟨o, ho, ?_, ?_⟩
      · simp only [FlatCombiner.store, FlatCombiner.setWorker]
        split <;> simp_all
      · have : o ≠ w1 := by
          rintro rfl
          rw [hw1] at hst
          rcases hst with h1 | h1 <;> cases h1
        simp only [FlatCombiner.store, FlatCombiner.setWorker, this, if_false]
        exact hst
    · intro o i ho
      simp only [FlatCombiner.store, FlatCombiner.setWorker] at ho ⊢
      by_cases hov : o = w1
      · simp [hov] at ho
      · simp only [hov, if_false] at ho
        have := h.syncing o i ho
        split <;> simp_all
    · intro i hi
      have := h.next_none i hi
      simp only [FlatCombiner.store, FlatCombiner.setWorker]
      split <;> simp_all
    · intro i o ho
      simp only [FlatCombiner.store, FlatCombiner.setWorker] at ho ⊢
      by_cases hi : i = fc.current
      · subst hi
        simp only [if_true] at ho
        have hov : o ≠ w1 := by
          rintro rfl
          exact hnd.1 ho
        have := h.cv_waiting _ o (by rw [hcv]; exact List.mem_cons_of_mem _ ho)
        simp [hov, this]
      · simp only [hi, if_false] at ho
        have := h.cv_waiting i o ho
        have hov : o ≠ w1 := by
          rintro rfl
          rw [hw1] at this
          cases this
          exact hi rfl
        simp [hov, this]
    · intro o i ho
      simp only [FlatCombiner.store, FlatCombiner.setWorker] at ho ⊢
      by_cases hov : o = w1
      · simp [hov] at ho
      · simp only [hov, if_false] at ho
        have := h.waiting_cv o i ho
        by_cases hi : i = fc.current
        · subst hi
          rw [hcv] at this
          simp only [if_true]
          rcases List.mem_cons.mp this with rfl | h'
          · exact absurd rfl hov
          · exact h'
        · simp [hi, this]
    · intro i
      simp only [FlatCombiner.store, FlatCombiner.setWorker]
      split
      · exact hnd.2
      · exact h.cv_nodup i
    · intro i hi hr'
      have := h.cv_none i hi hr'
      simp only [FlatCombiner.store, FlatCombiner.setWorker] at hi ⊢
      simp [hi, this]
    · intro _
      apply h.cur_waiters
      rw [hcv]
      exact List.cons_ne_nil _ _
    · intro o ho
      have := h.idle o ho
      simp only [FlatCombiner.store, FlatCombiner.setWorker]
      have : o ≠ w1 := by
        rintro rfl
        rw [hw1] at this
        cases this
      simp_all

theorem FlatCombiner.InvCore.broadcast {W : Nat} {fc : FlatCombiner}
    {free retired : List Nat} (h : fc.InvCore W free retired) (s : Nat) :
    (fc.broadcast s).InvCore W free retired ∧ ((fc.broadcast s).heap s).cv = [] := by
  have hwk : ∀ o, o ∈ (fc.heap s).cv → (fc.workers o).wake = .woken s := by
    intro o ho
    rw [h.cv_waiting s o ho]
    rfl
  refine ⟨?_, by simp [FlatCombiner.broadcast, FlatCombiner.store]⟩
  constructor
  · exact FreeChain.of_next_eq free _ (fun i _ => by
      simp only [FlatCombiner.broadcast, FlatCombiner.store]
      split <;> simp_all) h.chain
  · exact h.nodup
  · exact h.valid
  · intro i hi
    have := h.sender_none i hi
    simp only [FlatCombiner.broadcast, FlatCombiner.store]
    split <;> simp_all
  · intro i hi
    obtain ⟨o, ho, hs, hst⟩ := h.owner i hi
    refine ⟨o, ho, ?_, ?_⟩
    · simp only [FlatCombiner.broadcast, FlatCombiner.store]
      split <;> simp_all
    · have : o ∉ (fc.heap s).cv := by
        intro hm
        have := h.cv_waiting s o hm
        rw [this] at hst
        rcases hst with h1 | h1 <;> cases h1
      simp only [FlatCombiner.broadcast, FlatCombiner.store, this, if_false]
      exact hst
  · intro o i ho
    simp only [FlatCombiner.broadcast, FlatCombiner.store] at ho ⊢
    by_cases hov : o ∈ (fc.heap s).cv
    · simp only [hov, if_true, hwk o hov] at ho
      cases ho
    · simp only [hov, if_false] at ho
      have := h.syncing o i ho
      split <;> simp_all
  · intro i hi
    have := h.next_none i hi
    simp only [FlatCombiner.broadcast, FlatCombiner.store]
    split <;> simp_all
  · intro i o ho
    simp only [FlatCombiner.broadcast, FlatCombiner.store] at ho ⊢
    by_cases hi : i = s
    · subst hi
      simp at ho
    · simp only [hi, if_false] at ho
      have := h.cv_waiting i o ho
      have hov : o ∉ (fc.heap s).cv := by
        intro hm
        have h2 := h.cv_waiting s o hm
        rw [this] at h2
        cases h2
        exact hi rfl
      simp [hov, this]
  · intro o i ho
    simp only [FlatCombiner.broadcast, FlatCombiner.store] at ho ⊢
    by_cases hov : o ∈ (fc.heap s).cv
    · simp only [hov, if_true, hwk o hov] at ho
      cases ho
    · simp only [hov, if_false] at ho
      have := h.waiting_cv o i ho
      by_cases hi : i = s
      · subst hi
        exact absurd this hov
      · simp [hi, this]
  · intro i
    simp only [FlatCombiner.broadcast, FlatCombiner.store]
    split
    · exact List.nodup_nil
    · exact h.cv_nodup i
  · intro i hi hr'
    have := h.cv_none i hi hr'
    simp only [FlatCombiner.broadcast, FlatCombiner.store] at hi ⊢
    split <;> simp_all
  · intro hne
    apply h.cur_waiters
    simp only [FlatCombiner.broadcast, FlatCombiner.store] at hne
    by_cases hc : fc.current = s
    · simp [hc] at hne
    · simpa [hc] using hne
  · intro o ho
    have hi := h.idle o ho
    simp only [FlatCombiner.broadcast, FlatCombiner.store]
    have : o ∉ (fc.heap s).cv := by
      intro hm
      have := h.cv_waiting s o hm
      rw [hi] at this
      cases this
    simp [this, hi]

theorem FlatCombiner.InvCore.not_retired_of_current {W : Nat} {fc : FlatCombiner}
    {free retired : List Nat} (h : fc.InvCore W free retired) : fc.current ∉ retired := by
  have := h.nodup
  rw [List.nodup_cons] at this
  intro hm
  exact this.1 (List.mem_append_right _ hm)

theorem FlatCombiner.InvCore.not_free_of_current {W : Nat} {fc : FlatCombiner}
    {free retired : List Nat} (h : fc.InvCore W free retired) : fc.current ∉ free := by
  have := h.nodup
  rw [List.nodup_cons] at this
  intro hm
  exact this.1 (List.mem_append_left _ hm)

theorem FlatCombiner.InvCore.not_free_of_retired {W : Nat} {fc : FlatCombiner}
    {free retired : List Nat} (h : fc.InvCore W free retired) {i : Nat} (hi : i ∈ retired) :
    i ∉ free := by
  have := h.nodup
  rw [List.nodup_cons, List.nodup_append] at this
  intro hm
  exact this.2.2.2 hm hi

theorem FlatCombiner.InvCore.retired_of_sender {W : Nat} {fc : FlatCombiner}
    {free retired : List Nat} (h : fc.InvCore W free retired) {i w : Nat}
    (hs : (fc.heap i).sender = some w) : i ∈ retired := by
  by_contra hn
  rw [h.sender_none i hn] at hs
  cases hs

theorem FlatCombiner.InvCore.resume {W : Nat} {fc : FlatCombiner}
    {free retired : List Nat} (h : fc.InvCore W free retired) (w s : Nat)
    (hw : fc.workers w = .woken s) :
    (fc.combine_resume w s).InvCore W free retired ∧
      (fc.combine_resume w s).inflight = fc.inflight := by
  have hnw : ∀ i, w ∉ (fc.heap i).cv := by
    intro i hm
    have := h.cv_waiting i w hm
    rw [hw] at this
    cases this
  unfold FlatCombiner.combine_resume
  by_cases hsend : (fc.heap s).sender = some w
  · have hsr : s ∈ retired := h.retired_of_sender hsend
    have hsc : s ≠ fc.current := by
      rintro rfl
      exact h.not_retired_of_current hsr
    simp only [hsend, if_true, hsc, if_false]
    refine ⟨?_, rfl⟩
    constructor
    · exact FreeChain.of_next_eq free _ (fun i _ => by
        simp only [FlatCombiner.flush_begin, FlatCombiner.store, FlatCombiner.setWorker]
        split <;> simp_all) h.chain
    · exact h.nodup
    · exact h.valid
    · intro i hi
      have := h.sender_none i hi
      have : i ≠ s := by rintro rfl; exact hi hsr
      simp only [FlatCombiner.flush_begin, FlatCombiner.store, FlatCombiner.setWorker]
      simp_all
    · intro i hi
      by_cases his : i = s
      · subst his
        obtain ⟨o, ho, hs, _⟩ := h.owner i hi
        rw [hsend] at hs
        cases hs
        exact ⟨w, ho, by simp [FlatCombiner.flush_begin, FlatCombiner.store,
          FlatCombiner.setWorker]⟩
      · obtain ⟨o, ho, hs, hst⟩ := h.owner i hi
        have hov : o ≠ w := by
          rintro rfl
          rw [hw] at hst
          rcases hst with h1 | h1
          · cases h1
          · cases h1
            exact his rfl
        exact ⟨o, ho, by simp [FlatCombiner.flush_begin, FlatCombiner.store,
          FlatCombiner.setWorker, his, hs, hov, hst]⟩
    · intro o i ho
      simp only [FlatCombiner.flush_begin, FlatCombiner.store, FlatCombiner.setWorker] at ho ⊢
      by_cases hov : o = w
      · subst hov
        simp only [if_true, WorkerState.syncing.injEq] at ho
        subst ho
        simp
      · simp only [hov, if_false] at ho
        have := h.syncing o i ho
        by_cases his : i = s
        · subst his
          rw [hsend] at this
          cases this
          exact absurd rfl hov
        · simp [his, this]
    · intro i hi
      have := h.next_none i hi
      simp only [FlatCombiner.flush_begin, FlatCombiner.store, FlatCombiner.setWorker]
      split <;> simp_all
    · intro i o ho
      have ho' : o ∈ (fc.heap i).cv := by
        simp only [FlatCombiner.flush_begin, FlatCombiner.store, FlatCombiner.setWorker] at ho
        split at ho <;> simp_all
      have hov : o ≠ w := by rintro rfl; exact hnw i ho'
      simp [FlatCombiner.flush_begin, FlatCombiner.store, FlatCombiner.setWorker, hov,
        h.cv_waiting i o ho']
    · intro o i ho
      simp only [FlatCombiner.flush_begin, FlatCombiner.store, FlatCombiner.setWorker] at ho ⊢
      by_cases hov : o = w
      · simp [hov] at ho
      · simp only [hov, if_false] at ho
        have := h.waiting_cv o i ho
        split <;> simp_all
    · intro i
      have := h.cv_nodup i
      simp only [FlatCombiner.flush_begin, FlatCombiner.store, FlatCombiner.setWorker]
      split <;> simp_all
    · intro i hi hr'
      have := h.cv_none i hi hr'
      simp only [FlatCombiner.flush_begin, FlatCombiner.store, FlatCombiner.setWorker] at hi ⊢
      split <;> simp_all
    · intro hne
      apply h.cur_waiters
      simp only [FlatCombiner.flush_begin, FlatCombiner.store, FlatCombiner.setWorker] at hne
      split at hne <;> simp_all
    · intro o ho
      have hi := h.idle o ho
      have : o ≠ w := by
        rintro rfl
        rw [hw] at hi
        cases hi
      simp [FlatCombiner.flush_begin, FlatCombiner.store, FlatCombiner.setWorker, this, hi]
  · simp only [hsend, if_false]
    refine ⟨?_, rfl⟩
    constructor
    · exact h.chain
    · exact h.nodup
    · exact h.valid
    · exact h.sender_none
    · intro i hi
      obtain ⟨o, ho, hs, hst⟩ := h.owner i hi
      have hov : o ≠ w := by
        rintro rfl
        rw [hw] at hst
        rcases hst with h1 | h1
        · cases h1
        · cases h1
          exact hsend hs
      exact ⟨o, ho, hs, by simp [FlatCombiner.setWorker, hov, hst]⟩
    · intro o i ho
      simp only [FlatCombiner.setWorker] at ho ⊢
      by_cases hov : o = w
      · simp [hov] at ho
      · simp only [hov, if_false] at ho
        exact h.syncing o i ho
    · exact h.next_none
    · intro i o ho
      simp only [FlatCombiner.setWorker] at ho ⊢
      have hov : o ≠ w := by rintro rfl; exact hnw i ho
      simp [hov, h.cv_waiting i o ho]
    · intro o i ho
      simp only [FlatCombiner.setWorker] at ho ⊢
      by_cases hov : o = w
      · simp [hov] at ho
      · simp only [hov, if_false] at ho
        exact h.waiting_cv o i ho
    · exact h.cv_nodup
    · exact h.cv_none
    · exact h.cur_waiters
    · intro o ho
      simp only [FlatCombiner.setWorker]
      split
      · rfl
      · exact h.idle o ho

theorem FlatCombiner.InvCore.switch {W : Nat} {fc : FlatCombiner}
    {free retired : List Nat} (h : fc.InvCore W free retired) :
    ∃ r free', fc.switch.current = r ∧ r ≠ fc.current ∧ r ∉ free' ∧ r ∉ retired ∧
      (free = r :: free' ∨ (free = [] ∧ free' = [])) ∧
      (∀ i, fc.switch.heap i = if i = r then ⟨none, none, []⟩ else fc.heap i) ∧
      fc.switch.workers = fc.workers ∧ fc.switch.inflight = fc.inflight ∧
      fc.switch.trace = fc.trace ∧
      FreeChain fc.switch.heap fc.switch.freelist free' ∧
      (∀ i, i < fc.switch.nflushers ↔ (i = r ∨ i = fc.current ∨ i ∈ free' ∨ i ∈ retired)) ∧
      (fc.heap r).sender = none ∧ (fc.heap r).cv = [] ∧
      (r :: (free' ++ fc.current :: retired)).Nodup := by
  have hnd := h.nodup
  rw [List.nodup_cons, List.nodup_append] at hnd
  obtain ⟨hc, hf, hr, hdis⟩ := hnd
  have hcf : fc.current ∉ free := fun hm => hc (List.mem_append_left _ hm)
  have hcr : fc.current ∉ retired := fun hm => hc (List.mem_append_right _ hm)
  cases hfl : fc.freelist with
  | none =>
    have hfree : free = [] := by
      cases free with
      | nil => rfl
      | cons f fs =>
        have := h.chain
        rw [hfl] at this
        exact absurd this.1 (by simp)
    subst hfree
    have hnot : ¬ (fc.nflushers = fc.current ∨ fc.nflushers ∈ ([] : List Nat) ∨
        fc.nflushers ∈ retired) := by
      rw [← h.valid]
      omega
    have hrc : fc.nflushers ≠ fc.current := fun e => hnot (Or.inl e)
    have hrr : fc.nflushers ∉ retired := fun e => hnot (Or.inr (Or.inr e))
    refine ⟨fc.nflushers, [], ?_, hrc, List.not_mem_nil _, hrr, Or.inr ⟨rfl, rfl⟩, ?_, ?_, ?_, ?_,
      ?_, ?_, h.sender_none _ hrr, h.cv_none _ hrc hrr, ?_⟩
    · simp [FlatCombiner.switch, FlatCombiner.get_flusher, hfl]
    · intro i
      simp [FlatCombiner.switch, FlatCombiner.get_flusher, hfl, FlatCombiner.store,
        Flusher.clear]
    · simp [FlatCombiner.switch, FlatCombiner.get_flusher, hfl, FlatCombiner.store]
    · simp [FlatCombiner.switch, FlatCombiner.get_flusher, hfl, FlatCombiner.store]
    · simp [FlatCombiner.switch, FlatCombiner.get_flusher, hfl, FlatCombiner.store]
    · simp [FlatCombiner.switch, FlatCombiner.get_flusher, hfl, FlatCombiner.store, FreeChain]
    · intro i
      have hv := h.valid i
      simp only [FlatCombiner.switch, FlatCombiner.get_flusher, hfl, FlatCombiner.store]
      simp only [List.not_mem_nil, false_or] at hv ⊢
      constructor
      · intro hi
        by_cases he : i = fc.nflushers
        · exact Or.inl he
        · exact Or.inr (hv.mp (by omega))
      · rintro (rfl | hi)
        · omega
        · have := hv.mpr hi
          omega
    · simp only [List.nil_append, List.nodup_cons]
      refine ⟨?_, hcr, hr⟩
      intro hm
      rcases List.mem_cons.mp hm with e | e
      · exact hrc e
      · exact hrr e
  | some r =>
    cases free with
    | nil =>
      have := h.chain
      rw [hfl] at this
      exact absurd this (by simp [FreeChain])
    | cons f fs =>
      have hch := h.chain
      rw [hfl] at hch
      obtain ⟨e, hch'⟩ := hch
      cases e
      rw [List.nodup_cons] at hf
      have hrc : r ≠ fc.current := by
        rintro rfl
        exact hcf (List.mem_cons_self _ _)
      have hrr : r ∉ retired := fun hm => hdis (List.mem_cons_self _ _) hm
      refine ⟨r, fs, ?_, hrc, hf.1, hrr, Or.inl rfl, ?_, ?_, ?_, ?_, ?_, ?_,
        h.sender_none _ hrr, h.cv_none _ hrc hrr, ?_⟩
      · simp [FlatCombiner.switch, FlatCombiner.get_flusher, hfl]
      · intro i
        simp [FlatCombiner.switch, FlatCombiner.get_flusher, hfl, FlatCombiner.store,
          Flusher.clear]
      · simp [FlatCombiner.switch, FlatCombiner.get_flusher, hfl, FlatCombiner.store]
      · simp [FlatCombiner.switch, FlatCombiner.get_flusher, hfl, FlatCombiner.store]
      · simp [FlatCombiner.switch, FlatCombiner.get_flusher, hfl, FlatCombiner.store]
      · simp only [FlatCombiner.switch, FlatCombiner.get_flusher, hfl, FlatCombiner.store]
        refine FreeChain.of_next_eq fs _ (fun i hi => ?_) hch'
        have : i ≠ r := by rintro rfl; exact hf.1 hi
        simp [this]
      · intro i
        have hv := h.valid i
        simp only [FlatCombiner.switch, FlatCombiner.get_flusher, hfl, FlatCombiner.store]
        rw [hv]
        simp only [List.mem_cons]
        tauto
      · rw [List.nodup_cons]
        refine ⟨?_, ?_⟩
        · intro hm
          rcases List.mem_append.mp hm with e | e
          · exact hf.1 e
          · rcases List.mem_cons.mp e with e | e
            · exact hrc e
            · exact hrr e
        · rw [List.nodup_append]
          refine ⟨hf.2, List.nodup_cons.mpr ⟨hcr, hr⟩, ?_⟩
          intro a ha1 ha2
          rcases List.mem_cons.mp ha2 with e | e
          · subst e
            exact hcf (List.mem_cons_of_mem _ ha1)
          · exact hdis (List.mem_cons_of_mem _ ha1) e

theorem FlatCombiner.InvCore.of_fields {W : Nat} {fc fc' : FlatCombiner}
    {free retired : List Nat} (h : fc.InvCore W free retired) (h1 : fc'.heap = fc.heap)
    (h2 : fc'.nflushers = fc.nflushers) (h3 : fc'.current = fc.current)
    (h4 : fc'.freelist = fc.freelist) (h5 : fc'.workers = fc.workers) :
    fc'.InvCore W free retired := by
  constructor
  · rw [h1, h4]; exact h.chain
  · rw [h3]; exact h.nodup
  · rw [h2, h3]; exact h.valid
  · rw [h1]; exact h.sender_none
  · rw [h1, h5]; exact h.owner
  · rw [h1, h5]; exact h.syncing
  · rw [h1]; exact h.next_none
  · rw [h1, h5]; exact h.cv_waiting
  · rw [h1, h5]; exact h.waiting_cv
  · rw [h1]; exact h.cv_nodup
  · rw [h1, h3]; exact h.cv_none
  · rw [h1, h3]; exact h.cur_waiters
  · rw [h5]; exact h.idle

theorem FlatCombiner.InvCore.retire {W : Nat} {fc : FlatCombiner}
    {free retired : List Nat} (h : fc.InvCore W free retired) (w : Nat) (hw : w < W)
    (hidle : fc.workers w = .idle) :
    ∃ free', (fc.switch.flush_begin w fc.current).InvCore W free' (fc.current :: retired) := by
  obtain ⟨r, free', hcur, hrc, hrf, hrr, hfree, hheap, hwork, _, _, hchain, hvalid, hrs, hrcv,
    hnd⟩ := h.switch
  have hnw : ∀ i, w ∉ (fc.heap i).cv := by
    intro i hm
    have := h.cv_waiting i w hm
    rw [hidle] at this
    cases this
  have hcr := h.not_retired_of_current
  have hcf := h.not_free_of_current
  have hX : ∀ i, (fc.switch.flush_begin w fc.current).heap i =
      if i = fc.current then { fc.heap fc.current with sender := some w }
      else if i = r then ⟨none, none, []⟩ else fc.heap i := by
    intro i
    simp only [FlatCombiner.flush_begin, FlatCombiner.store, FlatCombiner.setWorker, hheap]
    by_cases hi : i = fc.current
    · simp [hi, Ne.symm hrc]
    · simp [hi]
  have hXw : ∀ o, (fc.switch.flush_begin w fc.current).workers o =
      if o = w then .syncing fc.current else fc.workers o := by
    intro o
    simp only [FlatCombiner.flush_begin, FlatCombiner.store, FlatCombiner.setWorker, hwork]
  have hXc : (fc.switch.flush_begin w fc.current).current = r := hcur
  have hmemfree : ∀ i, i ∈ free' → i ∈ free := by
    intro i hi
    rcases hfree with e | ⟨_, e⟩
    · rw [e]; exact List.mem_cons_of_mem _ hi
    · rw [e] at hi; cases hi
  have hnotfree : ∀ i, i ≠ r → i ∉ free' → i ∉ free := by
    intro i hir hi hm
    rcases hfree with e | ⟨e, _⟩
    · rw [e] at hm
      rcases List.mem_cons.mp hm with e' | e'
      · exact hir e'
      · exact hi e'
    · rw [e] at hm; cases hm
  refine ⟨free', ?_⟩
  constructor
  · refine FreeChain.of_next_eq free' _ (fun i hi => ?_) hchain
    rw [hX, hheap]
    have : i ≠ fc.current := by
      rintro rfl
      exact hcf (hmemfree _ hi)
    simp [this]
  · rw [hXc]
    rw [List.nodup_cons] at hnd ⊢
    exact hnd
  · intro i
    rw [hXc]
    have := hvalid i
    simp only [FlatCombiner.flush_begin, FlatCombiner.store, FlatCombiner.setWorker] at this ⊢
    rw [this]
    simp only [List.mem_cons]
    tauto
  · intro i hi
    simp only [List.mem_cons, not_or] at hi
    rw [hX, if_neg hi.1]
    split
    · rfl
    · exact h.sender_none i hi.2
  · intro i hi
    rcases List.mem_cons.mp hi with rfl | hi
    · exact ⟨w, hw, by rw [hX]; simp, Or.inl (by rw [hXw]; simp)⟩
    · obtain ⟨o, ho, hs, hst⟩ := h.owner i hi
      have hic : i ≠ fc.current := by rintro rfl; exact hcr hi
      have hir : i ≠ r := by rintro rfl; exact hrr hi
      have hov : o ≠ w := by
        rintro rfl
        rw [hidle] at hst
        rcases hst with h1 | h1 <;> cases h1
      exact ⟨o, ho, by rw [hX]; simp [hic, hir, hs], by rw [hXw]; simp [hov, hst]⟩
  · intro o i ho
    rw [hXw] at ho
    by_cases hov : o = w
    · subst hov
      simp only [if_true, WorkerState.syncing.injEq] at ho
      subst ho
      rw [hX]; simp
    · simp only [hov, if_false] at ho
      have hs := h.syncing o i ho
      have hi := h.retired_of_sender hs
      have hic : i ≠ fc.current := by rintro rfl; exact hcr hi
      have hir : i ≠ r := by rintro rfl; exact hrr hi
      rw [hX]; simp [hic, hir, hs]
  · intro i hi
    rw [hX]
    by_cases hic : i = fc.current
    · subst hic
      simp only [if_true]
      exact h.next_none _ hcf
    · rw [if_neg hic]
      split
      · rfl
      · rename_i hir
        exact h.next_none i (hnotfree i hir hi)
  · intro i o ho
    rw [hX] at ho
    have ho' : o ∈ (fc.heap i).cv := by
      by_cases hic : i = fc.current
      · subst hic
        simpa using ho
      · rw [if_neg hic] at ho
        split at ho
        · simp at ho
        · exact ho
    have hov : o ≠ w := by rintro rfl; exact hnw i ho'
    rw [hXw, if_neg hov]
    exact h.cv_waiting i o ho'
  · intro o i ho
    rw [hXw] at ho
    by_cases hov : o = w
    · simp [hov] at ho
    · simp only [hov, if_false] at ho
      have hm := h.waiting_cv o i ho
      rw [hX]
      by_cases hic : i = fc.current
      · subst hic
        simpa using hm
      · rw [if_neg hic]
        have hir : i ≠ r := by
          rintro rfl
          rw [hrcv] at hm
          cases hm
        rw [if_neg hir]
        exact hm
  · intro i
    rw [hX]
    by_cases hic : i = fc.current
    · subst hic
      simpa using h.cv_nodup _
    · rw [if_neg hic]
      split
      · exact List.nodup_nil
      · exact h.cv_nodup i
  · intro i hi hr'
    simp only [List.mem_cons, not_or] at hr'
    rw [hXc] at hi
    rw [hX, if_neg hr'.1, if_neg hi]
    exact h.cv_none i hr'.1 hr'.2
  · intro _
    exact List.cons_ne_nil _ _
  · intro o ho
    rw [hXw]
    have : o ≠ w := by omega
    rw [if_neg this]
    exact h.idle o ho

theorem FlatCombiner.InvCore.designate {W : Nat} {fc : FlatCombiner}
    {free retired : List Nat} (h : fc.InvCore W free retired) (w1 : Nat) (ws : List Nat)
    (hcv : (fc.heap fc.current).cv = w1 :: ws) :
    ∃ free', fc.designate.InvCore W free' (fc.current :: retired) ∧
      fc.designate.inflight = fc.inflight ∧
      (fc.designate.heap fc.designate.current).cv = [] ∧
      (∀ i, i ≠ fc.current → (fc.designate.heap i).cv = [] ∨
        (fc.designate.heap i).cv = (fc.heap i).cv) ∧
      (∀ o, o ≠ w1 → fc.designate.workers o = fc.workers o) := by
  obtain ⟨r, free', hcur, hrc, hrf, hrr, hfree, hheap, hwork, hinf, _, hchain, hvalid, hrs, hrcv,
    hnd⟩ := h.switch
  have hw1 : fc.workers w1 = .waiting fc.current :=
    h.cv_waiting _ w1 (by rw [hcv]; exact List.mem_cons_self _ _)
  have hndc := h.cv_nodup fc.current
  rw [hcv, List.nodup_cons] at hndc
  have hcr := h.not_retired_of_current
  have hcf := h.not_free_of_current
  have hZc : fc.switch.heap fc.current = fc.heap fc.current := by
    rw [hheap, if_neg (Ne.symm hrc)]
  have hgw : fc.switch.get_waiters fc.current = some w1 := by
    simp [FlatCombiner.get_waiters, hZc, hcv]
  have hY : fc.designate =
      { ((fc.switch.store fc.current
          { fc.heap fc.current with sender := some w1 }).store fc.current
          { fc.heap fc.current with sender := some w1, cv := ws }).setWorker w1
          (.woken fc.current) with
        trace := fc.switch.trace ++ [.signal fc.current] } := by
    unfold FlatCombiner.designate
    rw [hgw, hZc]
    unfold FlatCombiner.signal
    simp only [FlatCombiner.store, if_true, hcv, hwork, hw1, WorkerState.wake]
  have hX : ∀ i, fc.designate.heap i =
      if i = fc.current then { fc.heap fc.current with sender := some w1, cv := ws }
      else if i = r then ⟨none, none, []⟩ else fc.heap i := by
    intro i
    rw [hY]
    simp only [FlatCombiner.store, FlatCombiner.setWorker, hheap]
    by_cases hi : i = fc.current
    · simp [hi]
    · simp [hi]
  have hXw : ∀ o, fc.designate.workers o =
      if o = w1 then .woken fc.current else fc.workers o := by
    intro o
    rw [hY]
    simp only [FlatCombiner.store, FlatCombiner.setWorker, hwork]
  have hmemfree : ∀ i, i ∈ free' → i ∈ free := by
    intro i hi
    rcases hfree with e | ⟨_, e⟩
    · rw [e]; exact List.mem_cons_of_mem _ hi
    · rw [e] at hi; cases hi
  have hnotfree : ∀ i, i ≠ r → i ∉ free' → i ∉ free := by
    intro i hir hi hm
    rcases hfree with e | ⟨e, _⟩
    · rw [e] at hm
      rcases List.mem_cons.mp hm with e' | e'
      · exact hir e'
      · exact hi e'
    · rw [e] at hm; cases hm
  have hw1W : w1 < W := by
    by_contra hge
    have := h.idle w1 (by omega)
    rw [hw1] at this
    cases this
  have hXc : fc.designate.current = r := by rw [hY]; exact hcur
  have hXf : fc.designate.freelist = fc.switch.freelist := by rw [hY]; rfl
  have hXn : fc.designate.nflushers = fc.switch.nflushers := by rw [hY]; rfl
  have hXi : fc.designate.inflight = fc.inflight := by rw [hY]; exact hinf
  refine ⟨free', ?_, hXi, ?_, ?_, fun o ho => by rw [hXw, if_neg ho]⟩
  · constructor
    · rw [hXf]
      refine FreeChain.of_next_eq free' _ (fun i hi => ?_) hchain
      rw [hX, hheap]
      have : i ≠ fc.current := by
        rintro rfl
        exact hcf (hmemfree _ hi)
      simp [this]
    · rw [hXc]
      exact hnd
    · intro i
      rw [hXc, hXn, hvalid i]
      simp only [List.mem_cons]
      tauto
    · intro i hi
      simp only [List.mem_cons, not_or] at hi
      rw [hX, if_neg hi.1]
      split
      · rfl
      · exact h.sender_none i hi.2
    · intro i hi
      rcases List.mem_cons.mp hi with rfl | hi
      · exact ⟨w1, hw1W, by rw [hX]; simp, Or.inr (by rw [hXw]; simp)⟩
      · obtain ⟨o, ho, hs, hst⟩ := h.owner i hi
        have hic : i ≠ fc.current := by rintro rfl; exact hcr hi
        have hir : i ≠ r := by rintro rfl; exact hrr hi
        have hov : o ≠ w1 := by
          rintro rfl
          rw [hw1] at hst
          rcases hst with h1 | h1 <;> cases h1
        exact ⟨o, ho, by rw [hX]; simp [hic, hir, hs], by rw [hXw]; simp [hov, hst]⟩
    · intro o i ho
      rw [hXw] at ho
      by_cases hov : o = w1
      · simp [hov] at ho
      · simp only [hov, if_false] at ho
        have hs := h.syncing o i ho
        have hi := h.retired_of_sender hs
        have hic : i ≠ fc.current := by rintro rfl; exact hcr hi
        have hir : i ≠ r := by rintro rfl; exact hrr hi
        rw [hX]; simp [hic, hir, hs]
    · intro i hi
      rw [hX]
      by_cases hic : i = fc.current
      · subst hic
        simp only [if_true]
        exact h.next_none _ hcf
      · rw [if_neg hic]
        split
        · rfl
        · rename_i hir
          exact h.next_none i (hnotfree i hir hi)
    · intro i o ho
      rw [hX] at ho
      rw [hXw]
      by_cases hic : i = fc.current
      · subst hic
        simp only [if_true] at ho
        have hov : o ≠ w1 := by rintro rfl; exact hndc.1 ho
        rw [if_neg hov]
        exact h.cv_waiting _ o (by rw [hcv]; exact List.mem_cons_of_mem _ ho)
      · rw [if_neg hic] at ho
        have ho' : o ∈ (fc.heap i).cv := by
          split at ho
          · simp at ho
          · exact ho
        have := h.cv_waiting i o ho'
        have hov : o ≠ w1 := by
          rintro rfl
          rw [hw1] at this
          cases this
          exact hic rfl
        rw [if_neg hov]
        exact this
    · intro o i ho
      rw [hXw] at ho
      by_cases hov : o = w1
      · simp [hov] at ho
      · simp only [hov, if_false] at ho
        have hm := h.waiting_cv o i ho
        rw [hX]
        by_cases hic : i = fc.current
        · subst hic
          simp only [if_true]
          rw [hcv] at hm
          rcases List.mem_cons.mp hm with e | e
          · exact absurd e hov
          · exact e
        · rw [if_neg hic]
          have hir : i ≠ r := by
            rintro rfl
            rw [hrcv] at hm
            cases hm
          rw [if_neg hir]
          exact hm
    · intro i
      rw [hX]
      by_cases hic : i = fc.current
      · subst hic
        simpa using hndc.2
      · rw [if_neg hic]
        split
        · exact List.nodup_nil
        · exact h.cv_nodup i
    · intro i hi hr'
      simp only [List.mem_cons, not_or] at hr'
      rw [hXc] at hi
      rw [hX, if_neg hr'.1, if_neg hi]
      exact h.cv_none i hr'.1 hr'.2
    · intro _
      exact List.cons_ne_nil _ _
    · intro o ho
      rw [hXw]
      have : o ≠ w1 := by omega
      rw [if_neg this]
      exact h.idle o ho
  · rw [hX, hXc, if_neg hrc, if_pos rfl]
  · intro i hi
    rw [hX, if_neg hi]
    split
    · exact Or.inl rfl
    · exact Or.inr rfl

theorem FlatCombiner.InvCore.release {W : Nat} {fc : FlatCombiner}
    {free retired : List Nat} (h : fc.InvCore W free retired) (w s : Nat)
    (hw : fc.workers w = .syncing s) (hcc : (fc.heap fc.current).cv = [])
    (hsc : (fc.heap s).cv = []) :
    (fc.release w s).InvCore W (s :: free) (retired.erase s) ∧
      (fc.release w s).inflight = fc.inflight := by
  have hsend := h.syncing w s hw
  have hsr : s ∈ retired := h.retired_of_sender hsend
  have hsf : s ∉ free := h.not_free_of_retired hsr
  have hcr := h.not_retired_of_current
  have hcf := h.not_free_of_current
  have hscur : s ≠ fc.current := by rintro rfl; exact hcr hsr
  have hnd := h.nodup
  rw [List.nodup_cons, List.nodup_append] at hnd
  obtain ⟨_, hfnd, hrnd, hdis⟩ := hnd
  have hnw : ∀ i, w ∉ (fc.heap i).cv := by
    intro i hm
    have := h.cv_waiting i w hm
    rw [hw] at this
    cases this
  have hXs : ∀ i, ((fc.release w s).heap i).sender =
      if i = s then none else (fc.heap i).sender := by
    intro i
    unfold FlatCombiner.release FlatCombiner.free_flusher
    cases hfl : fc.freelist <;>
      simp only [FlatCombiner.store, FlatCombiner.setWorker, hfl] <;> split <;> simp_all
  have hXcv : ∀ i, ((fc.release w s).heap i).cv = (fc.heap i).cv := by
    intro i
    unfold FlatCombiner.release FlatCombiner.free_flusher
    cases hfl : fc.freelist <;>
      simp only [FlatCombiner.store, FlatCombiner.setWorker, hfl] <;> split <;> simp_all
  have hXn : ∀ i, i ≠ s → ((fc.release w s).heap i).next = (fc.heap i).next := by
    intro i hi
    unfold FlatCombiner.release FlatCombiner.free_flusher
    cases hfl : fc.freelist <;>
      simp only [FlatCombiner.store, FlatCombiner.setWorker, hfl] <;> simp [hi]
  have hXw : ∀ o, (fc.release w s).workers o = if o = w then .idle else fc.workers o := by
    intro o
    unfold FlatCombiner.release FlatCombiner.free_flusher
    cases hfl : fc.freelist <;> simp only [FlatCombiner.store, FlatCombiner.setWorker, hfl]
  have hXc : (fc.release w s).current = fc.current := by
    unfold FlatCombiner.release FlatCombiner.free_flusher
    cases hfl : fc.freelist <;> simp only [FlatCombiner.store, FlatCombiner.setWorker, hfl]
  have hXnf : (fc.release w s).nflushers = fc.nflushers := by
    unfold FlatCombiner.release FlatCombiner.free_flusher
    cases hfl : fc.freelist <;> simp only [FlatCombiner.store, FlatCombiner.setWorker, hfl]
  have hXi : (fc.release w s).inflight = fc.inflight := by
    unfold FlatCombiner.release FlatCombiner.free_flusher
    cases hfl : fc.freelist <;> simp only [FlatCombiner.store, FlatCombiner.setWorker, hfl]
  have hXfl : (fc.release w s).freelist = some s := by
    unfold FlatCombiner.release FlatCombiner.free_flusher
    cases hfl : fc.freelist <;> simp only [FlatCombiner.store, FlatCombiner.setWorker, hfl]
  have hXns : FreeChain fc.heap ((fc.release w s).heap s).next free := by
    have hch := h.chain
    unfold FlatCombiner.release FlatCombiner.free_flusher
    cases hfl : fc.freelist with
    | none =>
      simp only [FlatCombiner.store, FlatCombiner.setWorker, hfl, if_true]
      rw [hfl] at hch
      rw [h.next_none s hsf]
      exact hch
    | some f =>
      simp only [FlatCombiner.store, FlatCombiner.setWorker, hfl, if_true]
      rw [hfl] at hch
      exact hch
  have hmem : ∀ i, i ∈ retired.erase s ↔ i ≠ s ∧ i ∈ retired := fun i =>
    List.Nodup.mem_erase_iff hrnd
  refine ⟨?_, hXi⟩
  constructor
  · rw [hXfl]
    refine ⟨rfl, ?_⟩
    refine FreeChain.of_next_eq free _ (fun i hi => ?_) hXns
    have : i ≠ s := by rintro rfl; exact hsf hi
    rw [hXn i this]
  · rw [hXc, List.nodup_cons]
    refine ⟨?_, ?_⟩
    · intro hm
      rcases List.mem_append.mp hm with e | e
      · rcases List.mem_cons.mp e with e | e
        · exact hscur e.symm
        · exact hcf e
      · exact hcr ((hmem _).mp e).2
    · rw [List.nodup_append]
      refine ⟨List.nodup_cons.mpr ⟨hsf, hfnd⟩, hrnd.erase s, ?_⟩
      intro a ha1 ha2
      have ha2' := (hmem a).mp ha2
      rcases List.mem_cons.mp ha1 with e | e
      · exact ha2'.1 e
      · exact hdis e ha2'.2
  · intro i
    rw [hXnf, hXc, h.valid i, hmem]
    simp only [List.mem_cons]
    constructor
    · rintro (e | e | e)
      · exact Or.inl e
      · exact Or.inr (Or.inl (Or.inr e))
      · by_cases his : i = s
        · exact Or.inr (Or.inl (Or.inl his))
        · exact Or.inr (Or.inr ⟨his, e⟩)
    · rintro (e | (e | e) | e)
      · exact Or.inl e
      · rw [e]; exact Or.inr (Or.inr hsr)
      · exact Or.inr (Or.inl e)
      · exact Or.inr (Or.inr e.2)
  · intro i hi
    rw [hXs]
    split
    · rfl
    · rename_i his
      exact h.sender_none i (fun hm => hi ((hmem i).mpr ⟨his, hm⟩))
  · intro i hi
    obtain ⟨his, hir⟩ := (hmem i).mp hi
    obtain ⟨o, ho, hs, hst⟩ := h.owner i hir
    have hov : o ≠ w := by
      rintro rfl
      rw [hw] at hst
      rcases hst with h1 | h1
      · cases h1; exact his rfl
      · cases h1
    exact ⟨o, ho, by rw [hXs, if_neg his]; exact hs, by rw [hXw, if_neg hov]; exact hst⟩
  · intro o i ho
    rw [hXw] at ho
    by_cases hov : o = w
    · simp [hov] at ho
    · simp only [hov, if_false] at ho
      have hs := h.syncing o i ho
      have his : i ≠ s := by
        rintro rfl
        rw [hsend] at hs
        cases hs
        exact hov rfl
      rw [hXs, if_neg his]
      exact hs
  · intro i hi
    simp only [List.mem_cons, not_or] at hi
    rw [hXn i hi.1]
    exact h.next_none i hi.2
  · intro i o ho
    rw [hXcv] at ho
    have hov : o ≠ w := by rintro rfl; exact hnw i ho
    rw [hXw, if_neg hov]
    exact h.cv_waiting i o ho
  · intro o i ho
    rw [hXw] at ho
    by_cases hov : o = w
    · simp [hov] at ho
    · simp only [hov, if_false] at ho
      rw [hXcv]
      exact h.waiting_cv o i ho
  · intro i
    rw [hXcv]
    exact h.cv_nodup i
  · intro i hi hr'
    rw [hXc] at hi
    rw [hXcv]
    by_cases his : i = s
    · rw [his]; exact hsc
    · exact h.cv_none i hi (fun hm => hr' ((hmem i).mpr ⟨his, hm⟩))
  · intro hne
    rw [hXcv, hXc] at hne
    exact absurd hcc hne
  · intro o ho
    rw [hXw]
    split
    · rfl
    · exact h.idle o ho

theorem nodup_bounded_length (l : List Nat) (W : Nat) (hnd : l.Nodup)
    (hb : ∀ x ∈ l, x < W) : l.length ≤ W := by
  have h1 : l.toFinset ⊆ Finset.range W := by
    intro x hx
    rw [List.mem_toFinset] at hx
    exact Finset.mem_range.mpr (hb x hx)
  have h2 := Finset.card_le_card h1
  rw [List.toFinset_card_of_nodup hnd, Finset.card_range] at h2
  exact h2

/-- The retired slots have pairwise different senders among the workers that
are not outside `combine`. -/
theorem FlatCombiner.InvCore.senders {W : Nat} {fc : FlatCombiner}
    {free retired : List Nat} (h : fc.InvCore W free retired) :
    (retired.map (fun i => ((fc.heap i).sender).getD 0)).Nodup ∧
      ∀ o ∈ retired.map (fun i => ((fc.heap i).sender).getD 0),
        o < W ∧ fc.workers o ≠ .idle := by
  have hnd := h.nodup
  rw [List.nodup_cons, List.nodup_append] at hnd
  constructor
  · apply List.Nodup.map_on _ hnd.2.2.1
    intro x hx y hy hxy
    obtain ⟨o1, _, hs1, hst1⟩ := h.owner x hx
    obtain ⟨o2, _, hs2, hst2⟩ := h.owner y hy
    simp only [hs1, hs2, Option.getD_some] at hxy
    subst hxy
    rcases hst1 with e1 | e1 <;> rcases hst2 with e2 | e2 <;> rw [e1] at e2 <;> cases e2 <;> rfl
  · intro o ho
    simp only [List.mem_map] at ho
    obtain ⟨i, hi, rfl⟩ := ho
    obtain ⟨o1, ho1, hs1, hst1⟩ := h.owner i hi
    simp only [hs1, Option.getD_some]
    refine ⟨ho1, ?_⟩
    rcases hst1 with e | e <;> rw [e] <;> simp

theorem FlatCombiner.InvCore.retired_le {W : Nat} {fc : FlatCombiner}
    {free retired : List Nat} (h : fc.InvCore W free retired) : retired.length ≤ W := by
  obtain ⟨h1, h2⟩ := h.senders
  have := nodup_bounded_length _ W h1 (fun o ho => (h2 o ho).1)
  simpa using this

theorem FlatCombiner.InvCore.retired_lt {W : Nat} {fc : FlatCombiner}
    {free retired : List Nat} (h : fc.InvCore W free retired) (w : Nat) (hw : w < W)
    (hidle : fc.workers w = .idle) : retired.length + 1 ≤ W := by
  obtain ⟨h1, h2⟩ := h.senders
  have hnd : (w :: retired.map (fun i => ((fc.heap i).sender).getD 0)).Nodup := by
    rw [List.nodup_cons]
    exact ⟨fun hm => (h2 w hm).2 hidle, h1⟩
  have := nodup_bounded_length _ W hnd (by
    intro o ho
    rcases List.mem_cons.mp ho with e | e
    · rw [e]; exact hw
    · exact (h2 o e).1)
  simpa using this

theorem FlatCombiner.get_flusher_inflight (fc : FlatCombiner) (k s : Nat) :
    FlatCombiner.get_flusher { fc with inflight := k } s =
      ({ (fc.get_flusher s).1 with inflight := k }, (fc.get_flusher s).2) := by
  obtain ⟨heap, nflushers, current, inflight, freelist, workers, trace⟩ := fc
  cases freelist <;> rfl

theorem FlatCombiner.signal_inflight (fc : FlatCombiner) (s : Nat) :
    (fc.signal s).inflight = fc.inflight := by
  unfold FlatCombiner.signal
  split <;> rfl

theorem FlatCombiner.InvCore.switch_current_sender {W : Nat} {fc : FlatCombiner}
    {free retired : List Nat} (h : fc.InvCore W free retired) :
    (fc.switch.heap fc.current).sender = none ∧ fc.switch.inflight = fc.inflight := by
  obtain ⟨r, free', _, hrc, _, _, _, hheap, _, hinf, _⟩ := h.switch
  rw [hheap, if_neg (Ne.symm hrc)]
  exact ⟨h.sender_none _ h.not_retired_of_current, hinf⟩

theorem FlatCombiner.combine_blocked_full {W : Nat} {fc : FlatCombiner}
    {free retired : List Nat} (h : fc.InvCore W free retired) (w : Nat) :
    fc.combine w .BLOCKED true =
      FlatCombiner.flush_begin
        { fc.switch with inflight := (fc.inflight + 1) % 18446744073709551616 } w fc.current := by
  obtain ⟨h1, h2⟩ := h.switch_current_sender
  have key : fc.combine w .BLOCKED true =
      if (fc.switch.heap fc.current).sender = none then
        FlatCombiner.flush_begin
          { fc.switch with inflight := (fc.switch.inflight + 1) % 18446744073709551616 }
          w fc.current
      else fc.switch.wait w fc.current := rfl
  rw [key, if_pos h1, h2]

theorem FlatCombiner.combine_blocked_first {W : Nat} {fc : FlatCombiner}
    {free retired : List Nat} (h : fc.InvCore W free retired) (w : Nat)
    (h0 : fc.inflight = 0) :
    fc.combine w .BLOCKED false =
      FlatCombiner.flush_begin
        { fc.switch with inflight := (fc.inflight + 1) % 18446744073709551616 } w fc.current := by
  have hcs : (fc.heap fc.current).sender = none :=
    h.sender_none _ h.not_retired_of_current
  have key : fc.combine w .BLOCKED false =
      if fc.inflight = 0 then
        if (fc.heap fc.current).sender = none then
          FlatCombiner.flush_begin
            { (FlatCombiner.get_flusher
                { fc with inflight := (fc.inflight + 1) % 18446744073709551616 }
                fc.current).1 with
              current := (FlatCombiner.get_flusher
                { fc with inflight := (fc.inflight + 1) % 18446744073709551616 }
                fc.current).2 } w fc.current
        else FlatCombiner.wait
          { fc with inflight := (fc.inflight + 1) % 18446744073709551616 } w fc.current
      else fc.wait w fc.current := rfl
  rw [key, if_pos h0, if_pos hcs, FlatCombiner.get_flusher_inflight]
  rfl

theorem FlatCombiner.combine_blocked_wait (fc : FlatCombiner) (w : Nat)
    (h0 : fc.inflight ≠ 0) :
    fc.combine w .BLOCKED false = fc.wait w fc.current := by
  have key : fc.combine w .BLOCKED false =
      if fc.inflight = 0 then
        if (fc.heap fc.current).sender = none then
          FlatCombiner.flush_begin
            { (FlatCombiner.get_flusher
                { fc with inflight := (fc.inflight + 1) % 18446744073709551616 }
                fc.current).1 with
              current := (FlatCombiner.get_flusher
                { fc with inflight := (fc.inflight + 1) % 18446744073709551616 }
                fc.current).2 } w fc.current
        else FlatCombiner.wait
          { fc with inflight := (fc.inflight + 1) % 18446744073709551616 } w fc.current
      else fc.wait w fc.current := rfl
  rw [key, if_neg h0]

theorem FlatCombiner.flush_end_eq (fc : FlatCombiner) (w s : Nat) :
    fc.flush_end w s =
      FlatCombiner.release
        (if ((fc.broadcast s).heap (fc.broadcast s).current).cv ≠ [] ∧
            ((fc.broadcast s).heap (fc.broadcast s).current).sender = none
          then (fc.broadcast s).designate
          else { fc.broadcast s with
                  inflight := ((fc.broadcast s).inflight + 18446744073709551615)
                    % 18446744073709551616 }) w s := rfl

/-- One step of a worker keeps the invariant; the number of retired slots grows
by at most one, and only when nothing is in flight or the payload is full. -/
theorem FlatCombiner.Inv.after_step {W : Nat} (hW : W < 18446744073709551616)
    {fc fc' : FlatCombiner} {free retired : List Nat} {allowFull : FlatCombiner → Prop}
    (h : fc.Inv W free retired) (hs : FlatCombiner.Step W allowFull fc fc') :
    ∃ free' retired', fc'.Inv W free' retired' ∧
      (retired'.length ≤ retired.length ∨
        (retired'.length = retired.length + 1 ∧ (fc.inflight = 0 ∨ allowFull fc))) := by
  have hc := h.toInvCore
  cases hs with
  | combine w status full hw hidle hallow =>
    cases status with
    | SATISFIED => exact ⟨free, retired, h, Or.inl le_rfl⟩
    | MATCHED =>
      refine ⟨free, retired, ⟨hc.signal_current, ?_⟩, Or.inl le_rfl⟩
      show (fc.signal fc.current).inflight = _
      rw [FlatCombiner.signal_inflight]
      exact h.count
    | BLOCKED =>
      have hlen := hc.retired_lt w hw hidle
      obtain ⟨free', hX⟩ := hc.retire w hw hidle
      have hmod : (fc.inflight + 1) % 18446744073709551616 = retired.length + 1 := by
        rw [h.count]
        exact Nat.mod_eq_of_lt (by omega)
      have hflush : (FlatCombiner.flush_begin
          { fc.switch with inflight := (fc.inflight + 1) % 18446744073709551616 }
          w fc.current).Inv W free' (fc.current :: retired) :=
        ⟨hX.of_fields rfl rfl rfl rfl rfl, by
          show (fc.inflight + 1) % 18446744073709551616 = _
          rw [hmod]; rfl⟩
      cases full with
      | true =>
        rw [FlatCombiner.combine_blocked_full hc]
        exact ⟨free', _, hflush, Or.inr ⟨rfl, Or.inr (hallow rfl rfl)⟩⟩
      | false =>
        by_cases h0 : fc.inflight = 0
        · rw [FlatCombiner.combine_blocked_first hc w h0]
          exact ⟨free', _, hflush, Or.inr ⟨rfl, Or.inl h0⟩⟩
        · rw [FlatCombiner.combine_blocked_wait fc w h0]
          have hr : retired ≠ [] := by
            intro e
            rw [h.count, e] at h0
            exact h0 rfl
          exact ⟨free, retired, ⟨hc.wait w hw hidle hr, h.count⟩, Or.inl le_rfl⟩
  | resume w s hw hwoken =>
    obtain ⟨h1, h2⟩ := hc.resume w s hwoken
    exact ⟨free, retired, ⟨h1, by rw [h2]; exact h.count⟩, Or.inl le_rfl⟩
  | sync_return w s hw hsync =>
    obtain ⟨hb, hbs⟩ := hc.broadcast s
    have hbi : (fc.broadcast s).inflight = fc.inflight := rfl
    have hnw : w ∉ (fc.heap s).cv := by
      intro hm
      have := hc.cv_waiting s w hm
      rw [hsync] at this
      cases this
    have hbw : (fc.broadcast s).workers w = .syncing s := by
      simp only [FlatCombiner.broadcast, hnw, if_false]
      exact hsync
    have hsr : s ∈ retired := hc.retired_of_sender (hc.syncing w s hsync)
    have hrnd : retired.Nodup := by
      have := hc.nodup
      rw [List.nodup_cons, List.nodup_append] at this
      exact this.2.2.1
    have hbcs : ((fc.broadcast s).heap (fc.broadcast s).current).sender = none :=
      hb.sender_none _ hb.not_retired_of_current
    have hscur : s ≠ (fc.broadcast s).current := by
      rintro e
      exact hb.not_retired_of_current (e ▸ hsr)
    rw [FlatCombiner.flush_end_eq]
    by_cases hcond : ((fc.broadcast s).heap (fc.broadcast s).current).cv ≠ [] ∧
        ((fc.broadcast s).heap (fc.broadcast s).current).sender = none
    · rw [if_pos hcond]
      obtain ⟨w1, ws, hcv⟩ := List.exists_cons_of_ne_nil hcond.1
      obtain ⟨free', hd, hdi, hdc, hdo, hdw⟩ := hb.designate w1 ws hcv
      have hw1 : (fc.broadcast s).workers w1 = .waiting (fc.broadcast s).current :=
        hb.cv_waiting _ w1 (by rw [hcv]; exact List.mem_cons_self _ _)
      have hww1 : w ≠ w1 := by
        rintro rfl
        rw [hbw] at hw1
        cases hw1
      have hdsync : (fc.broadcast s).designate.workers w = .syncing s := by
        rw [hdw w hww1]; exact hbw
      have hdscv : ((fc.broadcast s).designate.heap s).cv = [] := by
        rcases hdo s hscur with e | e
        · exact e
        · rw [e]; exact hbs
      obtain ⟨hr1, hr2⟩ := hd.release w s hdsync hdc hdscv
      refine ⟨s :: free', ((fc.broadcast s).current :: retired).erase s, ⟨hr1, ?_⟩, Or.inl ?_⟩
      · rw [hr2, hdi, hbi, h.count, List.length_erase_of_mem (List.mem_cons_of_mem _ hsr)]
        simp
      · rw [List.length_erase_of_mem (List.mem_cons_of_mem _ hsr)]
        simp
    · rw [if_neg hcond]
      have hcv : ((fc.broadcast s).heap (fc.broadcast s).current).cv = [] := by
        by_contra hne
        exact hcond ⟨hne, hbcs⟩
      have hdec : ({ fc.broadcast s with
          inflight := ((fc.broadcast s).inflight + 18446744073709551615)
            % 18446744073709551616 } : FlatCombiner).InvCore W free retired :=
        hb.of_fields rfl rfl rfl rfl rfl
      obtain ⟨hr1, hr2⟩ := hdec.release w s hbw hcv hbs
      have hle := hc.retired_le
      have hpos : 0 < retired.length := List.length_pos_of_mem hsr
      refine ⟨s :: free, retired.erase s, ⟨hr1, ?_⟩, Or.inl ?_⟩
      · rw [hr2, List.length_erase_of_mem hsr]
        show (fc.inflight + 18446744073709551615) % 18446744073709551616 = _
        rw [h.count]
        omega
      · rw [List.length_erase_of_mem hsr]
        omega

theorem FlatCombiner.Inv.at_new (W : Nat) : FlatCombiner.new.Inv W [] [] := by
  refine ⟨⟨rfl, by simp, ?_, ?_, ?_, ?_, ?_, ?_, ?_, ?_, ?_, ?_, ?_⟩, rfl⟩
  · intro i
    simp only [FlatCombiner.new, List.not_mem_nil, or_false]
    omega
  · intro i _; rfl
  · intro i hi; cases hi
  · intro w i hw; cases hw
  · intro i _; rfl
  · intro i w hw; cases hw
  · intro w i hw; cases hw
  · intro i; exact List.nodup_nil
  · intro i _ _; rfl
  · intro hne; exact absurd rfl hne
  · intro w _; rfl

theorem FlatCombiner.Reachable.invariant {W : Nat} (hW : W < 18446744073709551616)
    {allowFull : FlatCombiner → Prop} {fc : FlatCombiner}
    (hr : FlatCombiner.Reachable W allowFull fc) : ∃ free retired, fc.Inv W free retired := by
  induction hr with
  | init => exact ⟨[], [], FlatCombiner.Inv.at_new W⟩
  | step _ hs ih =>
    obtain ⟨free, retired, h⟩ := ih
    obtain ⟨free', retired', h', _⟩ := h.after_step hW hs
    exact ⟨free', retired', h'⟩

/-- When the payload reports full only while nothing is in flight, at most one
slot is retired at any time. -/
theorem FlatCombiner.Reachable.inv_single {W : Nat} (hW : W < 18446744073709551616)
    {fc : FlatCombiner}
    (hr : FlatCombiner.Reachable W (fun fc => fc.inflight = 0) fc) :
    ∃ free retired, fc.Inv W free retired ∧ retired.length ≤ 1 := by
  induction hr with
  | init => exact ⟨[], [], FlatCombiner.Inv.at_new W, by simp⟩
  | step _ hs ih =>
    obtain ⟨free, retired, h, hle⟩ := ih
    obtain ⟨free', retired', h', hlen⟩ := h.after_step hW hs
    refine ⟨free', retired', h', ?_⟩
    rcases hlen with hl | ⟨hl, h0 | h0⟩
    · omega
    · rw [h.count] at h0; omega
    · rw [h.count] at h0; omega

/-! ## Properties of the allocator -/

/-- C1: in every state reachable from `Allocator( base, n )` with `n > 0` by
`malloc` calls that return and `free` calls that pass their assertions, the
tracked chunks in the order of their offsets tile the arena exactly: there is a
first chunk and it starts at offset 0, each chunk's offset plus size is the
offset of the next chunk, and the last chunk ends at `n`. -/
theorem Allocator.chunks_tile_arena (base n : Int) (st : Allocator) (h0 : 0 < n)
    (hb : n < 9223372036854775808) (hr : Allocator.Reachable base n st) :
    ChunkMap.Sorted st.chunks_ ∧ Tiles 0 st.chunks_ n ∧ st.chunks_ ≠ [] ∧
      (∀ c, st.chunks_.head? = some c → c.address = 0) ∧
      (∀ i c d, st.chunks_[i]? = some c → st.chunks_[i + 1]? = some d →
        c.address + (c.size : Int) = d.address) ∧
      (∀ c, st.chunks_.getLast? = some c → c.address + (c.size : Int) = n) := by
  obtain ⟨hwf, _, _⟩ := Allocator.Reachable.inv h0 hb hr
  refine ⟨hwf.sorted, hwf.tiles, ?_, tiles_explicit hwf.tiles⟩
  intro hnil
  have ht := hwf.tiles
  rw [hnil] at ht
  have : (0 : Int) = n := ht
  omega

theorem Allocator.chunks_tile_arena_witness :
    ChunkMap.Sorted Allocator.fresh1024_malloc100.chunks_ ∧
      Tiles 0 Allocator.fresh1024_malloc100.chunks_ 1024 ∧
      Allocator.fresh1024_malloc100.chunks_ ≠ [] ∧
      (∀ c, Allocator.fresh1024_malloc100.chunks_.head? = some c → c.address = 0) ∧
      (∀ i c d, Allocator.fresh1024_malloc100.chunks_[i]? = some c →
        Allocator.fresh1024_malloc100.chunks_[i + 1]? = some d →
        c.address + (c.size : Int) = d.address) ∧
      (∀ c, Allocator.fresh1024_malloc100.chunks_.getLast? = some c →
        c.address + (c.size : Int) = 1024) :=
  Allocator.chunks_tile_arena 0 1024 Allocator.fresh1024_malloc100 (by decide) (by decide)
    fresh1024_reachable

/-- C2: in every state reachable from `Allocator( base, n )` with `n > 0` by
`malloc` calls that return and `free` calls that pass their assertions,
`total_bytes_free() + total_bytes_in_use() == total_bytes()` holds, as `int64_t`
and without overflow, and `total_bytes()` is `n`. -/
theorem Allocator.byte_counters_add_up (base n : Int) (st : Allocator) (h0 : 0 < n)
    (hb : n < 9223372036854775808) (hr : Allocator.Reachable base n st) :
    wrap64 (st.total_bytes_free + st.total_bytes_in_use) = st.total_bytes ∧
      st.total_bytes_free + st.total_bytes_in_use = st.total_bytes ∧
      st.total_bytes = n := by
  obtain ⟨hwf, _, _⟩ := Allocator.Reachable.inv h0 hb hr
  obtain ⟨h1, h2, _, _⟩ := hwf.byte_counters
  refine ⟨?_, by rw [h1, h2], h1⟩
  rw [h1, h2]
  exact wrap64_of_range (by omega) hb

theorem Allocator.byte_counters_add_up_witness :
    wrap64 (Allocator.fresh1024_malloc100.total_bytes_free
        + Allocator.fresh1024_malloc100.total_bytes_in_use)
        = Allocator.fresh1024_malloc100.total_bytes ∧
      Allocator.fresh1024_malloc100.total_bytes_free
        + Allocator.fresh1024_malloc100.total_bytes_in_use
        = Allocator.fresh1024_malloc100.total_bytes ∧
      Allocator.fresh1024_malloc100.total_bytes = 1024 :=
  Allocator.byte_counters_add_up 0 1024 Allocator.fresh1024_malloc100 (by decide) (by decide)
    fresh1024_reachable

/-- C3: in every reachable state, when `malloc( s )` with `s ≥ 1` returns the
address `a`, then `a - base_` is the offset of a tracked chunk that is marked in
use, is on no free list, and whose size is a power of two that is at least `s`
and at most every power of two that is at least `s`. -/
theorem Allocator.malloc_returns_in_use_chunk (base n : Int) (st st' : Allocator) (s : Nat)
    (a : Int) (h0 : 0 < n) (hb : n < 9223372036854775808)
    (hr : Allocator.Reachable base n st) (hs1 : 1 ≤ s) (hs2 : s < 18446744073709551616)
    (h : st.malloc s = .ok (st', a)) :
    ∃ c, ChunkMap.find st'.chunks_ (wrap64 (a - st'.base_)) = some c ∧ c.in_use = true ∧
      (∀ k, wrap64 (a - st'.base_) ∉ FreeListMap.get st'.free_lists_ k) ∧
      (∀ e ∈ st'.free_lists_, wrap64 (a - st'.base_) ∉ e.2) ∧
      IsPow2 c.size ∧ s ≤ c.size ∧ (∀ j, s ≤ 2 ^ j → c.size ≤ 2 ^ j) := by
  obtain ⟨hwf, hnb, hbase⟩ := Allocator.Reachable.inv h0 hb hr
  obtain ⟨A, st1, cmit, c, hA, _, hw1, hw2, hw3, hst', ha, hwf1, hf1, hu1, hsz, _, hb1, hwf'⟩ :=
    Allocator.malloc_inv hwf h (fun _ _ _ => True) (fun _ _ _ _ _ _ _ _ _ _ _ => trivial)
      (fun _ _ _ _ _ _ _ _ _ _ => trivial)
  obtain ⟨_, hfind, _, _, hbr⟩ := Allocator.malloc_finish_spec hwf1 hf1 hu1
  obtain ⟨_, hc0, hcn, _, _⟩ := hwf1.find_bounds hf1
  have hsw : wrap64 (s : Int) = s := by
    unfold wrap64 at hw1 ⊢
    omega
  rw [hsw] at hw2 hw3
  have hsA : s ≤ A := by exact_mod_cast hw2
  have hAs : A < 2 * s := by exact_mod_cast hw3
  have hoff : wrap64 (a - st'.base_) = cmit := by
    rw [hst', ha, ← hsz, hbr, ← hb1]
    exact wrap64_sub_add cmit st1.base_ (by omega) (by omega)
  have hf' : ChunkMap.find st'.chunks_ cmit = some ⟨true, cmit, A⟩ := by
    rw [hst', ← hsz, hfind, if_pos rfl]
  rw [hoff]
  have hnot := hwf'.fl.not_mem_of_in_use hf' rfl
  refine ⟨⟨true, cmit, A⟩, hf', rfl, hnot, ?_, hA, hsA, ?_⟩
  · intro e he hmem
    apply hnot e.1
    rw [FreeListMap.get_of_mem hwf'.fl.sorted he]
    exact hmem
  · intro j hj
    show A ≤ 2 ^ j
    by_contra hlt
    have := IsPow2.le_half ⟨j, rfl⟩ hA (by omega)
    omega

theorem Allocator.malloc_returns_in_use_chunk_witness :
    ∃ c, ChunkMap.find Allocator.fresh1024_malloc100.chunks_
        (wrap64 (896 - Allocator.fresh1024_malloc100.base_)) = some c ∧ c.in_use = true ∧
      (∀ k, wrap64 (896 - Allocator.fresh1024_malloc100.base_) ∉
        FreeListMap.get Allocator.fresh1024_malloc100.free_lists_ k) ∧
      (∀ e ∈ Allocator.fresh1024_malloc100.free_lists_,
        wrap64 (896 - Allocator.fresh1024_malloc100.base_) ∉ e.2) ∧
      IsPow2 c.size ∧ 100 ≤ c.size ∧ (∀ j, 100 ≤ 2 ^ j → c.size ≤ 2 ^ j) :=
  Allocator.malloc_returns_in_use_chunk 0 1024 Allocator.fresh1024 Allocator.fresh1024_malloc100
    100 896 (by decide) (by decide) (Allocator.Reachable.ctor fresh1024_ctor) (by decide)
    (by decide) fresh1024_malloc

/-- C4: on the fresh arena of 1024 bytes `malloc( 2000 )` throws
`Allocator::Exception`, but `malloc( 2^63 + 1 )`, for which no free chunk is
large enough either, does not: the conversion of the `size_t` request to
`int64_t` makes the allocation size 0, the only chunk is split down to size 0,
and `assert( inserted )` fails in `add_to_chunk_map`. -/
theorem Allocator.malloc_oversize_request :
    Allocator.ctor 0 1024 = .ok Allocator.fresh1024 ∧
      Allocator.fresh1024.malloc 2000 = .error .exception ∧
      Allocator.next_largest_power_of_2 (wrap64 ((9223372036854775809 : Nat) : Int)) = 0 ∧
      Allocator.fresh1024.chunks_ = [⟨false, 0, 1024⟩] ∧
      Allocator.fresh1024.malloc 9223372036854775809 = .error .assertion ∧
      Allocator.fresh1024.malloc 9223372036854775809 ≠ .error .exception := by
  decide

/-- C5: on the fresh arena with base 0 and size 1024, `malloc( 100 )` does not
return offset 0: it returns offset 896, and the chunk tracked at offset 0 is
then a free chunk of size 512. -/
theorem Allocator.malloc_100_not_at_offset_0 :
    Allocator.ctor 0 1024 = .ok Allocator.fresh1024 ∧
      Allocator.fresh1024.malloc 100 = .ok (Allocator.fresh1024_malloc100, 896) ∧
      (896 : Int) - Allocator.fresh1024_malloc100.base_ ≠ 0 ∧
      ChunkMap.find Allocator.fresh1024_malloc100.chunks_ 0 = some ⟨false, 0, 512⟩ ∧
      ChunkMap.find Allocator.fresh1024_malloc100.chunks_ 0 ≠ some ⟨true, 0, 128⟩ := by
  decide

/-- C5, amended: on the fresh arena with base 0 and size 1024, `malloc( 100 )`
returns offset 896 and the chunk tracked at offset 896 is then an in-use chunk
of size 128. -/
theorem Allocator.malloc_100_at_offset_896 :
    Allocator.ctor 0 1024 = .ok Allocator.fresh1024 ∧
      Allocator.fresh1024.malloc 100 = .ok (Allocator.fresh1024_malloc100, 896) ∧
      (896 : Int) - Allocator.fresh1024_malloc100.base_ = 896 ∧
      ChunkMap.find Allocator.fresh1024_malloc100.chunks_ 896 = some ⟨true, 896, 128⟩ := by
  decide

/-- C7: `Allocator( base, 3 )` does not produce the greedy decomposition: the
largest power of two that is at most 3 is 2, but the chunk at offset 0 has size
`next_largest_power_of_2( 3 / 2 ) = 1`, followed by a chunk of size 2 at offset
1. -/
theorem Allocator.ctor_3_not_greedy :
    Allocator.ctor 0 3 = .ok ⟨0, 3, [⟨false, 0, 1⟩, ⟨false, 1, 2⟩], [(1, [0]), (2, [1])]⟩ ∧
      Allocator.this_chunk_size 3 = 1 ∧ Allocator.next_largest_power_of_2 (Int.tdiv 3 2) = 1 := by
  decide

/-- C6: for every arena size `2^k`, every state reachable by `malloc` calls that
return and `free` calls that pass their assertions, and every request for which
`malloc` returns, `free` of the address just returned passes its assertions and
restores the state before the `malloc`: the same chunks (offset, size, in_use)
and the same free lists. -/
theorem Allocator.free_undoes_malloc (base : Int) (k : Nat) (st st' : Allocator) (s : Nat)
    (a : Int) (hk : k ≤ 62) (hr : Allocator.Reachable base ((2 ^ k : Nat) : Int) st)
    (h : st.malloc s = .ok (st', a)) :
    st'.free a = .ok st ∧
      (∀ st'', st'.free a = .ok st'' →
        st''.chunks_ = st.chunks_ ∧ st''.free_lists_ = st.free_lists_) := by
  have hpos : (0 : Int) < ((2 ^ k : Nat) : Int) := by
    have : 0 < 2 ^ k := Nat.pos_pow_of_pos k (by omega)
    exact_mod_cast this
  have hlt : ((2 ^ k : Nat) : Int) < 9223372036854775808 := by
    have : 2 ^ k ≤ 2 ^ 62 := Nat.pow_le_pow_right (by omega) hk
    norm_num at this
    omega
  obtain ⟨hwf, hnb, _⟩ := Allocator.Reachable.inv hpos hlt hr
  have hfree := Allocator.free_malloc hwf hnb (Allocator.Reachable.aligned hk hr) h
  refine ⟨hfree, ?_⟩
  intro st'' h2
  rw [hfree] at h2
  cases h2
  exact ⟨rfl, rfl⟩

theorem Allocator.free_undoes_malloc_witness :
    Allocator.fresh1024_malloc100.free 896 = .ok Allocator.fresh1024 ∧
      (∀ st'', Allocator.fresh1024_malloc100.free 896 = .ok st'' →
        st''.chunks_ = Allocator.fresh1024.chunks_ ∧
          st''.free_lists_ = Allocator.fresh1024.free_lists_) :=
  Allocator.free_undoes_malloc 0 10 Allocator.fresh1024 Allocator.fresh1024_malloc100 100 896
    (by decide) (Allocator.Reachable.ctor (by decide)) fresh1024_malloc

/-- C8: in every reachable state, `free( p )` passes both of its assertions if
and only if `p - base_` is the offset of a tracked chunk whose `in_use` flag is
true, and then it returns.  So `free` fails an assertion, leaving no new state,
for an address that `malloc` has not returned since it was last freed (never
returned, or freed before), for an address in the interior of a chunk, and for
the address just freed. -/
theorem Allocator.free_accepts_iff (base n : Int) (st : Allocator) (live : List Int) (p : Int)
    (h0 : 0 < n) (hb : n < 9223372036854775808) (hl : Allocator.Live base n st live)
    (hp1 : -9223372036854775808 ≤ p) (hp2 : p < 9223372036854775808) :
    (st.free p ≠ .error .assertion ↔
        ∃ c, ChunkMap.find st.chunks_ (wrap64 (p - st.base_)) = some c ∧ c.in_use = true) ∧
      ((∃ c, ChunkMap.find st.chunks_ (wrap64 (p - st.base_)) = some c ∧ c.in_use = true) →
        ∃ st', st.free p = .ok st') ∧
      (p ∉ live → st.free p = .error .assertion) ∧
      (∀ c ∈ st.chunks_, c.address < wrap64 (p - st.base_) →
        wrap64 (p - st.base_) < c.address + (c.size : Int) → st.free p = .error .assertion) ∧
      (∀ st', st.free p = .ok st' → st'.free p = .error .assertion) := by
  obtain ⟨hwf, _, hbase⟩ := Allocator.Reachable.inv h0 hb hl.reachable
  have hacc : (∃ c, ChunkMap.find st.chunks_ (wrap64 (p - st.base_)) = some c ∧
      c.in_use = true) → ∃ st', st.free p = .ok st' := by
    rintro ⟨c, hf, hu⟩
    exact Allocator.free_returns hwf p hf hu
  have hrej : (¬ ∃ c, ChunkMap.find st.chunks_ (wrap64 (p - st.base_)) = some c ∧
      c.in_use = true) → st.free p = .error .assertion := by
    intro hno
    apply Allocator.free_assertion
    intro c hf
    by_contra hu
    exact hno ⟨c, hf, by simpa using hu⟩
  refine ⟨⟨?_, ?_⟩, hacc, ?_, ?_, ?_⟩
  · intro hne
    by_contra hno
    exact hne (hrej hno)
  · intro hex
    obtain ⟨st', h⟩ := hacc hex
    rw [h]
    intro hcon
    cases hcon
  · intro hp
    apply hrej
    rintro ⟨c, hf, hu⟩
    apply hp
    have := Allocator.Live.in_use h0 hb hl _ c hf hu
    rw [hbase, wrap64_add_sub p base hp1 hp2] at this
    exact this
  · intro c hc h1 h2
    exact Allocator.free_interior hwf p c hc h1 h2
  · intro st' h
    exact Allocator.free_twice hwf h

theorem Allocator.free_accepts_iff_witness :
    (Allocator.fresh1024_malloc100.free 896 ≠ .error .assertion ↔
        ∃ c, ChunkMap.find Allocator.fresh1024_malloc100.chunks_
          (wrap64 (896 - Allocator.fresh1024_malloc100.base_)) = some c ∧ c.in_use = true) ∧
      ((∃ c, ChunkMap.find Allocator.fresh1024_malloc100.chunks_
          (wrap64 (896 - Allocator.fresh1024_malloc100.base_)) = some c ∧ c.in_use = true) →
        ∃ st', Allocator.fresh1024_malloc100.free 896 = .ok st') ∧
      ((896 : Int) ∉ [896] → Allocator.fresh1024_malloc100.free 896 = .error .assertion) ∧
      (∀ c ∈ Allocator.fresh1024_malloc100.chunks_,
        c.address < wrap64 (896 - Allocator.fresh1024_malloc100.base_) →
        wrap64 (896 - Allocator.fresh1024_malloc100.base_) < c.address + (c.size : Int) →
        Allocator.fresh1024_malloc100.free 896 = .error .assertion) ∧
      (∀ st', Allocator.fresh1024_malloc100.free 896 = .ok st' →
        st'.free 896 = .error .assertion) :=
  Allocator.free_accepts_iff 0 1024 Allocator.fresh1024_malloc100 [896] 896 (by decide)
    (by decide) (Allocator.Live.malloc (Allocator.Live.ctor fresh1024_ctor) fresh1024_malloc)
    (by decide) (by decide)

/-- C9: in every state reachable from `Allocator( base, n )` with `n > 0` by
`malloc` calls that return and `free` calls that pass their assertions, no free
chunk has a free buddy of its own size: for every tracked free chunk at offset
`o` with size `s`, the offset `o XOR s` is untracked, or tracks a chunk that is
in use, or tracks a chunk whose size is not `s`. -/
theorem Allocator.no_free_buddy_pair (base n : Int) (st : Allocator) (h0 : 0 < n)
    (hb : n < 9223372036854775808) (hr : Allocator.Reachable base n st) :
    ∀ o c, ChunkMap.find st.chunks_ o = some c → c.in_use = false →
      ChunkMap.find st.chunks_ (wrap64 (Int.xor o (c.size : Int))) = none ∨
      ∃ b, ChunkMap.find st.chunks_ (wrap64 (Int.xor o (c.size : Int))) = some b ∧
        (b.in_use = true ∨ b.size ≠ c.size) := by
  obtain ⟨_, hnb, _⟩ := Allocator.Reachable.inv h0 hb hr
  intro o c hf hu
  cases hfb : ChunkMap.find st.chunks_ (wrap64 (Int.xor o (c.size : Int))) with
  | none => exact Or.inl rfl
  | some b =>
    refine Or.inr ⟨b, rfl, ?_⟩
    by_cases hs : b.size = c.size
    · exact Or.inl (hnb o c b hf hu hfb hs)
    · exact Or.inr hs

theorem Allocator.no_free_buddy_pair_witness :
    ChunkMap.find Allocator.fresh1024_malloc100.chunks_ (wrap64 (Int.xor 0 512)) = none ∨
      ∃ b, ChunkMap.find Allocator.fresh1024_malloc100.chunks_ (wrap64 (Int.xor 0 512))
          = some b ∧
        (b.in_use = true ∨ b.size ≠ 512) :=
  Allocator.no_free_buddy_pair 0 1024 Allocator.fresh1024_malloc100 (by decide) (by decide)
    fresh1024_reachable 0 ⟨false, 0, 512⟩ (by decide) rfl

/-! ## The all-reduce -/

/-- C10: for every cluster of `N ≥ 1` nodes whose contributions are handled by
`am_reduce` on the home node starting from arrival counter 0, the value that is
broadcast to every node, and that `Grappa_allreduce` returns on every node, is
the left fold of `Reducer` over the contributions in their order of arrival,
seeded with `BaseVal`, and the counter is 0 again.  With `coll_add`, `BaseVal`
0 and the contributions `0..N-1` arriving in any order, every node obtains
`N(N-1)/2`, as long as that value is an `int64_t`. -/
theorem allreduce_returns_fold :
    (∀ (T : Type) (Reducer : T → T → T) (BaseVal : T) (home : ReductionNode T)
      (others : List (ReductionNode T)) (arrival : List T),
      arrival.length = (home :: others).length → home.reduction_reported_in = 0 →
      (home_handle Reducer BaseVal (home :: others).length (Grappa_allreduce_call home)
          arrival).2 =
        (List.range (home :: others).length).map
          (fun n => (n, arrival.foldl Reducer BaseVal)) ∧
      (home_handle Reducer BaseVal (home :: others).length (Grappa_allreduce_call home)
          arrival).1.reduction_reported_in = 0 ∧
      allreduce_round Reducer BaseVal (home :: others) arrival =
        List.replicate (home :: others).length (some (arrival.foldl Reducer BaseVal))) ∧
    (∀ (home : ReductionNode Int) (others : List (ReductionNode Int)) (arrival : List Int),
      arrival.Perm ((List.range (home :: others).length).map Int.ofNat) →
      home.reduction_reported_in = 0 →
      ((home :: others).length : Int) * (((home :: others).length : Int) - 1) / 2
        < 9223372036854775808 →
      allreduce_round coll_add 0 (home :: others) arrival =
        List.replicate (home :: others).length
          (some (((home :: others).length : Int) * (((home :: others).length : Int) - 1) / 2))) := by
  refine ⟨fun T Reducer BaseVal home others arrival hlen h0 =>
    allreduce_round_spec Reducer BaseVal home others arrival hlen h0, ?_⟩
  intro home others arrival hperm h0 hbound
  have hlen : arrival.length = (home :: others).length := by
    rw [hperm.length_eq]; simp
  have hsum : arrival.sum * 2 =
      ((home :: others).length : Int) * (((home :: others).length : Int) - 1) := by
    rw [hperm.sum_eq]; exact sum_range_ofNat _
  have hnn : ∀ x ∈ arrival, (0 : Int) ≤ x := by
    intro x hx
    have := hperm.subset hx
    simp only [List.mem_map] at this
    obtain ⟨i, _, rfl⟩ := this
    exact Int.ofNat_nonneg i
  have hdiv : arrival.sum =
      ((home :: others).length : Int) * (((home :: others).length : Int) - 1) / 2 := by
    rw [← hsum]; simp
  have hfold : arrival.foldl coll_add 0 = arrival.sum := by
    rw [foldl_coll_add arrival 0 (le_refl 0) hnn (by rw [hdiv]; omega)]
    simp
  rw [(allreduce_round_spec coll_add 0 home others arrival hlen h0).2.2, hfold, hdiv]

theorem allreduce_returns_fold_witness :
    allreduce_round coll_add 0 cluster4 [0, 1, 2, 3] = [some 6, some 6, some 6, some 6] :=
  allreduce_returns_fold.2 ⟨0, 0, 0, false⟩
    [⟨0, 0, 0, false⟩, ⟨0, 0, 0, false⟩, ⟨0, 0, 0, false⟩] [0, 1, 2, 3]
    (List.Perm.refl _) rfl (by decide)

/-! ## Order of arrival, the variant without initial value, counter and barrier -/

/-- C11: for a commutative and associative `Reducer`, `N ≥ 1` nodes and `N`
contributions, the value broadcast by one complete round of `am_reduce` (with
`BaseVal`) and by one complete round of `am_reduce_noinit`, and so the value
every node returns, is the same for every permutation of the order of
arrival. -/
theorem allreduce_arrival_order_irrelevant {T : Type} (Reducer : T → T → T) (BaseVal : T)
    (home : ReductionNode T) (others : List (ReductionNode T)) (a1 a2 : List T)
    (hcomm : ∀ a b, Reducer a b = Reducer b a)
    (hassoc : ∀ a b c, Reducer (Reducer a b) c = Reducer a (Reducer b c))
    (hperm : a1.Perm a2) (hlen : a1.length = (home :: others).length)
    (h0 : home.reduction_reported_in = 0) :
    (home_handle Reducer BaseVal (home :: others).length (Grappa_allreduce_call home) a1).2 =
        (home_handle Reducer BaseVal (home :: others).length (Grappa_allreduce_call home)
          a2).2 ∧
      (home_handle_with (am_reduce_noinit Reducer (home :: others).length)
          (Grappa_allreduce_call home) a1).2 =
        (home_handle_with (am_reduce_noinit Reducer (home :: others).length)
          (Grappa_allreduce_call home) a2).2 ∧
      allreduce_round Reducer BaseVal (home :: others) a1 =
        allreduce_round Reducer BaseVal (home :: others) a2 ∧
      allreduce_round_noinit Reducer (home :: others) a1 =
        allreduce_round_noinit Reducer (home :: others) a2 := by
  have hlen2 : a2.length = (home :: others).length := by rw [← hperm.length_eq]; exact hlen
  obtain ⟨s1, _, s3⟩ := allreduce_round_spec Reducer BaseVal home others a1 hlen h0
  obtain ⟨t1, _, t3⟩ := allreduce_round_spec Reducer BaseVal home others a2 hlen2 h0
  have hf := foldl_perm_of_comm_assoc Reducer hcomm hassoc hperm BaseVal
  cases a1 with
  | nil => simp at hlen
  | cons v1 r1 =>
    cases a2 with
    | nil => simp at hlen2
    | cons v2 r2 =>
      obtain ⟨n1, _, n3⟩ := allreduce_round_noinit_spec Reducer home others v1 r1 hlen h0
      obtain ⟨m1, _, m3⟩ := allreduce_round_noinit_spec Reducer home others v2 r2 hlen2 h0
      have hg := fold_over_head_perm Reducer hcomm hassoc hperm v1 r1 v2 r2 rfl rfl
      refine ⟨?_, ?_, ?_, ?_⟩
      · rw [s1, t1, hf]
      · rw [n1, m1, hg]
      · rw [s3, t3, hf]
      · rw [n3, m3, hg]

theorem allreduce_arrival_order_irrelevant_witness :
    (home_handle coll_add 0 4 (Grappa_allreduce_call ⟨0, 0, 0, false⟩) [0, 1, 2, 3]).2 =
        (home_handle coll_add 0 4 (Grappa_allreduce_call ⟨0, 0, 0, false⟩) [3, 1, 0, 2]).2 ∧
      (home_handle_with (am_reduce_noinit coll_add 4)
          (Grappa_allreduce_call ⟨0, 0, 0, false⟩) [0, 1, 2, 3]).2 =
        (home_handle_with (am_reduce_noinit coll_add 4)
          (Grappa_allreduce_call ⟨0, 0, 0, false⟩) [3, 1, 0, 2]).2 ∧
      allreduce_round coll_add 0 cluster4 [0, 1, 2, 3] =
        allreduce_round coll_add 0 cluster4 [3, 1, 0, 2] ∧
      allreduce_round_noinit coll_add cluster4 [0, 1, 2, 3] =
        allreduce_round_noinit coll_add cluster4 [3, 1, 0, 2] :=
  allreduce_arrival_order_irrelevant coll_add 0 ⟨0, 0, 0, false⟩
    [⟨0, 0, 0, false⟩, ⟨0, 0, 0, false⟩, ⟨0, 0, 0, false⟩] [0, 1, 2, 3] [3, 1, 0, 2]
    (fun a b => by unfold coll_add; rw [Int.add_comm])
    (fun a b c => by unfold coll_add wrap64; omega)
    (by decide) rfl rfl

/-- C12: in the variant without initial value, starting from arrival counter 0,
the first arriving contribution becomes the accumulator without an application
of `Reducer`; the value broadcast and returned on every node is the fold of the
remaining contributions over the first one, and with a single node it is that
node's contribution, for every `Reducer`. -/
theorem allreduce_noinit_seeded_by_first {T : Type} (Reducer : T → T → T)
    (home : ReductionNode T) (others : List (ReductionNode T)) (v : T) (rest : List T)
    (hlen : (v :: rest).length = (home :: others).length)
    (h0 : home.reduction_reported_in = 0) :
    (am_reduce_noinit Reducer (home :: others).length (Grappa_allreduce_call home)
        v).1.reduction_result = v ∧
      (home_handle_with (am_reduce_noinit Reducer (home :: others).length)
        (Grappa_allreduce_call home) (v :: rest)).2 =
        (List.range (home :: others).length).map (fun n => (n, rest.foldl Reducer v)) ∧
      allreduce_round_noinit Reducer (home :: others) (v :: rest) =
        List.replicate (home :: others).length (some (rest.foldl Reducer v)) ∧
      (others = [] → allreduce_round_noinit Reducer (home :: others) (v :: rest) = [some v]) := by
  obtain ⟨n1, _, n3⟩ := allreduce_round_noinit_spec Reducer home others v rest hlen h0
  have hc0 : (Grappa_allreduce_call home).reduction_reported_in = 0 := h0
  refine ⟨?_, n1, n3, ?_⟩
  · unfold am_reduce_noinit
    simp only [hc0, if_true]
    split <;> rfl
  · intro ho
    rw [n3]
    subst ho
    simp only [List.length_cons, List.length_nil, Nat.zero_add, Nat.add_right_cancel_iff] at hlen
    have : rest = [] := List.length_eq_zero.mp (by omega)
    subst this
    rfl

theorem allreduce_noinit_seeded_by_first_witness :
    (am_reduce_noinit coll_add [(⟨0, 0, 0, false⟩ : ReductionNode Int)].length
        (Grappa_allreduce_call ⟨0, 0, 0, false⟩) 7).1.reduction_result = 7 ∧
      (home_handle_with (am_reduce_noinit coll_add [(⟨0, 0, 0, false⟩ : ReductionNode Int)].length)
        (Grappa_allreduce_call ⟨0, 0, 0, false⟩) [7]).2 =
        (List.range [(⟨0, 0, 0, false⟩ : ReductionNode Int)].length).map
          (fun n => (n, ([] : List Int).foldl coll_add 7)) ∧
      allreduce_round_noinit coll_add [⟨0, 0, 0, false⟩] [7] =
        List.replicate [(⟨0, 0, 0, false⟩ : ReductionNode Int)].length
          (some (([] : List Int).foldl coll_add 7)) ∧
      (([] : List (ReductionNode Int)) = [] →
        allreduce_round_noinit coll_add [⟨0, 0, 0, false⟩] [7] = [some 7]) :=
  allreduce_noinit_seeded_by_first coll_add ⟨0, 0, 0, false⟩ [] 7 [] rfl rfl

/-- C13: with `N ≥ 1` nodes and the arrival counter in `0..N-1` (0 at the
start), every run of `am_reduce`, `am_reduce_noinit` or `am_reduce_array` that
is not the `N`-th of its round increases `reduction_reported_in` by exactly 1
and the `N`-th run leaves it at 0, so that the counter stays in `0..N-1` and
after any number of runs it is the number of arrivals modulo `N`. -/
theorem reduction_counter_cycles {T : Type} (Reducer : T → T → T) (BaseVal : T) (N : Nat)
    (home : ReductionNode T) (val : T) (vals : List T) (homeA : ReductionArrayNode T)
    (valA : List T) (valsA : List (List T)) (hN : 1 ≤ N)
    (hc : home.reduction_reported_in < N) (hcA : homeA.reduction_reported_in < N) :
    ((am_reduce Reducer BaseVal N home val).1.reduction_reported_in < N ∧
      (home.reduction_reported_in + 1 < N →
        (am_reduce Reducer BaseVal N home val).1.reduction_reported_in =
          home.reduction_reported_in + 1) ∧
      (home.reduction_reported_in + 1 = N →
        (am_reduce Reducer BaseVal N home val).1.reduction_reported_in = 0)) ∧
    ((am_reduce_noinit Reducer N home val).1.reduction_reported_in < N ∧
      (home.reduction_reported_in + 1 < N →
        (am_reduce_noinit Reducer N home val).1.reduction_reported_in =
          home.reduction_reported_in + 1) ∧
      (home.reduction_reported_in + 1 = N →
        (am_reduce_noinit Reducer N home val).1.reduction_reported_in = 0)) ∧
    ((homeA.reduction_reported_in = 0 ∨ valA.length ≤ homeA.reduction_result.length →
        ∃ r, am_reduce_array Reducer BaseVal N homeA valA = .ok r) ∧
      ∀ home1 msgs, am_reduce_array Reducer BaseVal N homeA valA = .ok (home1, msgs) →
        home1.reduction_reported_in < N ∧
        (homeA.reduction_reported_in + 1 < N →
          home1.reduction_reported_in = homeA.reduction_reported_in + 1) ∧
        (homeA.reduction_reported_in + 1 = N → home1.reduction_reported_in = 0)) ∧
    (home_handle Reducer BaseVal N home vals).1.reduction_reported_in =
      (home.reduction_reported_in + vals.length) % N ∧
    (home_handle_with (am_reduce_noinit Reducer N) home vals).1.reduction_reported_in =
      (home.reduction_reported_in + vals.length) % N ∧
    (∀ home1 msgs, home_handle_array Reducer BaseVal N homeA valsA = .ok (home1, msgs) →
      home1.reduction_reported_in = (homeA.reduction_reported_in + valsA.length) % N) := by
  have h1 := am_reduce_counter Reducer BaseVal N home val
  have h2 := am_reduce_noinit_counter Reducer N home val
  refine ⟨⟨?_, ?_, ?_⟩, ⟨?_, ?_, ?_⟩, ⟨?_, ?_⟩, ?_, ?_, ?_⟩
  · rw [h1]; split <;> omega
  · intro h; rw [h1, if_neg (by omega)]
  · intro h; rw [h1, if_pos h]
  · rw [h2]; split <;> omega
  · intro h; rw [h2, if_neg (by omega)]
  · intro h; rw [h2, if_pos h]
  · exact am_reduce_array_returns Reducer BaseVal N homeA valA
  · intro home1 msgs h
    obtain ⟨h3, _⟩ := am_reduce_array_counter Reducer BaseVal N homeA home1 valA msgs h
    refine ⟨?_, ?_, ?_⟩
    · rw [h3]; split <;> omega
    · intro h'; rw [h3, if_neg (by omega)]
    · intro h'; rw [h3, if_pos h']
  · rw [home_handle_eq_with]
    exact home_handle_with_counter (am_reduce Reducer BaseVal N)
      (fun s => s.reduction_reported_in) N (am_reduce_counter Reducer BaseVal N) vals home hc
  · exact home_handle_with_counter (am_reduce_noinit Reducer N)
      (fun s => s.reduction_reported_in) N (am_reduce_noinit_counter Reducer N) vals home hc
  · intro home1 msgs h
    exact home_handle_array_counter Reducer BaseVal N valsA homeA home1 msgs hcA h

theorem reduction_counter_cycles_witness :
    (am_reduce coll_add 0 4 ⟨3, 5, 0, true⟩ 1).1.reduction_reported_in = 0 ∧
      (home_handle coll_add 0 4 ⟨3, 5, 0, true⟩ [1, 2, 3, 4, 5, 6]).1.reduction_reported_in
        = (3 + 6) % 4 :=
  ⟨(reduction_counter_cycles coll_add 0 4 ⟨3, 5, 0, true⟩ 1 [1, 2, 3, 4, 5, 6]
      ⟨0, [], none, [], [], false⟩ [] [] (by decide) (by decide) (by decide)).1.2.2 rfl,
    (reduction_counter_cycles coll_add 0 4 ⟨3, 5, 0, true⟩ 1 [1, 2, 3, 4, 5, 6]
      ⟨0, [], none, [], [], false⟩ [] [] (by decide) (by decide) (by decide)).2.2.2.1⟩

/-- C14: in a round with `N` nodes that starts with the arrival counter at 0,
the home handler sends no wake message during the first `N-1` arrivals and every
caller stays suspended; during the `N`-th arrival it sends exactly `N` wake
messages, one to each node `0..N-1` in this order, all carrying the final
accumulator, and then every caller returns that value. -/
theorem reduction_round_is_barrier {T : Type} (Reducer : T → T → T) (BaseVal : T)
    (home : ReductionNode T) (others : List (ReductionNode T)) (pre : List T) (v : T)
    (hlen : pre.length + 1 = (home :: others).length)
    (h0 : home.reduction_reported_in = 0) :
    (∀ k, (home_handle Reducer BaseVal (home :: others).length (Grappa_allreduce_call home)
        (pre.take k)).2 = []) ∧
      (∀ k, allreduce_round Reducer BaseVal (home :: others) (pre.take k) =
        List.replicate (home :: others).length none) ∧
      (am_reduce Reducer BaseVal (home :: others).length
          (home_handle Reducer BaseVal (home :: others).length (Grappa_allreduce_call home)
            pre).1 v).2 =
        (List.range (home :: others).length).map
          (fun n => (n, (pre ++ [v]).foldl Reducer BaseVal)) ∧
      (am_reduce Reducer BaseVal (home :: others).length
          (home_handle Reducer BaseVal (home :: others).length (Grappa_allreduce_call home)
            pre).1 v).2.length = (home :: others).length ∧
      (am_reduce Reducer BaseVal (home :: others).length
          (home_handle Reducer BaseVal (home :: others).length (Grappa_allreduce_call home)
            pre).1 v).2.map Prod.fst = List.range (home :: others).length ∧
      allreduce_round Reducer BaseVal (home :: others) (pre ++ [v]) =
        List.replicate (home :: others).length (some ((pre ++ [v]).foldl Reducer BaseVal)) := by
  have hk : ∀ k, (pre.take k).length < (home :: others).length := by
    intro k
    have := List.length_take k pre
    omega
  obtain ⟨s1, _, s3⟩ := allreduce_round_spec Reducer BaseVal home others (pre ++ [v])
    (by rw [List.length_append, List.length_singleton]; exact hlen) h0
  have hlast : (am_reduce Reducer BaseVal (home :: others).length
      (home_handle Reducer BaseVal (home :: others).length (Grappa_allreduce_call home)
        pre).1 v).2 =
      (List.range (home :: others).length).map
        (fun n => (n, (pre ++ [v]).foldl Reducer BaseVal)) := by
    rw [← s1, home_handle_eq_with, home_handle_eq_with, home_handle_with_append,
      home_handle_with_singleton]
    have hpre := (allreduce_round_incomplete Reducer BaseVal home others pre (by omega) h0).1
    rw [home_handle_eq_with] at hpre
    simp only [hpre, List.nil_append]
  refine ⟨fun k => (allreduce_round_incomplete Reducer BaseVal home others _ (hk k) h0).1,
    fun k => (allreduce_round_incomplete Reducer BaseVal home others _ (hk k) h0).2.2,
    hlast, ?_, ?_, s3⟩
  · rw [hlast, List.length_map, List.length_range]
  · rw [hlast, List.map_map]
    exact List.map_id _

theorem reduction_round_is_barrier_witness :
    (∀ k, (home_handle coll_add 0 cluster4.length (Grappa_allreduce_call ⟨0, 0, 0, false⟩)
        (([0, 1, 2] : List Int).take k)).2 = []) ∧
      (∀ k, allreduce_round coll_add 0 cluster4 (([0, 1, 2] : List Int).take k) =
        List.replicate cluster4.length none) ∧
      (am_reduce coll_add 0 cluster4.length
          (home_handle coll_add 0 cluster4.length (Grappa_allreduce_call ⟨0, 0, 0, false⟩)
            [0, 1, 2]).1 3).2 =
        (List.range cluster4.length).map
          (fun n => (n, (([0, 1, 2] : List Int) ++ [3]).foldl coll_add 0)) ∧
      (am_reduce coll_add 0 cluster4.length
          (home_handle coll_add 0 cluster4.length (Grappa_allreduce_call ⟨0, 0, 0, false⟩)
            [0, 1, 2]).1 3).2.length = cluster4.length ∧
      (am_reduce coll_add 0 cluster4.length
          (home_handle coll_add 0 cluster4.length (Grappa_allreduce_call ⟨0, 0, 0, false⟩)
            [0, 1, 2]).1 3).2.map Prod.fst = List.range cluster4.length ∧
      allreduce_round coll_add 0 cluster4 (([0, 1, 2] : List Int) ++ [3]) =
        List.replicate cluster4.length
          (some ((([0, 1, 2] : List Int) ++ [3]).foldl coll_add 0)) :=
  reduction_round_is_barrier coll_add 0 ⟨0, 0, 0, false⟩
    [⟨0, 0, 0, false⟩, ⟨0, 0, 0, false⟩, ⟨0, 0, 0, false⟩] [0, 1, 2] 3 rfl rfl

section
set_option maxRecDepth 100000

/-- C15: with two nodes, `int64_t` elements (at most 256 per message), 257
elements and a separate result buffer, the vector `Grappa_allreduce` does not
leave the element-wise sums `1, 2, ..., 257` in the result buffer: the second
message's sum is written to the start of the buffer again, so that element 0 is
257 and element 256 is never written.  With `result == NULL` the sums are
written over `array` as described, and so they are in the separate buffer when
only 256 elements are reduced. -/
theorem vector_allreduce_separate_result :
    (Grappa_allreduce_array 8 coll_add 0 (fun _ => [1, 0]) [vector_nodeA, vector_nodeB] 257
        (some ⟨.result, 0⟩)).map
        (fun c => c.map (fun n => (n.result.take 2, n.result.drop 255))) =
        .ok [([257, 2], [256, -1]), ([257, 2], [256, -1])] ∧
      (Grappa_allreduce_array 8 coll_add 0 (fun _ => [1, 0]) [vector_nodeA, vector_nodeB] 257
        none).map
        (fun c => c.map (fun n => (n.array.take 2, n.array.drop 255))) =
        .ok [([1, 2], [256, 257]), ([1, 2], [256, 257])] ∧
      (Grappa_allreduce_array 8 coll_add 0 (fun _ => [1, 0]) [vector_nodeA, vector_nodeB] 256
        (some ⟨.result, 0⟩)).map
        (fun c => c.map (fun n => (n.result.take 2, n.result.drop 255))) =
        .ok [([1, 2], [256, -1]), ([1, 2], [256, -1])] := by
  decide

end

/-! ## Properties of the flat combiner -/

theorem FlatCombiner.two_flushes_reachable :
    FlatCombiner.Reachable 2 (fun _ => True) FlatCombiner.two_flushes :=
  FlatCombiner.Reachable.step
    (FlatCombiner.Reachable.step FlatCombiner.Reachable.init
      (FlatCombiner.Step.combine 0 .BLOCKED false (by decide) rfl (fun _ _ => trivial)))
    (FlatCombiner.Step.combine 1 .BLOCKED true (by decide) rfl (fun _ _ => trivial))

theorem FlatCombiner.handed_over_reachable (allowFull : FlatCombiner → Prop) :
    FlatCombiner.Reachable 2 allowFull FlatCombiner.handed_over :=
  FlatCombiner.Reachable.step
    (FlatCombiner.Reachable.step
      (FlatCombiner.Reachable.step FlatCombiner.Reachable.init
        (FlatCombiner.Step.combine 0 .BLOCKED false (by decide) rfl
          (fun _ hf => absurd hf (by decide))))
      (FlatCombiner.Step.combine 1 .BLOCKED false (by decide) rfl
        (fun _ hf => absurd hf (by decide))))
    (FlatCombiner.Step.sync_return 0 0 (by decide) rfl)

/-- C16: for every state of the delegator and every contribution that the
payload reports `SATISFIED`, `combine` returns at once: the state is unchanged,
so that the caller has not suspended, nobody was woken, `sync()` was not called,
and `current`, `inflight` and `freelist` are what they were. -/
theorem FlatCombiner.combine_satisfied (fc : FlatCombiner) (w : Nat) (full : Bool) :
    fc.combine w .SATISFIED full = fc ∧
      (fc.combine w .SATISFIED full).current = fc.current ∧
      (fc.combine w .SATISFIED full).inflight = fc.inflight ∧
      (fc.combine w .SATISFIED full).freelist = fc.freelist ∧
      (fc.combine w .SATISFIED full).workers = fc.workers ∧
      (fc.combine w .SATISFIED full).trace = fc.trace :=
  ⟨rfl, rfl, rfl, rfl, rfl, rfl⟩

/-- C17 fails: after worker 0 has started a flush and worker 1 has then filled
the payload, `inflight` is 2 and the flushes of two slots are in progress at the
same time. -/
theorem FlatCombiner.two_flushes_in_progress :
    FlatCombiner.Reachable 2 (fun _ => True) FlatCombiner.two_flushes ∧
      FlatCombiner.two_flushes.inflight = 2 ∧
      FlatCombiner.two_flushes.workers 0 = .syncing 0 ∧
      FlatCombiner.two_flushes.workers 1 = .syncing 1 :=
  ⟨FlatCombiner.two_flushes_reachable, by decide, by decide, by decide⟩

/-- C17, amended: in every state reachable by the workers `0..W-1` under
cooperative scheduling, when the payload reports full only while nothing is in
flight, `inflight` is 0 or 1 and at most one flush is in progress. -/
theorem FlatCombiner.inflight_at_most_one (W : Nat) (fc : FlatCombiner)
    (hW : W < 18446744073709551616)
    (hr : FlatCombiner.Reachable W (fun fc => fc.inflight = 0) fc) :
    (fc.inflight = 0 ∨ fc.inflight = 1) ∧
      ∀ w1 s1 w2 s2, fc.workers w1 = .syncing s1 → fc.workers w2 = .syncing s2 →
        w1 = w2 ∧ s1 = s2 := by
  obtain ⟨free, retired, h, hle⟩ := FlatCombiner.Reachable.inv_single hW hr
  refine ⟨by rw [h.count]; omega, ?_⟩
  intro w1 s1 w2 s2 h1 h2
  have e1 := h.syncing w1 s1 h1
  have e2 := h.syncing w2 s2 h2
  have m1 := h.toInvCore.retired_of_sender e1
  have m2 := h.toInvCore.retired_of_sender e2
  have hs : s1 = s2 := by
    match retired, hle, m1, m2 with
    | [a], _, m1, m2 =>
      rw [List.mem_singleton] at m1 m2
      rw [m1, m2]
  subst hs
  rw [e1] at e2
  exact ⟨Option.some.inj e2, rfl⟩

theorem FlatCombiner.inflight_at_most_one_witness :
    (FlatCombiner.handed_over.inflight = 0 ∨ FlatCombiner.handed_over.inflight = 1) ∧
      ∀ w1 s1 w2 s2, FlatCombiner.handed_over.workers w1 = .syncing s1 →
        FlatCombiner.handed_over.workers w2 = .syncing s2 → w1 = w2 ∧ s1 = s2 :=
  FlatCombiner.inflight_at_most_one 2 FlatCombiner.handed_over (by decide)
    (FlatCombiner.handed_over_reachable _)

/-- C18: for every state of the delegator and every contribution that the
payload reports `MATCHED`, `combine` calls `signal` once, on the wait queue of
the slot that was active when the contribution was applied, and returns: there
is no `wait`, no `sync()`, the only worker whose state changes is the waiter
that the signal wakes, and `current`, `inflight` and `freelist` are what they
were. -/
theorem FlatCombiner.combine_matched (fc : FlatCombiner) (w : Nat) (full : Bool) :
    fc.combine w .MATCHED full = fc.signal fc.current ∧
      (fc.combine w .MATCHED full).trace = fc.trace ++ [.signal fc.current] ∧
      (fc.combine w .MATCHED full).current = fc.current ∧
      (fc.combine w .MATCHED full).inflight = fc.inflight ∧
      (fc.combine w .MATCHED full).freelist = fc.freelist ∧
      (fc.combine w .MATCHED full).nflushers = fc.nflushers ∧
      (∀ o, (fc.combine w .MATCHED full).workers o =
        if fc.get_waiters fc.current = some o then (fc.workers o).wake else fc.workers o) ∧
      (fc.workers w = .idle → (fc.combine w .MATCHED full).workers w = .idle) := by
  have key : fc.combine w .MATCHED full = fc.signal fc.current := rfl
  rw [key]
  unfold FlatCombiner.signal FlatCombiner.get_waiters
  cases hcv : (fc.heap fc.current).cv with
  | nil =>
    refine ⟨rfl, rfl, rfl, rfl, rfl, rfl, ?_, fun h => h⟩
    intro o
    simp
  | cons w1 ws =>
    refine ⟨rfl, rfl, rfl, rfl, rfl, rfl, ?_, ?_⟩
    · intro o
      simp only [FlatCombiner.setWorker, FlatCombiner.store, List.head?_cons, Option.some.injEq]
      by_cases ho : o = w1
      · simp [ho]
      · simp [ho, Ne.symm ho]
    · intro hidle
      simp only [FlatCombiner.setWorker, FlatCombiner.store]
      split
      · rename_i e
        rw [← e, hidle]
        rfl
      · exact hidle

/-- C19: in every state reachable by the workers `0..W-1` under cooperative
scheduling, whenever a worker is suspended on the wait queue of a slot,
`inflight` is at least 1, and every slot that is neither the active one nor on
the free list has a `sender` whose flush of the slot is in progress or who has
been woken to run it. -/
theorem FlatCombiner.no_waiter_without_flusher (W : Nat) (allowFull : FlatCombiner → Prop)
    (fc : FlatCombiner) (hW : W < 18446744073709551616)
    (hr : FlatCombiner.Reachable W allowFull fc) :
    (∀ w s, fc.workers w = .waiting s → 1 ≤ fc.inflight) ∧
      (∀ s w, w ∈ (fc.heap s).cv → 1 ≤ fc.inflight) ∧
      (∀ s w, w ∈ (fc.heap s).cv ↔ fc.workers w = .waiting s) ∧
      ∃ free, FreeChain fc.heap fc.freelist free ∧
        ∀ i, i < fc.nflushers → i ≠ fc.current → i ∉ free →
          ∃ w, w < W ∧ (fc.heap i).sender = some w ∧
            (fc.workers w = .syncing i ∨ fc.workers w = .woken i) := by
  obtain ⟨free, retired, h⟩ := FlatCombiner.Reachable.invariant hW hr
  have hcv : ∀ s w, w ∈ (fc.heap s).cv → 1 ≤ fc.inflight := by
    intro s w hm
    have hne : retired ≠ [] := by
      by_cases hs : s = fc.current
      · subst hs
        exact h.cur_waiters (List.ne_nil_of_mem hm)
      · by_cases hsr : s ∈ retired
        · exact List.ne_nil_of_mem hsr
        · rw [h.cv_none s hs hsr] at hm
          cases hm
    rw [h.count]
    exact List.length_pos.mpr hne
  refine ⟨fun w s hw => hcv s w (h.waiting_cv w s hw), hcv,
    fun s w => ⟨h.cv_waiting s w, h.waiting_cv w s⟩, free, h.chain, ?_⟩
  intro i hi hic hif
  rcases (h.valid i).mp hi with e | e | e
  · exact absurd e hic
  · exact absurd e hif
  · exact h.owner i e

theorem FlatCombiner.no_waiter_without_flusher_witness :
    (∀ w s, FlatCombiner.handed_over.workers w = .waiting s →
        1 ≤ FlatCombiner.handed_over.inflight) ∧
      (∀ s w, w ∈ (FlatCombiner.handed_over.heap s).cv →
        1 ≤ FlatCombiner.handed_over.inflight) ∧
      (∀ s w, w ∈ (FlatCombiner.handed_over.heap s).cv ↔
        FlatCombiner.handed_over.workers w = .waiting s) ∧
      ∃ free, FreeChain FlatCombiner.handed_over.heap FlatCombiner.handed_over.freelist free ∧
        ∀ i, i < FlatCombiner.handed_over.nflushers → i ≠ FlatCombiner.handed_over.current →
          i ∉ free →
          ∃ w, w < 2 ∧ (FlatCombiner.handed_over.heap i).sender = some w ∧
            (FlatCombiner.handed_over.workers w = .syncing i ∨
              FlatCombiner.handed_over.workers w = .woken i) :=
  FlatCombiner.no_waiter_without_flusher 2 (fun _ => True) FlatCombiner.handed_over (by decide)
    (FlatCombiner.handed_over_reachable _)

/-- C20: in every state reachable by the workers `0..W-1` under cooperative
scheduling, `current` points to a `Flusher` that has been allocated, that has no
`sender`, that is not on the free list and whose flush is not in progress, and
no `Flusher` is on the free list more than once. -/
theorem FlatCombiner.one_active_slot (W : Nat) (allowFull : FlatCombiner → Prop)
    (fc : FlatCombiner) (hW : W < 18446744073709551616)
    (hr : FlatCombiner.Reachable W allowFull fc) :
    fc.current < fc.nflushers ∧ (fc.heap fc.current).sender = none ∧
      (∀ w, fc.workers w ≠ .syncing fc.current) ∧
      ∃ free, FreeChain fc.heap fc.freelist free ∧ free.Nodup ∧ fc.current ∉ free ∧
        ∀ i ∈ free, i < fc.nflushers := by
  obtain ⟨free, retired, h⟩ := FlatCombiner.Reachable.invariant hW hr
  have hcs := h.sender_none _ h.toInvCore.not_retired_of_current
  have hnd := h.nodup
  rw [List.nodup_cons, List.nodup_append] at hnd
  refine ⟨(h.valid _).mpr (Or.inl rfl), hcs, ?_, free, h.chain, hnd.2.1,
    h.toInvCore.not_free_of_current, fun i hi => (h.valid i).mpr (Or.inr (Or.inl hi))⟩
  intro w hw
  have := h.syncing w _ hw
  rw [hcs] at this
  cases this

theorem FlatCombiner.one_active_slot_witness :
    FlatCombiner.handed_over.current < FlatCombiner.handed_over.nflushers ∧
      (FlatCombiner.handed_over.heap FlatCombiner.handed_over.current).sender = none ∧
      (∀ w, FlatCombiner.handed_over.workers w ≠ .syncing FlatCombiner.handed_over.current) ∧
      ∃ free, FreeChain FlatCombiner.handed_over.heap FlatCombiner.handed_over.freelist free ∧
        free.Nodup ∧ FlatCombiner.handed_over.current ∉ free ∧
        ∀ i ∈ free, i < FlatCombiner.handed_over.nflushers :=
  FlatCombiner.one_active_slot 2 (fun _ => True) FlatCombiner.handed_over (by decide)
    (FlatCombiner.handed_over_reachable _)
/-! ## Further properties of the allocator -/

/-- C24: for every `1 ≤ v ≤ 2^62`, `next_largest_power_of_2( v )`, computed on
`int64_t` in two's complement, returns the smallest power of two that is at
least `v`: the result is `2^k` for some `k ≤ 62`, it is at least `v`, every
power of two that is at least `v` is at least the result, half the result is
less than `v`, and the function is the identity on powers of two. -/
theorem Allocator.next_largest_power_of_2_smallest (v : Int) (h1 : 1 ≤ v)
    (h2 : v ≤ 4611686018427387904) :
    (∃ k : Nat, k ≤ 62 ∧ Allocator.next_largest_power_of_2 v = ((2 ^ k : Nat) : Int)) ∧
      v ≤ Allocator.next_largest_power_of_2 v ∧
      (∀ j : Nat, v ≤ ((2 ^ j : Nat) : Int) →
        Allocator.next_largest_power_of_2 v ≤ ((2 ^ j : Nat) : Int)) ∧
      Allocator.next_largest_power_of_2 v / 2 < v ∧
      ((∃ j : Nat, v = ((2 ^ j : Nat) : Int)) → Allocator.next_largest_power_of_2 v = v) := by
  obtain ⟨k, hk, hn, hle, hlt⟩ := next_largest_power_of_2_pos v h1 h2
  have hmin : ∀ j : Nat, v ≤ ((2 ^ j : Nat) : Int) →
      Allocator.next_largest_power_of_2 v ≤ ((2 ^ j : Nat) : Int) := by
    intro j hj
    rw [hn]
    have h3 : ((2 ^ k : Nat) : Int) < ((2 ^ (j + 1) : Nat) : Int) := by
      have : ((2 ^ (j + 1) : Nat) : Int) = 2 * ((2 ^ j : Nat) : Int) := by
        push_cast
        ring
      omega
    have h4 : 2 ^ k < 2 ^ (j + 1) := by exact_mod_cast h3
    have h5 : k < j + 1 := (Nat.pow_lt_pow_iff_right (by omega)).mp h4
    have h6 : 2 ^ k ≤ 2 ^ j := Nat.pow_le_pow_right (by omega) (by omega)
    exact_mod_cast h6
  refine ⟨⟨k, hk, hn⟩, by rw [hn]; exact hle, hmin, by rw [hn]; omega, ?_⟩
  rintro ⟨j, hj⟩
  have h7 := hmin j (by rw [hj])
  rw [hn] at h7 ⊢
  omega

theorem Allocator.next_largest_power_of_2_smallest_witness :
    (∃ k : Nat, k ≤ 62 ∧ Allocator.next_largest_power_of_2 100 = ((2 ^ k : Nat) : Int)) ∧
      (100 : Int) ≤ Allocator.next_largest_power_of_2 100 ∧
      (∀ j : Nat, (100 : Int) ≤ ((2 ^ j : Nat) : Int) →
        Allocator.next_largest_power_of_2 100 ≤ ((2 ^ j : Nat) : Int)) ∧
      Allocator.next_largest_power_of_2 100 / 2 < 100 ∧
      ((∃ j : Nat, (100 : Int) = ((2 ^ j : Nat) : Int)) →
        Allocator.next_largest_power_of_2 100 = 100) :=
  Allocator.next_largest_power_of_2_smallest 100 (by decide) (by decide)

/-- C28: `Allocator( 0, 3 )` returns a state in which the chunk tracked at offset
1 has size 2, so its offset is not a multiple of its size; `1 XOR 2` is 3, the
end of the arena, where no chunk is tracked.  Sizes are powers of two here. -/
theorem Allocator.ctor_3_misaligned :
    ∃ st, Allocator.ctor 0 3 = .ok st ∧ Allocator.Reachable 0 3 st ∧
      ChunkMap.find st.chunks_ 1 = some ⟨false, 1, 2⟩ ∧ ¬ ((2 : Int) ∣ 1) ∧ ¬ st.Aligned ∧
      wrap64 (Int.xor 1 2) = 3 ∧ ChunkMap.find st.chunks_ 3 = none ∧
      (∀ c ∈ st.chunks_, IsPow2 c.size) := by
  refine ⟨⟨0, 3, [⟨false, 0, 1⟩, ⟨false, 1, 2⟩], [(1, [0]), (2, [1])]⟩, by decide,
    Allocator.Reachable.ctor (by decide), by decide, by decide, ?_, by decide, by decide, ?_⟩
  · intro h
    have h1 := h 1 ⟨false, 1, 2⟩ (by decide)
    revert h1
    decide
  · intro c hc
    simp only [List.mem_cons, List.mem_singleton, List.not_mem_nil, or_false] at hc
    rcases hc with rfl | rfl
    · exact ⟨0, rfl⟩
    · exact ⟨1, rfl⟩

/-- C29: in every state reachable from `Allocator( base, n )` with `n > 0` by
`malloc` calls that return and `free` calls that pass their assertions, the free
lists hold exactly the tracked chunks whose `in_use` flag is false: a chunk is
in the list of an entry of `free_lists_` if and only if it is tracked, free and
of the size that is the entry's key; no list holds a chunk twice and no chunk is
in two lists; no entry of `free_lists_` has an empty list, so the entry found by
`lower_bound` in `malloc` has a front element. -/
theorem Allocator.free_lists_consistent (base n : Int) (st : Allocator) (h0 : 0 < n)
    (hb : n < 9223372036854775808) (hr : Allocator.Reachable base n st) :
    (∀ a c, ChunkMap.find st.chunks_ a = some c → c.in_use = false →
        ∃ e ∈ st.free_lists_, e.1 = c.size ∧ a ∈ e.2) ∧
      (∀ e ∈ st.free_lists_, ∀ a ∈ e.2,
        ∃ c, ChunkMap.find st.chunks_ a = some c ∧ c.size = e.1 ∧ c.in_use = false) ∧
      (∀ e ∈ st.free_lists_, e.2.Nodup) ∧
      (∀ e1 ∈ st.free_lists_, ∀ e2 ∈ st.free_lists_, ∀ a, a ∈ e1.2 → a ∈ e2.2 → e1 = e2) ∧
      (∀ e ∈ st.free_lists_, e.2 ≠ []) ∧
      (∀ x flit, FreeListMap.lower_bound st.free_lists_ x = some flit →
        ∃ cmit0, flit.2.head? = some cmit0) := by
  obtain ⟨hwf, _, _⟩ := Allocator.Reachable.inv h0 hb hr
  have hent : ∀ e ∈ st.free_lists_, ∀ a ∈ e.2,
      ∃ c, ChunkMap.find st.chunks_ a = some c ∧ c.size = e.1 ∧ c.in_use = false := by
    intro e he a ha
    apply (hwf.fl.iff e.1 a).mp
    rw [FreeListMap.get_of_mem hwf.fl.sorted he]
    exact ha
  refine ⟨?_, hent, ?_, ?_, hwf.fl.nonempty, ?_⟩
  · intro a c hf hu
    have hmem := hwf.fl.mem_of_free hf hu
    exact ⟨_, FreeListMap.mem_get hmem, rfl, hmem⟩
  · intro e he
    have := hwf.fl.nodup e.1
    rw [FreeListMap.get_of_mem hwf.fl.sorted he] at this
    exact this
  · intro e1 he1 e2 he2 a ha1 ha2
    obtain ⟨c1, hf1, hs1, _⟩ := hent e1 he1 a ha1
    obtain ⟨c2, hf2, hs2, _⟩ := hent e2 he2 a ha2
    rw [hf1] at hf2
    cases hf2
    have hk : e1.1 = e2.1 := by rw [← hs1, ← hs2]
    have g1 := FreeListMap.get_of_mem hwf.fl.sorted he1
    have g2 := FreeListMap.get_of_mem hwf.fl.sorted he2
    rw [hk] at g1
    exact Prod.ext hk (by rw [← g1, ← g2])
  · intro x flit hlb
    obtain ⟨cmit0, rest, _, hl, _⟩ := hwf.lower_bound_entry hlb
    exact ⟨cmit0, by rw [hl]; rfl⟩

theorem Allocator.free_lists_consistent_witness :
    (∀ a c, ChunkMap.find Allocator.fresh1024_malloc100.chunks_ a = some c → c.in_use = false →
        ∃ e ∈ Allocator.fresh1024_malloc100.free_lists_, e.1 = c.size ∧ a ∈ e.2) ∧
      (∀ e ∈ Allocator.fresh1024_malloc100.free_lists_, ∀ a ∈ e.2,
        ∃ c, ChunkMap.find Allocator.fresh1024_malloc100.chunks_ a = some c ∧ c.size = e.1 ∧
          c.in_use = false) ∧
      (∀ e ∈ Allocator.fresh1024_malloc100.free_lists_, e.2.Nodup) ∧
      (∀ e1 ∈ Allocator.fresh1024_malloc100.free_lists_,
        ∀ e2 ∈ Allocator.fresh1024_malloc100.free_lists_, ∀ a, a ∈ e1.2 → a ∈ e2.2 → e1 = e2) ∧
      (∀ e ∈ Allocator.fresh1024_malloc100.free_lists_, e.2 ≠ []) ∧
      (∀ x flit, FreeListMap.lower_bound Allocator.fresh1024_malloc100.free_lists_ x = some flit →
        ∃ cmit0, flit.2.head? = some cmit0) :=
  Allocator.free_lists_consistent 0 1024 Allocator.fresh1024_malloc100 (by decide) (by decide)
    fresh1024_reachable

/-- C30: on the fresh arena of 1024 bytes `malloc( 0 )` does not throw
`Allocator::Exception`, and `assert( inserted )` fails in `add_to_chunk_map`:
the allocation size is 0, so the loop keeps halving.  On the arena of one byte
the first iteration shows both failures: the chunk at offset 0 gets size 0, and
the insertion of the new chunk at offset `0 + 0`, which is tracked, fails. -/
theorem Allocator.malloc_zero_request :
    Allocator.ctor 0 1024 = .ok Allocator.fresh1024 ∧
      Allocator.next_largest_power_of_2 (wrap64 ((0 : Nat) : Int)) = 0 ∧
      Allocator.fresh1024.malloc 0 = .error .assertion ∧
      Allocator.fresh1024.malloc 0 ≠ .error .exception ∧
      Allocator.ctor 0 1 = .ok Allocator.unit_arena ∧
      Allocator.unit_arena.remove_from_free_list 0 = .ok ⟨0, 1, [⟨true, 0, 1⟩], []⟩ ∧
      toSizeT (Int.tdiv 1 2) = 0 ∧
      Allocator.add_to_free_list ⟨0, 1, [⟨true, 0, 0⟩], []⟩ 0
        = .ok Allocator.unit_arena_halved ∧
      ChunkMap.find Allocator.unit_arena_halved.chunks_ 0 = some ⟨false, 0, 0⟩ ∧
      Allocator.unit_arena_halved.add_to_chunk_map
          (AllocatorChunk.new (wrap64 (0 + ((0 : Nat) : Int))) (toSizeT (Int.tdiv 1 2)))
        = .error .assertion ∧
      Allocator.unit_arena.malloc_loop_body 0 1 = .error .assertion ∧
      Allocator.unit_arena.malloc 0 = .error .assertion := by
  decide
/-! ## The splitting loop of `malloc`, chunk by chunk -/

theorem double_le_mul_two_pow (h k : Nat) : h + h ≤ h * 2 ^ (k + 1) := by
  have h1 : 1 ≤ 2 ^ k := Nat.one_le_two_pow
  have h2 : h * 1 ≤ h * 2 ^ k := Nat.mul_le_mul_left h h1
  rw [pow_succ, ← Nat.mul_assoc]
  omega

theorem Allocator.length_split {n : Int} {st : Allocator} {cmit : Int} {c : AllocatorChunk}
    {h : Nat} (hwf : st.WF n) (hf : ChunkMap.find st.chunks_ cmit = some c)
    (hsz : c.size = h + h) (hh : 0 < h) :
    (st.split cmit c.size h).chunks_.length = st.chunks_.length + 1 := by
  obtain ⟨hca, hc0, hcn, hcpos, hcp2⟩ := hwf.find_bounds hf
  have hszi : (c.size : Int) = (h : Int) + h := by rw [hsz]; push_cast; rfl
  have hnone : ChunkMap.find st.chunks_ (cmit + h) = none :=
    tiles_interior hwf.tiles (ChunkMap.find_some hf).1 (by omega) (by omega)
  have hflag : (ChunkMap.insert (((st.removed cmit c.size).resized cmit h).added cmit h).chunks_
      (AllocatorChunk.new (cmit + h) h)).2 = true := by
    apply ChunkMap.insert_flag
    show ChunkMap.find _ (cmit + h) = none
    have hne : cmit + (h : Int) ≠ cmit := by omega
    rw [Allocator.find_added, if_neg hne, Allocator.find_resized, if_neg hne,
      Allocator.find_removed, if_neg hne]
    exact hnone
  unfold Allocator.split
  show (ChunkMap.update (ChunkMap.insert
    (((st.removed cmit c.size).resized cmit h).added cmit h).chunks_
    (AllocatorChunk.new (cmit + h) h)).1 _ _).length = _
  rw [ChunkMap.length_update, ChunkMap.length_insert hflag]
  show (ChunkMap.update (ChunkMap.update (ChunkMap.update st.chunks_ _ _) _ _) _ _).length + 1 = _
  rw [ChunkMap.length_update, ChunkMap.length_update, ChunkMap.length_update]

theorem Allocator.SplitState.at_donor {st0 : Allocator} {d : Int} {c0 : AllocatorChunk}
    (hf : ChunkMap.find st0.chunks_ d = some c0) (hu : c0.in_use = false) :
    Allocator.SplitState st0 d c0.size st0 d := by
  refine ⟨c0.size, 0, by simp, by omega, ?_, ?_, ?_, rfl⟩
  · rw [hf]
    have := (ChunkMap.find_some hf).2
    obtain ⟨u, ad, sz⟩ := c0
    simp only at hu this
    rw [hu, this]
  · intro k hk
    omega
  · intro a _ _
    rfl

theorem Allocator.SplitState.halve {n : Int} {st0 st : Allocator} {d : Int} {S : Nat}
    {cmit : Int} {c : AllocatorChunk} {h : Nat} (hwf : st.WF n)
    (hf : ChunkMap.find st.chunks_ cmit = some c) (hu : c.in_use = false)
    (hsz : c.size = h + h) (hh : 0 < h) (hs : Allocator.SplitState st0 d S st cmit) :
    Allocator.SplitState st0 d S (st.split cmit c.size h) (cmit + h) := by
  obtain ⟨h', j, hS, hcm, hfc, hpieces, hrest, hlen⟩ := hs
  rw [hf] at hfc
  have hh' : h' = h + h := by
    have := congrArg AllocatorChunk.size (Option.some.inj hfc)
    simp only at this
    omega
  subst hh'
  obtain ⟨_, hfind, _, _, _⟩ := Allocator.split_spec hwf hf hu hsz hh
  have hcast : (((h + h : Nat)) : Int) = (h : Int) + h := by push_cast; rfl
  have hmul : ∀ k, (h + h) * 2 ^ k = h * 2 ^ (k + 1) := by
    intro k
    rw [pow_succ]
    ring
  have hbig : ∀ k, (h + h) + (h + h) ≤ (h + h) * 2 ^ (k + 1) :=
    fun k => double_le_mul_two_pow (h + h) k
  refine ⟨h, j + 1, by rw [hS, hmul], by omega, ?_, ?_, ?_, ?_⟩
  · rw [hfind, if_pos rfl]
  · intro k hk
    rw [hfind]
    cases k with
    | zero =>
      have e1 : d + (S : Int) - ((h * 2 ^ (0 + 1) : Nat) : Int) = cmit := by
        have : h * 2 ^ (0 + 1) = h + h := by ring
        rw [this]
        omega
      rw [e1, if_neg (by omega), if_pos rfl]
      simp
    | succ k =>
      have hk' : k < j := by omega
      have hp := hpieces k hk'
      have e1 : h * 2 ^ (k + 1 + 1) = (h + h) * 2 ^ (k + 1) := (hmul (k + 1)).symm
      have e2 : h * 2 ^ (k + 1) = (h + h) * 2 ^ k := (hmul k).symm
      have hb := hbig k
      rw [e1, e2]
      have hbi : (((h + h) + (h + h) : Nat) : Int) ≤ (((h + h) * 2 ^ (k + 1) : Nat) : Int) := by
        exact_mod_cast hb
      rw [if_neg (by omega), if_neg (by omega)]
      exact hp
  · intro a ha hne
    rw [hfind, if_neg ha]
    have hac : a ≠ cmit := by
      have := hne 0 (by omega)
      have e : h * 2 ^ (0 + 1) = h + h := by ring
      rw [e] at this
      omega
    rw [if_neg hac]
    apply hrest a hac
    intro k hk
    have := hne (k + 1) (by omega)
    rw [← hmul (k + 1)] at this
    exact this
  · rw [Allocator.length_split hwf hf hsz hh, hlen]
    omega

theorem tiles_length {m : ChunkMap} : ∀ {lo hi : Int}, Tiles lo m hi →
    (∀ c ∈ m, 0 < c.size) → lo + (m.length : Int) ≤ hi := by
  induction m with
  | nil =>
    intro lo hi ht _
    have : lo = hi := ht
    simp only [List.length_nil, Nat.cast_zero]
    omega
  | cons x xs ih =>
    intro lo hi ht hpos
    obtain ⟨t1, t2⟩ := ht
    have h1 := ih t2 (fun c hc => hpos c (List.mem_cons_of_mem _ hc))
    have h2 := hpos x (List.mem_cons_self _ _)
    simp only [List.length_cons, Nat.cast_add, Nat.cast_one]
    omega

theorem Allocator.WF.num_chunks_eq {n : Int} {st : Allocator} (hwf : st.WF n) :
    st.num_chunks = (st.chunks_.length : Int) := by
  have h1 := tiles_length hwf.tiles hwf.sizes_pos
  have h2 := hwf.bound
  unfold Allocator.num_chunks
  exact wrap64_of_range (by omega) (by omega)

theorem offset_below (d S h X : Int) (hpos : 0 < h) (hX : h + h ≤ X) :
    d + S - X ≠ d + S - h := by
  omega

/-- What a returning `malloc` has done to the chunk map, chunk by chunk. -/
theorem Allocator.malloc_split_shape {n : Int} {st st' : Allocator} (hwf : st.WF n) {s : Nat}
    {a : Int} (h : st.malloc s = .ok (st', a)) :
    ∃ (A S m : Nat) (d : Int) (rest : FreeList),
      Allocator.next_largest_power_of_2 (wrap64 s) = (A : Int) ∧ IsPow2 A ∧
      FreeListMap.get st.free_lists_ S = d :: rest ∧
      ChunkMap.find st.chunks_ d = some ⟨false, d, S⟩ ∧ A ≤ S ∧
      (∀ x c, ChunkMap.find st.chunks_ x = some c → c.in_use = false → A ≤ c.size →
        S ≤ c.size) ∧
      S = A * 2 ^ m ∧ st'.chunks_.length = st.chunks_.length + m ∧
      a = wrap64 (d + (S : Int) - (A : Int) + st.base_) ∧ st'.WF n ∧
      ChunkMap.find st'.chunks_ (d + (S : Int) - (A : Int))
        = some ⟨true, d + (S : Int) - (A : Int), A⟩ ∧
      (∀ k, k < m → ChunkMap.find st'.chunks_ (d + (S : Int) - ((A * 2 ^ (k + 1) : Nat) : Int))
        = some ⟨false, d + (S : Int) - ((A * 2 ^ (k + 1) : Nat) : Int), A * 2 ^ k⟩) ∧
      (∀ x, x ≠ d + (S : Int) - (A : Int) →
        (∀ k, k < m → x ≠ d + (S : Int) - ((A * 2 ^ (k + 1) : Nat) : Int)) →
        ChunkMap.find st'.chunks_ x = ChunkMap.find st.chunks_ x) := by
  obtain ⟨A, st1, cmit, c, hA, hn, _, _, _, hst', ha, hwf1, hf1, hu1, hsz, hP, hb1, hwf'⟩ :=
    Allocator.malloc_inv hwf h (fun A st1 cmit => Allocator.SplitFrom st A st1 cmit)
      (fun A st1 cmit c h hw hf hu hsz _ hP => by
        obtain ⟨d, rest, c0, g1, g2, g3, g4, g5, g6⟩ := hP
        have hh : 0 < h := by
          have := (hw.find_bounds hf).2.2.2.1
          omega
        exact ⟨d, rest, c0, g1, g2, g3, g4, g5, g6.halve hw hf hu hsz hh⟩)
      (fun A cmit0 rest c0 _ hg hf hu hle hmin =>
        ⟨cmit0, rest, c0, hg, hf, hu, hle, hmin, Allocator.SplitState.at_donor hf hu⟩)
  obtain ⟨d, rest, c0, g1, g2, g3, g4, g5, h', m, hS, hcm, hfc, hpieces, hrest, hlen⟩ := hP
  rw [hf1] at hfc
  have hh' : h' = A := by
    have := congrArg AllocatorChunk.size (Option.some.inj hfc)
    simp only at this
    omega
  subst hh'
  obtain ⟨_, hfind, _, _, _⟩ := Allocator.malloc_finish_spec hwf1 hf1 hu1
  rw [hsz] at hfind
  have hd := (ChunkMap.find_some g2).2
  have hc0 : c0 = ⟨false, d, c0.size⟩ := by
    obtain ⟨u, ad, sz⟩ := c0
    simp only at g3 hd
    rw [g3, hd]
  have hbig : ∀ k, h' + h' ≤ h' * 2 ^ (k + 1) := fun k => double_le_mul_two_pow h' k
  have hApos : 0 < h' := hA.size_pos
  refine ⟨h', c0.size, m, d, rest, hn, hA, g1, by rw [g2]; exact congrArg some hc0, g4, g5, hS, ?_,
    by rw [ha, hcm], hwf', ?_, ?_, ?_⟩
  · rw [hst']
    show (ChunkMap.update st1.chunks_ _ _).length = _
    rw [ChunkMap.length_update, hlen]
  · rw [hst', hfind, ← hcm, if_pos rfl]
  · intro k hk
    have hbi : (h' : Int) + (h' : Int) ≤ ((h' * 2 ^ (k + 1) : Nat) : Int) := by
      exact_mod_cast hbig k
    have hApi : (0 : Int) < (h' : Int) := by exact_mod_cast hApos
    have hne : d + (c0.size : Int) - ((h' * 2 ^ (k + 1) : Nat) : Int) ≠ cmit := by
      rw [hcm]
      exact offset_below _ _ _ _ hApi hbi
    rw [hst', hfind, if_neg hne]
    exact hpieces k hk
  · intro x hx hne
    rw [hst', hfind, if_neg (by rw [hcm]; exact hx)]
    exact hrest x (by rw [hcm]; exact hx) hne

theorem offset_outside (d S X x : Int) (h1 : 0 < X) (h2 : X ≤ S) (hx : x < d ∨ d + S ≤ x) :
    x ≠ d + S - X := by
  omega

/-- C22: when `malloc( s )` returns in a reachable state, with `A` the rounded
size `next_largest_power_of_2( s )`, the donor is the front chunk `d` of the
entry of `free_lists_` found by `lower_bound( A )`, the non-empty list with the
smallest key `S ≥ A`; with `S = A * 2^m`, afterwards `num_chunks()` has grown by
exactly `m`, the donor's region `[d, d + S)` holds exactly the returned in-use
chunk of size `A` at `d + S - A` and one free chunk of each size
`A, 2A, ..., S/2`, the one of size `A * 2^k` at `d + S - A * 2^(k+1)` and in the
free list of its size, and every chunk outside the region is tracked and listed
as before. -/
theorem Allocator.malloc_splits_donor (base n : Int) (st st' : Allocator) (s : Nat) (a : Int)
    (h0 : 0 < n) (hb : n < 9223372036854775808) (hr : Allocator.Reachable base n st)
    (h : st.malloc s = .ok (st', a)) :
    ∃ (A S m : Nat) (d : Int) (rest : FreeList),
      Allocator.next_largest_power_of_2 (wrap64 s) = (A : Int) ∧ IsPow2 A ∧
      FreeListMap.lower_bound st.free_lists_ A = some (S, d :: rest) ∧
      (∀ e ∈ st.free_lists_, A ≤ e.1 → S ≤ e.1) ∧
      ChunkMap.find st.chunks_ d = some ⟨false, d, S⟩ ∧
      S = A * 2 ^ m ∧ (A < S ↔ 0 < m) ∧
      st'.chunks_.length = st.chunks_.length + m ∧
      st'.num_chunks = st.num_chunks + (m : Int) ∧
      a = wrap64 (d + (S : Int) - (A : Int) + st.base_) ∧
      ChunkMap.find st'.chunks_ (d + (S : Int) - (A : Int))
        = some ⟨true, d + (S : Int) - (A : Int), A⟩ ∧
      (∀ k, k < m →
        ChunkMap.find st'.chunks_ (d + (S : Int) - ((A * 2 ^ (k + 1) : Nat) : Int))
          = some ⟨false, d + (S : Int) - ((A * 2 ^ (k + 1) : Nat) : Int), A * 2 ^ k⟩ ∧
        d + (S : Int) - ((A * 2 ^ (k + 1) : Nat) : Int)
          ∈ FreeListMap.get st'.free_lists_ (A * 2 ^ k)) ∧
      (∀ x c, ChunkMap.find st'.chunks_ x = some c → d ≤ x → x < d + (S : Int) →
        x = d + (S : Int) - (A : Int) ∨
        ∃ k, k < m ∧ x = d + (S : Int) - ((A * 2 ^ (k + 1) : Nat) : Int)) ∧
      (∀ x, x < d ∨ d + (S : Int) ≤ x →
        ChunkMap.find st'.chunks_ x = ChunkMap.find st.chunks_ x ∧
        ∀ k, x ∈ FreeListMap.get st'.free_lists_ k ↔ x ∈ FreeListMap.get st.free_lists_ k) := by
  obtain ⟨hwf, _, _⟩ := Allocator.Reachable.inv h0 hb hr
  obtain ⟨A, S, m, d, rest, hn, hA, hg, hfd, hAS, hmin, hS, hlen, ha, hwf', hret, hpieces,
    hrest⟩ := Allocator.malloc_split_shape hwf h
  have hApos : 0 < A := hA.size_pos
  have hApi : (0 : Int) < (A : Int) := by exact_mod_cast hApos
  have hASi : (A : Int) ≤ (S : Int) := by exact_mod_cast hAS
  have hpow : ∀ k, k < m → 0 < A * 2 ^ (k + 1) ∧ A * 2 ^ (k + 1) ≤ S := by
    intro k hk
    have h1 : 2 ^ (k + 1) ≤ 2 ^ m := Nat.pow_le_pow_right (by omega) (by omega)
    have h2 : 0 < 2 ^ (k + 1) := Nat.pos_pow_of_pos _ (by omega)
    rw [hS]
    exact ⟨Nat.mul_pos hApos h2, Nat.mul_le_mul_left A h1⟩
  have hout : ∀ x, x < d ∨ d + (S : Int) ≤ x →
      ChunkMap.find st'.chunks_ x = ChunkMap.find st.chunks_ x := by
    intro x hx
    apply hrest x (offset_outside d S A x hApi hASi hx)
    intro k hk
    obtain ⟨p1, p2⟩ := hpow k hk
    exact offset_outside d S _ x (by exact_mod_cast p1) (by exact_mod_cast p2) hx
  refine ⟨A, S, m, d, rest, hn, hA, ?_, ?_, hfd, hS, ?_, hlen, ?_, ha, hret, ?_, ?_, ?_⟩
  · cases hlb : FreeListMap.lower_bound st.free_lists_ A with
    | none =>
      exfalso
      have := hwf.lower_bound_eq_none.mp hlb d _ hfd rfl
      simp only at this
      omega
    | some flit =>
      obtain ⟨cmit0, rest0, c0, hl, hget, hf0, hs0, hu0, hle0, hmin0⟩ := hwf.lower_bound_entry hlb
      have e1 : S ≤ flit.1 := by
        have := hmin cmit0 c0 hf0 hu0 (by omega)
        omega
      have e2 : flit.1 ≤ S := hmin0 d _ hfd rfl hAS
      have e3 : flit.1 = S := by omega
      rw [e3, hg] at hget
      exact congrArg some (Prod.ext e3 (by rw [hl]; exact hget.symm))
  · intro e he hle
    obtain ⟨x, xs, hx⟩ := List.exists_cons_of_ne_nil (hwf.fl.nonempty e he)
    have hmem : x ∈ FreeListMap.get st.free_lists_ e.1 := by
      rw [FreeListMap.get_of_mem hwf.fl.sorted he, hx]
      exact List.mem_cons_self _ _
    obtain ⟨c, hf, hs, hu⟩ := (hwf.fl.iff _ _).mp hmem
    have := hmin x c hf hu (by omega)
    omega
  · constructor
    · intro hlt
      by_contra hm
      have : m = 0 := by omega
      rw [this] at hS
      simp at hS
      omega
    · intro hm
      obtain ⟨p1, p2⟩ := hpow 0 (by omega)
      have : A * 2 ^ (0 + 1) = A + A := by ring
      omega
  · rw [hwf'.num_chunks_eq, hwf.num_chunks_eq, hlen]
    push_cast
    rfl
  · intro k hk
    exact ⟨hpieces k hk, hwf'.fl.mem_of_free (hpieces k hk) rfl⟩
  · intro x c hf hx1 hx2
    by_contra hno
    push_neg at hno
    have hsame := hrest x hno.1 (fun k hk => hno.2 k hk)
    rw [hf] at hsame
    by_cases hxd : x = d
    · subst hxd
      by_cases hm : m = 0
      · rw [hm] at hS
        simp only [pow_zero, mul_one] at hS
        apply hno.1
        rw [hS]
        omega
      · have := hno.2 (m - 1) (by omega)
        apply this
        have e : m - 1 + 1 = m := by omega
        rw [e, ← hS]
        omega
    · have hnone : ChunkMap.find st.chunks_ x = none :=
        tiles_interior hwf.tiles (ChunkMap.find_some hfd).1 (by show d < x; omega)
          (by show x < d + (S : Int); omega)
      rw [hnone] at hsame
      cases hsame
  · intro x hx
    refine ⟨hout x hx, fun k => ?_⟩
    rw [hwf'.fl.iff, hwf.fl.iff, hout x hx]

theorem Allocator.malloc_splits_donor_witness :
    ∃ (A S m : Nat) (d : Int) (rest : FreeList),
      Allocator.next_largest_power_of_2 (wrap64 (100 : Nat)) = (A : Int) ∧ IsPow2 A ∧
      FreeListMap.lower_bound Allocator.fresh1024.free_lists_ A = some (S, d :: rest) ∧
      (∀ e ∈ Allocator.fresh1024.free_lists_, A ≤ e.1 → S ≤ e.1) ∧
      ChunkMap.find Allocator.fresh1024.chunks_ d = some ⟨false, d, S⟩ ∧
      S = A * 2 ^ m ∧ (A < S ↔ 0 < m) ∧
      Allocator.fresh1024_malloc100.chunks_.length = Allocator.fresh1024.chunks_.length + m ∧
      Allocator.fresh1024_malloc100.num_chunks = Allocator.fresh1024.num_chunks + (m : Int) ∧
      (896 : Int) = wrap64 (d + (S : Int) - (A : Int) + Allocator.fresh1024.base_) ∧
      ChunkMap.find Allocator.fresh1024_malloc100.chunks_ (d + (S : Int) - (A : Int))
        = some ⟨true, d + (S : Int) - (A : Int), A⟩ ∧
      (∀ k, k < m →
        ChunkMap.find Allocator.fresh1024_malloc100.chunks_
            (d + (S : Int) - ((A * 2 ^ (k + 1) : Nat) : Int))
          = some ⟨false, d + (S : Int) - ((A * 2 ^ (k + 1) : Nat) : Int), A * 2 ^ k⟩ ∧
        d + (S : Int) - ((A * 2 ^ (k + 1) : Nat) : Int)
          ∈ FreeListMap.get Allocator.fresh1024_malloc100.free_lists_ (A * 2 ^ k)) ∧
      (∀ x c, ChunkMap.find Allocator.fresh1024_malloc100.chunks_ x = some c → d ≤ x →
        x < d + (S : Int) →
        x = d + (S : Int) - (A : Int) ∨
        ∃ k, k < m ∧ x = d + (S : Int) - ((A * 2 ^ (k + 1) : Nat) : Int)) ∧
      (∀ x, x < d ∨ d + (S : Int) ≤ x →
        ChunkMap.find Allocator.fresh1024_malloc100.chunks_ x
          = ChunkMap.find Allocator.fresh1024.chunks_ x ∧
        ∀ k, x ∈ FreeListMap.get Allocator.fresh1024_malloc100.free_lists_ k ↔
          x ∈ FreeListMap.get Allocator.fresh1024.free_lists_ k) :=
  Allocator.malloc_splits_donor 0 1024 Allocator.fresh1024 Allocator.fresh1024_malloc100 100 896
    (by decide) (by decide) (Allocator.Reachable.ctor fresh1024_ctor) fresh1024_malloc
/-! ## The merging of `free`, chunk by chunk -/

theorem Allocator.MergeState.at_freed {n : Int} {st : Allocator} {o b : Int} {c : AllocatorChunk}
    (hwf : st.WF n) (hf : ChunkMap.find st.chunks_ o = some c) (hu : c.in_use = true) :
    Allocator.MergeState st o b c.size (st.added o c.size) o := by
  obtain ⟨_, hfind, _, _, _, hlen⟩ := Allocator.added_spec hwf hf hu
  obtain ⟨hca, hc0, hcn, hcpos, hcp2⟩ := hwf.find_bounds hf
  refine ⟨0, ?_, le_refl _, ?_, fun _ => rfl, ?_, by rw [hlen]; rfl, ?_, ?_⟩
  · rw [hfind, if_pos rfl]
    simp
  · simp
  · intro h
    omega
  · intro x hx
    rw [hfind, if_neg]
    simp only [pow_zero, mul_one] at hx
    omega
  · intro x hx1 hx2
    simp only [pow_zero, mul_one] at hx2
    rw [hfind, if_neg (by omega)]
    exact tiles_interior hwf.tiles (ChunkMap.find_some hf).1 (by omega) (by omega)

theorem Allocator.MergeState.merge {n : Int} {st0 st : Allocator} {o b : Int} {s : Nat}
    {cmit lo hi : Int} {cl ch : AllocatorChunk} (hwf : st.WF n)
    (hl : ChunkMap.find st.chunks_ lo = some cl) (hh : ChunkMap.find st.chunks_ hi = some ch)
    (hhi : hi = lo + cl.size) (hsz : ch.size = cl.size) (hlf : cl.in_use = false)
    (hhf : ch.in_use = false)
    (hab : (cmit = lo ∧ wrap64 (Int.xor lo (cl.size : Int)) = hi) ∨
      (cmit = hi ∧ wrap64 (Int.xor hi (cl.size : Int)) = lo))
    (hb : b = wrap64 (Int.xor o (s : Int)))
    (hs : Allocator.MergeState st0 o b s st cmit) :
    Allocator.MergeState st0 o b s (st.merged lo hi cl.size) lo := by
  obtain ⟨m, hfc, h1, h2, h3, h4, hlen, hout, hin⟩ := hs
  obtain ⟨_, hfind, _, _, _, hlen'⟩ :=
    Allocator.merge_spec lo hi hwf hl hh hhi rfl hsz hlf hhf (Or.inl ⟨rfl, rfl⟩)
  obtain ⟨_, _, _, hlpos, _⟩ := hwf.find_bounds hl
  have hsize : cl.size = s * 2 ^ m := by
    rcases hab with ⟨e, _⟩ | ⟨e, _⟩
    · rw [e, hl] at hfc
      have := congrArg AllocatorChunk.size (Option.some.inj hfc)
      exact this
    · rw [e, hh] at hfc
      have := congrArg AllocatorChunk.size (Option.some.inj hfc)
      simp only at this
      omega
  have hdouble : s * 2 ^ (m + 1) = cl.size + cl.size := by
    rw [hsize, pow_succ]
    ring
  have hci : (((cl.size + cl.size : Nat)) : Int) = (cl.size : Int) + cl.size := by
    push_cast
    rfl
  rw [← hsize] at h2 h4 hout hin
  have hcm : cmit = lo ∨ cmit = hi := by
    rcases hab with ⟨e, _⟩ | ⟨e, _⟩
    · exact Or.inl e
    · exact Or.inr e
  have hm0 : m = 0 → (cmit = lo ∧ b = hi) ∨ (cmit = hi ∧ b = lo) := by
    intro hm
    have e1 := h3 hm
    rw [hm] at hsize
    simp only [pow_zero, mul_one] at hsize
    rw [hb, ← e1, ← hsize]
    rcases hab with ⟨e, hx⟩ | ⟨e, hx⟩
    · rw [e, hx]
      exact Or.inl ⟨rfl, rfl⟩
    · rw [e, hx]
      exact Or.inr ⟨rfl, rfl⟩
  have hspos : 0 < s := by
    by_contra h0
    have : s = 0 := by omega
    rw [this] at hsize
    simp at hsize
    omega
  have hsle : s ≤ cl.size := by
    rw [hsize]
    exact Nat.le_mul_of_pos_right s (Nat.pos_pow_of_pos m (by omega))
  refine ⟨m + 1, ?_, ?_, ?_, ?_, ?_, ?_, ?_, ?_⟩
  · rw [hfind, if_pos rfl, hdouble]
  · rcases hcm with e | e <;> omega
  · rw [hdouble, hci]
    rcases hcm with e | e <;> omega
  · intro h
    omega
  · intro _
    rw [hdouble, hci]
    by_cases hm : m = 0
    · have e1 := h3 hm
      rw [hm] at hsize
      simp only [pow_zero, mul_one] at hsize
      rcases hm0 hm with ⟨e, e'⟩ | ⟨e, e'⟩ <;> refine ⟨?_, ?_, ?_⟩ <;> omega
    · obtain ⟨g1, g2, g3⟩ := h4 (by omega)
      rcases hcm with e | e <;> refine ⟨?_, ?_, g3⟩ <;> omega
  · omega
  · intro x hx
    rw [hdouble, hci] at hx
    rw [hfind, if_neg (by omega), if_neg (by omega)]
    apply hout
    rcases hcm with e | e <;> omega
  · intro x hx1 hx2
    rw [hdouble, hci] at hx2
    rw [hfind, if_neg (by omega)]
    by_cases hxh : x = hi
    · rw [if_pos hxh]
    · rw [if_neg hxh]
      by_cases hlt : x < hi
      · exact tiles_interior hwf.tiles (ChunkMap.find_some hl).1
          (by rw [(ChunkMap.find_some hl).2]; exact hx1)
          (by rw [(ChunkMap.find_some hl).2]; omega)
      · exact tiles_interior hwf.tiles (ChunkMap.find_some hh).1
          (by rw [(ChunkMap.find_some hh).2]; omega)
          (by rw [(ChunkMap.find_some hh).2]; omega)

/-- What a returning `free` has done when the freed chunk has no free buddy of
its size: the chunk is put on the free list of its size and nothing else
changes. -/
theorem Allocator.free_without_merge {n : Int} {st : Allocator} (hwf : st.WF n) (p : Int)
    {c : AllocatorChunk} (hf : ChunkMap.find st.chunks_ (wrap64 (p - st.base_)) = some c)
    (hu : c.in_use = true)
    (hno : ¬ ∃ cb, ChunkMap.find st.chunks_
        (wrap64 (Int.xor (wrap64 (p - st.base_)) (c.size : Int))) = some cb ∧
      cb.size = c.size ∧ cb.in_use = false) :
    st.free p = .ok (st.added (wrap64 (p - st.base_)) c.size) := by
  obtain ⟨_, hfind, _, _, _, _⟩ := Allocator.added_spec hwf hf hu
  obtain ⟨st', cmit', c', h1, _, _, _, hQ, _, _⟩ := Allocator.free_ok hwf p hf hu
    (fun st1 cmit => st1 = st.added (wrap64 (p - st.base_)) c.size ∧ cmit = wrap64 (p - st.base_))
    (by
      intro st1 cmit lo hi cl ch hwf1 hl hh hhi hsz hlf hhf hab hQ
      exfalso
      obtain ⟨e1, e2⟩ := hQ
      subst e1
      rw [hfind] at hl hh
      have hne : lo ≠ hi := by
        have := (hwf1.find_bounds (by rw [hfind]; exact hl)).2.2.2.1
        omega
      rcases hab with ⟨e, hx⟩ | ⟨e, hx⟩
      · rw [← e, e2] at hl hx
        rw [if_pos rfl] at hl
        have hcl : cl.size = c.size := by
          have := congrArg AllocatorChunk.size (Option.some.inj hl)
          exact this.symm
        rw [if_neg (by rw [← e2, e]; exact hne.symm)] at hh
        apply hno
        rw [← hcl, hx]
        exact ⟨ch, hh, hsz, hhf⟩
      · rw [← e, e2] at hh hx
        rw [if_pos rfl] at hh
        have hch : ch.size = c.size := by
          have := congrArg AllocatorChunk.size (Option.some.inj hh)
          exact this.symm
        rw [if_neg (by rw [← e2, e]; exact hne)] at hl
        apply hno
        rw [← hch, hsz, hx]
        exact ⟨cl, hl, by rw [← hsz, hch], hlf⟩)
    ⟨rfl, rfl⟩
  rw [h1, hQ.1]

/-- What a returning `free` has done when the freed chunk has a free buddy of
its size. -/
theorem Allocator.free_with_merge {n : Int} {st : Allocator} (hwf : st.WF n) (p : Int)
    {c cb : AllocatorChunk} (hf : ChunkMap.find st.chunks_ (wrap64 (p - st.base_)) = some c)
    (hu : c.in_use = true)
    (hfb : ChunkMap.find st.chunks_
      (wrap64 (Int.xor (wrap64 (p - st.base_)) (c.size : Int))) = some cb)
    (hbs : cb.size = c.size) (hbf : cb.in_use = false) :
    ∃ (st' : Allocator) (m : Nat) (lo : Int), st.free p = .ok st' ∧ st'.WF n ∧ 1 ≤ m ∧
      ChunkMap.find st'.chunks_ lo = some ⟨false, lo, c.size * 2 ^ m⟩ ∧
      lo ≤ wrap64 (p - st.base_) ∧
      lo ≤ wrap64 (Int.xor (wrap64 (p - st.base_)) (c.size : Int)) ∧
      wrap64 (p - st.base_) + (c.size : Int) ≤ lo + ((c.size * 2 ^ m : Nat) : Int) ∧
      wrap64 (Int.xor (wrap64 (p - st.base_)) (c.size : Int)) + (c.size : Int)
        ≤ lo + ((c.size * 2 ^ m : Nat) : Int) ∧
      wrap64 (Int.xor (wrap64 (p - st.base_)) (c.size : Int)) ≠ wrap64 (p - st.base_) ∧
      (∀ bb, ChunkMap.find st'.chunks_
          (wrap64 (Int.xor lo ((c.size * 2 ^ m : Nat) : Int))) = some bb →
        ¬ (bb.size = c.size * 2 ^ m ∧ bb.in_use = false)) ∧
      st'.chunks_.length + m = st.chunks_.length ∧
      (∀ x, x < lo ∨ lo + ((c.size * 2 ^ m : Nat) : Int) ≤ x →
        ChunkMap.find st'.chunks_ x = ChunkMap.find st.chunks_ x) ∧
      (∀ x, lo < x → x < lo + ((c.size * 2 ^ m : Nat) : Int) →
        ChunkMap.find st'.chunks_ x = none) := by
  obtain ⟨hca, hc0, hcn, hcpos, hcp2⟩ := hwf.find_bounds hf
  obtain ⟨hba, _, _, _, _⟩ := hwf.find_bounds hfb
  obtain ⟨st', cmit', c', h1, hwf', hf', hu', hQ, _, hnb⟩ := Allocator.free_ok hwf p hf hu
    (Allocator.MergeState st (wrap64 (p - st.base_))
      (wrap64 (Int.xor (wrap64 (p - st.base_)) (c.size : Int))) c.size)
    (fun st1 cmit lo hi cl ch hwf1 hl hh hhi hsz hlf hhf hab hQ =>
      Allocator.MergeState.merge hwf1 hl hh hhi hsz hlf hhf hab rfl hQ)
    (Allocator.MergeState.at_freed hwf hf hu)
  obtain ⟨m, hfc, g1, g2, g3, g4, hlen, hout, hin⟩ := hQ
  have hne := hwf.buddy_ne hf
  have hc' : c'.size = c.size * 2 ^ m := by
    rw [hf'] at hfc
    exact congrArg AllocatorChunk.size (Option.some.inj hfc)
  rw [hc'] at hnb
  have hm : 1 ≤ m := by
    by_contra hm0
    have hm : m = 0 := by omega
    have e := g3 hm
    subst hm
    simp only [pow_zero, mul_one] at hnb hout
    rw [e] at hnb hout
    apply hnb cb _ ⟨hbs, hbf⟩
    rw [hout, hfb]
    by_contra hins
    have hnone : ChunkMap.find st.chunks_
        (wrap64 (Int.xor (wrap64 (p - st.base_)) (c.size : Int))) = none :=
      tiles_interior hwf.tiles (ChunkMap.find_some hf).1 (by omega) (by omega)
    rw [hnone] at hfb
    cases hfb
  obtain ⟨g5, g6, _⟩ := g4 hm
  exact ⟨st', m, cmit', h1, hwf', hm, hfc, g1, g5, g2, g6, hne, hnb, hlen, hout, hin⟩

/-- C23: in the state reached by `Allocator( 0, 4 )`, `malloc( 1 )`,
`malloc( 1 )`, `free( 3 )` the chunk at offset 2 is in use with size 1 and the
offset `2 XOR 1 = 3` tracks a free chunk of size 1; after `free( 2 )` the lower
of the two offsets, 2, is not tracked, so no free chunk of size at least 2 sits
there: the merged chunk has been merged again, with its buddy at offset 0, into
the chunk of size 4 at offset 0. -/
theorem Allocator.free_merges_below_lower_offset :
    Allocator.Reachable 0 4 Allocator.arena4_before ∧
      ChunkMap.find Allocator.arena4_before.chunks_ (wrap64 (2 - Allocator.arena4_before.base_))
        = some ⟨true, 2, 1⟩ ∧
      wrap64 (Int.xor 2 1) = 3 ∧
      ChunkMap.find Allocator.arena4_before.chunks_ 3 = some ⟨false, 3, 1⟩ ∧
      Allocator.arena4_before.free 2 = .ok Allocator.arena4_after ∧
      ChunkMap.find Allocator.arena4_after.chunks_ (min 2 (wrap64 (Int.xor 2 1))) = none ∧
      ChunkMap.find Allocator.arena4_after.chunks_ 0 = some ⟨false, 0, 4⟩ ∧
      ¬ (∃ c, ChunkMap.find Allocator.arena4_after.chunks_ (min 2 (wrap64 (Int.xor 2 1)))
          = some c ∧ c.in_use = false ∧ 2 * 1 ≤ c.size) := by
  refine ⟨?_, by decide, by decide, by decide, by decide, by decide, by decide, ?_⟩
  · have h0 : Allocator.ctor 0 4 = .ok ⟨0, 4, [⟨false, 0, 4⟩], [(4, [0])]⟩ := by decide
    have h1 : Allocator.malloc ⟨0, 4, [⟨false, 0, 4⟩], [(4, [0])]⟩ 1
        = .ok (⟨0, 4, [⟨false, 0, 2⟩, ⟨false, 2, 1⟩, ⟨true, 3, 1⟩], [(1, [2]), (2, [0])]⟩, 3) := by
      decide
    have h2 : Allocator.malloc
        ⟨0, 4, [⟨false, 0, 2⟩, ⟨false, 2, 1⟩, ⟨true, 3, 1⟩], [(1, [2]), (2, [0])]⟩ 1
        = .ok (⟨0, 4, [⟨false, 0, 2⟩, ⟨true, 2, 1⟩, ⟨true, 3, 1⟩], [(2, [0])]⟩, 2) := by
      decide
    have h3 : Allocator.free ⟨0, 4, [⟨false, 0, 2⟩, ⟨true, 2, 1⟩, ⟨true, 3, 1⟩], [(2, [0])]⟩ 3
        = .ok Allocator.arena4_before := by
      decide
    exact Allocator.Reachable.free
      (Allocator.Reachable.malloc (Allocator.Reachable.malloc (Allocator.Reachable.ctor h0) h1) h2)
      h3
  · rintro ⟨c, hc, _⟩
    have hnone : ChunkMap.find Allocator.arena4_after.chunks_ (min 2 (wrap64 (Int.xor 2 1)))
        = none := by decide
    rw [hnone] at hc
    cases hc

/-- C23, amended: when `free` is called in a reachable state on an in-use chunk at
offset `o` with size `s`, it returns.  If the offset `o XOR s` tracks a free
chunk of size `s`, then afterwards the higher of the two offsets is no longer
tracked, and both chunks lie in one free chunk that starts at or below
`min(o, o XOR s)`, has size `s * 2^m ≥ 2s`, is in the free list of its size and
has no free buddy of its size, where `m ≥ 1` is the number of merges;
`num_chunks()` has decreased by exactly `m`, no offset inside that chunk is
tracked and every chunk outside it is as before.  If no such buddy exists, the
only change is that the chunk is free and at the front of the free list of size
`s`. -/
theorem Allocator.free_merges_upward (base n : Int) (st : Allocator) (p : Int)
    (c : AllocatorChunk) (h0 : 0 < n) (hb : n < 9223372036854775808)
    (hr : Allocator.Reachable base n st)
    (hf : ChunkMap.find st.chunks_ (wrap64 (p - st.base_)) = some c) (hu : c.in_use = true) :
    ∃ st', st.free p = .ok st' ∧
      ((∃ cb, ChunkMap.find st.chunks_
            (wrap64 (Int.xor (wrap64 (p - st.base_)) (c.size : Int))) = some cb ∧
          cb.size = c.size ∧ cb.in_use = false) →
        ∃ (m : Nat) (lo : Int), 1 ≤ m ∧ 2 * c.size ≤ c.size * 2 ^ m ∧
          ChunkMap.find st'.chunks_
            (max (wrap64 (p - st.base_))
              (wrap64 (Int.xor (wrap64 (p - st.base_)) (c.size : Int)))) = none ∧
          ChunkMap.find st'.chunks_ lo = some ⟨false, lo, c.size * 2 ^ m⟩ ∧
          lo ≤ min (wrap64 (p - st.base_))
            (wrap64 (Int.xor (wrap64 (p - st.base_)) (c.size : Int))) ∧
          max (wrap64 (p - st.base_))
            (wrap64 (Int.xor (wrap64 (p - st.base_)) (c.size : Int))) + (c.size : Int)
            ≤ lo + ((c.size * 2 ^ m : Nat) : Int) ∧
          lo ∈ FreeListMap.get st'.free_lists_ (c.size * 2 ^ m) ∧
          (∀ bb, ChunkMap.find st'.chunks_
              (wrap64 (Int.xor lo ((c.size * 2 ^ m : Nat) : Int))) = some bb →
            ¬ (bb.size = c.size * 2 ^ m ∧ bb.in_use = false)) ∧
          st'.chunks_.length + m = st.chunks_.length ∧
          st'.num_chunks = st.num_chunks - (m : Int) ∧
          (∀ x, lo < x → x < lo + ((c.size * 2 ^ m : Nat) : Int) →
            ChunkMap.find st'.chunks_ x = none) ∧
          (∀ x, x < lo ∨ lo + ((c.size * 2 ^ m : Nat) : Int) ≤ x →
            ChunkMap.find st'.chunks_ x = ChunkMap.find st.chunks_ x)) ∧
      ((¬ ∃ cb, ChunkMap.find st.chunks_
            (wrap64 (Int.xor (wrap64 (p - st.base_)) (c.size : Int))) = some cb ∧
          cb.size = c.size ∧ cb.in_use = false) →
        st' = st.added (wrap64 (p - st.base_)) c.size ∧
          ChunkMap.find st'.chunks_ (wrap64 (p - st.base_))
            = some ⟨false, wrap64 (p - st.base_), c.size⟩ ∧
          (∀ x, x ≠ wrap64 (p - st.base_) →
            ChunkMap.find st'.chunks_ x = ChunkMap.find st.chunks_ x) ∧
          (∀ k, FreeListMap.get st'.free_lists_ k =
            if k = c.size then wrap64 (p - st.base_) :: FreeListMap.get st.free_lists_ c.size
            else FreeListMap.get st.free_lists_ k) ∧
          st'.num_chunks = st.num_chunks) := by
  obtain ⟨hwf, _, _⟩ := Allocator.Reachable.inv h0 hb hr
  obtain ⟨st', hfree⟩ := Allocator.free_returns hwf p hf hu
  refine ⟨st', hfree, ?_, ?_⟩
  · rintro ⟨cb, hfb, hbs, hbf⟩
    obtain ⟨st'', m, lo, e1, hwf', hm, hfl, g1, g2, g3, g4, hne, hnb, hlen, hout, hin⟩ :=
      Allocator.free_with_merge hwf p hf hu hfb hbs hbf
    rw [hfree] at e1
    obtain rfl : st' = st'' := by
      injection e1
    have hcpos := (hwf.find_bounds hf).2.2.2.1
    have hcpi : (0 : Int) < (c.size : Int) := by exact_mod_cast hcpos
    refine ⟨m, lo, hm, ?_, ?_, hfl, ?_, ?_, hwf'.fl.mem_of_free hfl rfl, hnb, hlen, ?_, hin,
      hout⟩
    · obtain ⟨j, rfl⟩ : ∃ j, m = j + 1 := ⟨m - 1, by omega⟩
      have := double_le_mul_two_pow c.size j
      omega
    · apply hin
      · rcases le_total (wrap64 (p - st.base_))
          (wrap64 (Int.xor (wrap64 (p - st.base_)) (c.size : Int))) with h | h
        · rw [max_eq_right h]
          omega
        · rw [max_eq_left h]
          omega
      · rcases le_total (wrap64 (p - st.base_))
          (wrap64 (Int.xor (wrap64 (p - st.base_)) (c.size : Int))) with h | h
        · rw [max_eq_right h]
          omega
        · rw [max_eq_left h]
          omega
    · exact le_min g1 g2
    · rcases le_total (wrap64 (p - st.base_))
        (wrap64 (Int.xor (wrap64 (p - st.base_)) (c.size : Int))) with h | h
      · rw [max_eq_right h]
        exact g4
      · rw [max_eq_left h]
        exact g3
    · rw [hwf'.num_chunks_eq, hwf.num_chunks_eq, ← hlen]
      push_cast
      omega
  · intro hno
    have e := Allocator.free_without_merge hwf p hf hu hno
    rw [hfree] at e
    obtain rfl : st' = st.added (wrap64 (p - st.base_)) c.size := by
      injection e
    obtain ⟨_, hfind, hget, hwf', _, hlen⟩ := Allocator.added_spec hwf hf hu
    refine ⟨rfl, by rw [hfind, if_pos rfl], ?_, hget, ?_⟩
    · intro x hx
      rw [hfind, if_neg hx]
    · rw [hwf'.num_chunks_eq, hwf.num_chunks_eq, hlen]

theorem Allocator.free_merges_upward_witness :
    ∃ st', Allocator.arena4_before.free 2 = .ok st' ∧
      ((∃ cb, ChunkMap.find Allocator.arena4_before.chunks_
            (wrap64 (Int.xor (wrap64 (2 - Allocator.arena4_before.base_))
              ((1 : Nat) : Int))) = some cb ∧
          cb.size = (1 : Nat) ∧ cb.in_use = false) →
        ∃ (m : Nat) (lo : Int), 1 ≤ m ∧
          2 * (1 : Nat) ≤ (1 : Nat) * 2 ^ m ∧
          ChunkMap.find st'.chunks_
            (max (wrap64 (2 - Allocator.arena4_before.base_))
              (wrap64 (Int.xor (wrap64 (2 - Allocator.arena4_before.base_))
                ((1 : Nat) : Int)))) = none ∧
          ChunkMap.find st'.chunks_ lo
            = some ⟨false, lo, (1 : Nat) * 2 ^ m⟩ ∧
          lo ≤ min (wrap64 (2 - Allocator.arena4_before.base_))
            (wrap64 (Int.xor (wrap64 (2 - Allocator.arena4_before.base_))
              ((1 : Nat) : Int))) ∧
          max (wrap64 (2 - Allocator.arena4_before.base_))
            (wrap64 (Int.xor (wrap64 (2 - Allocator.arena4_before.base_))
              ((1 : Nat) : Int)))
              + ((1 : Nat) : Int)
            ≤ lo + (((1 : Nat) * 2 ^ m : Nat) : Int) ∧
          lo ∈ FreeListMap.get st'.free_lists_ ((1 : Nat) * 2 ^ m) ∧
          (∀ bb, ChunkMap.find st'.chunks_
              (wrap64 (Int.xor lo (((1 : Nat) * 2 ^ m : Nat) : Int)))
              = some bb →
            ¬ (bb.size = (1 : Nat) * 2 ^ m ∧ bb.in_use = false)) ∧
          st'.chunks_.length + m = Allocator.arena4_before.chunks_.length ∧
          st'.num_chunks = Allocator.arena4_before.num_chunks - (m : Int) ∧
          (∀ x, lo < x → x < lo + (((1 : Nat) * 2 ^ m : Nat) : Int) →
            ChunkMap.find st'.chunks_ x = none) ∧
          (∀ x, x < lo ∨ lo + (((1 : Nat) * 2 ^ m : Nat) : Int) ≤ x →
            ChunkMap.find st'.chunks_ x = ChunkMap.find Allocator.arena4_before.chunks_ x)) ∧
      ((¬ ∃ cb, ChunkMap.find Allocator.arena4_before.chunks_
            (wrap64 (Int.xor (wrap64 (2 - Allocator.arena4_before.base_))
              ((1 : Nat) : Int))) = some cb ∧
          cb.size = (1 : Nat) ∧ cb.in_use = false) →
        st' = Allocator.arena4_before.added (wrap64 (2 - Allocator.arena4_before.base_))
            (1 : Nat) ∧
          ChunkMap.find st'.chunks_ (wrap64 (2 - Allocator.arena4_before.base_))
            = some ⟨false, wrap64 (2 - Allocator.arena4_before.base_),
                (1 : Nat)⟩ ∧
          (∀ x, x ≠ wrap64 (2 - Allocator.arena4_before.base_) →
            ChunkMap.find st'.chunks_ x = ChunkMap.find Allocator.arena4_before.chunks_ x) ∧
          (∀ k, FreeListMap.get st'.free_lists_ k =
            if k = (1 : Nat)
            then wrap64 (2 - Allocator.arena4_before.base_)
              :: FreeListMap.get Allocator.arena4_before.free_lists_
                (1 : Nat)
            else FreeListMap.get Allocator.arena4_before.free_lists_ k) ∧
          st'.num_chunks = Allocator.arena4_before.num_chunks) :=
  Allocator.free_merges_upward 0 4 Allocator.arena4_before 2 ⟨true, 2, 1⟩ (by decide) (by decide)
    (Allocator.Reachable.free
      (Allocator.Reachable.malloc
        (Allocator.Reachable.malloc
          (Allocator.Reachable.ctor
            (by decide : Allocator.ctor 0 4 = .ok ⟨0, 4, [⟨false, 0, 4⟩], [(4, [0])]⟩))
          (by decide : Allocator.malloc ⟨0, 4, [⟨false, 0, 4⟩], [(4, [0])]⟩ 1
            = .ok (⟨0, 4, [⟨false, 0, 2⟩, ⟨false, 2, 1⟩, ⟨true, 3, 1⟩],
                [(1, [2]), (2, [0])]⟩, 3)))
        (by decide : Allocator.malloc
            ⟨0, 4, [⟨false, 0, 2⟩, ⟨false, 2, 1⟩, ⟨true, 3, 1⟩], [(1, [2]), (2, [0])]⟩ 1
          = .ok (⟨0, 4, [⟨false, 0, 2⟩, ⟨true, 2, 1⟩, ⟨true, 3, 1⟩], [(2, [0])]⟩, 2)))
      (by decide : Allocator.free
          ⟨0, 4, [⟨false, 0, 2⟩, ⟨true, 2, 1⟩, ⟨true, 3, 1⟩], [(2, [0])]⟩ 3
        = .ok Allocator.arena4_before))
    (by decide) rfl
/-! ## The chunking of the vector reduction -/

theorem Grappa_allreduce_loop_eq_rounds {T : Type} (sizeof_T : Nat) (Reducer : T → T → T)
    (BaseVal : T) (arrival : Nat → List Nat) (nelem : Nat) (result : Option ElemPtr) :
    ∀ (fuel i : Nat) (calls : List (Nat × Nat)) (cluster : List (ReductionArrayNode T)),
      Grappa_allreduce_calls sizeof_T nelem fuel i = some calls →
      Grappa_allreduce_loop sizeof_T Reducer BaseVal arrival nelem result fuel cluster i
        = Grappa_allreduce_rounds sizeof_T Reducer BaseVal arrival result calls cluster := by
  intro fuel
  induction fuel with
  | zero =>
    intro i calls cluster h
    simp [Grappa_allreduce_calls] at h
  | succ fuel ih =>
    intro i calls cluster h
    unfold Grappa_allreduce_calls at h
    unfold Grappa_allreduce_loop
    simp only at h ⊢
    by_cases hi : i < nelem
    · rw [if_pos hi] at h ⊢
      cases hrest : Grappa_allreduce_calls sizeof_T nelem fuel
          ((i + 2048 / sizeof_T) % 18446744073709551616) with
      | none =>
        rw [hrest] at h
        cases h
      | some rest =>
        rw [hrest] at h
        simp only [Option.some.injEq] at h
        subst h
        unfold Grappa_allreduce_rounds
        cases hround : allreduce_one_message_round sizeof_T Reducer BaseVal cluster (arrival i)
            ⟨.array, i⟩ (min (2048 / sizeof_T) (nelem - i)) result with
        | error e => rfl
        | ok cluster1 =>
          simp only
          exact ih _ rest cluster1 hrest
    · rw [if_neg hi] at h ⊢
      simp only [Option.some.injEq] at h
      subst h
      rfl

theorem Grappa_allreduce_loop_returns {T : Type} (sizeof_T : Nat) (Reducer : T → T → T)
    (BaseVal : T) (arrival : Nat → List Nat) (nelem : Nat) (result : Option ElemPtr) :
    ∀ (fuel i : Nat) (cluster cluster' : List (ReductionArrayNode T)),
      Grappa_allreduce_loop sizeof_T Reducer BaseVal arrival nelem result fuel cluster i
        = .ok cluster' →
      ∃ calls, Grappa_allreduce_calls sizeof_T nelem fuel i = some calls := by
  intro fuel
  induction fuel with
  | zero =>
    intro i cluster cluster' h
    simp [Grappa_allreduce_loop] at h
  | succ fuel ih =>
    intro i cluster cluster' h
    unfold Grappa_allreduce_loop at h
    unfold Grappa_allreduce_calls
    simp only at h ⊢
    by_cases hi : i < nelem
    · rw [if_pos hi] at h ⊢
      cases hround : allreduce_one_message_round sizeof_T Reducer BaseVal cluster (arrival i)
          ⟨.array, i⟩ (min (2048 / sizeof_T) (nelem - i)) result with
      | error e =>
        rw [hround] at h
        cases h
      | ok cluster1 =>
        rw [hround] at h
        simp only at h
        obtain ⟨rest, hrest⟩ := ih _ cluster1 cluster' h
        rw [hrest]
        exact ⟨_, rfl⟩
    · rw [if_neg hi]
      exact ⟨_, rfl⟩

/-- With a one-byte element type and `nelem = 2^64 - 1` the loop index, a
multiple of 2048, is always less than `nelem`: the loop never ends. -/
theorem Grappa_allreduce_calls_wrap :
    ∀ (fuel i : Nat), i % 2048 = 0 → i < 18446744073709551616 →
      Grappa_allreduce_calls 1 18446744073709551615 fuel i = none := by
  intro fuel
  induction fuel with
  | zero =>
    intro i _ _
    rfl
  | succ fuel ih =>
    intro i h1 h2
    unfold Grappa_allreduce_calls
    have hd : 2048 / 1 = 2048 := by decide
    simp only [hd]
    rw [if_pos (by omega)]
    rw [ih ((i + 2048) % 18446744073709551616) (by omega) (by omega)]

/-- The number of rounds is the ceiling of `nelem / maxn`. -/
theorem lt_ceil_div_iff (nelem maxn j : Nat) (hm : 1 ≤ maxn) :
    j < (nelem + maxn - 1) / maxn ↔ j * maxn < nelem := by
  rw [Nat.lt_iff_add_one_le, Nat.le_div_iff_mul_le (by omega), Nat.add_mul]
  omega

theorem Grappa_allreduce_calls_from (sizeof_T nelem : Nat)
    (hb : nelem + 2048 / sizeof_T ≤ 18446744073709551616) (hm : 1 ≤ 2048 / sizeof_T) :
    ∀ (k j fuel : Nat), j + k = (nelem + 2048 / sizeof_T - 1) / (2048 / sizeof_T) → k < fuel →
      Grappa_allreduce_calls sizeof_T nelem fuel (j * (2048 / sizeof_T))
        = some ((List.range' j k).map
            (fun j => (j * (2048 / sizeof_T),
              min (2048 / sizeof_T) (nelem - j * (2048 / sizeof_T))))) := by
  intro k
  induction k with
  | zero =>
    intro j fuel hj hf
    obtain ⟨f, rfl⟩ : ∃ f, fuel = f + 1 := ⟨fuel - 1, by omega⟩
    unfold Grappa_allreduce_calls
    simp only
    have hnot : ¬ j * (2048 / sizeof_T) < nelem := by
      rw [← lt_ceil_div_iff nelem _ j hm]
      omega
    rw [if_neg hnot]
    rfl
  | succ k ih =>
    intro j fuel hj hf
    obtain ⟨f, rfl⟩ : ∃ f, fuel = f + 1 := ⟨fuel - 1, by omega⟩
    unfold Grappa_allreduce_calls
    simp only
    have hlt : j * (2048 / sizeof_T) < nelem := by
      rw [← lt_ceil_div_iff nelem _ j hm]
      omega
    rw [if_pos hlt]
    have hnext : (j * (2048 / sizeof_T) + 2048 / sizeof_T) % 18446744073709551616
        = (j + 1) * (2048 / sizeof_T) := by
      rw [Nat.add_mul, Nat.one_mul]
      exact Nat.mod_eq_of_lt (by omega)
    rw [hnext, ih (j + 1) f (by omega) (by omega)]
    rfl

/-- The bound on `nelem` in `Grappa_allreduce_schedule` marks where the
`size_t` loop index stops being the mathematical one.  With a one-byte element
type, so `maxn = 2048`, and the parameter value `nelem = 2^64 - 1`, which is
the length of no array, the index after the round at `2^64 - 2048` is 0 again,
so the schedule has no end under any iteration bound and the loop returns for
no cluster. -/
theorem Grappa_allreduce_index_wraps :
    2048 / 1 = 2048 ∧ (18446744073709549568 : Nat) < 18446744073709551615 ∧
      (18446744073709549568 + 2048 / 1) % 18446744073709551616 = 0 ∧
      (¬ ∃ fuel calls, Grappa_allreduce_calls 1 18446744073709551615 fuel 0 = some calls) ∧
      (¬ ∃ (fuel : Nat) (arrival : Nat → List Nat) (result : Option ElemPtr)
          (cluster cluster' : List (ReductionArrayNode Int)),
        Grappa_allreduce_loop 1 coll_add 0 arrival 18446744073709551615 result fuel cluster 0
          = .ok cluster') := by
  refine ⟨by decide, by decide, by decide, ?_, ?_⟩
  · rintro ⟨fuel, calls, h⟩
    rw [Grappa_allreduce_calls_wrap fuel 0 (by decide) (by decide)] at h
    cases h
  · rintro ⟨fuel, arrival, result, cluster, cluster', h⟩
    obtain ⟨calls, hc⟩ := Grappa_allreduce_loop_returns 1 coll_add 0 arrival _ result fuel 0
      cluster cluster' h
    rw [Grappa_allreduce_calls_wrap fuel 0 (by decide) (by decide)] at hc
    cases hc

/-- The schedule of the vector `Grappa_allreduce( array, nelem, ... )` for an
element size `1 ≤ sizeof(T) ≤ 2048`, with `maxn = floor( 2048 / sizeof(T) )`,
when `nelem + maxn ≤ 2^64`, so that the `size_t` loop index never wraps:
`ceil( nelem / maxn )` rounds, the `j`-th at index `j*maxn` with
`min( maxn, nelem - j*maxn )` elements. -/
theorem Grappa_allreduce_schedule (sizeof_T nelem : Nat) (h1 : 1 ≤ sizeof_T)
    (h2 : sizeof_T ≤ 2048) (hb : nelem + 2048 / sizeof_T ≤ 18446744073709551616) :
    1 ≤ 2048 / sizeof_T ∧
      nelem ≤ (nelem + 2048 / sizeof_T - 1) / (2048 / sizeof_T) * (2048 / sizeof_T) ∧
      (nelem + 2048 / sizeof_T - 1) / (2048 / sizeof_T) * (2048 / sizeof_T)
        < nelem + 2048 / sizeof_T ∧
      Grappa_allreduce_calls sizeof_T nelem (nelem + 1) 0
        = some ((List.range ((nelem + 2048 / sizeof_T - 1) / (2048 / sizeof_T))).map
            (fun j => (j * (2048 / sizeof_T),
              min (2048 / sizeof_T) (nelem - j * (2048 / sizeof_T))))) ∧
      (∀ (T : Type) (Reducer : T → T → T) (BaseVal : T) (arrival : Nat → List Nat)
          (cluster : List (ReductionArrayNode T)) (result : Option ElemPtr),
        Grappa_allreduce_array sizeof_T Reducer BaseVal arrival cluster nelem result
          = Grappa_allreduce_rounds sizeof_T Reducer BaseVal arrival result
              ((List.range ((nelem + 2048 / sizeof_T - 1) / (2048 / sizeof_T))).map
                (fun j => (j * (2048 / sizeof_T),
                  min (2048 / sizeof_T) (nelem - j * (2048 / sizeof_T))))) cluster) ∧
      (∀ j, j < (nelem + 2048 / sizeof_T - 1) / (2048 / sizeof_T) →
        1 ≤ min (2048 / sizeof_T) (nelem - j * (2048 / sizeof_T)) ∧
        min (2048 / sizeof_T) (nelem - j * (2048 / sizeof_T)) ≤ 2048 / sizeof_T ∧
        j * (2048 / sizeof_T) + min (2048 / sizeof_T) (nelem - j * (2048 / sizeof_T))
          = min ((j + 1) * (2048 / sizeof_T)) nelem ∧
        ∀ (T : Type) (node : ReductionArrayNode T) (result : Option ElemPtr),
          allreduce_one_message sizeof_T node ⟨.array, j * (2048 / sizeof_T)⟩
            (min (2048 / sizeof_T) (nelem - j * (2048 / sizeof_T))) result
            ≠ .error .assertion) ∧
      (∀ e, e < nelem →
        ∃ j, j < (nelem + 2048 / sizeof_T - 1) / (2048 / sizeof_T) ∧
          j * (2048 / sizeof_T) ≤ e ∧
          e < j * (2048 / sizeof_T) + min (2048 / sizeof_T) (nelem - j * (2048 / sizeof_T)) ∧
          ∀ j', j' * (2048 / sizeof_T) ≤ e →
            e < j' * (2048 / sizeof_T)
              + min (2048 / sizeof_T) (nelem - j' * (2048 / sizeof_T)) → j' = j) := by
  have hm : 1 ≤ 2048 / sizeof_T := (Nat.le_div_iff_mul_le (by omega)).mpr (by omega)
  have hcalls := Grappa_allreduce_calls_from sizeof_T nelem hb hm
    ((nelem + 2048 / sizeof_T - 1) / (2048 / sizeof_T)) 0 (nelem + 1) (by omega)
    (by
      have : ¬ nelem < (nelem + 2048 / sizeof_T - 1) / (2048 / sizeof_T) := by
        rw [lt_ceil_div_iff nelem _ nelem hm]
        have : nelem * 1 ≤ nelem * (2048 / sizeof_T) := Nat.mul_le_mul_left _ hm
        omega
      omega)
  rw [Nat.zero_mul, ← List.range_eq_range'] at hcalls
  generalize hM : 2048 / sizeof_T = M at hm hcalls hb ⊢
  have hiff := lt_ceil_div_iff nelem M
  generalize hR : (nelem + M - 1) / M = R at hcalls hiff ⊢
  refine ⟨hm, ?_, ?_, hcalls, ?_, ?_, ?_⟩
  · have := (hiff R hm).not.mp (by omega)
    omega
  · by_cases hR0 : R = 0
    · rw [hR0]
      omega
    · have := (hiff (R - 1) hm).mp (by omega)
      have e : R * M = (R - 1) * M + M := by
        conv_lhs => rw [show R = (R - 1) + 1 by omega]
        rw [Nat.add_mul, Nat.one_mul]
      omega
  · intro T Reducer BaseVal arrival cluster result
    unfold Grappa_allreduce_array
    rw [← hM] at hcalls ⊢
    exact Grappa_allreduce_loop_eq_rounds sizeof_T Reducer BaseVal arrival nelem result _ _ _ _
      hcalls
  · intro j hj
    have hlt := (hiff j hm).mp hj
    have e : (j + 1) * M = j * M + M := by rw [Nat.add_mul, Nat.one_mul]
    refine ⟨by omega, by omega, by omega, ?_⟩
    intro T node result
    unfold allreduce_one_message
    simp only
    rw [if_pos (by rw [hM]; omega)]
    unfold ReductionArrayNode.read
    simp only
    by_cases hlen : j * M + min M (nelem - j * M) ≤ node.array.length
    · rw [if_pos hlen]
      simp
    · rw [if_neg hlen]
      simp
  · intro e he
    have hMpos : 0 < M := by omega
    have hdm := Nat.div_add_mod e M
    have hmod := Nat.mod_lt e hMpos
    have hcomm : M * (e / M) = e / M * M := Nat.mul_comm _ _
    refine ⟨e / M, (hiff _ hm).mpr (by omega), by omega, by omega, ?_⟩
    intro j' hj1 hj2
    have hj3 : e < j' * M + M := by omega
    have hle : j' ≤ e / M := (Nat.le_div_iff_mul_le hMpos).mpr hj1
    have hge : e / M < j' + 1 := by
      rw [Nat.div_lt_iff_lt_mul hMpos, Nat.add_mul, Nat.one_mul]
      exact hj3
    omega

/-- C25: chunking of the vector all-reduce.  For every element size
`1 ≤ sizeof(T) ≤ 2048`, with `maxn = floor( 2048 / sizeof(T) )`, and every
`nelem` that is the length of an array, an object of `sizeof(T) * nelem` bytes
and so of at most `PTRDIFF_MAX = 2^63 - 1` bytes, the vector
`Grappa_allreduce( array, nelem, ... )` runs exactly `ceil( nelem / maxn )`
single-message rounds; the `j`-th round covers the input elements
`[j*maxn, min((j+1)*maxn, nelem))`, which it reads from a node whose array
holds `nelem` elements; every round has between 1 and `maxn` elements, so the
`CHECK( nelem <= maxn )` in `allreduce_one_message` does not fail; and every
index below `nelem` lies in the range of exactly one round. -/
theorem Grappa_allreduce_chunking (sizeof_T nelem : Nat) (h1 : 1 ≤ sizeof_T)
    (h2 : sizeof_T ≤ 2048) (hobj : sizeof_T * nelem ≤ 9223372036854775807) :
    1 ≤ 2048 / sizeof_T ∧
      nelem ≤ (nelem + 2048 / sizeof_T - 1) / (2048 / sizeof_T) * (2048 / sizeof_T) ∧
      (nelem + 2048 / sizeof_T - 1) / (2048 / sizeof_T) * (2048 / sizeof_T)
        < nelem + 2048 / sizeof_T ∧
      Grappa_allreduce_calls sizeof_T nelem (nelem + 1) 0
        = some ((List.range ((nelem + 2048 / sizeof_T - 1) / (2048 / sizeof_T))).map
            (fun j => (j * (2048 / sizeof_T),
              min (2048 / sizeof_T) (nelem - j * (2048 / sizeof_T))))) ∧
      (∀ (T : Type) (Reducer : T → T → T) (BaseVal : T) (arrival : Nat → List Nat)
          (cluster : List (ReductionArrayNode T)) (result : Option ElemPtr),
        Grappa_allreduce_array sizeof_T Reducer BaseVal arrival cluster nelem result
          = Grappa_allreduce_rounds sizeof_T Reducer BaseVal arrival result
              ((List.range ((nelem + 2048 / sizeof_T - 1) / (2048 / sizeof_T))).map
                (fun j => (j * (2048 / sizeof_T),
                  min (2048 / sizeof_T) (nelem - j * (2048 / sizeof_T))))) cluster) ∧
      (∀ j, j < (nelem + 2048 / sizeof_T - 1) / (2048 / sizeof_T) →
        1 ≤ min (2048 / sizeof_T) (nelem - j * (2048 / sizeof_T)) ∧
        min (2048 / sizeof_T) (nelem - j * (2048 / sizeof_T)) ≤ 2048 / sizeof_T ∧
        j * (2048 / sizeof_T) + min (2048 / sizeof_T) (nelem - j * (2048 / sizeof_T))
          = min ((j + 1) * (2048 / sizeof_T)) nelem ∧
        (∀ (T : Type) (node : ReductionArrayNode T) (result : Option ElemPtr),
          allreduce_one_message sizeof_T node ⟨.array, j * (2048 / sizeof_T)⟩
            (min (2048 / sizeof_T) (nelem - j * (2048 / sizeof_T))) result
            ≠ .error .assertion) ∧
        ∀ (T : Type) (node : ReductionArrayNode T) (result : Option ElemPtr),
          nelem ≤ node.array.length →
          ∃ node1, allreduce_one_message sizeof_T node ⟨.array, j * (2048 / sizeof_T)⟩
              (min (2048 / sizeof_T) (nelem - j * (2048 / sizeof_T))) result
            = .ok (node1, (node.array.drop (j * (2048 / sizeof_T))).take
                (min (2048 / sizeof_T) (nelem - j * (2048 / sizeof_T))))) ∧
      (∀ e, e < nelem →
        ∃ j, j < (nelem + 2048 / sizeof_T - 1) / (2048 / sizeof_T) ∧
          j * (2048 / sizeof_T) ≤ e ∧
          e < j * (2048 / sizeof_T) + min (2048 / sizeof_T) (nelem - j * (2048 / sizeof_T)) ∧
          ∀ j', j' * (2048 / sizeof_T) ≤ e →
            e < j' * (2048 / sizeof_T)
              + min (2048 / sizeof_T) (nelem - j' * (2048 / sizeof_T)) → j' = j) := by
  have hm : 2048 / sizeof_T ≤ 2048 := Nat.div_le_self _ _
  have hn : nelem * 1 ≤ sizeof_T * nelem := by
    rw [Nat.mul_comm sizeof_T nelem]
    exact Nat.mul_le_mul_left _ h1
  obtain ⟨c1, c2, c3, c4, c5, c6, c7⟩ :=
    Grappa_allreduce_schedule sizeof_T nelem h1 h2 (by omega)
  refine ⟨c1, c2, c3, c4, c5, ?_, c7⟩
  intro j hj
  obtain ⟨d1, d2, d3, d4⟩ := c6 j hj
  refine ⟨d1, d2, d3, d4, ?_⟩
  intro T node result hlen
  unfold allreduce_one_message
  simp only
  rw [if_pos d2]
  unfold ReductionArrayNode.read
  simp only
  rw [if_pos (by rw [d3]; omega)]
  exact ⟨_, rfl⟩

theorem Grappa_allreduce_chunking_witness :
    1 ≤ 2048 / 8 ∧
      257 ≤ (257 + 2048 / 8 - 1) / (2048 / 8) * (2048 / 8) ∧
      (257 + 2048 / 8 - 1) / (2048 / 8) * (2048 / 8)
        < 257 + 2048 / 8 ∧
      Grappa_allreduce_calls 8 257 (257 + 1) 0
        = some ((List.range ((257 + 2048 / 8 - 1) / (2048 / 8))).map
            (fun j => (j * (2048 / 8),
              min (2048 / 8) (257 - j * (2048 / 8))))) ∧
      (∀ (T : Type) (Reducer : T → T → T) (BaseVal : T) (arrival : Nat → List Nat)
          (cluster : List (ReductionArrayNode T)) (result : Option ElemPtr),
        Grappa_allreduce_array 8 Reducer BaseVal arrival cluster 257 result
          = Grappa_allreduce_rounds 8 Reducer BaseVal arrival result
              ((List.range ((257 + 2048 / 8 - 1) / (2048 / 8))).map
                (fun j => (j * (2048 / 8),
                  min (2048 / 8) (257 - j * (2048 / 8))))) cluster) ∧
      (∀ j, j < (257 + 2048 / 8 - 1) / (2048 / 8) →
        1 ≤ min (2048 / 8) (257 - j * (2048 / 8)) ∧
        min (2048 / 8) (257 - j * (2048 / 8)) ≤ 2048 / 8 ∧
        j * (2048 / 8) + min (2048 / 8) (257 - j * (2048 / 8))
          = min ((j + 1) * (2048 / 8)) 257 ∧
        (∀ (T : Type) (node : ReductionArrayNode T) (result : Option ElemPtr),
          allreduce_one_message 8 node ⟨.array, j * (2048 / 8)⟩
            (min (2048 / 8) (257 - j * (2048 / 8))) result
            ≠ .error .assertion) ∧
        ∀ (T : Type) (node : ReductionArrayNode T) (result : Option ElemPtr),
          257 ≤ node.array.length →
          ∃ node1, allreduce_one_message 8 node ⟨.array, j * (2048 / 8)⟩
              (min (2048 / 8) (257 - j * (2048 / 8))) result
            = .ok (node1, (node.array.drop (j * (2048 / 8))).take
                (min (2048 / 8) (257 - j * (2048 / 8))))) ∧
      (∀ e, e < 257 →
        ∃ j, j < (257 + 2048 / 8 - 1) / (2048 / 8) ∧
          j * (2048 / 8) ≤ e ∧
          e < j * (2048 / 8) + min (2048 / 8) (257 - j * (2048 / 8)) ∧
          ∀ j', j' * (2048 / 8) ≤ e →
            e < j' * (2048 / 8)
              + min (2048 / 8) (257 - j' * (2048 / 8)) → j' = j) :=
  Grappa_allreduce_chunking 8 257 (by decide) (by decide) (by decide)

/-! ## Reductions of two value types -/

/-- C26: `reduction_reported_in` is one global, read and written by the handlers
of every value type.  On a home node of a cluster of two nodes with counter 0,
handling one `int64_t` contribution changes the arrival counter that a
`uint64_t` round reads from 0 to 1; the `uint64_t` contribution that arrives
next is then not combined into `BaseVal` but into the stale accumulator, makes
the counter reach `Grappa_nodes()`, and is broadcast as the result, whereas
without the `int64_t` contribution it would have opened a round. -/
theorem reduction_counter_shared_across_types :
    ReductionStatics.idle2.of_U.reduction_reported_in = 0 ∧
      (ReductionStatics.idle2.am_reduce_T coll_add 0 2 5).1.of_U.reduction_reported_in = 1 ∧
      ((ReductionStatics.idle2.am_reduce_T coll_add 0 2 5).1.am_reduce_U coll_add_u64 0 2 3).2
        = [(0, 10), (1, 10)] ∧
      (ReductionStatics.idle2.am_reduce_U coll_add_u64 0 2 3).2 = [] ∧
      (ReductionStatics.idle2.am_reduce_U coll_add_u64 0 2 3).1.reduction_result_U = 3 := by
  decide

/-- C26, amended: handling a contribution of value type `T` on the home node
changes only `Reductions<T>::reduction_result` and the arrival counter
`reduction_reported_in`, which is one global shared by the rounds of all value
types; it leaves the accumulator and the result of any other value type `U`
unchanged, and the counter that a round of `U` reads is the new value of the
shared counter. -/
theorem reduction_accumulator_per_type (T U : Type) (Reducer : T → T → T) (BaseVal : T)
    (nodes : Nat) (s : ReductionStatics T U) (val : T) :
    (s.am_reduce_T Reducer BaseVal nodes val).1.reduction_result_U = s.reduction_result_U ∧
      (s.am_reduce_T Reducer BaseVal nodes val).1.final_reduction_result_U
        = s.final_reduction_result_U ∧
      (s.am_reduce_T Reducer BaseVal nodes val).1.final_reduction_result_T
        = s.final_reduction_result_T ∧
      (s.am_reduce_T Reducer BaseVal nodes val).1.suspended = s.suspended ∧
      (s.am_reduce_T Reducer BaseVal nodes val).1.reduction_result_T
        = Reducer (if s.reduction_reported_in = 0 then BaseVal else s.reduction_result_T) val ∧
      (s.am_reduce_T Reducer BaseVal nodes val).1.reduction_reported_in
        = (if s.reduction_reported_in + 1 = nodes then 0 else s.reduction_reported_in + 1) ∧
      (s.am_reduce_T Reducer BaseVal nodes val).1.of_U.reduction_reported_in
        = (s.am_reduce_T Reducer BaseVal nodes val).1.of_T.reduction_reported_in ∧
      ((s.am_reduce_T Reducer BaseVal nodes val).1.of_T,
          (s.am_reduce_T Reducer BaseVal nodes val).2)
        = am_reduce Reducer BaseVal nodes s.of_T val := by
  obtain ⟨cnt, rT, fT, rU, fU, susp⟩ := s
  unfold ReductionStatics.am_reduce_T am_reduce ReductionStatics.of_T ReductionStatics.of_U
  simp only
  by_cases h0 : cnt = 0
  · subst h0
    by_cases hn : 0 + 1 = nodes
    · simp [hn]
    · simp [hn]
  · by_cases hn : cnt + 1 = nodes
    · simp [h0, hn]
    · simp [h0, hn]
/-! ## What the pieces of `flush` do to the state -/

theorem FlatCombiner.release_effect (fc : FlatCombiner) (w s : Nat) :
    (fc.release w s).freelist = some s ∧ (fc.release w s).current = fc.current ∧
      (fc.release w s).inflight = fc.inflight ∧ (fc.release w s).trace = fc.trace ∧
      (fc.release w s).nflushers = fc.nflushers ∧
      (∀ o, (fc.release w s).workers o = if o = w then .idle else fc.workers o) ∧
      (∀ i, i ≠ s → (fc.release w s).heap i = fc.heap i) ∧
      ((fc.release w s).heap s).sender = none ∧
      ((fc.release w s).heap s).cv = (fc.heap s).cv ∧
      ((fc.release w s).heap s).next =
        (match fc.freelist with
          | none => (fc.heap s).next
          | some f => some f) := by
  obtain ⟨heap, nflushers, current, inflight, freelist, workers, trace⟩ := fc
  cases freelist with
  | none =>
    refine ⟨rfl, rfl, rfl, rfl, rfl, fun o => rfl, ?_, ?_, ?_, ?_⟩
    · intro i hi
      simp [FlatCombiner.release, FlatCombiner.free_flusher, FlatCombiner.store,
        FlatCombiner.setWorker, hi]
    · simp [FlatCombiner.release, FlatCombiner.free_flusher, FlatCombiner.store,
        FlatCombiner.setWorker]
    · simp [FlatCombiner.release, FlatCombiner.free_flusher, FlatCombiner.store,
        FlatCombiner.setWorker]
    · simp [FlatCombiner.release, FlatCombiner.free_flusher, FlatCombiner.store,
        FlatCombiner.setWorker]
  | some f =>
    refine ⟨rfl, rfl, rfl, rfl, rfl, fun o => rfl, ?_, ?_, ?_, ?_⟩
    · intro i hi
      simp [FlatCombiner.release, FlatCombiner.free_flusher, FlatCombiner.store,
        FlatCombiner.setWorker, hi]
    · simp [FlatCombiner.release, FlatCombiner.free_flusher, FlatCombiner.store,
        FlatCombiner.setWorker]
    · simp [FlatCombiner.release, FlatCombiner.free_flusher, FlatCombiner.store,
        FlatCombiner.setWorker]
    · simp [FlatCombiner.release, FlatCombiner.free_flusher, FlatCombiner.store,
        FlatCombiner.setWorker]

theorem FlatCombiner.InvCore.designate_effect {W : Nat} {fc : FlatCombiner}
    {free retired : List Nat} (h : fc.InvCore W free retired) (w1 : Nat) (ws : List Nat)
    (hcv : (fc.heap fc.current).cv = w1 :: ws) :
    ∃ r, fc.designate.current = r ∧ r ≠ fc.current ∧ r ∉ retired ∧
      (∀ i, fc.designate.heap i =
        if i = fc.current then { fc.heap fc.current with sender := some w1, cv := ws }
        else if i = r then ⟨none, none, []⟩ else fc.heap i) ∧
      (∀ o, fc.designate.workers o = if o = w1 then .woken fc.current else fc.workers o) ∧
      fc.designate.inflight = fc.inflight ∧
      fc.designate.trace = fc.trace ++ [.signal fc.current] ∧
      fc.get_waiters fc.current = some w1 := by
  obtain ⟨r, free', hcur, hrc, hrf, hrr, hfree, hheap, hwork, hinf, htr, hchain, hvalid, hrs,
    hrcv, hnd⟩ := h.switch
  have hw1 : fc.workers w1 = .waiting fc.current :=
    h.cv_waiting _ w1 (by rw [hcv]; exact List.mem_cons_self _ _)
  have hZc : fc.switch.heap fc.current = fc.heap fc.current := by
    rw [hheap, if_neg (Ne.symm hrc)]
  have hgw : fc.switch.get_waiters fc.current = some w1 := by
    simp [FlatCombiner.get_waiters, hZc, hcv]
  have hY : fc.designate =
      { ((fc.switch.store fc.current
          { fc.heap fc.current with sender := some w1 }).store fc.current
          { fc.heap fc.current with sender := some w1, cv := ws }).setWorker w1
          (.woken fc.current) with
        trace := fc.switch.trace ++ [.signal fc.current] } := by
    unfold FlatCombiner.designate
    rw [hgw, hZc]
    unfold FlatCombiner.signal
    simp only [FlatCombiner.store, if_true, hcv, hwork, hw1, WorkerState.wake]
  refine ⟨r, by rw [hY]; exact hcur, hrc, hrr, ?_, ?_, by rw [hY]; exact hinf,
    by rw [hY, ← htr], by simp [FlatCombiner.get_waiters, hcv]⟩
  · intro i
    rw [hY]
    simp only [FlatCombiner.store, FlatCombiner.setWorker, hheap]
    by_cases hi : i = fc.current
    · simp [hi]
    · simp [hi]
  · intro o
    rw [hY]
    simp only [FlatCombiner.store, FlatCombiner.setWorker, hwork]

theorem FlatCombiner.flush_pending_reachable (allowFull : FlatCombiner → Prop) :
    FlatCombiner.Reachable 2 allowFull FlatCombiner.flush_pending :=
  FlatCombiner.Reachable.step
    (FlatCombiner.Reachable.step FlatCombiner.Reachable.init
      (FlatCombiner.Step.combine 0 .BLOCKED false (by decide) rfl
        (fun _ hf => absurd hf (by decide))))
    (FlatCombiner.Step.combine 1 .BLOCKED false (by decide) rfl
      (fun _ hf => absurd hf (by decide)))

/-- C27: after worker 0 has started a flush and worker 1 has then filled the
payload, the flushes of slots 0 and 1 are in progress and `inflight` is 2.  When
the flush of slot 0 ends, the active slot has no waiter, so the `else` branch
runs: `inflight` is decremented to 1, not set to 0, and the flush of slot 1 is
still in progress. -/
theorem FlatCombiner.flush_end_leaves_one_in_flight :
    FlatCombiner.Reachable 2 (fun _ => True) FlatCombiner.two_flushes ∧
      FlatCombiner.two_flushes.workers 0 = .syncing 0 ∧
      FlatCombiner.two_flushes.inflight = 2 ∧
      ((FlatCombiner.two_flushes.broadcast 0).heap
        (FlatCombiner.two_flushes.broadcast 0).current).cv = [] ∧
      (FlatCombiner.two_flushes.flush_end 0 0).inflight = 1 ∧
      (FlatCombiner.two_flushes.flush_end 0 0).inflight ≠ 0 ∧
      (FlatCombiner.two_flushes.flush_end 0 0).workers 1 = .syncing 1 ∧
      ((FlatCombiner.two_flushes.flush_end 0 0).heap 0).sender = none ∧
      (FlatCombiner.two_flushes.flush_end 0 0).freelist = some 0 :=
  ⟨FlatCombiner.two_flushes_reachable, by decide, by decide, by decide, by decide, by decide,
    by decide, by decide, by decide⟩

/-- C27, amended: in every reachable state, when `sync()` returns in `flush( s )`
run by worker `w`, the rest of `flush` wakes every waiter of `s` by `broadcast`
and then, if the active slot `n` has at least one waiter (it never has an
assigned flusher), installs a fresh, cleared slot as active, sets the sender of
`n`, which is thereby retired, to the head `w1` of the wait queue of `n`, the
waiter that `get_waiters` returns, wakes exactly that waiter (the others keep
waiting on `n`), and leaves `inflight` unchanged; otherwise it leaves the active
slot alone and decrements `inflight` by one.  In both cases `s` ends with
`sender == nullptr` at the head of the free list and `w` has left `combine`. -/
theorem FlatCombiner.flush_hand_off (W : Nat) (allowFull : FlatCombiner → Prop)
    (fc : FlatCombiner) (w s : Nat) (hW : W < 18446744073709551616)
    (hr : FlatCombiner.Reachable W allowFull fc) (hs : fc.workers w = .syncing s) :
    ((fc.flush_end w s).heap s).sender = none ∧
      (fc.flush_end w s).freelist = some s ∧
      (fc.flush_end w s).workers w = .idle ∧
      (∀ o ∈ (fc.heap s).cv, (fc.flush_end w s).workers o = .woken s) ∧
      ((fc.broadcast s).heap (fc.broadcast s).current).sender = none ∧
      (fc.broadcast s).current = fc.current ∧
      (∀ w1 ws, ((fc.broadcast s).heap (fc.broadcast s).current).cv = w1 :: ws →
        (fc.flush_end w s).current ≠ fc.current ∧ (fc.flush_end w s).current ≠ s ∧
        (fc.flush_end w s).heap (fc.flush_end w s).current = ⟨none, none, []⟩ ∧
        (fc.broadcast s).get_waiters fc.current = some w1 ∧
        ((fc.flush_end w s).heap fc.current).sender = some w1 ∧
        ((fc.flush_end w s).heap fc.current).cv = ws ∧
        fc.workers w1 = .waiting fc.current ∧
        (fc.flush_end w s).workers w1 = .woken fc.current ∧
        (∀ o ∈ ws, (fc.flush_end w s).workers o = .waiting fc.current) ∧
        (∀ o, o ≠ w1 → o ≠ w → o ∉ (fc.heap s).cv →
          (fc.flush_end w s).workers o = fc.workers o) ∧
        (fc.flush_end w s).inflight = fc.inflight ∧
        (fc.flush_end w s).trace = fc.trace ++ [.broadcast s, .signal fc.current]) ∧
      (¬ (((fc.broadcast s).heap (fc.broadcast s).current).cv ≠ [] ∧
          ((fc.broadcast s).heap (fc.broadcast s).current).sender = none) →
        (fc.flush_end w s).inflight + 1 = fc.inflight ∧
        ((fc.flush_end w s).inflight = 0 ↔ fc.inflight = 1) ∧
        (fc.flush_end w s).current = fc.current ∧
        (∀ o, o ≠ w → o ∉ (fc.heap s).cv → (fc.flush_end w s).workers o = fc.workers o) ∧
        (fc.flush_end w s).trace = fc.trace ++ [.broadcast s]) := by
  obtain ⟨free, retired, h⟩ := FlatCombiner.Reachable.invariant hW hr
  have hc := h.toInvCore
  obtain ⟨hb, hbs⟩ := hc.broadcast s
  have hnw : w ∉ (fc.heap s).cv := by
    intro hm
    have := hc.cv_waiting s w hm
    rw [hs] at this
    cases this
  have hsr : s ∈ retired := hc.retired_of_sender (hc.syncing w s hs)
  have hscur : s ≠ fc.current := by
    rintro e
    exact hc.not_retired_of_current (e ▸ hsr)
  have hbcs : ((fc.broadcast s).heap (fc.broadcast s).current).sender = none :=
    hb.sender_none _ hb.not_retired_of_current
  have hbwork : ∀ o, (fc.broadcast s).workers o =
      if o ∈ (fc.heap s).cv then (fc.workers o).wake else fc.workers o := fun o => rfl
  have hbwoken : ∀ o ∈ (fc.heap s).cv, (fc.broadcast s).workers o = .woken s := by
    intro o ho
    rw [hbwork, if_pos ho, hc.cv_waiting s o ho]
    rfl
  have hbtrace : (fc.broadcast s).trace = fc.trace ++ [.broadcast s] := rfl
  have hbcur : (fc.broadcast s).current = fc.current := rfl
  have hbinf : (fc.broadcast s).inflight = fc.inflight := rfl
  rw [FlatCombiner.flush_end_eq]
  by_cases hcond : ((fc.broadcast s).heap (fc.broadcast s).current).cv ≠ [] ∧
      ((fc.broadcast s).heap (fc.broadcast s).current).sender = none
  · rw [if_pos hcond]
    obtain ⟨w1, ws, hcv⟩ := List.exists_cons_of_ne_nil hcond.1
    obtain ⟨r, hdcur, hrc, hrr, hdheap, hdwork, hdinf, hdtrace, hgw⟩ :=
      hb.designate_effect w1 ws hcv
    obtain ⟨e1, e2, e3, e4, _, e6, e7, e8, _, _⟩ :=
      FlatCombiner.release_effect (fc.broadcast s).designate w s
    have hw1 : (fc.broadcast s).workers w1 = .waiting fc.current :=
      hb.cv_waiting (fc.broadcast s).current w1 (by rw [hcv]; exact List.mem_cons_self _ _)
    have hw1s : w1 ∉ (fc.heap s).cv := by
      intro hm
      rw [hbwoken w1 hm] at hw1
      cases hw1
    have hw1' : fc.workers w1 = .waiting fc.current := by
      rw [hbwork, if_neg hw1s] at hw1
      exact hw1
    have hww1 : w1 ≠ w := by
      rintro rfl
      rw [hs] at hw1'
      cases hw1'
    have hrs : r ≠ s := by
      rintro rfl
      exact hrr hsr
    have hndc := hb.cv_nodup (fc.broadcast s).current
    rw [hcv, List.nodup_cons] at hndc
    refine ⟨e8, e1, by rw [e6, if_pos rfl], ?_, hbcs, rfl, ?_, fun hno => absurd hcond hno⟩
    · intro o ho
      have how : o ≠ w := by
        rintro rfl
        exact hnw ho
      have how1 : o ≠ w1 := by
        rintro rfl
        exact hw1s ho
      rw [e6, if_neg how, hdwork, if_neg how1]
      exact hbwoken o ho
    · intro w1' ws' hcv'
      rw [hcv] at hcv'
      obtain ⟨rfl, rfl⟩ := List.cons.inj hcv'
      refine ⟨by rw [e2, hdcur]; exact hrc, by rw [e2, hdcur]; exact hrs, ?_, hgw, ?_, ?_, hw1',
        ?_, ?_, ?_, (e3.trans hdinf).trans hbinf, ?_⟩
      · rw [e2, hdcur, e7 r hrs, hdheap, if_neg hrc, if_pos rfl]
      · rw [e7 _ (Ne.symm hscur), hdheap]
        simp [hbcur]
      · rw [e7 _ (Ne.symm hscur), hdheap]
        simp [hbcur]
      · rw [e6, if_neg hww1, hdwork, if_pos rfl]
        rfl
      · intro o ho
        have hold : (fc.broadcast s).workers o = .waiting fc.current :=
          hb.cv_waiting (fc.broadcast s).current o
            (by rw [hcv]; exact List.mem_cons_of_mem _ ho)
        have how1 : o ≠ w1 := by
          rintro rfl
          exact hndc.1 ho
        have how : o ≠ w := by
          rintro rfl
          have hos : o ∉ (fc.heap s).cv := hnw
          rw [hbwork, if_neg hos, hs] at hold
          cases hold
        rw [e6, if_neg how, hdwork, if_neg how1]
        exact hold
      · intro o ho1 ho2 ho3
        rw [e6, if_neg ho2, hdwork, if_neg ho1, hbwork, if_neg ho3]
      · rw [e4, hdtrace, hbtrace, hbcur]
        simp
  · rw [if_neg hcond]
    obtain ⟨e1, e2, e3, e4, _, e6, e7, e8, _, _⟩ :=
      FlatCombiner.release_effect
        ({ fc.broadcast s with
            inflight := ((fc.broadcast s).inflight + 18446744073709551615)
              % 18446744073709551616 } : FlatCombiner) w s
    have hpos : 0 < retired.length := List.length_pos_of_mem hsr
    have hle := hc.retired_le
    have hinf : (fc.inflight + 18446744073709551615) % 18446744073709551616 + 1
        = fc.inflight := by
      rw [h.count]
      omega
    refine ⟨e8, e1, by rw [e6, if_pos rfl], ?_, hbcs, rfl, ?_, fun _ => ⟨?_, ?_, e2, ?_, ?_⟩⟩
    · intro o ho
      have how : o ≠ w := by
        rintro rfl
        exact hnw ho
      rw [e6, if_neg how]
      exact hbwoken o ho
    · intro w1 ws hcv
      exfalso
      apply hcond
      exact ⟨by rw [hcv]; exact List.cons_ne_nil _ _, hbcs⟩
    · rw [e3]
      exact hinf
    · rw [e3]
      show (fc.inflight + 18446744073709551615) % 18446744073709551616 = 0 ↔ _
      omega
    · intro o ho1 ho2
      rw [e6, if_neg ho1]
      show (fc.broadcast s).workers o = _
      rw [hbwork, if_neg ho2]
    · rw [e4]
      rfl

theorem FlatCombiner.flush_hand_off_witness :
    ((FlatCombiner.flush_pending.flush_end 0 0).heap 0).sender = none ∧
      (FlatCombiner.flush_pending.flush_end 0 0).freelist = some 0 ∧
      (FlatCombiner.flush_pending.flush_end 0 0).workers 0 = .idle ∧
      (∀ o ∈ (FlatCombiner.flush_pending.heap 0).cv,
        (FlatCombiner.flush_pending.flush_end 0 0).workers o = .woken 0) ∧
      ((FlatCombiner.flush_pending.broadcast 0).heap
        (FlatCombiner.flush_pending.broadcast 0).current).sender = none ∧
      (FlatCombiner.flush_pending.broadcast 0).current = FlatCombiner.flush_pending.current ∧
      (∀ w1 ws, ((FlatCombiner.flush_pending.broadcast 0).heap
          (FlatCombiner.flush_pending.broadcast 0).current).cv = w1 :: ws →
        (FlatCombiner.flush_pending.flush_end 0 0).current ≠ FlatCombiner.flush_pending.current ∧
        (FlatCombiner.flush_pending.flush_end 0 0).current ≠ 0 ∧
        (FlatCombiner.flush_pending.flush_end 0 0).heap
          (FlatCombiner.flush_pending.flush_end 0 0).current = ⟨none, none, []⟩ ∧
        (FlatCombiner.flush_pending.broadcast 0).get_waiters FlatCombiner.flush_pending.current
          = some w1 ∧
        ((FlatCombiner.flush_pending.flush_end 0 0).heap
          FlatCombiner.flush_pending.current).sender = some w1 ∧
        ((FlatCombiner.flush_pending.flush_end 0 0).heap
          FlatCombiner.flush_pending.current).cv = ws ∧
        FlatCombiner.flush_pending.workers w1 = .waiting FlatCombiner.flush_pending.current ∧
        (FlatCombiner.flush_pending.flush_end 0 0).workers w1
          = .woken FlatCombiner.flush_pending.current ∧
        (∀ o ∈ ws, (FlatCombiner.flush_pending.flush_end 0 0).workers o
          = .waiting FlatCombiner.flush_pending.current) ∧
        (∀ o, o ≠ w1 → o ≠ 0 → o ∉ (FlatCombiner.flush_pending.heap 0).cv →
          (FlatCombiner.flush_pending.flush_end 0 0).workers o
            = FlatCombiner.flush_pending.workers o) ∧
        (FlatCombiner.flush_pending.flush_end 0 0).inflight
          = FlatCombiner.flush_pending.inflight ∧
        (FlatCombiner.flush_pending.flush_end 0 0).trace
          = FlatCombiner.flush_pending.trace
            ++ [.broadcast 0, .signal FlatCombiner.flush_pending.current]) ∧
      (¬ (((FlatCombiner.flush_pending.broadcast 0).heap
            (FlatCombiner.flush_pending.broadcast 0).current).cv ≠ [] ∧
          ((FlatCombiner.flush_pending.broadcast 0).heap
            (FlatCombiner.flush_pending.broadcast 0).current).sender = none) →
        (FlatCombiner.flush_pending.flush_end 0 0).inflight + 1
          = FlatCombiner.flush_pending.inflight ∧
        ((FlatCombiner.flush_pending.flush_end 0 0).inflight = 0 ↔
          FlatCombiner.flush_pending.inflight = 1) ∧
        (FlatCombiner.flush_pending.flush_end 0 0).current
          = FlatCombiner.flush_pending.current ∧
        (∀ o, o ≠ 0 → o ∉ (FlatCombiner.flush_pending.heap 0).cv →
          (FlatCombiner.flush_pending.flush_end 0 0).workers o
            = FlatCombiner.flush_pending.workers o) ∧
        (FlatCombiner.flush_pending.flush_end 0 0).trace
          = FlatCombiner.flush_pending.trace ++ [.broadcast 0]) :=
  FlatCombiner.flush_hand_off 2 (fun _ => True) FlatCombiner.flush_pending 0 0 (by decide)
    (FlatCombiner.flush_pending_reachable _) (by decide)
/-! ## What one step does to the trace, to the flushes in progress and to the free list -/

theorem WorkerState.wake_eq_syncing (x : WorkerState) (s : Nat) :
    x.wake = .syncing s ↔ x = .syncing s := by
  cases x <;> simp [WorkerState.wake]

theorem FlatCombiner.signal_effect (fc : FlatCombiner) (s : Nat) :
    (fc.signal s).trace = fc.trace ++ [.signal s] ∧
      (∀ o s', (fc.signal s).workers o = .syncing s' ↔ fc.workers o = .syncing s') ∧
      (fc.signal s).freelist = fc.freelist ∧ (fc.signal s).current = fc.current := by
  unfold FlatCombiner.signal
  cases hcv : (fc.heap s).cv with
  | nil => exact ⟨rfl, fun o s' => Iff.rfl, rfl, rfl⟩
  | cons w1 ws =>
    refine ⟨rfl, ?_, rfl, rfl⟩
    intro o s'
    simp only [FlatCombiner.setWorker, FlatCombiner.store]
    by_cases ho : o = w1
    · rw [if_pos ho, ho]
      exact WorkerState.wake_eq_syncing _ _
    · rw [if_neg ho]

theorem FlatCombiner.switch_freelist (fc : FlatCombiner) :
    fc.switch.freelist = fc.freelist ∨
      ∃ r, fc.freelist = some r ∧ fc.switch.freelist = (fc.heap r).next := by
  obtain ⟨heap, nflushers, current, inflight, freelist, workers, trace⟩ := fc
  cases freelist with
  | none => exact Or.inl rfl
  | some r => exact Or.inr ⟨r, rfl, rfl⟩

/-- The three kinds of step: a step that neither starts nor ends a flush, the
start of the flush of a slot `s` by a worker `w`, which calls `sync()`, and the
end of the flush of `s` by `w`, which puts `s` on the free list. -/
theorem FlatCombiner.Inv.step_effect {W : Nat} {fc fc' : FlatCombiner}
    {free retired : List Nat} {allowFull : FlatCombiner → Prop}
    (h : fc.Inv W free retired) (hs : FlatCombiner.Step W allowFull fc fc') :
    ((fc'.trace = fc.trace ∨ (∃ w s, fc'.trace = fc.trace ++ [.wait w s]) ∨
        (∃ s, fc'.trace = fc.trace ++ [.signal s])) ∧
      (∀ o s, fc'.workers o = .syncing s ↔ fc.workers o = .syncing s) ∧
      fc'.freelist = fc.freelist ∧ fc'.current = fc.current) ∨
    (∃ w s, fc'.trace = fc.trace ++ [.sync w s] ∧ (∀ o, fc.workers o ≠ .syncing s) ∧
      (∀ o s', fc'.workers o = .syncing s' ↔ (o = w ∧ s' = s) ∨ fc.workers o = .syncing s') ∧
      fc'.current ≠ s ∧
      (s = fc.current ∨
        ((fc.heap s).sender = some w ∧ fc.workers w = .woken s ∧ fc'.current = fc.current)) ∧
      (fc'.freelist = fc.freelist ∨
        ∃ r, fc.freelist = some r ∧ fc'.freelist = (fc.heap r).next)) ∨
    (∃ w s, fc.workers w = .syncing s ∧ fc' = fc.flush_end w s ∧
      (fc'.trace = fc.trace ++ [.broadcast s] ∨
        fc'.trace = fc.trace ++ [.broadcast s, .signal fc.current]) ∧
      (∀ o s', fc'.workers o = .syncing s' ↔ (o ≠ w ∧ fc.workers o = .syncing s')) ∧
      fc'.freelist = some s) := by
  have hc := h.toInvCore
  have hcur_not_syncing : ∀ o, fc.workers o ≠ .syncing fc.current := by
    intro o ho
    have := hc.syncing o _ ho
    rw [hc.sender_none _ hc.not_retired_of_current] at this
    cases this
  have hretire : ∀ (w k : Nat), fc.workers w = .idle →
      ∃ w' s, (FlatCombiner.flush_begin { fc.switch with inflight := k } w fc.current).trace
          = fc.trace ++ [.sync w' s] ∧ (∀ o, fc.workers o ≠ .syncing s) ∧
        (∀ o s', (FlatCombiner.flush_begin { fc.switch with inflight := k } w
            fc.current).workers o = .syncing s' ↔ (o = w' ∧ s' = s) ∨ fc.workers o = .syncing s') ∧
        (FlatCombiner.flush_begin { fc.switch with inflight := k } w fc.current).current ≠ s ∧
        (s = fc.current ∨
          ((fc.heap s).sender = some w' ∧ fc.workers w' = .woken s ∧
            (FlatCombiner.flush_begin { fc.switch with inflight := k } w fc.current).current
              = fc.current)) ∧
        ((FlatCombiner.flush_begin { fc.switch with inflight := k } w fc.current).freelist
            = fc.freelist ∨
          ∃ r, fc.freelist = some r ∧
            (FlatCombiner.flush_begin { fc.switch with inflight := k } w fc.current).freelist
              = (fc.heap r).next) := by
    intro w k hidle
    obtain ⟨r, free', hcur, hrc, _, _, _, _, hwork, _, htr, _⟩ := hc.switch
    refine ⟨w, fc.current, ?_, hcur_not_syncing, ?_, ?_, Or.inl rfl, fc.switch_freelist⟩
    · show fc.switch.trace ++ _ = _
      rw [htr]
    · intro o s'
      show (if o = w then WorkerState.syncing fc.current else fc.switch.workers o) = _ ↔ _
      rw [hwork]
      by_cases ho : o = w
      · rw [if_pos ho, ho, hidle]
        simp
        exact eq_comm
      · rw [if_neg ho]
        simp [ho]
    · show fc.switch.current ≠ fc.current
      rw [hcur]
      exact hrc
  cases hs with
  | combine w status full hw hidle hallow =>
    cases status with
    | SATISFIED => exact Or.inl ⟨Or.inl rfl, fun o s => Iff.rfl, rfl, rfl⟩
    | MATCHED =>
      obtain ⟨e1, e2, e3, e4⟩ := fc.signal_effect fc.current
      exact Or.inl ⟨Or.inr (Or.inr ⟨_, e1⟩), e2, e3, e4⟩
    | BLOCKED =>
      cases full with
      | true =>
        rw [FlatCombiner.combine_blocked_full hc]
        exact Or.inr (Or.inl (hretire w _ hidle))
      | false =>
        by_cases h0 : fc.inflight = 0
        · rw [FlatCombiner.combine_blocked_first hc w h0]
          exact Or.inr (Or.inl (hretire w _ hidle))
        · rw [FlatCombiner.combine_blocked_wait fc w h0]
          refine Or.inl ⟨Or.inr (Or.inl ⟨w, fc.current, rfl⟩), ?_, rfl, rfl⟩
          intro o s
          show (if o = w then WorkerState.waiting fc.current else fc.workers o) = _ ↔ _
          by_cases ho : o = w
          · rw [if_pos ho, ho, hidle]
            simp
          · rw [if_neg ho]
  | resume w s hw hwoken =>
    unfold FlatCombiner.combine_resume
    by_cases hsend : (fc.heap s).sender = some w
    · have hsr : s ∈ retired := hc.retired_of_sender hsend
      have hsc : s ≠ fc.current := by
        rintro rfl
        exact hc.not_retired_of_current hsr
      simp only [hsend, if_true, hsc, if_false]
      refine Or.inr (Or.inl ⟨w, s, rfl, ?_, ?_, Ne.symm hsc, Or.inr ⟨hsend, hwoken, rfl⟩,
        Or.inl rfl⟩)
      · intro o ho
        have := hc.syncing o s ho
        rw [hsend] at this
        obtain rfl := Option.some.inj this
        rw [hwoken] at ho
        cases ho
      · intro o s'
        show (if o = w then WorkerState.syncing s else fc.workers o) = _ ↔ _
        by_cases ho : o = w
        · rw [if_pos ho, ho, hwoken]
          simp
          exact eq_comm
        · rw [if_neg ho]
          simp [ho]
    · rw [if_neg hsend]
      refine Or.inl ⟨Or.inl rfl, ?_, rfl, rfl⟩
      intro o s'
      show (if o = w then WorkerState.idle else fc.workers o) = _ ↔ _
      by_cases ho : o = w
      · rw [if_pos ho, ho, hwoken]
        simp
      · rw [if_neg ho]
  | sync_return w s hw hsync =>
    refine Or.inr (Or.inr ⟨w, s, hsync, rfl, ?_⟩)
    obtain ⟨hb, hbs⟩ := hc.broadcast s
    have hbwork : ∀ o, (fc.broadcast s).workers o =
        if o ∈ (fc.heap s).cv then (fc.workers o).wake else fc.workers o := fun o => rfl
    have hbsync : ∀ o s', (fc.broadcast s).workers o = .syncing s' ↔
        fc.workers o = .syncing s' := by
      intro o s'
      rw [hbwork]
      by_cases ho : o ∈ (fc.heap s).cv
      · rw [if_pos ho]
        exact WorkerState.wake_eq_syncing _ _
      · rw [if_neg ho]
    have hbtrace : (fc.broadcast s).trace = fc.trace ++ [.broadcast s] := rfl
    rw [FlatCombiner.flush_end_eq]
    by_cases hcond : ((fc.broadcast s).heap (fc.broadcast s).current).cv ≠ [] ∧
        ((fc.broadcast s).heap (fc.broadcast s).current).sender = none
    · rw [if_pos hcond]
      obtain ⟨w1, ws, hcv⟩ := List.exists_cons_of_ne_nil hcond.1
      obtain ⟨r, _, _, _, _, hdwork, _, hdtrace, _⟩ := hb.designate_effect w1 ws hcv
      obtain ⟨e1, _, _, e4, _, e6, _⟩ :=
        FlatCombiner.release_effect (fc.broadcast s).designate w s
      have hw1 : (fc.broadcast s).workers w1 = .waiting (fc.broadcast s).current :=
        hb.cv_waiting (fc.broadcast s).current w1 (by rw [hcv]; exact List.mem_cons_self _ _)
      refine ⟨Or.inr ?_, ?_, e1⟩
      · rw [e4, hdtrace, hbtrace]
        simp
        rfl
      · intro o s'
        rw [e6]
        by_cases ho : o = w
        · rw [if_pos ho]
          simp [ho]
        · rw [if_neg ho, hdwork]
          by_cases ho1 : o = w1
          · rw [if_pos ho1, ← hbsync, ho1, hw1]
            simp
          · rw [if_neg ho1, hbsync]
            simp [ho]
    · rw [if_neg hcond]
      obtain ⟨e1, _, _, e4, _, e6, _⟩ :=
        FlatCombiner.release_effect
          ({ fc.broadcast s with
              inflight := ((fc.broadcast s).inflight + 18446744073709551615)
                % 18446744073709551616 } : FlatCombiner) w s
      refine ⟨Or.inl (by rw [e4]; rfl), ?_, e1⟩
      intro o s'
      rw [e6]
      by_cases ho : o = w
      · rw [if_pos ho]
        simp [ho]
      · rw [if_neg ho]
        show (fc.broadcast s).workers o = _ ↔ _
        rw [hbsync]
        simp [ho]

/-! ## Every flush calls `sync()` once -/

theorem FlatCombiner.counts_of_quiet {fc fc' : FlatCombiner}
    (h : fc'.trace = fc.trace ∨ (∃ w s, fc'.trace = fc.trace ++ [.wait w s]) ∨
      (∃ s, fc'.trace = fc.trace ++ [.signal s])) (s : Nat) :
    fc'.sync_calls s = fc.sync_calls s ∧ fc'.flushes_ended s = fc.flushes_ended s ∧
      fc'.last_sync s = fc.last_sync s := by
  unfold FlatCombiner.sync_calls FlatCombiner.flushes_ended FlatCombiner.last_sync
  rcases h with e | ⟨w, s', e⟩ | ⟨s', e⟩
  · rw [e]
    exact ⟨rfl, rfl, rfl⟩
  · rw [e]
    simp [FCEvent.on_sync, List.countP_append, List.count_append]
  · rw [e]
    simp [FCEvent.on_sync, List.countP_append, List.count_append]

theorem FlatCombiner.counts_of_start {fc fc' : FlatCombiner} {w s0 : Nat}
    (h : fc'.trace = fc.trace ++ [.sync w s0]) (s : Nat) :
    fc'.sync_calls s = fc.sync_calls s + (if s = s0 then 1 else 0) ∧
      fc'.flushes_ended s = fc.flushes_ended s ∧
      fc'.last_sync s = (if s = s0 then some (.sync w s0) else fc.last_sync s) := by
  unfold FlatCombiner.sync_calls FlatCombiner.flushes_ended FlatCombiner.last_sync
  rw [h]
  by_cases hs : s = s0
  · subst hs
    simp [FCEvent.on_sync, List.countP_append, List.count_append]
  · have hs' : ¬ s0 = s := fun e => hs e.symm
    simp [FCEvent.on_sync, List.countP_append, List.count_append, hs, hs']

theorem FlatCombiner.counts_of_end {fc fc' : FlatCombiner} {s0 n : Nat}
    (h : fc'.trace = fc.trace ++ [.broadcast s0] ∨
      fc'.trace = fc.trace ++ [.broadcast s0, .signal n]) (s : Nat) :
    fc'.sync_calls s = fc.sync_calls s ∧
      fc'.flushes_ended s = fc.flushes_ended s + (if s = s0 then 1 else 0) ∧
      fc'.last_sync s = fc.last_sync s := by
  unfold FlatCombiner.sync_calls FlatCombiner.flushes_ended FlatCombiner.last_sync
  by_cases hs : s = s0
  · subst hs
    rcases h with e | e <;> rw [e] <;>
      simp [FCEvent.on_sync, List.countP_append, List.count_append, List.count_cons]
  · have hs' : ¬ s0 = s := fun e => hs e.symm
    rcases h with e | e <;> rw [e] <;>
      simp [FCEvent.on_sync, List.countP_append, List.count_append, List.count_cons, hs, hs']

/-- In every reachable state the calls of `sync()` on a slot outnumber the
completed flushes of the slot by one while a worker is inside `sync()` on it,
and then the last such call is that worker's; otherwise the two numbers are
equal. -/
theorem FlatCombiner.Reachable.sync_counts {W : Nat} (hW : W < 18446744073709551616)
    {allowFull : FlatCombiner → Prop} {fc : FlatCombiner}
    (hr : FlatCombiner.Reachable W allowFull fc) :
    (∀ s, (∀ o, fc.workers o ≠ .syncing s) → fc.sync_calls s = fc.flushes_ended s) ∧
      (∀ s w, fc.workers w = .syncing s →
        fc.sync_calls s = fc.flushes_ended s + 1 ∧ fc.last_sync s = some (.sync w s)) := by
  induction hr with
  | init =>
    refine ⟨fun s _ => rfl, ?_⟩
    intro s w hw
    cases hw
  | @step fc fc' hreach hs ih =>
    obtain ⟨ih1, ih2⟩ := ih
    obtain ⟨free, retired, h⟩ := FlatCombiner.Reachable.invariant hW hreach
    rcases h.step_effect hs with ⟨htr, hwk, _, _⟩ | ⟨w0, s0, htr, hnone, hwk, _, _, _⟩ |
      ⟨w0, s0, hsync, _, htr, hwk, _⟩
    · constructor
      · intro s hno
        obtain ⟨c1, c2, _⟩ := FlatCombiner.counts_of_quiet htr s
        rw [c1, c2]
        exact ih1 s (fun o ho => hno o ((hwk o s).mpr ho))
      · intro s w hw
        obtain ⟨c1, c2, c3⟩ := FlatCombiner.counts_of_quiet htr s
        rw [c1, c2, c3]
        exact ih2 s w ((hwk w s).mp hw)
    · have hw0 : fc'.workers w0 = .syncing s0 := (hwk w0 s0).mpr (Or.inl ⟨rfl, rfl⟩)
      constructor
      · intro s hno
        have hs : s ≠ s0 := by
          rintro rfl
          exact hno w0 hw0
        obtain ⟨c1, c2, _⟩ := FlatCombiner.counts_of_start htr s
        rw [c1, c2, if_neg hs]
        exact ih1 s (fun o ho => hno o ((hwk o s).mpr (Or.inr ho)))
      · intro s w hw
        obtain ⟨c1, c2, c3⟩ := FlatCombiner.counts_of_start htr s
        rcases (hwk w s).mp hw with ⟨rfl, rfl⟩ | hold
        · rw [c1, c2, c3, if_pos rfl, if_pos rfl, ih1 s hnone]
          exact ⟨rfl, rfl⟩
        · have hs : s ≠ s0 := by
            rintro rfl
            exact hnone w hold
          rw [c1, c2, c3, if_neg hs, if_neg hs]
          exact ih2 s w hold
    · constructor
      · intro s hno
        obtain ⟨c1, c2, _⟩ := FlatCombiner.counts_of_end htr s
        by_cases hs : s = s0
        · subst hs
          rw [c1, c2, if_pos rfl]
          exact (ih2 s w0 hsync).1
        · rw [c1, c2, if_neg hs]
          apply ih1 s
          intro o ho
          have how : o ≠ w0 := by
            rintro rfl
            rw [hsync] at ho
            cases ho
            exact hs rfl
          exact hno o ((hwk o s).mpr ⟨how, ho⟩)
      · intro s w hw
        obtain ⟨c1, c2, c3⟩ := FlatCombiner.counts_of_end htr s
        obtain ⟨hww, hold⟩ := (hwk w s).mp hw
        have hs : s ≠ s0 := by
          rintro rfl
          have e1 := h.syncing w s hold
          have e2 := h.syncing w0 s hsync
          rw [e1] at e2
          exact hww (Option.some.inj e2)
        rw [c1, c2, c3, if_neg hs]
        exact ih2 s w hold

/-- C21: along every cooperative interleaving of `combine` calls, in every
reachable state and for every slot `s`: the number of calls of `sync()` on `s`
equals the number of completed flushes of `s` (each of which ends with
`free_flusher( s )`) while no worker is inside `sync()` on `s`, and exceeds it
by one while a worker is; then that worker is the only one, made the last call,
is the `sender` of `s`, and `s` is not the active slot.  A step either changes
neither number, or is the one call of `sync()` on a slot on which no flush is in
progress and which is the active slot up to this step or has been retired with
this worker as its designated sender, or is the end of the flush of `s` by the
worker inside `sync()` on it, the only kind of step that puts a slot on the free
list.  So between the step in which a slot stops being active and the step that
returns it to the free list `sync()` is called on it exactly once, by one
worker. -/
theorem FlatCombiner.retired_slot_synced_once (W : Nat) (allowFull : FlatCombiner → Prop)
    (fc : FlatCombiner) (hW : W < 18446744073709551616)
    (hr : FlatCombiner.Reachable W allowFull fc) :
    (∀ s, (∀ o, fc.workers o ≠ .syncing s) → fc.sync_calls s = fc.flushes_ended s) ∧
      (∀ s w, fc.workers w = .syncing s →
        fc.sync_calls s = fc.flushes_ended s + 1 ∧ fc.last_sync s = some (.sync w s) ∧
        (fc.heap s).sender = some w ∧ s ≠ fc.current ∧
        (∀ o, fc.workers o = .syncing s → o = w)) ∧
      (∀ o, fc.workers o ≠ .syncing fc.current) ∧
      (∃ free, FreeChain fc.heap fc.freelist free ∧
        ∀ s ∈ free, ∀ o, fc.workers o ≠ .syncing s) ∧
      (∀ fc', FlatCombiner.Step W allowFull fc fc' →
        ((∀ s, fc'.sync_calls s = fc.sync_calls s ∧ fc'.flushes_ended s = fc.flushes_ended s) ∧
          fc'.freelist = fc.freelist ∧ fc'.current = fc.current) ∨
        (∃ w s, fc'.workers w = .syncing s ∧ (∀ o, fc.workers o ≠ .syncing s) ∧
          fc'.current ≠ s ∧
          (s = fc.current ∨ ((fc.heap s).sender = some w ∧ fc.workers w = .woken s)) ∧
          fc'.sync_calls s = fc.sync_calls s + 1 ∧
          (∀ s', s' ≠ s → fc'.sync_calls s' = fc.sync_calls s') ∧
          (∀ s', fc'.flushes_ended s' = fc.flushes_ended s') ∧
          (fc'.freelist = fc.freelist ∨
            ∃ r, fc.freelist = some r ∧ fc'.freelist = (fc.heap r).next)) ∨
        (∃ w s, fc.workers w = .syncing s ∧ fc' = fc.flush_end w s ∧
          fc'.freelist = some s ∧ (∀ o, fc'.workers o ≠ .syncing s) ∧
          fc'.flushes_ended s = fc.flushes_ended s + 1 ∧
          (∀ s', s' ≠ s → fc'.flushes_ended s' = fc.flushes_ended s') ∧
          (∀ s', fc'.sync_calls s' = fc.sync_calls s'))) := by
  obtain ⟨free, retired, h⟩ := FlatCombiner.Reachable.invariant hW hr
  obtain ⟨c1, c2⟩ := FlatCombiner.Reachable.sync_counts hW hr
  have hc := h.toInvCore
  have hnot : ∀ s, s ∉ retired → ∀ o, fc.workers o ≠ .syncing s := by
    intro s hs o ho
    have := hc.syncing o s ho
    rw [hc.sender_none s hs] at this
    cases this
  have huniq : ∀ s w o, fc.workers w = .syncing s → fc.workers o = .syncing s → o = w := by
    intro s w o hw ho
    have e1 := hc.syncing w s hw
    have e2 := hc.syncing o s ho
    rw [e1] at e2
    exact (Option.some.inj e2).symm
  refine ⟨c1, ?_, hnot _ hc.not_retired_of_current, ⟨free, hc.chain, ?_⟩, ?_⟩
  · intro s w hw
    obtain ⟨d1, d2⟩ := c2 s w hw
    refine ⟨d1, d2, hc.syncing w s hw, ?_, fun o ho => huniq s w o hw ho⟩
    rintro rfl
    exact hnot _ hc.not_retired_of_current w hw
  · intro s hs
    apply hnot
    intro hsr
    have hnd := hc.nodup
    rw [List.nodup_cons, List.nodup_append] at hnd
    exact hnd.2.2.2 hs hsr
  · intro fc' hstep
    rcases h.step_effect hstep with ⟨htr, _, hfl, hcur⟩ |
      ⟨w0, s0, htr, hnone, hwk, hcur, hwhy, hfl⟩ | ⟨w0, s0, hsync, hfe, htr, hwk, hfl⟩
    · refine Or.inl ⟨fun s => ?_, hfl, hcur⟩
      obtain ⟨e1, e2, _⟩ := FlatCombiner.counts_of_quiet htr s
      exact ⟨e1, e2⟩
    · refine Or.inr (Or.inl ⟨w0, s0, (hwk w0 s0).mpr (Or.inl ⟨rfl, rfl⟩), hnone, hcur, ?_, ?_, ?_,
        ?_, hfl⟩)
      · rcases hwhy with e | ⟨e1, e2, _⟩
        · exact Or.inl e
        · exact Or.inr ⟨e1, e2⟩
      · rw [(FlatCombiner.counts_of_start htr s0).1, if_pos rfl]
      · intro s' hs'
        rw [(FlatCombiner.counts_of_start htr s').1, if_neg hs']
        rfl
      · intro s'
        exact (FlatCombiner.counts_of_start htr s').2.1
    · refine Or.inr (Or.inr ⟨w0, s0, hsync, hfe, hfl, ?_, ?_, ?_, ?_⟩)
      · intro o ho
        obtain ⟨how, hold⟩ := (hwk o s0).mp ho
        exact how (huniq s0 w0 o hsync hold)
      · rw [(FlatCombiner.counts_of_end htr s0).2.1, if_pos rfl]
      · intro s' hs'
        rw [(FlatCombiner.counts_of_end htr s').2.1, if_neg hs']
        rfl
      · intro s'
        exact (FlatCombiner.counts_of_end htr s').1

theorem FlatCombiner.retired_slot_synced_once_witness :
    (∀ s, (∀ o, FlatCombiner.flush_pending.workers o ≠ .syncing s) →
        FlatCombiner.flush_pending.sync_calls s = FlatCombiner.flush_pending.flushes_ended s) ∧
      (∀ s w, FlatCombiner.flush_pending.workers w = .syncing s →
        FlatCombiner.flush_pending.sync_calls s
          = FlatCombiner.flush_pending.flushes_ended s + 1 ∧
        FlatCombiner.flush_pending.last_sync s = some (.sync w s) ∧
        (FlatCombiner.flush_pending.heap s).sender = some w ∧
        s ≠ FlatCombiner.flush_pending.current ∧
        (∀ o, FlatCombiner.flush_pending.workers o = .syncing s → o = w)) ∧
      (∀ o, FlatCombiner.flush_pending.workers o
        ≠ .syncing FlatCombiner.flush_pending.current) ∧
      (∃ free, FreeChain FlatCombiner.flush_pending.heap FlatCombiner.flush_pending.freelist
          free ∧
        ∀ s ∈ free, ∀ o, FlatCombiner.flush_pending.workers o ≠ .syncing s) ∧
      (∀ fc', FlatCombiner.Step 2 (fun _ => True) FlatCombiner.flush_pending fc' →
        ((∀ s, fc'.sync_calls s = FlatCombiner.flush_pending.sync_calls s ∧
            fc'.flushes_ended s = FlatCombiner.flush_pending.flushes_ended s) ∧
          fc'.freelist = FlatCombiner.flush_pending.freelist ∧
          fc'.current = FlatCombiner.flush_pending.current) ∨
        (∃ w s, fc'.workers w = .syncing s ∧
          (∀ o, FlatCombiner.flush_pending.workers o ≠ .syncing s) ∧
          fc'.current ≠ s ∧
          (s = FlatCombiner.flush_pending.current ∨
            ((FlatCombiner.flush_pending.heap s).sender = some w ∧
              FlatCombiner.flush_pending.workers w = .woken s)) ∧
          fc'.sync_calls s = FlatCombiner.flush_pending.sync_calls s + 1 ∧
          (∀ s', s' ≠ s → fc'.sync_calls s' = FlatCombiner.flush_pending.sync_calls s') ∧
          (∀ s', fc'.flushes_ended s' = FlatCombiner.flush_pending.flushes_ended s') ∧
          (fc'.freelist = FlatCombiner.flush_pending.freelist ∨
            ∃ r, FlatCombiner.flush_pending.freelist = some r ∧
              fc'.freelist = (FlatCombiner.flush_pending.heap r).next)) ∨
        (∃ w s, FlatCombiner.flush_pending.workers w = .syncing s ∧
          fc' = FlatCombiner.flush_pending.flush_end w s ∧
          fc'.freelist = some s ∧ (∀ o, fc'.workers o ≠ .syncing s) ∧
          fc'.flushes_ended s = FlatCombiner.flush_pending.flushes_ended s + 1 ∧
          (∀ s', s' ≠ s →
            fc'.flushes_ended s' = FlatCombiner.flush_pending.flushes_ended s') ∧
          (∀ s', fc'.sync_calls s' = FlatCombiner.flush_pending.sync_calls s'))) :=
  FlatCombiner.retired_slot_synced_once 2 (fun _ => True) FlatCombiner.flush_pending (by decide)
    (FlatCombiner.flush_pending_reachable _)
/-! ## Independence of successive reduction rounds -/

/-- The outcome of `am_reduce_array` depends on the statics only through the
arrival counter and, when the counter is not 0, the accumulator. -/
theorem am_reduce_array_indep {T : Type} (Reducer : T → T → T) (BaseVal : T) (nodes : Nat)
    (home home' : ReductionArrayNode T) (val : List T)
    (hc : home.reduction_reported_in = home'.reduction_reported_in)
    (hr : home.reduction_reported_in ≠ 0 → home.reduction_result = home'.reduction_result) :
    (∀ h1 m, am_reduce_array Reducer BaseVal nodes home val = .ok (h1, m) →
      ∃ h1', am_reduce_array Reducer BaseVal nodes home' val = .ok (h1', m) ∧
        h1'.reduction_reported_in = h1.reduction_reported_in ∧
        h1'.reduction_result = h1.reduction_result) ∧
    (∀ e, am_reduce_array Reducer BaseVal nodes home val = .error e →
      am_reduce_array Reducer BaseVal nodes home' val = .error e) := by
  unfold am_reduce_array
  by_cases h0 : home.reduction_reported_in = 0
  · have h0' : home'.reduction_reported_in = 0 := by rw [← hc]; exact h0
    simp only [h0, h0', if_true, List.length_replicate, lt_irrefl, if_false]
    by_cases hn : 0 + 1 = nodes
    · simp only [hn, if_true]
      refine ⟨?_, fun e h => by cases h⟩
      intro h1 m h
      simp only [Except.ok.injEq, Prod.mk.injEq] at h
      obtain ⟨e1, e2⟩ := h
      exact ⟨_, by rw [← e2], by rw [← e1], by rw [← e1]⟩
    · simp only [hn, if_false]
      refine ⟨?_, fun e h => by cases h⟩
      intro h1 m h
      simp only [Except.ok.injEq, Prod.mk.injEq] at h
      obtain ⟨e1, e2⟩ := h
      exact ⟨_, by rw [← e2], by rw [← e1], by rw [← e1]⟩
  · have h0' : ¬ home'.reduction_reported_in = 0 := by rw [← hc]; exact h0
    have hrr := hr h0
    simp only [h0, h0', if_false, ← hrr, ← hc]
    by_cases hl : home.reduction_result.length < val.length
    · simp only [hl, if_true]
      refine ⟨fun h1 m h => (by cases h), fun e h => h⟩
    · simp only [hl, if_false]
      by_cases hn : home.reduction_reported_in + 1 = nodes
      · simp only [hn, if_true]
        refine ⟨?_, fun e h => by cases h⟩
        intro h1 m h
        simp only [Except.ok.injEq, Prod.mk.injEq] at h
        obtain ⟨e1, e2⟩ := h
        exact ⟨_, by rw [← e2], by rw [← e1], by rw [← e1]⟩
      · simp only [hn, if_false]
        refine ⟨?_, fun e h => by cases h⟩
        intro h1 m h
        simp only [Except.ok.injEq, Prod.mk.injEq] at h
        obtain ⟨e1, e2⟩ := h
        exact ⟨_, by rw [← e2], by rw [← e1], by rw [← e1]⟩

theorem home_handle_array_indep {T : Type} (Reducer : T → T → T) (BaseVal : T) (nodes : Nat) :
    ∀ (vals : List (List T)) (home home' : ReductionArrayNode T),
      home.reduction_reported_in = home'.reduction_reported_in →
      (home.reduction_reported_in ≠ 0 → home.reduction_result = home'.reduction_result) →
      (home_handle_array Reducer BaseVal nodes home vals).map Prod.snd =
        (home_handle_array Reducer BaseVal nodes home' vals).map Prod.snd := by
  intro vals
  induction vals with
  | nil =>
    intro home home' _ _
    rfl
  | cons val rest ih =>
    intro home home' hc hr
    obtain ⟨hok, herr⟩ := am_reduce_array_indep Reducer BaseVal nodes home home' val hc hr
    unfold home_handle_array
    cases h : am_reduce_array Reducer BaseVal nodes home val with
    | error e =>
      rw [herr e h]
    | ok r =>
      obtain ⟨h1, m⟩ := r
      obtain ⟨h1', e1, e2, e3⟩ := hok h1 m h
      rw [e1]
      simp only
      have := ih h1 h1' e2.symm (fun _ => e3.symm)
      cases h2 : home_handle_array Reducer BaseVal nodes h1 rest with
      | error e =>
        rw [h2] at this
        cases h3 : home_handle_array Reducer BaseVal nodes h1' rest with
        | error e' =>
          rw [h3] at this
          simp only [Except.map] at this ⊢
          exact this
        | ok r' =>
          rw [h3] at this
          simp [Except.map] at this
      | ok r2 =>
        rw [h2] at this
        cases h3 : home_handle_array Reducer BaseVal nodes h1' rest with
        | error e' =>
          rw [h3] at this
          simp [Except.map] at this
        | ok r' =>
          rw [h3] at this
          simp only [Except.map, Except.ok.injEq] at this ⊢
          rw [this]

/-- From arrival counter 0 a complete round of `am_reduce` broadcasts the fold of
its own contributions over `BaseVal`, whatever the accumulator holds. -/
theorem home_handle_round {T : Type} (Reducer : T → T → T) (BaseVal : T) (N : Nat)
    (home : ReductionNode T) (vals : List T) (hN : 1 ≤ N)
    (h0 : home.reduction_reported_in = 0) (hlen : vals.length = N) :
    home_handle Reducer BaseVal N home vals =
      ({ home with reduction_reported_in := 0,
                   reduction_result := vals.foldl Reducer BaseVal },
        (List.range N).map (fun n => (n, vals.foldl Reducer BaseVal))) := by
  have hne : vals ≠ [] := by
    intro h
    rw [h] at hlen
    simp at hlen
    omega
  rw [home_handle_spec Reducer BaseVal N vals home hne (by rw [h0, hlen]; omega), if_pos h0]

/-- From arrival counter 0 a complete round of `am_reduce_noinit` broadcasts the
fold of its later contributions over its first one, whatever the accumulator
holds. -/
theorem home_handle_noinit_round {T : Type} (Reducer : T → T → T) (N : Nat)
    (home : ReductionNode T) (v : T) (rest : List T)
    (h0 : home.reduction_reported_in = 0) (hlen : (v :: rest).length = N) :
    home_handle_with (am_reduce_noinit Reducer N) home (v :: rest) =
      ({ home with reduction_reported_in := 0, reduction_result := rest.foldl Reducer v },
        (List.range N).map (fun n => (n, rest.foldl Reducer v))) := by
  rw [home_handle_noinit_spec Reducer N rest v home
    (by rw [h0]; simp only [List.length_cons] at hlen; omega), if_pos h0]

/-- C31: when a complete round of `N ≥ 1` arrivals, begun at arrival counter 0,
is followed by a second complete round of the same handler, the counter is 0
between the rounds and what the second round broadcasts is what the same
contributions produce from any state with counter 0, the state after start-up
included, whatever the accumulator holds: for `am_reduce` the fold of the second
round's contributions over `BaseVal`, for `am_reduce_noinit` the fold of its
later contributions over its first one, and for `am_reduce_array` the same
messages or the same failure as from the state after start-up. -/
theorem reduction_rounds_independent :
    (∀ (T : Type) (Reducer : T → T → T) (BaseVal : T) (N : Nat) (home : ReductionNode T)
        (first second : List T),
      1 ≤ N → home.reduction_reported_in = 0 → first.length = N → second.length = N →
      (home_handle Reducer BaseVal N home first).1.reduction_reported_in = 0 ∧
      (home_handle Reducer BaseVal N (home_handle Reducer BaseVal N home first).1 second).2
        = (List.range N).map (fun n => (n, second.foldl Reducer BaseVal)) ∧
      (home_handle Reducer BaseVal N home (first ++ second)).2
        = (List.range N).map (fun n => (n, first.foldl Reducer BaseVal))
          ++ (List.range N).map (fun n => (n, second.foldl Reducer BaseVal)) ∧
      ∀ fresh : ReductionNode T, fresh.reduction_reported_in = 0 →
        (home_handle Reducer BaseVal N fresh second).2
          = (home_handle Reducer BaseVal N
              (home_handle Reducer BaseVal N home first).1 second).2) ∧
    (∀ (T : Type) (Reducer : T → T → T) (N : Nat) (home : ReductionNode T)
        (v1 : T) (rest1 : List T) (v2 : T) (rest2 : List T),
      home.reduction_reported_in = 0 → (v1 :: rest1).length = N → (v2 :: rest2).length = N →
      (home_handle_with (am_reduce_noinit Reducer N) home
        (v1 :: rest1)).1.reduction_reported_in = 0 ∧
      (home_handle_with (am_reduce_noinit Reducer N)
          (home_handle_with (am_reduce_noinit Reducer N) home (v1 :: rest1)).1
          (v2 :: rest2)).2
        = (List.range N).map (fun n => (n, rest2.foldl Reducer v2)) ∧
      (home_handle_with (am_reduce_noinit Reducer N) home
          ((v1 :: rest1) ++ (v2 :: rest2))).2
        = (List.range N).map (fun n => (n, rest1.foldl Reducer v1))
          ++ (List.range N).map (fun n => (n, rest2.foldl Reducer v2)) ∧
      ∀ fresh : ReductionNode T, fresh.reduction_reported_in = 0 →
        (home_handle_with (am_reduce_noinit Reducer N) fresh (v2 :: rest2)).2
          = (home_handle_with (am_reduce_noinit Reducer N)
              (home_handle_with (am_reduce_noinit Reducer N) home (v1 :: rest1)).1
              (v2 :: rest2)).2) ∧
    (∀ (T : Type) (Reducer : T → T → T) (BaseVal : T) (N : Nat)
        (home home1 : ReductionArrayNode T) (msgs1 : List (Nat × List T))
        (first second : List (List T)),
      1 ≤ N → home.reduction_reported_in = 0 → first.length = N →
      home_handle_array Reducer BaseVal N home first = .ok (home1, msgs1) →
      home1.reduction_reported_in = 0 ∧
      ∀ fresh : ReductionArrayNode T, fresh.reduction_reported_in = 0 →
        (home_handle_array Reducer BaseVal N home1 second).map Prod.snd
          = (home_handle_array Reducer BaseVal N fresh second).map Prod.snd) := by
  refine ⟨?_, ?_, ?_⟩
  · intro T Reducer BaseVal N home first second hN h0 h1 h2
    have e1 := home_handle_round Reducer BaseVal N home first hN h0 h1
    have e2 := home_handle_round Reducer BaseVal N
      ({ home with reduction_reported_in := 0,
                   reduction_result := first.foldl Reducer BaseVal }) second hN rfl h2
    refine ⟨by rw [e1], by rw [e1, e2], ?_, ?_⟩
    · rw [home_handle_eq_with, home_handle_with_append, ← home_handle_eq_with,
        ← home_handle_eq_with, e1, e2]
    · intro fresh hf
      rw [e1, e2, home_handle_round Reducer BaseVal N fresh second hN hf h2]
  · intro T Reducer N home v1 rest1 v2 rest2 h0 h1 h2
    have e1 := home_handle_noinit_round Reducer N home v1 rest1 h0 h1
    have e2 := home_handle_noinit_round Reducer N
      ({ home with reduction_reported_in := 0,
                   reduction_result := rest1.foldl Reducer v1 }) v2 rest2 rfl h2
    refine ⟨by rw [e1], by rw [e1, e2], ?_, ?_⟩
    · rw [home_handle_with_append, e1, e2]
    · intro fresh hf
      rw [e1, e2, home_handle_noinit_round Reducer N fresh v2 rest2 hf h2]
  · intro T Reducer BaseVal N home home1 msgs1 first second hN h0 h1 hok
    have hc := home_handle_array_counter Reducer BaseVal N first home home1 msgs1
      (by rw [h0]; omega) hok
    have hc0 : home1.reduction_reported_in = 0 := by
      rw [hc, h0, h1]
      simp
    refine ⟨hc0, ?_⟩
    intro fresh hf
    exact home_handle_array_indep Reducer BaseVal N second home1 fresh (by rw [hc0, hf])
      (fun hne => absurd hc0 hne)

theorem reduction_rounds_independent_witness :
    (home_handle coll_add 0 2 (home_handle coll_add 0 2 ⟨0, 0, 0, false⟩ [1, 2]).1 [10, 20]).2
      = (List.range 2).map (fun n => (n, [10, 20].foldl coll_add 0)) ∧
    home_handle_array coll_add 0 2 ⟨0, [], none, [], [], false⟩ [[1, 2], [3, 4]]
      = .ok (⟨0, [], none, [], [], false⟩, [(0, [4, 6]), (1, [4, 6])]) ∧
    (home_handle_array coll_add 0 2 ⟨0, [], none, [], [], false⟩
        [[10, 20], [30, 40]]).map Prod.snd
      = (home_handle_array coll_add 0 2 ⟨0, [7], none, [], [], false⟩
        [[10, 20], [30, 40]]).map Prod.snd :=
  ⟨(reduction_rounds_independent.1 Int coll_add 0 2 ⟨0, 0, 0, false⟩ [1, 2] [10, 20]
      (by decide) rfl rfl rfl).2.1,
    rfl,
    (reduction_rounds_independent.2.2 Int coll_add 0 2 ⟨0, [], none, [], [], false⟩
      ⟨0, [], none, [], [], false⟩ [(0, [4, 6]), (1, [4, 6])] [[1, 2], [3, 4]]
      [[10, 20], [30, 40]] (by decide) rfl rfl rfl).2 ⟨0, [7], none, [], [], false⟩ rfl⟩
/-! ## Termination of the allocator's loops -/

theorem Allocator.ctor_loop_mono :
    ∀ (fuel : Nat) (st : Allocator) (size offset : Int) (r : Except Fault Allocator),
      Allocator.ctor_loop fuel st size offset = r → r ≠ .error .fuel →
      Allocator.ctor_loop (fuel + 1) st size offset = r := by
  intro fuel
  induction fuel with
  | zero =>
    intro st size offset r h hne
    exact absurd h.symm hne
  | succ fuel ih =>
    intro st size offset r h hne
    unfold Allocator.ctor_loop at h ⊢
    by_cases hs : size > 0
    · rw [if_pos hs] at h ⊢
      cases hbody : st.ctor_loop_body size offset with
      | error e =>
        rw [hbody] at h
        exact h
      | ok x =>
        obtain ⟨st2, size2, offset2⟩ := x
        rw [hbody] at h
        exact ih st2 size2 offset2 r h hne
    · rw [if_neg hs] at h ⊢
      exact h

theorem Allocator.malloc_loop_mono :
    ∀ (fuel : Nat) (A : Int) (st : Allocator) (cmit cs : Int)
      (r : Except Fault (Allocator × Int)),
      Allocator.malloc_loop fuel A st cmit cs = r → r ≠ .error .fuel →
      Allocator.malloc_loop (fuel + 1) A st cmit cs = r := by
  intro fuel
  induction fuel with
  | zero =>
    intro A st cmit cs r h hne
    exact absurd h.symm hne
  | succ fuel ih =>
    intro A st cmit cs r h hne
    unfold Allocator.malloc_loop at h ⊢
    by_cases hs : cs > A
    · rw [if_pos hs] at h ⊢
      cases hbody : st.malloc_loop_body cmit cs with
      | error e =>
        rw [hbody] at h
        exact h
      | ok x =>
        obtain ⟨st5, cmit1, cs1⟩ := x
        rw [hbody] at h
        exact ih A st5 cmit1 cs1 r h hne
    · rw [if_neg hs] at h ⊢
      exact h

theorem Allocator.try_merge_mono :
    ∀ (fuel : Nat) (st : Allocator) (cmit : Int) (r : Except Fault Allocator),
      Allocator.try_merge_buddy_recursive fuel st cmit = r → r ≠ .error .fuel →
      Allocator.try_merge_buddy_recursive (fuel + 1) st cmit = r := by
  intro fuel
  induction fuel with
  | zero =>
    intro st cmit r h hne
    exact absurd h.symm hne
  | succ fuel ih =>
    intro st cmit r h hne
    unfold Allocator.try_merge_buddy_recursive at h ⊢
    cases hf : ChunkMap.find st.chunks_ cmit with
    | none =>
      rw [hf] at h
      exact h
    | some c =>
      rw [hf] at h
      simp only at h ⊢
      cases hfb : ChunkMap.find st.chunks_ (wrap64 (Int.xor c.address (c.size : Int))) with
      | none =>
        rw [hfb] at h
        exact h
      | some b =>
        rw [hfb] at h
        simp only at h ⊢
        by_cases hcond : b.size = c.size ∧ b.in_use = false
        · rw [if_pos hcond] at h ⊢
          cases hm : st.merge_with_buddy c.address
              (wrap64 (Int.xor c.address (c.size : Int))) with
          | error e =>
            rw [hm] at h
            exact h
          | ok x =>
            obtain ⟨st5, lo⟩ := x
            rw [hm] at h
            exact ih st5 lo r h hne
        · rw [if_neg hcond] at h ⊢
          exact h

theorem Allocator.ctor_loop_stable (st : Allocator) (size offset : Int) (st' : Allocator)
    (f : Nat) (h : Allocator.ctor_loop f st size offset = .ok st') :
    ∀ fuel, f ≤ fuel → Allocator.ctor_loop fuel st size offset = .ok st' := by
  intro fuel hle
  obtain ⟨k, rfl⟩ : ∃ k, fuel = f + k := ⟨fuel - f, by omega⟩
  induction k with
  | zero => exact h
  | succ k ih =>
    exact Allocator.ctor_loop_mono (f + k) st size offset _ (ih (by omega))
      (fun e => by cases e)

theorem Allocator.malloc_loop_stable (A : Int) (st : Allocator) (cmit cs : Int) (f : Nat)
    (h : Allocator.malloc_loop f A st cmit cs ≠ .error .fuel) :
    ∀ fuel, f ≤ fuel →
      Allocator.malloc_loop fuel A st cmit cs = Allocator.malloc_loop f A st cmit cs := by
  intro fuel hle
  obtain ⟨k, rfl⟩ : ∃ k, fuel = f + k := ⟨fuel - f, by omega⟩
  induction k with
  | zero => rfl
  | succ k ih =>
    exact Allocator.malloc_loop_mono (f + k) A st cmit cs _ (ih (by omega)) h

theorem Allocator.try_merge_stable (st : Allocator) (cmit : Int) (st' : Allocator) (f : Nat)
    (h : Allocator.try_merge_buddy_recursive f st cmit = .ok st') :
    ∀ fuel, f ≤ fuel → Allocator.try_merge_buddy_recursive fuel st cmit = .ok st' := by
  intro fuel hle
  obtain ⟨k, rfl⟩ : ∃ k, fuel = f + k := ⟨fuel - f, by omega⟩
  induction k with
  | zero => exact h
  | succ k ih =>
    exact Allocator.try_merge_mono (f + k) st cmit _ (ih (by omega)) (fun e => by cases e)
theorem Allocator.malloc_loop_body_unit {n : Int} {st : Allocator} {cmit : Int}
    {c : AllocatorChunk} (hwf : st.WF n) (hf : ChunkMap.find st.chunks_ cmit = some c)
    (hfree : c.in_use = false) (h1 : c.size = 1) :
    st.malloc_loop_body cmit (c.size : Int) = .error .assertion := by
  obtain ⟨hca, hc0, hcn, hcpos, hcp2⟩ := hwf.find_bounds hf
  have hbound := hwf.bound
  have hmem : cmit ∈ FreeListMap.get st.free_lists_ c.size := hwf.fl.mem_of_free hf hfree
  unfold Allocator.malloc_loop_body
  rw [Allocator.remove_from_free_list_eq hf hmem]
  simp only
  have htd : Int.tdiv (c.size : Int) 2 = 0 := by rw [h1]; rfl
  have hts : toSizeT 0 = 0 := rfl
  rw [htd, hts]
  have e2 : ({ (st.removed cmit c.size) with
      chunks_ := (st.removed cmit c.size).chunks_.update cmit
        (fun c => { c with size := 0 }) } : Allocator)
      = (st.removed cmit c.size).resized cmit 0 := rfl
  rw [e2]
  have f2 : ChunkMap.find ((st.removed cmit c.size).resized cmit 0).chunks_ cmit
      = some ⟨true, cmit, 0⟩ := by
    rw [Allocator.find_resized, if_pos rfl, Allocator.find_removed, if_pos rfl, hf]
    simp [hca]
  rw [Allocator.add_to_free_list_eq f2]
  simp only
  have f3 : ChunkMap.find (((st.removed cmit c.size).resized cmit 0).added cmit 0).chunks_
      cmit = some ⟨false, cmit, 0⟩ := by
    rw [Allocator.find_added, if_pos rfl, f2]; rfl
  rw [f3]
  simp only
  have hw : wrap64 (cmit + ((0 : Nat) : Int)) = cmit := by
    rw [wrap64_of_range (by omega) (by omega)]; omega
  rw [hw]
  have hs3 : ChunkMap.Sorted
      (((st.removed cmit c.size).resized cmit 0).added cmit 0).chunks_ := by
    unfold Allocator.added Allocator.resized Allocator.removed
    simp only
    refine ChunkMap.sorted_update _ _ (fun _ => rfl) ?_
    refine ChunkMap.sorted_update _ _ (fun _ => rfl) ?_
    refine ChunkMap.sorted_update _ _ (fun _ => rfl) ?_
    exact hwf.sorted
  have hflag : (ChunkMap.insert
      (((st.removed cmit c.size).resized cmit 0).added cmit 0).chunks_
      (AllocatorChunk.new cmit 0)).2 = false :=
    ChunkMap.insert_flag_false hs3 f3
  unfold Allocator.add_to_chunk_map
  rw [hflag]
  rfl

/-- With `allocation_size == 0` the splitting loop halves the chunk down to size
one and stops at the failing `assert( inserted )` of the next iteration. -/
theorem Allocator.malloc_loop_zero_asserts {n : Int} :
    ∀ (fuel : Nat) (st : Allocator) (cmit : Int) (c : AllocatorChunk), st.WF n →
      ChunkMap.find st.chunks_ cmit = some c → c.in_use = false → c.size < 2 ^ fuel →
      Allocator.malloc_loop fuel 0 st cmit (c.size : Int) = .error .assertion := by
  intro fuel
  induction fuel with
  | zero =>
    intro st cmit c hwf hf _ hlt
    obtain ⟨_, _, _, hcpos, _⟩ := hwf.find_bounds hf
    simp at hlt
    omega
  | succ fuel ih =>
    intro st cmit c hwf hf hfree hlt
    obtain ⟨hca, hc0, hcn, hcpos, hcp2⟩ := hwf.find_bounds hf
    unfold Allocator.malloc_loop
    rw [if_pos (by omega)]
    by_cases h1 : c.size = 1
    · rw [Allocator.malloc_loop_body_unit hwf hf hfree h1]
    · obtain ⟨h, hh⟩ : ∃ h, c.size = h + h := by
        obtain ⟨k, hk⟩ := hcp2
        cases k with
        | zero => simp at hk; omega
        | succ k => exact ⟨2 ^ k, by rw [hk, pow_succ]; omega⟩
      obtain ⟨hbody, hfind, _, hwf', _⟩ := Allocator.split_spec hwf hf hfree hh (by omega)
      rw [hbody]
      simp only
      have hf' : ChunkMap.find (st.split cmit c.size h).chunks_ (cmit + h)
          = some ⟨false, cmit + h, h⟩ := by rw [hfind, if_pos rfl]
      have hlt' : h < 2 ^ fuel := by rw [pow_succ] at hlt; omega
      exact ih _ _ ⟨false, cmit + h, h⟩ hwf' hf' rfl hlt'

/-- On a consistent state `malloc` ends in one of three ways, for every request:
it returns, it throws `Allocator::Exception`, or it stops at a failing
assertion.  The bound on the iterations of its loop is never met. -/
theorem Allocator.malloc_outcome {n : Int} {st : Allocator} (hwf : st.WF n) (s : Nat) :
    (∃ r, st.malloc s = .ok r) ∨ st.malloc s = .error .exception ∨
      st.malloc s = .error .assertion := by
  have hrange := wrap64_range (s : Int)
  have hbound := hwf.bound
  by_cases hs : 1 ≤ wrap64 s ∧ wrap64 s ≤ 4611686018427387904
  · obtain ⟨k, hk, hn, _, _⟩ := next_largest_power_of_2_pos (wrap64 s) hs.1 hs.2
    have hts : toSizeT ((2 ^ k : Nat) : Int) = 2 ^ k := by
      apply toSizeT_natCast
      have : 2 ^ k ≤ 2 ^ 62 := Nat.pow_le_pow_right (by omega) hk
      norm_num at this
      omega
    cases hlb : FreeListMap.lower_bound st.free_lists_ (2 ^ k) with
    | none =>
      right; left
      unfold Allocator.malloc
      simp only [hn, hts, hlb]
    | some flit =>
      obtain ⟨st1, cmit, c, hm, _⟩ :=
        Allocator.malloc_ok hwf s (2 ^ k) ⟨k, rfl⟩ hn hlb (fun _ _ => True)
          (fun _ _ _ _ _ _ _ _ _ _ => trivial) (fun _ _ _ _ _ _ _ _ => trivial)
      exact Or.inl ⟨_, hm⟩
  · by_cases h0 : wrap64 s ≤ 0 ∧ -9223372036854775808 < wrap64 s
    · have hn := next_largest_power_of_2_nonpos _ h0.2 h0.1
      have hts : toSizeT 0 = 0 := rfl
      cases hlb : FreeListMap.lower_bound st.free_lists_ 0 with
      | none =>
        right; left
        unfold Allocator.malloc
        simp only [hn, hts, hlb]
      | some flit =>
        right; right
        obtain ⟨cmit0, rest, c0, hl, _, hf, hsz, hu, _, _⟩ := hwf.lower_bound_entry hlb
        obtain ⟨_, _, hcn, hcpos, _⟩ := hwf.find_bounds hf
        have hw : wrap64 (flit.1 : Int) = (c0.size : Int) := by
          rw [← hsz]; exact wrap64_of_range (by omega) (by omega)
        have hz := Allocator.malloc_loop_zero_asserts 65 st cmit0 c0 hwf hf hu
          (by norm_num; omega)
        unfold Allocator.malloc
        simp only [hn, hts, hlb, hl, List.head?_cons, hw]
        unfold Allocator.malloc_from
        rw [hz]
    · right; left
      have hn : Allocator.next_largest_power_of_2 (wrap64 s) = -9223372036854775808 := by
        by_cases hmin : wrap64 s = -9223372036854775808
        · rw [hmin]; exact next_largest_power_of_2_min
        · exact next_largest_power_of_2_large _ (by omega) (by omega)
      have hts : toSizeT (-9223372036854775808) = 9223372036854775808 := rfl
      have hall : ∀ a c, ChunkMap.find st.chunks_ a = some c → c.in_use = false →
          c.size < 9223372036854775808 := by
        intro a c hf _
        obtain ⟨_, h0, hcn, _, _⟩ := hwf.find_bounds hf
        omega
      have hlb := hwf.lower_bound_eq_none.mpr hall
      unfold Allocator.malloc
      simp only [hn, hts, hlb]

theorem Allocator.malloc_eq_from {st : Allocator} {s : Nat} {flit : Nat × FreeList}
    {cmit0 : Int}
    (hlb : FreeListMap.lower_bound st.free_lists_
      (toSizeT (Allocator.next_largest_power_of_2 (wrap64 s))) = some flit)
    (hhead : flit.2.head? = some cmit0) :
    st.malloc s = st.malloc_from (Allocator.next_largest_power_of_2 (wrap64 s)) cmit0
      (wrap64 flit.1) := by
  unfold Allocator.malloc
  simp only
  rw [hlb]
  simp only
  rw [hhead]

theorem Allocator.malloc_from_fuel (st : Allocator) (A cmit0 cs : Int)
    (h : Allocator.malloc_loop 65 A st cmit0 cs = .error .fuel) :
    st.malloc_from A cmit0 cs = .error .fuel := by
  unfold Allocator.malloc_from
  cases hloop : Allocator.malloc_loop 65 A st cmit0 cs with
  | error e =>
    rw [hloop] at h
    cases h
    rfl
  | ok r =>
    rw [hloop] at h
    cases h

/-- When `malloc` does not run out of iterations, neither does its loop. -/
theorem Allocator.malloc_loop_of_malloc {st : Allocator} {s : Nat} {flit : Nat × FreeList}
    {cmit0 : Int} (h : st.malloc s ≠ .error .fuel)
    (hlb : FreeListMap.lower_bound st.free_lists_
      (toSizeT (Allocator.next_largest_power_of_2 (wrap64 s))) = some flit)
    (hhead : flit.2.head? = some cmit0) :
    Allocator.malloc_loop 65 (Allocator.next_largest_power_of_2 (wrap64 s)) st cmit0
      (wrap64 flit.1) ≠ .error .fuel := by
  intro hloop
  apply h
  rw [Allocator.malloc_eq_from hlb hhead]
  exact Allocator.malloc_from_fuel _ _ _ _ hloop

theorem Allocator.malloc_loop_body_halves {st : Allocator} {cmit cs : Int}
    {st5 : Allocator} {cmit1 cs1 : Int}
    (h : st.malloc_loop_body cmit cs = .ok (st5, cmit1, cs1)) : cs1 = Int.tdiv cs 2 := by
  unfold Allocator.malloc_loop_body at h
  cases h1 : st.remove_from_free_list cmit with
  | error e => rw [h1] at h; cases h
  | ok st1 =>
    rw [h1] at h
    simp only at h
    split at h
    · cases h
    · split at h
      · cases h
      · split at h
        · cases h
        · split at h
          · cases h
          · cases h
            rfl

theorem Allocator.ctor_loop_body_eq (st : Allocator) (size offset : Int) :
    st.ctor_loop_body size offset =
      match st.add_to_chunk_map
          (AllocatorChunk.new offset (Allocator.this_chunk_size size)) with
      | .error e => .error e
      | .ok (st1, it) =>
        match st1.add_to_free_list it with
        | .error e => .error e
        | .ok st2 =>
          .ok (st2, wrap64 (size - (Allocator.this_chunk_size size : Nat)),
            wrap64 (offset + (Allocator.this_chunk_size size : Nat))) := rfl

/-- One iteration of the constructor's loop carves a chunk of size `c` with
`1 ≤ c ≤ size` and leaves `size - c`. -/
theorem Allocator.ctor_body_carves {st : Allocator} {size offset : Int} {st2 : Allocator}
    {size2 offset2 : Int} (h0 : 0 < size) (hb : size < 9223372036854775808)
    (h : st.ctor_loop_body size offset = .ok (st2, size2, offset2)) :
    1 ≤ Allocator.this_chunk_size size ∧ (Allocator.this_chunk_size size : Int) ≤ size ∧
      size2 = size - (Allocator.this_chunk_size size : Nat) ∧ 0 ≤ size2 ∧ size2 < size := by
  obtain ⟨r, rfl⟩ : ∃ r : Nat, size = (r : Int) := ⟨size.toNat, by omega⟩
  obtain ⟨hp2, hle, _⟩ := Allocator.this_chunk_size_spec r (by omega) (by omega)
  have hpos := hp2.size_pos
  rw [Allocator.ctor_loop_body_eq] at h
  generalize Allocator.this_chunk_size (r : Int) = c at h hp2 hle hpos ⊢
  have hw : wrap64 ((r : Int) - (c : Nat)) = (r : Int) - (c : Nat) :=
    wrap64_of_range (by omega) (by omega)
  cases h1 : st.add_to_chunk_map (AllocatorChunk.new offset c) with
  | error e => rw [h1] at h; cases h
  | ok x =>
    obtain ⟨st1, it⟩ := x
    rw [h1] at h
    simp only at h
    cases h2 : st1.add_to_free_list it with
    | error e => rw [h2] at h; cases h
    | ok st2' =>
      rw [h2] at h
      simp only [Except.ok.injEq, Prod.mk.injEq] at h
      obtain ⟨_, hs2, _⟩ := h
      rw [hw] at hs2
      refine ⟨hpos, by omega, hs2.symm, by omega, by omega⟩

/-- The number of tracked chunks after `remove_from_free_list`. -/
theorem Allocator.remove_from_free_list_length {st st1 : Allocator} {it : Int}
    (h : st.remove_from_free_list it = .ok st1) : st1.chunks_.length = st.chunks_.length := by
  unfold Allocator.remove_from_free_list at h
  cases hf : ChunkMap.find st.chunks_ it with
  | none => rw [hf] at h; cases h
  | some c =>
    rw [hf] at h
    simp only at h
    split at h
    · cases h
      exact ChunkMap.length_update _ _ _
    · cases h

theorem Allocator.remove_from_free_list_find {st st1 : Allocator} {it : Int}
    (h : st.remove_from_free_list it = .ok st1) : ∃ c, ChunkMap.find st1.chunks_ it = some c := by
  unfold Allocator.remove_from_free_list at h
  cases hf : ChunkMap.find st.chunks_ it with
  | none => rw [hf] at h; cases h
  | some c =>
    rw [hf] at h
    simp only at h
    split at h
    · cases h
      refine ⟨{ c with in_use := true }, ?_⟩
      have hu := ChunkMap.find_update st.chunks_ it it
        (fun c => { c with in_use := true }) (fun _ => rfl)
      rw [if_pos rfl, hf] at hu
      exact hu
    · cases h

theorem Allocator.add_to_free_list_length {st st1 : Allocator} {it : Int}
    (h : st.add_to_free_list it = .ok st1) : st1.chunks_.length = st.chunks_.length := by
  unfold Allocator.add_to_free_list at h
  cases hf : ChunkMap.find st.chunks_ it with
  | none => rw [hf] at h; cases h
  | some c =>
    rw [hf] at h
    cases h
    exact ChunkMap.length_update _ _ _

/-- Every merge of `try_merge_buddy_recursive` that completes leaves one tracked
chunk fewer, from whatever state it starts. -/
theorem Allocator.merge_with_buddy_length {st st5 : Allocator} {address buddy lo : Int}
    (h : st.merge_with_buddy address buddy = .ok (st5, lo)) :
    st5.chunks_.length + 1 = st.chunks_.length := by
  unfold Allocator.merge_with_buddy at h
  simp only at h
  generalize (if address < buddy then buddy else address) = hi at h
  generalize (if address < buddy then address else buddy) = lo' at h
  cases h1 : st.remove_from_free_list hi with
  | error e => rw [h1] at h; cases h
  | ok st1 =>
    rw [h1] at h
    simp only at h
    have l1 := Allocator.remove_from_free_list_length h1
    obtain ⟨c1, f1⟩ := Allocator.remove_from_free_list_find h1
    have l2 := ChunkMap.length_erase f1
    cases h3 : Allocator.remove_from_free_list
        { st1 with chunks_ := ChunkMap.erase st1.chunks_ hi } lo' with
    | error e => rw [h3] at h; cases h
    | ok st3 =>
      rw [h3] at h
      simp only at h
      have l3 := Allocator.remove_from_free_list_length h3
      cases h5 : Allocator.add_to_free_list
          ⟨st3.base_, st3.size_, ChunkMap.update st3.chunks_ lo'
            (fun c => { c with size := (c.size * 2) % 18446744073709551616 }),
            st3.free_lists_⟩ lo' with
      | error e => rw [h5] at h; cases h
      | ok st5' =>
        rw [h5] at h
        simp only [Except.ok.injEq, Prod.mk.injEq] at h
        obtain ⟨rfl, _⟩ := h
        have l5 := Allocator.add_to_free_list_length h5
        have l4 : (ChunkMap.update st3.chunks_ lo'
            (fun c => { c with size := (c.size * 2) % 18446744073709551616 })).length
            = st3.chunks_.length := ChunkMap.length_update _ _ _
        simp only at l3 l5
        omega

/-- The call of `free` on a tracked chunk in use is the recursion of
`try_merge_buddy_recursive` on the state with the chunk back on its free
list. -/
theorem Allocator.free_eq_merge {st : Allocator} (p : Int) {c : AllocatorChunk}
    (hf : ChunkMap.find st.chunks_ (wrap64 (p - st.base_)) = some c) (hu : c.in_use = true) :
    st.free p = Allocator.try_merge_buddy_recursive
      (st.added (wrap64 (p - st.base_)) c.size).chunks_.length
      (st.added (wrap64 (p - st.base_)) c.size) (wrap64 (p - st.base_)) := by
  unfold Allocator.free
  simp only [hf, hu, if_true, Allocator.add_to_free_list_eq hf]
theorem Allocator.ctor_eq_loop (base size : Int) (h : size ≠ 0) :
    Allocator.ctor base size =
      Allocator.ctor_loop (size.toNat + 1)
        { base_ := base, size_ := toSizeT size, chunks_ := [], free_lists_ := [] } size 0 := by
  unfold Allocator.ctor
  rw [if_neg h]

theorem Allocator.malloc_not_fuel {n : Int} {st : Allocator} (hwf : st.WF n) (s : Nat) :
    st.malloc s ≠ .error .fuel := by
  intro h
  rcases Allocator.malloc_outcome hwf s with ⟨r, hr⟩ | hr | hr
  · rw [hr] at h; cases h
  · rw [hr] at h; cases h
  · rw [hr] at h; cases h

/-- C32: every allocator operation terminates.  Constructor: an iteration of
the carving loop on a remaining `size` with `0 < size < 2^63` carves a chunk of
size `c` with `1 ≤ c ≤ size` and leaves `size - c`, which is non-negative and
smaller than `size`; and for every `0 < n < 2^63` the constructor returns, with
the same result for every bound on the iterations from `n + 1` on.  In every
state `st` reachable from that constructor: `malloc( s )` ends for every
request `s` (those with `s ≥ 1` included) by returning, by throwing
`Allocator::Exception` or at a failing assertion; its loop halves `chunk_size`
at each iteration and never meets the bound of 65 iterations, so that its
result is the same for every larger bound.  `free( p )` ends for every `p` by
returning or at a failing assertion; when `p` is a tracked chunk in use it
returns, the recursion of `try_merge_buddy_recursive` giving the same result
for every depth bound from the number of tracked chunks on.  Every merge of
that recursion leaves one tracked chunk fewer. -/
theorem Allocator.operations_terminate (base n : Int) (st : Allocator) (h0 : 0 < n)
    (hb : n < 9223372036854775808) (hr : Allocator.Reachable base n st) :
    (∀ (s0 : Allocator) (size offset : Int) (s2 : Allocator) (size2 offset2 : Int),
      0 < size → size < 9223372036854775808 →
      s0.ctor_loop_body size offset = .ok (s2, size2, offset2) →
      1 ≤ Allocator.this_chunk_size size ∧ (Allocator.this_chunk_size size : Int) ≤ size ∧
        size2 = size - (Allocator.this_chunk_size size : Nat) ∧ 0 ≤ size2 ∧ size2 < size) ∧
    (∃ st0, Allocator.ctor base n = .ok st0 ∧
      ∀ fuel, n.toNat + 1 ≤ fuel →
        Allocator.ctor_loop fuel ⟨base, toSizeT n, [], []⟩ n 0 = .ok st0) ∧
    (∀ s : Nat,
      ((∃ r, st.malloc s = .ok r) ∨ st.malloc s = .error .exception ∨
        st.malloc s = .error .assertion) ∧
      ∀ (flit : Nat × FreeList) (cmit0 : Int),
        FreeListMap.lower_bound st.free_lists_
          (toSizeT (Allocator.next_largest_power_of_2 (wrap64 s))) = some flit →
        flit.2.head? = some cmit0 →
        Allocator.malloc_loop 65 (Allocator.next_largest_power_of_2 (wrap64 s)) st cmit0
          (wrap64 flit.1) ≠ .error .fuel ∧
        ∀ fuel, 65 ≤ fuel →
          Allocator.malloc_loop fuel (Allocator.next_largest_power_of_2 (wrap64 s)) st cmit0
            (wrap64 flit.1) =
          Allocator.malloc_loop 65 (Allocator.next_largest_power_of_2 (wrap64 s)) st cmit0
            (wrap64 flit.1)) ∧
    (∀ (s1 : Allocator) (cmit cs : Int) (s5 : Allocator) (cmit1 cs1 : Int),
      s1.malloc_loop_body cmit cs = .ok (s5, cmit1, cs1) → cs1 = Int.tdiv cs 2) ∧
    (∀ p : Int,
      ((∃ st', st.free p = .ok st') ∨ st.free p = .error .assertion) ∧
      ∀ c, ChunkMap.find st.chunks_ (wrap64 (p - st.base_)) = some c → c.in_use = true →
        ∃ st', st.free p = .ok st' ∧
          ∀ fuel, (st.added (wrap64 (p - st.base_)) c.size).chunks_.length ≤ fuel →
            Allocator.try_merge_buddy_recursive fuel
              (st.added (wrap64 (p - st.base_)) c.size) (wrap64 (p - st.base_)) = .ok st') ∧
    (∀ (s1 : Allocator) (address buddy : Int) (s5 : Allocator) (lo : Int),
      s1.merge_with_buddy address buddy = .ok (s5, lo) →
      s5.chunks_.length + 1 = s1.chunks_.length) := by
  obtain ⟨hwf, _, _⟩ := hr.inv h0 hb
  refine ⟨?_, ?_, ?_, ?_, ?_, ?_⟩
  · intro s0 size offset s2 size2 offset2 hs0 hsb h
    exact Allocator.ctor_body_carves hs0 hsb h
  · obtain ⟨st0, hc, _⟩ := Allocator.ctor_spec base n h0 hb
    refine ⟨st0, hc, ?_⟩
    rw [Allocator.ctor_eq_loop base n (by omega)] at hc
    exact Allocator.ctor_loop_stable _ _ _ _ _ hc
  · intro s
    refine ⟨Allocator.malloc_outcome hwf s, ?_⟩
    intro flit cmit0 hlb hhead
    have hl := Allocator.malloc_loop_of_malloc (Allocator.malloc_not_fuel hwf s) hlb hhead
    exact ⟨hl, Allocator.malloc_loop_stable _ _ _ _ _ hl⟩
  · intro s1 cmit cs s5 cmit1 cs1 h
    exact Allocator.malloc_loop_body_halves h
  · intro p
    have hret : ∀ c, ChunkMap.find st.chunks_ (wrap64 (p - st.base_)) = some c →
        c.in_use = true →
        ∃ st', st.free p = .ok st' ∧
          ∀ fuel, (st.added (wrap64 (p - st.base_)) c.size).chunks_.length ≤ fuel →
            Allocator.try_merge_buddy_recursive fuel
              (st.added (wrap64 (p - st.base_)) c.size) (wrap64 (p - st.base_))
              = .ok st' := by
      intro c hf hu
      obtain ⟨st', hfree⟩ := Allocator.free_returns hwf p hf hu
      refine ⟨st', hfree, ?_⟩
      rw [Allocator.free_eq_merge p hf hu] at hfree
      exact Allocator.try_merge_stable _ _ _ _ hfree
    refine ⟨?_, hret⟩
    by_cases hex : ∃ c, ChunkMap.find st.chunks_ (wrap64 (p - st.base_)) = some c ∧
        c.in_use = true
    · obtain ⟨c, hf, hu⟩ := hex
      obtain ⟨st', hfree, _⟩ := hret c hf hu
      exact Or.inl ⟨st', hfree⟩
    · right
      apply Allocator.free_assertion
      intro c hf
      by_contra hu
      exact hex ⟨c, hf, by simpa using hu⟩
  · intro s1 address buddy s5 lo h
    exact Allocator.merge_with_buddy_length h

theorem Allocator.operations_terminate_witness :
    Allocator.Reachable 0 1024 Allocator.fresh1024_malloc100 ∧
    (∃ st0, Allocator.ctor 0 1024 = .ok st0 ∧
      ∀ fuel, (1024 : Int).toNat + 1 ≤ fuel →
        Allocator.ctor_loop fuel ⟨0, toSizeT 1024, [], []⟩ 1024 0 = .ok st0) ∧
    ((∃ r, Allocator.fresh1024_malloc100.malloc 100 = .ok r) ∨
      Allocator.fresh1024_malloc100.malloc 100 = .error .exception ∨
      Allocator.fresh1024_malloc100.malloc 100 = .error .assertion) ∧
    ((∃ st', Allocator.fresh1024_malloc100.free 896 = .ok st') ∨
      Allocator.fresh1024_malloc100.free 896 = .error .assertion) :=
  have h := Allocator.operations_terminate 0 1024 Allocator.fresh1024_malloc100 (by decide)
    (by decide) fresh1024_reachable
  ⟨fresh1024_reachable, h.2.1, (h.2.2.1 100).1, (h.2.2.2.2.1 896).1⟩
